import Mathlib

/-!
# Bounded equivalence checker: memory models, obligation checker, validator

A shallow embedding of the memory models of the bounded translation validator
(`src/symstate/memory/trivial.h`, `src/symstate/memory/cell.cc`,
`src/symstate/memory/arm.cc`) together with the part of the symbolic term
language they build (`src/symstate/bool.h`), of the obligation checker
(`src/validator/smt_obligation_checker.cc`) and of the pre-checks of the bounded
validator (`src/validator/bounded.cc`), and the properties proved about them.

Conventions of the embedding:

* `std::vector<T>` is `List T`; `std::map<size_t, T>` is `SMap T`, an association
  list kept in increasing key order (the iteration order of `std::map`).
* `size_t`, `uint16_t` and `uint64_t` quantities are `Nat`; `int64_t` quantities
  (cell offsets) are `Int`.  64-bit address arithmetic of the generated terms is
  reduced modulo `2 ^ 64` by the term semantics.
* The static counter behind `SymBitVector::tmp_var` is passed explicitly.
* The solver is a parameter: a function from the list of constraints of a query to
  the pair of `is_sat`'s result and the error flag read by `has_error` afterwards.
-/

/-! ## Symbolic terms -/

mutual
/-- Bitvector terms (`SymBitVector`).  `null` is the default-constructed term with
a null pointer, which the concatenation operator treats as the empty bitvector. -/
inductive SymBitVector where
  | null : SymBitVector
  | constant (size : Nat) (value : Int) : SymBitVector
  | var (size : Nat) (name : String) : SymBitVector
  | tmp_var (size : Nat) (id : Nat) : SymBitVector
  | plus (a b : SymBitVector) : SymBitVector
  | concat (a b : SymBitVector) : SymBitVector
  | extract (a : SymBitVector) (hi lo : Nat) : SymBitVector
  | select (arr : SymArray) (key : SymBitVector) : SymBitVector
/-- Array terms (`SymArray`): heaps from 64-bit addresses to bytes. -/
inductive SymArray where
  | var (name : String) : SymArray
  | update (arr : SymArray) (key value : SymBitVector) : SymArray
end

/-- Boolean terms (`SymBool`), one constructor per node type of `SymBool::Type`
that the memory models and the obligation checker build. -/
inductive SymBool where
  | _true : SymBool
  | _false : SymBool
  | var (name : String) : SymBool
  | not (a : SymBool) : SymBool
  | and (a b : SymBool) : SymBool
  | or (a b : SymBool) : SymBool
  | xor (a b : SymBool) : SymBool
  | iff (a b : SymBool) : SymBool
  | implies (a b : SymBool) : SymBool
  | eq (a b : SymBitVector) : SymBool
  | ge (a b : SymBitVector) : SymBool
  | gt (a b : SymBitVector) : SymBool
  | le (a b : SymBitVector) : SymBool
  | lt (a b : SymBitVector) : SymBool
  | array_eq (a b : SymArray) : SymBool

/-- The value of a bitvector term: a width and a number below `2 ^ w`. -/
structure BVal where
  w : Nat
  v : Nat
deriving DecidableEq, Repr

/-- An assignment of values to the free symbols of a term (a solver model). -/
structure Env where
  bv : String → Nat
  tmp : Nat → Nat
  arr : String → Nat → Nat
  bool : String → Bool

mutual
/-- Value of a bitvector term under an assignment. -/
def SymBitVector.eval (env : Env) : SymBitVector → BVal
  | .null => ⟨0, 0⟩
  | .constant w v => ⟨w, (v % 2 ^ w).toNat⟩
  | .var w n => ⟨w, env.bv n % 2 ^ w⟩
  | .tmp_var w n => ⟨w, env.tmp n % 2 ^ w⟩
  | .plus a b => ⟨(a.eval env).w, ((a.eval env).v + (b.eval env).v) % 2 ^ (a.eval env).w⟩
  | .concat a b =>
      ⟨(a.eval env).w + (b.eval env).w, (a.eval env).v * 2 ^ (b.eval env).w + (b.eval env).v⟩
  | .extract a hi lo => ⟨hi + 1 - lo, ((a.eval env).v / 2 ^ lo) % 2 ^ (hi + 1 - lo)⟩
  | .select arr k => ⟨8, (arr.eval env) (k.eval env).v % 256⟩
/-- Value of an array term under an assignment: a function from addresses to bytes. -/
def SymArray.eval (env : Env) : SymArray → Nat → Nat
  | .var n => env.arr n
  | .update arr k v => fun a => if a = (k.eval env).v then (v.eval env).v else arr.eval env a
end

/-- Truth of a boolean term under an assignment.  Comparisons are unsigned. -/
def SymBool.holds (env : Env) : SymBool → Prop
  | ._true => True
  | ._false => False
  | .var n => env.bool n = true
  | .not a => ¬ a.holds env
  | .and a b => a.holds env ∧ b.holds env
  | .or a b => a.holds env ∨ b.holds env
  | .xor a b => ¬ (a.holds env ↔ b.holds env)
  | .iff a b => (a.holds env ↔ b.holds env)
  | .implies a b => (a.holds env → b.holds env)
  | .eq a b => a.eval env = b.eval env
  | .ge a b => (a.eval env).v ≥ (b.eval env).v
  | .gt a b => (a.eval env).v > (b.eval env).v
  | .le a b => (a.eval env).v ≤ (b.eval env).v
  | .lt a b => (a.eval env).v < (b.eval env).v
  | .array_eq a b => ∀ k, a.eval env k % 256 = b.eval env k % 256

/-- Concatenation operator `a || b` of `SymBitVector`: a null operand is dropped. -/
def SymBitVector.cat (a b : SymBitVector) : SymBitVector :=
  match a, b with
  | .null, b => b
  | a, .null => a
  | a, b => .concat a b

/-- An assignment satisfies a list of constraints. -/
def Env.sat (env : Env) (cs : List SymBool) : Prop := ∀ c ∈ cs, c.holds env

/-! ## Dereference sites -/

/-- Identity of a dereference site (`DereferenceInfo`). -/
structure DereferenceInfo where
  is_rewrite : Bool
  is_invariant : Bool
  implicit_dereference : Bool
  line_number : Nat
  invariant_number : Nat
deriving DecidableEq, Repr

/-! ## TrivialMemory (`src/symstate/memory/trivial.h`) -/

namespace TrivialMemory

/-- Record of one access (`TrivialMemory::SymbolicAccess`).  The member
`is_rewrite` is never assigned by `read` or `write`; it is `none` while unset. -/
structure SymbolicAccess where
  info : DereferenceInfo
  size : Nat
  address : SymBitVector
  value : SymBitVector
  is_read : Bool
  is_rewrite : Option Bool

end TrivialMemory

/-- The three access lists of a `TrivialMemory`. -/
structure TrivialMemory where
  read_list_ : List TrivialMemory.SymbolicAccess
  write_list_ : List TrivialMemory.SymbolicAccess
  all_list_ : List TrivialMemory.SymbolicAccess

namespace TrivialMemory

/-- A freshly constructed `TrivialMemory`: the three vectors are empty. -/
def init : TrivialMemory := ⟨[], [], []⟩

/-- Model of `TrivialMemory::write`: returns the fault condition and the updated memory. -/
def write (m : TrivialMemory) (address value : SymBitVector) (size : Nat)
    (info : DereferenceInfo) : SymBool × TrivialMemory :=
  let sa : SymbolicAccess :=
    { info := info, size := size / 8, address := address, value := value,
      is_read := false, is_rewrite := none }
  (SymBool._false,
    { m with write_list_ := m.write_list_ ++ [sa], all_list_ := m.all_list_ ++ [sa] })

/-- Model of `TrivialMemory::read`.  `ctr` is the counter of `SymBitVector::tmp_var`;
the result is the returned pair, the updated memory and the advanced counter. -/
def read (m : TrivialMemory) (ctr : Nat) (address : SymBitVector) (size : Nat)
    (info : DereferenceInfo) : (SymBitVector × SymBool) × TrivialMemory × Nat :=
  let value := SymBitVector.tmp_var size ctr
  let sa : SymbolicAccess :=
    { info := info, size := size / 8, address := address, value := value,
      is_read := true, is_rewrite := none }
  ((value, SymBool._false),
    { m with read_list_ := m.read_list_ ++ [sa], all_list_ := m.all_list_ ++ [sa] },
    ctr + 1)

/-- Model of `get_reads`. -/
def get_reads (m : TrivialMemory) : List SymbolicAccess := m.read_list_

/-- Model of `get_writes`. -/
def get_writes (m : TrivialMemory) : List SymbolicAccess := m.write_list_

/-- Model of `get_all`. -/
def get_all (m : TrivialMemory) : List SymbolicAccess := m.all_list_

/-- One call made by a client of the memory. -/
inductive Call where
  | write (address value : SymBitVector) (size : Nat) (info : DereferenceInfo)
  | read (address : SymBitVector) (size : Nat) (info : DereferenceInfo)

/-- Memory and counter after a sequence of calls, made in list order. -/
def run : List Call → TrivialMemory × Nat → TrivialMemory × Nat
  | [], s => s
  | .write a v sz i :: cs, (m, ctr) => run cs ((m.write a v sz i).2, ctr)
  | .read a sz i :: cs, (m, ctr) => run cs ((m.read ctr a sz i).2.1, (m.read ctr a sz i).2.2)

end TrivialMemory

/-! ## `std::map<size_t, T>` -/

/-- Model of `std::map<size_t, T>`: key-value pairs in increasing key order. -/
abbrev SMap (α : Type) := List (Nat × α)

namespace SMap

/-- The element stored under `k`, if any (`find`). -/
def find? {α : Type} : SMap α → Nat → Option α
  | [], _ => none
  | (k', v) :: t, k => if k' = k then some v else find? t k

/-- Model of `count(k) != 0`. -/
def count {α : Type} (m : SMap α) (k : Nat) : Bool := (m.find? k).isSome

/-- Model of `m[k] = v`: overwrites the element under `k` or inserts it in key order. -/
def set {α : Type} : SMap α → Nat → α → SMap α
  | [], k, v => [(k, v)]
  | (k', v') :: t, k, v =>
    if k < k' then (k, v) :: (k', v') :: t
    else if k = k' then (k, v) :: t
    else (k', v') :: set t k v

/-- Model of reading `m[k]`: the stored element, or the default-constructed value `d`
that `operator[]` yields for an absent key. -/
def getD {α : Type} (m : SMap α) (k : Nat) (d : α) : α := (m.find? k).getD d

/-- The keys, in iteration order. -/
def keys {α : Type} (m : SMap α) : List Nat := m.map Prod.fst

end SMap

/-! ## CellMemory (`src/symstate/memory/cell.cc`) -/

namespace CellMemory

/-- The value type of `map_`: where the access made at a line lives. -/
structure SymbolicAccess where
  cell : Nat
  cell_offset : Nat
  size : Nat
  cell_size : Nat
  unconstrained : Bool

/-- The `assert`s of `cell.cc`. -/
inductive Assertion where
  | map_has_line
  | access_fits_cell
  | whole_cell_offset_zero
  | other_has_cell
  | other_same_size
deriving DecidableEq, Repr

end CellMemory

/-- The members of `CellMemory` that `cell.cc` uses. -/
structure CellMemory where
  map_ : SMap CellMemory.SymbolicAccess
  cells_ : SMap SymBitVector
  init_cells_ : SMap SymBitVector
  cell_sizes_ : SMap Nat
  cell_addrs_ : SMap SymBitVector
  cell_unconstrained_ : SMap Bool
  secret_cell_ : SymBitVector

namespace CellMemory

/-- What a call on a `CellMemory` can change: the memory itself, the constraint list
of the symbolic state it belongs to (`state_->constraints`) and the counter of
`SymBitVector::tmp_var`. -/
structure St where
  mem : CellMemory
  constraints : List SymBool
  tmp_counter : Nat

/-- The term a write stores into the cell before it is replaced by a fresh variable
(the `if`/`else` cascade of `CellMemory::write`). -/
def write_value (access : SymbolicAccess) (old_value value : SymBitVector) :
    Except Assertion SymBitVector :=
  if access.size = access.cell_size then
    if access.cell_offset = 0 then .ok value else .error .whole_cell_offset_zero
  else if access.cell_offset = 0 then
    .ok ((SymBitVector.extract old_value (access.cell_size * 8 - 1) (access.size * 8)).cat value)
  else if access.cell_offset = access.cell_size - access.size then
    .ok (value.cat (SymBitVector.extract old_value (access.cell_offset * 8 - 1) 0))
  else
    .ok (((SymBitVector.extract old_value (access.cell_size * 8 - 1)
            (access.size * 8 + access.cell_offset * 8)).cat value).cat
          (SymBitVector.extract old_value (access.cell_offset * 8 - 1) 0))

/-- Model of `CellMemory::write`: the fault condition and the new state, or the
assertion that failed. -/
def write (st : St) (address value : SymBitVector) (size : Nat) (line_no : Nat) :
    Except Assertion (SymBool × St) :=
  match st.mem.map_.find? line_no with
  | none => .error .map_has_line
  | some access =>
    if access.unconstrained then .ok (SymBool._false, st)
    else if ¬ (access.cell_offset + access.size ≤ access.cell_size) then
      .error .access_fits_cell
    else
      let addr_constraint := SymBool.eq address
        (SymBitVector.plus (st.mem.cell_addrs_.getD access.cell .null)
          (SymBitVector.constant 64 access.cell_offset))
      match write_value access (st.mem.cells_.getD access.cell .null) value with
      | .error e => .error e
      | .ok stored =>
        let new_var := SymBitVector.tmp_var (access.cell_size * 8) st.tmp_counter
        let new_cons := SymBool.eq new_var stored
        .ok (SymBool._false,
          { mem := { st.mem with cells_ := st.mem.cells_.set access.cell new_var },
            constraints := st.constraints ++ [addr_constraint] ++ [new_cons],
            tmp_counter := st.tmp_counter + 1 })

/-- Model of `CellMemory::read`: the value read, the fault condition and the new state. -/
def read (st : St) (address : SymBitVector) (size : Nat) (line_no : Nat) :
    Except Assertion ((SymBitVector × SymBool) × St) :=
  match st.mem.map_.find? line_no with
  | none => .error .map_has_line
  | some access =>
    if access.unconstrained then
      .ok ((SymBitVector.tmp_var size st.tmp_counter, SymBool._false),
        { st with tmp_counter := st.tmp_counter + 1 })
    else
      let addr_constraint := SymBool.eq address
        (SymBitVector.plus (st.mem.cell_addrs_.getD access.cell .null)
          (SymBitVector.constant 64 access.cell_offset))
      let st' := { st with constraints := st.constraints ++ [addr_constraint] }
      if access.size = access.cell_size then
        if access.cell_offset = 0 then
          .ok ((st.mem.cells_.getD access.cell .null, SymBool._false), st')
        else .error .whole_cell_offset_zero
      else
        .ok ((SymBitVector.extract (st.mem.cells_.getD access.cell .null)
                (access.size * 8 + access.cell_offset * 8 - 1) (access.cell_offset * 8),
              SymBool._false), st')

/-- Everything the memory stores about cell `k`: current value, initial value, size,
address and the unconstrained flag. -/
def cell (m : CellMemory) (k : Nat) :
    Option SymBitVector × Option SymBitVector × Option Nat × Option SymBitVector × Option Bool :=
  (m.cells_.find? k, m.init_cells_.find? k, m.cell_sizes_.find? k, m.cell_addrs_.find? k,
    m.cell_unconstrained_.find? k)

/-- The class invariant on the five per-cell maps: a cell that has a value also has an
initial value, a size, an address and a flag. -/
def wf (m : CellMemory) : Prop :=
  ∀ k, m.cells_.count k = true →
    m.init_cells_.count k = true ∧ m.cell_sizes_.count k = true ∧
    m.cell_addrs_.count k = true ∧ m.cell_unconstrained_.count k = true

/-- The entry of a placeholder cell `k` with size, address and flag `sz`, `addr`, `unc`,
whose value is the temporary numbered `n`. -/
def placeholder (sz : Nat) (addr : SymBitVector) (unc : Bool) (n : Nat) :
    Option SymBitVector × Option SymBitVector × Option Nat × Option SymBitVector × Option Bool :=
  (some (SymBitVector.tmp_var (sz * 8) n), some (SymBitVector.tmp_var (sz * 8) n), some sz,
    some addr, some unc)

/-- One iteration of a loop of `equalize_cells`: if `dst` has no cell `k`, give it a
placeholder cell copied from `src`. -/
def add_missing (src : CellMemory) (acc : CellMemory × Nat) (k : Nat) : CellMemory × Nat :=
  if acc.1.cells_.count k then acc
  else
    let fresh := SymBitVector.tmp_var (src.cell_sizes_.getD k 0 * 8) acc.2
    ({ acc.1 with
        cells_ := acc.1.cells_.set k fresh
        init_cells_ := acc.1.init_cells_.set k fresh
        cell_sizes_ := acc.1.cell_sizes_.set k (src.cell_sizes_.getD k 0)
        cell_addrs_ := acc.1.cell_addrs_.set k (src.cell_addrs_.getD k .null)
        cell_unconstrained_ :=
          acc.1.cell_unconstrained_.set k (src.cell_unconstrained_.getD k false) },
      acc.2 + 1)

/-- Model of `a.equalize_cells(other)`: the new `a`, the new `other` and the counter. -/
def equalize_cells (a other : CellMemory) (ctr : Nat) : CellMemory × CellMemory × Nat :=
  let r1 := a.cells_.keys.foldl (add_missing a) (other, ctr)
  let r2 := r1.1.cells_.keys.foldl (add_missing r1.1) (a, r1.2)
  (r2.1, r1.1, r2.2)

/-- The conjunction of per-cell equalities built by the loop of `equality_constraint`,
starting from `condition`. -/
def cell_equalities (other : CellMemory) :
    List (Nat × SymBitVector) → SymBool → Except Assertion SymBool
  | [], condition => .ok condition
  | (cell, value) :: ps, condition =>
    if other.cells_.count cell then
      cell_equalities other ps (SymBool.and condition (SymBool.eq value (other.cells_.getD cell .null)))
    else .error .other_has_cell

/-- Model of `a.equality_constraint(other)`: the formula, and the two memories and the
counter as `equalize_cells` leaves them. -/
def equality_constraint (a other : CellMemory) (ctr : Nat) :
    Except Assertion (SymBool × CellMemory × CellMemory × Nat) :=
  let e := equalize_cells a other ctr
  match cell_equalities e.2.1 e.1.cells_ SymBool._true with
  | .error x => .error x
  | .ok condition =>
    .ok (SymBool.and condition (SymBool.eq e.1.secret_cell_ e.2.1.secret_cell_), e)

end CellMemory

/-! ### Small concrete memories -/

namespace CellMemory

/-- A memory without cells whose secret cell is the 64-bit variable `name`. -/
def no_cells (name : String) : CellMemory :=
  { map_ := [], cells_ := [], init_cells_ := [], cell_sizes_ := [], cell_addrs_ := [],
    cell_unconstrained_ := [], secret_cell_ := SymBitVector.var 64 name }

/-- A memory with the single 4-byte cell 0 at address `rdi`, accessed at line 0 through
two bytes at byte offset 1. -/
def one_cell : CellMemory :=
  { map_ := [(0, { cell := 0, cell_offset := 1, size := 2, cell_size := 4,
                   unconstrained := false })],
    cells_ := [(0, SymBitVector.var 32 "cell_0")],
    init_cells_ := [(0, SymBitVector.var 32 "cell_0")],
    cell_sizes_ := [(0, 4)],
    cell_addrs_ := [(0, SymBitVector.var 64 "rdi")],
    cell_unconstrained_ := [(0, false)],
    secret_cell_ := SymBitVector.var 64 "secret_1" }

/-- A state holding `one_cell`, no constraints and a counter at 0. -/
def one_cell_st : St := { mem := one_cell, constraints := [], tmp_counter := 0 }

end CellMemory

/-! ## The solver -/

/-- What a query leaves behind: the result of `is_sat` and the flag that
`has_error()` reads afterwards (set on an error or a timeout). -/
structure SolverAnswer where
  is_sat : Bool
  has_error : Bool
deriving DecidableEq, Repr

/-- The solver, as seen by the memory models: a function of the constraints queried. -/
abbrev Solver := List SymBool → SolverAnswer

/-- A solver whose error-free "unsatisfiable" answers are correct. -/
def Solver.sound (s : Solver) : Prop :=
  ∀ cs, (s cs).is_sat = false → (s cs).has_error = false → ∀ env : Env, ¬ env.sat cs

/-! ## UnionFind -/

/-- Modelled from the spec: `UnionFind<T>` of `src/unionfind/unionfind.h`, which is not
among the sources.  The spec describes it as grouping offsets into covered sub-ranges
("runs"), and `arm.cc` uses `add`, `contains`, `join`, `components` (one element per
class, used as the low end of a run) and `max_value` (the high end).  A union-find is
modelled by the list of its classes, each a list of elements. -/
structure UnionFind where
  classes : List (List Nat)
deriving DecidableEq, Repr

namespace UnionFind

/-- The empty union-find. -/
def empty : UnionFind := ⟨[]⟩

/-- Model of `contains`. -/
def contains (u : UnionFind) (x : Nat) : Bool := u.classes.any (fun c => c.contains x)

/-- Model of `add`: a new element is a class of its own. -/
def add (u : UnionFind) (x : Nat) : UnionFind :=
  if u.contains x then u else ⟨u.classes ++ [[x]]⟩

/-- The class of `x`: the elements of the classes that contain `x` (empty if `x` was
never added). -/
def class_of (u : UnionFind) (x : Nat) : List Nat :=
  (u.classes.filter (fun c => c.contains x)).flatten

/-- Model of `join`: the classes of `a` and `b` become one. -/
def join (u : UnionFind) (a b : Nat) : UnionFind :=
  if (u.class_of a).contains b then u
  else
    ⟨(u.classes.filter (fun c => !(c.contains a) && !(c.contains b)))
      ++ [u.class_of a ++ u.class_of b]⟩

/-- Least element of a class. -/
def class_min (c : List Nat) : Nat := c.foldl min (c.headD 0)

/-- Greatest element of a class. -/
def class_max (c : List Nat) : Nat := c.foldl max 0

/-- Model of `components`: the least element of every class. -/
def components (u : UnionFind) : List Nat := u.classes.map class_min

/-- Model of `max_value`: the greatest element of the class of `x`. -/
def max_value (u : UnionFind) (x : Nat) : Nat := class_max (u.class_of x)

/-- The element `x` was added to the union-find. -/
def elems (u : UnionFind) (x : Nat) : Prop := ∃ c ∈ u.classes, x ∈ c

end UnionFind

/-! ## ArmMemory (`src/symstate/memory/arm.cc`) -/

/-- Conversion of an `int64_t` to `uint64_t`. -/
def u64 (x : Int) : Nat := (x % 2 ^ 64).toNat

namespace ArmMemory

/-- One memory access (`ArmMemory::Access`).  `size` is in bits.  `cell` is `none`
where the source stores `(size_t)(-1)`, "no cell yet". -/
structure Access where
  address : SymBitVector
  value : SymBitVector
  size : Nat
  write : Bool
  is_other : Bool
  deref : DereferenceInfo
  index : Nat
  cell : Option Nat
  cell_offset : Int

/-- One cell (`ArmMemory::Cell`).  `size` is in bytes. -/
structure Cell where
  address : SymBitVector
  index : Nat
  size : Nat
  tmp_min_offset : Int
  tmp_max_offset : Int
  cache : SymBitVector
  other_cache : SymBitVector
  dirty : Bool
  other_dirty : Bool

/-- The constructor `Cell(addr)`: both dirty bits are cleared, the caches are null. -/
def Cell.init (addr : SymBitVector) : Cell :=
  { address := addr, index := 0, size := 0, tmp_min_offset := 0, tmp_max_offset := 0,
    cache := .null, other_cache := .null, dirty := false, other_dirty := false }

/-- The `assert`s of `arm.cc`. -/
inductive Assertion where
  | size_multiple_of_8
deriving DecidableEq, Repr

end ArmMemory

/-- The members of `ArmMemory` that `arm.cc` uses.  `access_offsets_`, a map of maps,
is modelled by its lookup function; `stop_now_` holds the value of
`stop_now_ && *stop_now_`. -/
structure ArmMemory where
  accesses_ : List ArmMemory.Access
  all_accesses_ : List ArmMemory.Access
  cells_ : List ArmMemory.Cell
  access_offsets_ : Nat → Nat → Option Int
  heap_ : SymArray
  start_variable_ : SymArray
  final_heap_ : SymArray
  constraints_ : List SymBool
  unsound_ : Bool
  stop_now_ : Bool
  solver_ : Solver

namespace ArmMemory

/-- Model of `access_offsets_[i][j] = d`. -/
def set_offset (offs : Nat → Nat → Option Int) (i j : Nat) (d : Int) : Nat → Nat → Option Int :=
  fun i' j' => if i' = i ∧ j' = j then some d else offs i' j'

/-- The state of the loops of `generate_constraints_offsets_nodata`: the offsets found,
the caller's constraint list, and whether the function has returned. -/
structure OffsetsSt where
  access_offsets_ : Nat → Nat → Option Int
  initial_constraints : List SymBool
  returned : Bool

/-- One of the up to three queries made for a pair of accesses: push `check`, poll the
stop flag, ask the solver, pop.  The result is `none` when the function returns at the
poll (with `check` still pushed), else the solver's verdict "unsatisfiable". -/
def nodata_query (solver : Solver) (stop : Bool) (ic : List SymBool) (check : SymBool) :
    Option Bool :=
  if stop then none else some (!(solver (ic ++ [check])).is_sat)

/-- Body of the inner loop of `generate_constraints_offsets_nodata` for the pair
`(i, j)` of accesses `a1 = all_accesses_[i]` and `a2 = all_accesses_[j]`. -/
def nodata_pair (solver : Solver) (stop : Bool) (a1 a2 : Access) (i j : Nat) (st : OffsetsSt) :
    Except Assertion OffsetsSt :=
  if st.returned then .ok st
  else
    let check_same := SymBool.not (SymBool.eq a1.address a2.address)
    match nodata_query solver stop st.initial_constraints check_same with
    | none => .ok { st with initial_constraints := st.initial_constraints ++ [check_same],
                            returned := true }
    | some true =>
      .ok { st with access_offsets_ := (set_offset (set_offset st.access_offsets_ i j 0) j i 0) }
    | some false =>
      if a1.size % 8 ≠ 0 then .error .size_multiple_of_8
      else
        let check_a1first := SymBool.not (SymBool.eq
          (SymBitVector.plus a1.address (SymBitVector.constant 64 (a1.size / 8 : Nat)))
          a2.address)
        match nodata_query solver stop st.initial_constraints check_a1first with
        | none => .ok { st with initial_constraints := st.initial_constraints ++ [check_a1first],
                                returned := true }
        | some true =>
          .ok { st with access_offsets_ :=
                  (set_offset (set_offset st.access_offsets_ i j (a1.size / 8 : Nat)) j i
                    (Int.tdiv (-(a1.size : Int)) 8)) }
        | some false =>
          if a2.size % 8 ≠ 0 then .error .size_multiple_of_8
          else
            let check_a2first := SymBool.not (SymBool.eq
              (SymBitVector.plus a2.address (SymBitVector.constant 64 (a2.size / 8 : Nat)))
              a1.address)
            match nodata_query solver stop st.initial_constraints check_a2first with
            | none =>
              .ok { st with initial_constraints := st.initial_constraints ++ [check_a2first],
                            returned := true }
            | some true =>
              .ok { st with access_offsets_ :=
                      (set_offset (set_offset st.access_offsets_ i j (Int.tdiv (-(a2.size : Int)) 8))
                        j i (a2.size / 8 : Nat)) }
            | some false => .ok st

/-- The pairs `(i, j)` with `j < i < n`, in the order the two loops visit them. -/
def nodata_pairs (n : Nat) : List (Nat × Nat) :=
  (List.range n).flatMap (fun i => (List.range i).map (fun j => (i, j)))

/-- Model of `generate_constraints_offsets_nodata(initial_constraints)`: the memory with
the offsets found and the caller's constraint list as the function leaves it. -/
def generate_constraints_offsets_nodata (m : ArmMemory) (initial_constraints : List SymBool) :
    Except Assertion (ArmMemory × List SymBool) :=
  let step := fun (st : OffsetsSt) (p : Nat × Nat) =>
    match m.all_accesses_[p.1]?, m.all_accesses_[p.2]? with
    | some a1, some a2 => nodata_pair m.solver_ m.stop_now_ a1 a2 p.1 p.2 st
    | _, _ => .ok st
  match (nodata_pairs m.all_accesses_.length).foldlM step
      { access_offsets_ := m.access_offsets_, initial_constraints := initial_constraints,
        returned := false } with
  | .error e => .error e
  | .ok st => .ok ({ m with access_offsets_ := st.access_offsets_ }, st.initial_constraints)

end ArmMemory

namespace ArmMemory

/-- The update of the running minimum and maximum offsets of a cell in
`recurse_cell_assignment`, for a new access of `bytes` bytes at offset `off`. -/
def Cell.widen (cell : Cell) (off : Int) (bytes : Nat) : Cell :=
  let cell1 := if off < cell.tmp_min_offset then { cell with tmp_min_offset := off } else cell
  if off + (bytes : Int) > cell1.tmp_max_offset then
    { cell1 with tmp_max_offset := off + (bytes : Int) }
  else cell1

/-- The assignments made by `recurse_cell_assignment` when access `i` is found to lie at
distance `d` from the access `access` of cell `cell_index`: access `i` joins the cell at
offset `access.cell_offset + d` and the cell's running minimum and maximum offsets are
widened to cover it. -/
def assign_cell (m : ArmMemory) (i : Nat) (ai access : Access) (cell_index : Nat) (d : Int) :
    ArmMemory :=
  { m with
    all_accesses_ := m.all_accesses_.set i
      { ai with cell := some cell_index, cell_offset := access.cell_offset + d }
    cells_ := match m.cells_[cell_index]? with
      | none => m.cells_
      | some cell => m.cells_.set cell_index (cell.widen (access.cell_offset + d) (ai.size / 8)) }

/-- Body of the loop of `recurse_cell_assignment(access_index)` for the access `i`;
`recurse` stands for the recursive call. -/
def recurse_body (recurse : ArmMemory → Nat → Option ArmMemory) (access_index : Nat)
    (m : ArmMemory) (i : Nat) : Option ArmMemory :=
  if m.stop_now_ then some m
  else
    match m.all_accesses_[i]?, m.all_accesses_[access_index]? with
    | some ai, some access =>
      if ai.cell.isSome then some m
      else
        match m.access_offsets_ access_index i, access.cell with
        | none, _ => some m
        | some _, none => none
        | some d, some cell_index => recurse (assign_cell m i ai access cell_index d) i
    | _, _ => none

/-- Model of `recurse_cell_assignment(access_index)`.  The recursion of the source is
bounded by `fuel`; `none` means that the fuel ran out or that an index was out of range,
neither of which happens when `fuel` exceeds the number of accesses without a cell. -/
def recurse_cell_assignment : Nat → ArmMemory → Nat → Option ArmMemory
  | 0, _, _ => none
  | fuel + 1, m, access_index =>
    if m.stop_now_ then some m
    else
      (List.range m.all_accesses_.length).foldlM
        (recurse_body (recurse_cell_assignment fuel) access_index) m

/-- Step (a) of `generate_constraints_enumerate_cells`: no access has a cell. -/
def enumerate_reset (m : ArmMemory) : ArmMemory :=
  { m with all_accesses_ :=
      m.all_accesses_.mapIdx (fun i a => { a with cell := none, cell_offset := 0, index := i }) }

/-- Body of loop (b) of `generate_constraints_enumerate_cells`: an access without a cell
becomes the anchor of a new cell, which the flood fill then completes. -/
def enumerate_anchor (fuel : Nat) (m : ArmMemory) (i : Nat) : Option ArmMemory :=
  match m.all_accesses_[i]? with
  | none => none
  | some a =>
    if a.cell.isSome then some m
    else
      let initial_cell : Cell :=
        { Cell.init a.address with
          index := m.cells_.length
          tmp_min_offset := 0
          tmp_max_offset := ((a.size / 8 : Nat) : Int) }
      recurse_cell_assignment fuel
        { m with
          cells_ := m.cells_ ++ [initial_cell]
          all_accesses_ := m.all_accesses_.set i { a with cell := some m.cells_.length,
                                                          cell_offset := 0 } }
        i

/-- Body of loop (c) of `generate_constraints_enumerate_cells` for the cell at
position `j`: fix its size and address and rebase the offsets of its accesses. -/
def enumerate_finish (m : ArmMemory) (j : Nat) : ArmMemory :=
  match m.cells_[j]? with
  | none => m
  | some cell =>
    { m with
      cells_ := m.cells_.set j
        { cell with
          size := u64 (cell.tmp_max_offset - cell.tmp_min_offset)
          address := SymBitVector.plus cell.address (SymBitVector.constant 64 cell.tmp_min_offset) }
      all_accesses_ := m.all_accesses_.map (fun access =>
        if access.cell = some cell.index then
          { access with cell_offset := access.cell_offset - cell.tmp_min_offset }
        else access) }

/-- Model of `generate_constraints_enumerate_cells()`.  The flood fill gets the fuel
`all_accesses_.size() + 1`. -/
def generate_constraints_enumerate_cells (m : ArmMemory) : Option ArmMemory :=
  if m.stop_now_ then some m
  else
    let m1 := enumerate_reset m
    match (List.range m1.all_accesses_.length).foldlM
        (enumerate_anchor (m1.all_accesses_.length + 1)) m1 with
    | none => none
    | some m2 => some ((List.range m2.cells_.length).foldl enumerate_finish m2)

end ArmMemory

namespace ArmMemory

/-- Number of accesses that have no cell yet. -/
def unassigned (m : ArmMemory) : Nat := m.all_accesses_.countP (fun a => a.cell.isNone)

/-- What the flood fill may change between `m` and `m'`: accesses without a cell may
get one; nothing else about the accesses, the stop flag or the offset table changes. -/
def Ext (m m' : ArmMemory) : Prop :=
  m'.all_accesses_.length = m.all_accesses_.length ∧ unassigned m' ≤ unassigned m ∧
  m'.stop_now_ = m.stop_now_ ∧ m'.access_offsets_ = m.access_offsets_ ∧
  (∀ (j : Nat) (a : Access), m.all_accesses_[j]? = some a → a.cell.isSome = true →
    m'.all_accesses_[j]? = some a)

/-- A property of the memory that every assignment made by the flood fill preserves. -/
def AssignInvariant (P : ArmMemory → Prop) : Prop :=
  ∀ (m : ArmMemory) (i k : Nat) (ai access : Access) (cell_index : Nat) (d : Int),
    P m → m.all_accesses_[i]? = some ai → ai.cell = none →
    m.all_accesses_[k]? = some access → access.cell = some cell_index →
    m.access_offsets_ k i = some d → P (assign_cell m i ai access cell_index d)

/-- A property of the memory that opening a new cell at an anchor preserves. -/
def AnchorInvariant (P : ArmMemory → Prop) : Prop :=
  ∀ (m : ArmMemory) (i : Nat) (a : Access),
    P m → m.all_accesses_[i]? = some a → a.cell = none →
    P { m with
        cells_ := m.cells_ ++ [{ Cell.init a.address with
                                  index := m.cells_.length
                                  tmp_min_offset := 0
                                  tmp_max_offset := ((a.size / 8 : Nat) : Int) }]
        all_accesses_ := m.all_accesses_.set i { a with cell := some m.cells_.length,
                                                        cell_offset := 0 } }

end ArmMemory

namespace ArmMemory

/-- A cell as loop (c) of `generate_constraints_enumerate_cells` leaves it. -/
def Cell.finished (c : Cell) : Cell :=
  { c with
    size := u64 (c.tmp_max_offset - c.tmp_min_offset)
    address := SymBitVector.plus c.address (SymBitVector.constant 64 c.tmp_min_offset) }

/-- An access as loop (c) leaves it once the cells at positions below `j` are done. -/
def rebase (cells : List Cell) (j : Nat) (a : Access) : Access :=
  match a.cell with
  | none => a
  | some id =>
    if id < j then
      match cells[id]? with
      | none => a
      | some c => { a with cell_offset := a.cell_offset - c.tmp_min_offset }
    else a

end ArmMemory

namespace ArmMemory

/-- Every cell's `index` is its position in `cells_`. -/
def IndexInv (m : ArmMemory) : Prop :=
  ∀ (id : Nat) (c : Cell), m.cells_[id]? = some c → c.index = id

/-- Number of accesses that have a cell. -/
def assigned (m : ArmMemory) : Int :=
  (m.all_accesses_.length : Int) - (unassigned m : Int)

/-- The accounting invariant of the flood fill, for a bound `B` on the magnitude of the
recorded offsets and on the byte sizes of the accesses: an access that has a cell lies
between the running minimum and maximum offsets of that cell, and these stay within
`2 * B` times the number of accesses placed so far. -/
def CellInv (B : Nat) (m : ArmMemory) : Prop :=
  (∀ (i j : Nat) (d : Int), m.access_offsets_ i j = some d → -(B : Int) ≤ d ∧ d ≤ B) ∧
  (∀ (i : Nat) (a : Access), m.all_accesses_[i]? = some a → a.size / 8 ≤ B) ∧
  (∀ (id : Nat) (c : Cell), m.cells_[id]? = some c →
    c.tmp_min_offset ≤ 0 ∧ 0 ≤ c.tmp_max_offset ∧
    -(2 * assigned m * B) ≤ c.tmp_min_offset ∧ c.tmp_max_offset ≤ 2 * assigned m * B) ∧
  (∀ (i : Nat) (a : Access) (id : Nat), m.all_accesses_[i]? = some a → a.cell = some id →
    ∃ c, m.cells_[id]? = some c ∧ c.tmp_min_offset ≤ a.cell_offset ∧
      a.cell_offset + ((a.size / 8 : Nat) : Int) ≤ c.tmp_max_offset)

/-- The result of `generate_constraints_enumerate_cells` in terms of the memory `m2`
that the flood fill (loop (b)) produces. -/
def finish_all (m2 : ArmMemory) : ArmMemory :=
  { m2 with
    cells_ := m2.cells_.map Cell.finished
    all_accesses_ := m2.all_accesses_.map (rebase m2.cells_ m2.cells_.length) }

end ArmMemory

namespace ArmMemory

/-- The address invariant of the flood fill under an assignment `env`: the recorded
offsets hold between the addresses of the accesses, the addresses are 64 bits wide, an
access that has a cell lies at its cell offset from the cell's address (modulo `2^64`),
and every cell has an anchor: an access at offset 0 whose address is the cell's. -/
def AddrInv (env : Env) (m : ArmMemory) : Prop :=
  (∀ (i j : Nat) (d : Int) (ai aj : Access), m.access_offsets_ i j = some d →
    m.all_accesses_[i]? = some ai → m.all_accesses_[j]? = some aj →
    (((ai.address.eval env).v : Int) + d) % 2 ^ 64 = ((aj.address.eval env).v : Int)) ∧
  (∀ (i : Nat) (a : Access), m.all_accesses_[i]? = some a → (a.address.eval env).w = 64) ∧
  (∀ (i : Nat) (a : Access) (id : Nat), m.all_accesses_[i]? = some a → a.cell = some id →
    ∃ c, m.cells_[id]? = some c ∧
      (((c.address.eval env).v : Int) + a.cell_offset) % 2 ^ 64
        = ((a.address.eval env).v : Int)) ∧
  (∀ (id : Nat) (c : Cell), m.cells_[id]? = some c →
    ∃ (i : Nat) (b : Access), m.all_accesses_[i]? = some b ∧ b.cell = some id ∧
      b.cell_offset = 0 ∧
      c.address = b.address)

end ArmMemory

namespace ArmMemory

/-- What cell enumeration establishes about its result `m'` under an assignment `env`:
every access has a cell, lies inside it and at its offset from the cell's address, and
cell addresses are 64 bits wide. -/
def Layout (env : Env) (m' : ArmMemory) : Prop :=
  ∀ a ∈ m'.all_accesses_, ∃ id c, a.cell = some id ∧ id < m'.cells_.length ∧
    m'.cells_[id]? = some c ∧ 0 ≤ a.cell_offset ∧
    a.cell_offset + ((a.size / 8 : Nat) : Int) ≤ (c.size : Int) ∧
    (((c.address.eval env).v : Int) + a.cell_offset) % 2 ^ 64
      = ((a.address.eval env).v : Int) ∧
    (c.address.eval env).w = 64

/-- The byte ranges `[address, address + size/8)` of two accesses share no address under
the assignment `env`. -/
def bytes_disjoint (env : Env) (a b : Access) : Prop :=
  ∀ x : Nat, ¬ ((a.address.eval env).v ≤ x ∧ x < (a.address.eval env).v + a.size / 8 ∧
    (b.address.eval env).v ≤ x ∧ x < (b.address.eval env).v + b.size / 8)

end ArmMemory

/-- Conversion of a `uint64_t` to `int64_t`. -/
def s64 (x : Nat) : Int :=
  if x % 2 ^ 64 < 2 ^ 63 then ((x % 2 ^ 64 : Nat) : Int) else ((x % 2 ^ 64 : Nat) : Int) - 2 ^ 64

namespace ArmMemory

/-- A dereference map: the concrete address a test case saw at a dereference site. -/
abbrev DereferenceMap := DereferenceInfo → Option Nat

/-- The difference `a - b` of two `uint64_t` values. -/
def diff64 (a b : Nat) : Nat := (a + 2 ^ 64 - b % 2 ^ 64) % 2 ^ 64

/-- The inner loop of `generate_constraints_offsets_data` for access `i`: the first
component `j` whose distance from `i`, taken from the first dereference map, agrees with
all other maps and is proved by the solver, together with that distance. -/
def data_find (solver : Solver) (all : List Access) (initial_constraints : List SymBool)
    (deref_maps : List DereferenceMap) (i_access : Access) (i_addr : Nat) :
    List Nat → Option (Nat × Nat)
  | [] => none
  | j :: js =>
    match all[j]?, deref_maps.head? with
    | some j_access, some deref_map =>
      match deref_map j_access.deref with
      | none => data_find solver all initial_constraints deref_maps i_access i_addr js
      | some j_addr =>
        let diff := diff64 j_addr i_addr
        let works := deref_maps.tail.all (fun test_map =>
          match test_map j_access.deref, test_map i_access.deref with
          | some j_addr_test, some i_addr_test => diff64 j_addr_test i_addr_test == diff
          | _, _ => true)
        if !works then data_find solver all initial_constraints deref_maps i_access i_addr js
        else
          let check := SymBool.not (SymBool.eq
            (SymBitVector.plus i_access.address (SymBitVector.constant 64 (diff : Int)))
            j_access.address)
          let answer := solver (initial_constraints ++ [check])
          if !answer.is_sat && !answer.has_error then some (j, diff)
          else data_find solver all initial_constraints deref_maps i_access i_addr js
    | _, _ => data_find solver all initial_constraints deref_maps i_access i_addr js

/-- Model of `generate_constraints_offsets_data(initial_constraints, deref_maps)`.  Every
constraint pushed on `initial_constraints` is popped again, so the list is not part of
the result. -/
def generate_constraints_offsets_data (m : ArmMemory) (initial_constraints : List SymBool)
    (deref_maps : List DereferenceMap) : ArmMemory :=
  let step := fun (st : (Nat → Nat → Option Int) × UnionFind) (i : Nat) =>
    match m.all_accesses_[i]?, deref_maps.head? with
    | some i_access, some deref_map =>
      match deref_map i_access.deref with
      | none => st
      | some i_addr =>
        let components := st.2.components
        let unionfind := st.2.add i
        match data_find m.solver_ m.all_accesses_ initial_constraints deref_maps i_access i_addr
            components with
        | none => (st.1, unionfind)
        | some (j, diff) =>
          (set_offset (set_offset st.1 i j (s64 diff)) j i (s64 (diff64 0 diff)),
            unionfind.join i j)
    | _, _ => st
  { m with access_offsets_ :=
      ((List.range m.all_accesses_.length).foldl step (m.access_offsets_, UnionFind.empty)).1 }

/-- The key under which an access is filed in the maps indexed by cell id:
`(size_t)(-1)` while it has no cell. -/
def Access.cell_key (a : Access) : Nat := a.cell.getD (2 ^ 64 - 1)

/-- Body of the inner loop of the first loop of `check_nonoverlapping`: byte `i` of
`access` is added to the union-find of its cell and joined with its neighbours. -/
def run_add (access : Access) (uf : UnionFind) (i : Nat) : UnionFind :=
  let offset := u64 (access.cell_offset + (i : Int))
  let uf1 := uf.add offset
  let uf2 := if uf1.contains (u64 ((offset : Int) - 1)) then
    uf1.join offset (u64 ((offset : Int) - 1)) else uf1
  if uf2.contains (u64 ((offset : Int) + 1)) then
    uf2.join offset (u64 ((offset : Int) + 1)) else uf2

/-- Body of the first loop of `check_nonoverlapping` for one access. -/
def run_access (runs : SMap UnionFind) (access : Access) : SMap UnionFind :=
  runs.set access.cell_key
    ((List.range (access.size / 8)).foldl (run_add access)
      (runs.getD access.cell_key UnionFind.empty))

/-- First loop of `check_nonoverlapping`: per cell, the union-find of the byte offsets
its accesses touch, consecutive offsets joined. -/
def runs (m : ArmMemory) : SMap UnionFind := m.all_accesses_.foldl run_access []

/-- The pair of first and last address of the run of `component` in a cell. -/
def run_range (cell : Cell) (uf : UnionFind) (component : Nat) : SymBitVector × SymBitVector :=
  (SymBitVector.plus cell.address (SymBitVector.constant 64 (component : Int)),
   SymBitVector.plus cell.address (SymBitVector.constant 64 (uf.max_value component : Int)))

/-- Body of the second loop of `check_nonoverlapping` for one component of the
union-find `p.2` of the cell `p.1`. -/
def range_add (cells : List Cell) (p : Nat × UnionFind)
    (ranges : SMap (List (SymBitVector × SymBitVector))) (component : Nat) :
    SMap (List (SymBitVector × SymBitVector)) :=
  match cells[p.1]? with
  | none => ranges
  | some cell => ranges.set p.1 (ranges.getD p.1 [] ++ [run_range cell p.2 component])

/-- Second loop of `check_nonoverlapping`: per cell, the pairs of first and last address
of its runs. -/
def ranges (m : ArmMemory) : SMap (List (SymBitVector × SymBitVector)) :=
  (runs m).foldl (fun (ranges : SMap (List (SymBitVector × SymBitVector)))
      (p : Nat × UnionFind) => p.2.components.foldl (range_add m.cells_ p) ranges) []

/-- The byte offset `x` of the cell `key` is an element of the runs `R`. -/
def Covered (R : SMap UnionFind) (key x : Nat) : Prop :=
  ∃ uf, R.find? key = some uf ∧ uf.elems x

/-- The byte offset `x` of the cell `key` is touched by one of the accesses. -/
def Touched (accs : List Access) (key x : Nat) : Prop :=
  ∃ a ∈ accs, a.cell_key = key ∧ ∃ k, k < a.size / 8 ∧ x = u64 (a.cell_offset + (k : Int))

/-- The formula `check` of `check_nonoverlapping` for two ranges: the first lies above
the second or below it. -/
def ranges_apart (range_i range_j : SymBitVector × SymBitVector) : SymBool :=
  SymBool.or (SymBool.gt range_i.1 range_j.2) (SymBool.lt range_i.2 range_j.1)

/-- Model of `check_nonoverlapping(am, initial_constraints)`. -/
def check_nonoverlapping (m : ArmMemory) (initial_constraints : List SymBool) : Bool :=
  (List.range m.cells_.length).all (fun i =>
    (List.range m.cells_.length).all (fun j =>
      if i ≤ j then true
      else
        ((ranges m).getD i []).all (fun range_i =>
          ((ranges m).getD j []).all (fun range_j =>
            let answer :=
              m.solver_ (initial_constraints ++ [SymBool.not (ranges_apart range_i range_j)])
            !answer.is_sat && !answer.has_error))))

end ArmMemory

namespace ArmMemory

/-- The maps `cell x offset -> bitvector` of `generate_constraints_given_no_cell_overlap`. -/
abbrev MemLoc := SMap (SMap SymBitVector)

/-- Model of `memloc[cell][offset] = v`. -/
def MemLoc.set2 (memloc : MemLoc) (cell offset : Nat) (v : SymBitVector) : MemLoc :=
  memloc.set cell ((memloc.getD cell []).set offset v)

/-- Model of reading `memloc[cell][offset]`. -/
def MemLoc.get2 (memloc : MemLoc) (cell offset : Nat) : SymBitVector :=
  (memloc.getD cell []).getD offset .null

/-- The byte `value[8*i+7][8*i]` of a value. -/
def byte_of (value : SymBitVector) (i : Nat) : SymBitVector :=
  SymBitVector.extract value (8 * i + 7) (8 * i)

/-- First loop of the fast path: a fresh 8-bit variable for every byte some access of a
side touches.  The state is the two maps and the counter of temporaries. -/
def memloc_init (all : List Access) (ctr : Nat) : MemLoc × MemLoc × Nat :=
  all.foldl (fun (st : MemLoc × MemLoc × Nat) (access : Access) =>
    (List.range (access.size / 8)).foldl (fun (st : MemLoc × MemLoc × Nat) (i : Nat) =>
      let offset := u64 (access.cell_offset + (i : Int))
      if access.is_other then
        if (st.2.1.getD access.cell_key []).count offset then st
        else (st.1, st.2.1.set2 access.cell_key offset (SymBitVector.tmp_var 8 st.2.2), st.2.2 + 1)
      else
        if (st.1.getD access.cell_key []).count offset then st
        else (st.1.set2 access.cell_key offset (SymBitVector.tmp_var 8 st.2.2), st.2.1, st.2.2 + 1))
      st) ([], [], ctr)

/-- The heap-building loops of the fast path: every byte of `memloc` is stored into
`heap` at its cell's address plus its offset. -/
def heap_of_memloc (cells : List Cell) (memloc : MemLoc) (heap : SymArray) : SymArray :=
  memloc.foldl (fun (heap : SymArray) (p : Nat × SMap SymBitVector) =>
    match cells[p.1]? with
    | none => heap
    | some cell =>
      p.2.foldl (fun (heap : SymArray) (p2 : Nat × SymBitVector) =>
        SymArray.update heap
          (SymBitVector.plus (SymBitVector.constant 64 (p2.1 : Int)) cell.address) p2.2) heap) heap

/-- Third loop of the fast path: writes replace the bytes of their cell, reads constrain
their value to the bytes of their cell.  The state is the two maps and `constraints_`. -/
def memloc_run (all : List Access) (my other : MemLoc) (constraints : List SymBool) :
    MemLoc × MemLoc × List SymBool :=
  all.foldl (fun (st : MemLoc × MemLoc × List SymBool) (access : Access) =>
    (List.range (access.size / 8)).foldl (fun (st : MemLoc × MemLoc × List SymBool) (i : Nat) =>
      let offset := u64 (access.cell_offset + (i : Int))
      if access.write then
        if access.is_other then
          (st.1, st.2.1.set2 access.cell_key offset (byte_of access.value i), st.2.2)
        else (st.1.set2 access.cell_key offset (byte_of access.value i), st.2.1, st.2.2)
      else
        let memloc := if access.is_other then st.2.1 else st.1
        (st.1, st.2.1, st.2.2 ++
          [SymBool.eq (memloc.get2 access.cell_key offset) (byte_of access.value i)]))
      st) (my, other, constraints)

/-- Model of `generate_constraints_given_no_cell_overlap(am)`: the returned flag, this
memory, the other memory and the counter of temporaries. -/
def generate_constraints_given_no_cell_overlap (m am : ArmMemory) (ctr : Nat) :
    Bool × ArmMemory × ArmMemory × Nat :=
  if m.stop_now_ then (true, m, am, ctr)
  else
    let locs := memloc_init m.all_accesses_ ctr
    let heap1 := heap_of_memloc m.cells_ locs.1 m.heap_
    let am_heap1 := heap_of_memloc m.cells_ locs.2.1 am.heap_
    let constraints1 := m.constraints_ ++
      [SymBool.array_eq m.start_variable_ heap1, SymBool.array_eq am.start_variable_ am_heap1]
    let ran := memloc_run m.all_accesses_ locs.1 locs.2.1 constraints1
    let heap2 := heap_of_memloc m.cells_ ran.1 heap1
    let am_heap2 := heap_of_memloc m.cells_ ran.2.1 am_heap1
    (true,
      { m with
        heap_ := heap2
        constraints_ := ran.2.2 ++
          [SymBool.array_eq m.final_heap_ heap2, SymBool.array_eq am.final_heap_ am_heap2] },
      { am with heap_ := am_heap2 }, locs.2.2)

/-- The cache of a cell of `size` bytes at `address`, read out of `heap`: the bytes at
`address + size - 1` down to `address`, concatenated from the most significant. -/
def read_cache (heap : SymArray) (address : SymBitVector) (size : Nat) : SymBitVector :=
  (List.range size).foldl (fun (cache : SymBitVector) (i : Nat) =>
    cache.cat (SymBitVector.select heap
      (SymBitVector.plus address (SymBitVector.constant 64 ((size - i - 1 : Nat) : Int)))))
    .null

/-- The heap after the cache of a cell has been written back byte by byte. -/
def write_back (heap : SymArray) (address : SymBitVector) (size : Nat) (cache : SymBitVector) :
    SymArray :=
  (List.range size).foldl (fun (heap : SymArray) (i : Nat) =>
    SymArray.update heap (SymBitVector.plus address (SymBitVector.constant 64 (i : Int)))
      (byte_of cache i)) heap

/-- What the conservative simulation works on: the cells, the heaps of the two sides
and the constraints of this memory. -/
structure Sim where
  cells : List Cell
  heap : SymArray
  other_heap : SymArray
  constraints : List SymBool

/-- Model of the closure `flush_dirty(skip_index)`: every dirty cache of a cell other
than `skip_index` is written back into the heap of its side.  Returns
`update_required` and the new state. -/
def flush_dirty (stop : Bool) (skip_index : Nat) (s : Sim) : Bool × Sim :=
  (List.range s.cells.length).foldl (fun (r : Bool × Sim) (k : Nat) =>
    match r.2.cells[k]? with
    | none => r
    | some cell =>
      if stop then r
      else if cell.index = skip_index then r
      else
        let r1 : Bool × Sim :=
          if cell.dirty then
            (true, { r.2 with
              heap := write_back r.2.heap cell.address cell.size cell.cache
              cells := r.2.cells.set k { cell with dirty := false } })
          else r
        match r1.2.cells[k]? with
        | none => r1
        | some cell1 =>
          if cell1.other_dirty then
            (true, { r1.2 with
              other_heap := write_back r1.2.other_heap cell1.address cell1.size cell1.other_cache
              cells := r1.2.cells.set k { cell1 with other_dirty := false } })
          else r1) (false, s)

/-- The cache a write leaves behind: `prefix || value || suffix`. -/
def write_cache (access : Access) (cell : Cell) (cache : SymBitVector) : SymBitVector :=
  let pfx := if u64 (access.cell_offset + ((access.size / 8 : Nat) : Int)) < cell.size then
      SymBitVector.extract cache (cell.size * 8 - 1)
        (access.cell_offset * 8 + (access.size : Int)).toNat
    else SymBitVector.null
  let sfx := if access.cell_offset > 0 then
      SymBitVector.extract cache ((access.cell_offset * 8 - 1).toNat) 0
    else SymBitVector.null
  (pfx.cat access.value).cat sfx

/-- The value a read is constrained to:
`cache[cell_offset*8 + size - 1][cell_offset*8]`. -/
def read_value (access : Access) (cache : SymBitVector) : SymBitVector :=
  SymBitVector.extract cache (access.cell_offset * 8 + (access.size : Int) - 1).toNat
    (access.cell_offset * 8).toNat

/-- Body of the main loop of the conservative simulation for one access. -/
def simulate_access (stop : Bool) (s : Sim) (access : Access) : Sim :=
  if stop then s
  else
    match s.cells[access.cell_key]? with
    | none => s
    | some cell0 =>
      let flushed := flush_dirty stop cell0.index s
      let s1 := flushed.2
      match s1.cells[access.cell_key]? with
      | none => s1
      | some cell =>
        let heap := if access.is_other then s1.other_heap else s1.heap
        let cache0 := if access.is_other then cell.other_cache else cell.cache
        let cache := if flushed.1 then read_cache heap cell.address cell.size else cache0
        if access.write then
          let cache' := write_cache access cell cache
          let cell' := if access.is_other then
              { cell with other_cache := cache', other_dirty := true }
            else { cell with cache := cache', dirty := true }
          { s1 with cells := s1.cells.set access.cell_key cell' }
        else
          let cell' := if access.is_other then { cell with other_cache := cache }
            else { cell with cache := cache }
          { s1 with
            cells := s1.cells.set access.cell_key cell'
            constraints := s1.constraints ++
              [SymBool.eq access.value (read_value access cache)] }

/-- The part of `generate_constraints_given_cells` after the test for the fast path:
the conservative simulation, with every cell acting as a cache of the heap. -/
def simulate_cells (m am : ArmMemory) : ArmMemory × ArmMemory :=
  let cells0 := m.cells_.map (fun cell =>
    { cell with
      cache := read_cache m.heap_ cell.address cell.size
      other_cache := read_cache am.heap_ cell.address cell.size })
  let s0 : Sim :=
    { cells := cells0, heap := m.heap_, other_heap := am.heap_, constraints := m.constraints_ }
  let s1 := m.all_accesses_.foldl (simulate_access m.stop_now_) s0
  if m.stop_now_ then
    ({ m with cells_ := s1.cells, heap_ := s1.heap, constraints_ := s1.constraints },
      { am with heap_ := s1.other_heap })
  else
    let s2 := (flush_dirty m.stop_now_ (2 ^ 64 - 1) s1).2
    ({ m with
        cells_ := s2.cells
        heap_ := s2.heap
        constraints_ := s2.constraints ++
          [SymBool.array_eq m.final_heap_ s2.heap, SymBool.array_eq am.final_heap_ s2.other_heap] },
      { am with heap_ := s2.other_heap })

/-- Model of `generate_constraints_given_cells(am, initial_constraints)`: this memory,
the other memory and the counter of temporaries. -/
def generate_constraints_given_cells (m am : ArmMemory) (initial_constraints : List SymBool)
    (ctr : Nat) : ArmMemory × ArmMemory × Nat :=
  if m.stop_now_ then (m, am, ctr)
  else if m.cells_.length = 1 || m.unsound_ || check_nonoverlapping m initial_constraints then
    (generate_constraints_given_no_cell_overlap m am ctr).2
  else ((simulate_cells m am).1, (simulate_cells m am).2, ctr)

/-- What `generate_constraints` hands back: its return value (false: the initial
constraints are unsatisfiable, the obligation holds trivially), the two memories, the
caller's `initial_constraints` and the counter of temporaries. -/
structure Generated where
  sat : Bool
  mem : ArmMemory
  other : ArmMemory
  initial_constraints : List SymBool
  tmp_counter : Nat

/-- Model of `generate_constraints(am, initial_constraints, all_constraints, deref_maps)`.
`none` stands for a flood fill that did not return, an assertion failure is an error. -/
def generate_constraints (m am : ArmMemory) (initial_constraints : List SymBool)
    (deref_maps : List DereferenceMap) (ctr : Nat) : Except Assertion (Option Generated) :=
  let m0 := { m with all_accesses_ := [], cells_ := [], access_offsets_ := fun _ _ => none }
  let sane := (m.solver_ initial_constraints).is_sat
  if !sane then
    .ok (some { sat := false, mem := m0, other := am,
                initial_constraints := initial_constraints, tmp_counter := ctr })
  else
    let m1 := { m0 with all_accesses_ :=
      (m.accesses_.map (fun a => { a with is_other := false })
        ++ am.accesses_.map (fun a => { a with is_other := true })) }
    let offsets : Except Assertion (ArmMemory × List SymBool) :=
      if deref_maps.length > 0 then
        .ok (generate_constraints_offsets_data m1 initial_constraints deref_maps,
          initial_constraints)
      else generate_constraints_offsets_nodata m1 initial_constraints
    match offsets with
    | .error e => .error e
    | .ok (m2, ic) =>
      match generate_constraints_enumerate_cells m2 with
      | none => .ok none
      | some m3 =>
        let r := generate_constraints_given_cells m3 am ic ctr
        .ok (some { sat := true, mem := r.1, other := r.2.1, initial_constraints := ic,
                    tmp_counter := r.2.2 })

end ArmMemory

namespace ArmMemory

/-! ### The flat heap the conservative simulation is meant to agree with -/

/-- The address an access touches under an assignment: its cell's address plus its
offset in the cell, modulo `2^64`. -/
def flat_address (env : Env) (cells : List Cell) (a : Access) : Nat :=
  match cells[a.cell_key]? with
  | none => 0
  | some cell => u64 (((cell.address.eval env).v : Int) + a.cell_offset)

/-- A heap with the `n` low bytes of `value` stored little-endian from `addr` on. -/
def flat_store (heap : Nat → Nat) (addr value : Nat) : Nat → Nat → Nat
  | 0 => heap
  | n + 1 => fun x =>
    if x = (addr + n) % 2 ^ 64 then (value / 2 ^ (8 * n)) % 256 else flat_store heap addr value n x

/-- The number whose `n` little-endian bytes are found in `heap` from `addr` on. -/
def flat_load (heap : Nat → Nat) (addr : Nat) : Nat → Nat
  | 0 => 0
  | n + 1 => flat_load heap addr n + (heap ((addr + n) % 2 ^ 64) % 256) * 2 ^ (8 * n)

/-- The flat heap of a side after the writes of that side among `accesses` have been
applied, in list order, to `heap`. -/
def flat_heap (env : Env) (cells : List Cell) (is_other : Bool) (heap : Nat → Nat) :
    List Access → Nat → Nat
  | [] => heap
  | a :: rest =>
    if a.write && (a.is_other == is_other) then
      flat_heap env cells is_other
        (flat_store heap (flat_address env cells a) (a.value.eval env).v (a.size / 8)) rest
    else flat_heap env cells is_other heap rest

/-- The value the access at position `k` reads from the flat heap of its side: the
little-endian bytes at its address after all earlier writes of its side. -/
def flat_read (env : Env) (cells : List Cell) (heap : Nat → Nat) (all : List Access)
    (k : Nat) : Option Nat :=
  match all[k]? with
  | none => none
  | some a =>
    some (flat_load (flat_heap env cells a.is_other heap (all.take k))
      (flat_address env cells a) (a.size / 8))

/-! ### Small concrete memories -/

/-- An access of `size` bits at the address held by the register `reg`, made at `line`;
its value is the variable `reg_v`. -/
def reg_access (reg : String) (size : Nat) (write : Bool) (line : Nat) : Access :=
  { address := SymBitVector.var 64 reg, value := SymBitVector.var size (reg ++ "_v"),
    size := size, write := write, is_other := false,
    deref := { is_rewrite := false, is_invariant := false, implicit_dereference := false,
               line_number := line, invariant_number := 0 },
    index := 0, cell := none, cell_offset := 0 }

/-- A fresh memory for the accesses `accs`, with heap variables named after `side`. -/
def fresh (accs : List Access) (side : String) (solver : Solver) : ArmMemory :=
  { accesses_ := accs, all_accesses_ := [], cells_ := [], access_offsets_ := fun _ _ => none,
    heap_ := SymArray.var ("heap_" ++ side), start_variable_ := SymArray.var ("start_" ++ side),
    final_heap_ := SymArray.var ("final_" ++ side), constraints_ := [], unsound_ := false,
    stop_now_ := false, solver_ := solver }

/-- A solver that finds every query satisfiable: nothing can be proved. -/
def solver_sat : Solver := fun _ => { is_sat := true, has_error := false }

/-- A solver that times out on every query: `is_sat` returns false with the error set. -/
def solver_timeout : Solver := fun _ => { is_sat := false, has_error := true }

/-- A solver that answers the sanity query on a single constraint and times out on every
longer query. -/
def solver_timeout_later : Solver := fun cs =>
  if cs.length ≤ 1 then { is_sat := true, has_error := false }
  else { is_sat := false, has_error := true }

/-- The accesses of `movb %al, (%rax); movb (%rbx), %bl; movb (%rcx), %cl`. -/
def three_bytes : List Access :=
  [reg_access "rax" 8 true 0, reg_access "rbx" 8 false 1, reg_access "rcx" 8 false 2]

/-- An assignment in which all three addresses are 170, the heaps are zero, the byte
written through `rax` is 170 and the byte read through `rcx` is 0. -/
def stale_env : Env :=
  { bv := fun s => if s = "rcx_v" then 0 else 170,
    tmp := fun _ => 0,
    arr := fun n a => if n = "final_1" then (if a = 170 then 170 else 0) else 0,
    bool := fun _ => false }

end ArmMemory

namespace ArmMemory

/-- The result of `generate_constraints` for the target accesses `three_bytes`, a
rewrite without accesses, the assumption `true`, no test cases and a solver that can
prove nothing. -/
def stale_run : Option Generated :=
  match generate_constraints (fresh three_bytes "1" solver_sat) (fresh [] "2" solver_sat)
      [SymBool._true] [] 0 with
  | .ok r => r
  | .error _ => none

/-- The address term of the one-byte cell anchored at the register `reg`. -/
def byte_cell_address (reg : String) : SymBitVector :=
  SymBitVector.plus (SymBitVector.plus (SymBitVector.var 64 reg) (SymBitVector.constant 64 0))
    (SymBitVector.constant 64 0)

/-- The constraints that `stale_run` generates. -/
def stale_constraints : List SymBool :=
  [SymBool.eq (SymBitVector.var 8 "rbx_v")
    (SymBitVector.extract
      (SymBitVector.select
        (SymArray.update (SymArray.var "heap_1") (byte_cell_address "rax")
          (SymBitVector.extract (SymBitVector.var 8 "rax_v") 7 0))
        (byte_cell_address "rbx")) 7 0),
   SymBool.eq (SymBitVector.var 8 "rcx_v")
    (SymBitVector.extract
      (SymBitVector.select (SymArray.var "heap_1") (byte_cell_address "rcx")) 7 0),
   SymBool.array_eq (SymArray.var "final_1")
    (SymArray.update (SymArray.var "heap_1") (byte_cell_address "rax")
      (SymBitVector.extract (SymBitVector.var 8 "rax_v") 7 0)),
   SymBool.array_eq (SymArray.var "final_2") (SymArray.var "heap_2")]

end ArmMemory

namespace ArmMemory

/-- A memory whose `all_accesses_` are one-byte accesses through `rax` and `rbx`. -/
def two_bytes (solver : Solver) : ArmMemory :=
  { fresh [] "1" solver with
    all_accesses_ := [reg_access "rax" 8 true 0, reg_access "rbx" 8 false 1] }

/-- The offsets that `generate_constraints_offsets_nodata` records between the two
accesses of `two_bytes` (entries `[1][0]` and `[0][1]`). -/
def nodata_offsets (solver : Solver) : Option (Option Int × Option Int) :=
  match generate_constraints_offsets_nodata (two_bytes solver) [SymBool._true] with
  | .ok r => some (r.1.access_offsets_ 1 0, r.1.access_offsets_ 0 1)
  | .error _ => none

/-- A dereference map of a test case in which every site saw the address 4096. -/
def same_address_map : DereferenceMap := fun _ => some 4096

/-- The offsets that `generate_constraints_offsets_data` records between the two
accesses of `two_bytes` (entries `[1][0]` and `[0][1]`). -/
def data_offsets (solver : Solver) : Option Int × Option Int :=
  ((generate_constraints_offsets_data (two_bytes solver) [SymBool._true]
      [same_address_map]).access_offsets_ 1 0,
   (generate_constraints_offsets_data (two_bytes solver) [SymBool._true]
      [same_address_map]).access_offsets_ 0 1)

/-- The return value of `generate_constraints` for the accesses `three_bytes`. -/
def generated_sat (solver : Solver) : Option Bool :=
  match generate_constraints (fresh three_bytes "1" solver) (fresh [] "2" solver)
      [SymBool._true] [] 0 with
  | .ok (some g) => some g.sat
  | _ => none

end ArmMemory

namespace ArmMemory

/-- A memory with three accesses, the second proved to lie 8 bytes below the first. -/
def linked : ArmMemory :=
  { fresh [] "1" solver_sat with
    all_accesses_ :=
      [reg_access "rax" 32 true 0, reg_access "rbx" 64 false 1, reg_access "rcx" 8 false 2]
    access_offsets_ := fun i j =>
      if i = 0 ∧ j = 1 then some (-8) else if i = 1 ∧ j = 0 then some 8 else none }

/-- An assignment under which the offsets of `linked` hold: `rax = 4104`, `rbx = 4096`. -/
def linked_env : Env :=
  { bv := fun s => if s = "rax" then 4104 else if s = "rbx" then 4096 else 0,
    tmp := fun _ => 0, arr := fun _ _ => 0, bool := fun _ => false }

end ArmMemory

/-- The value of a bitvector term built from constants and additions only. -/
def SymBitVector.closed : SymBitVector → Option BVal
  | .constant w v => some ⟨w, (v % 2 ^ w).toNat⟩
  | .plus a b =>
    match a.closed, b.closed with
    | some x, some y => some ⟨x.w, (x.v + y.v) % 2 ^ x.w⟩
    | _, _ => none
  | _ => none

/-- The truth value of a formula built from comparisons of closed bitvector terms. -/
def SymBool.closed : SymBool → Option Bool
  | ._true => some true
  | ._false => some false
  | .not a => a.closed.map (fun x => !x)
  | .or a b =>
    match a.closed, b.closed with
    | some x, some y => some (x || y)
    | _, _ => none
  | .gt a b =>
    match a.closed, b.closed with
    | some x, some y => some (decide (x.v > y.v))
    | _, _ => none
  | .lt a b =>
    match a.closed, b.closed with
    | some x, some y => some (decide (x.v < y.v))
    | _, _ => none
  | _ => none

namespace ArmMemory

/-- The claim that accesses placed in different cells never overlap: under every
assignment satisfying the assumption, two accesses of `m'` with different cells have
disjoint byte ranges. -/
def placed_apart_never_overlap (m' : ArmMemory) (assumption : List SymBool) : Prop :=
  ∀ env : Env, env.sat assumption → ∀ a ∈ m'.all_accesses_, ∀ b ∈ m'.all_accesses_,
    a.cell ≠ b.cell → bytes_disjoint env a b

/-- A solver that only folds constants: a query is unsatisfiable when one of its
constraints is a closed formula with value false; everything else is reported
satisfiable. -/
def solver_fold : Solver := fun cs =>
  if cs.any (fun c => c.closed == some false) then { is_sat := false, has_error := false }
  else { is_sat := true, has_error := false }

/-- A one-byte access at the constant address `addr`. -/
def const_access (addr : Nat) (write : Bool) (line : Nat) : Access :=
  { reg_access "" 8 write line with address := SymBitVector.constant 64 (addr : Int) }

/-- A memory with one-byte accesses at the constant addresses 4096 and 8192. -/
def apart : ArmMemory :=
  { fresh [] "1" solver_fold with
    all_accesses_ := [const_access 4096 true 0, const_access 8192 false 1] }

/-- The memory `apart` after cell enumeration. -/
def apart_cells : ArmMemory := (generate_constraints_enumerate_cells apart).getD apart

end ArmMemory


/-! ## Structural equality of boolean terms (`src/symstate/bool.h`, `src/symstate/bool.cc`)

A `SymBool` of the source is a handle holding a pointer `ptr` to a node of the class
hierarchy under `SymBoolAbstract`; the pointer is null in a default-constructed handle.
The inductive type `SymBool` above is the type of the nodes, a handle is an
`Option SymBool`.  The node classes compare with the virtual functions `type()` and
`equals()`; none of them looks at an address, so that a node is modelled by the term
it is the root of.  Equality of the bitvector and array operands of a comparison is
defined in headers that are not among the sources; it is a parameter. -/

/-- The enumeration `SymBool::Type`. -/
inductive SymBool.NodeType where
  | NONE | AND | ARRAY_EQ | EQ | FALSE | FOR_ALL | GE | GT | IFF | IMPLIES | LE | LT
  | NOT | OR | SIGN_GE | SIGN_GT | SIGN_LE | SIGN_LT | TRUE | VAR | XOR
deriving DecidableEq, Repr

/-- The virtual function `type()` of the node classes. -/
def SymBoolAbstract.type : SymBool → SymBool.NodeType
  | ._true => .TRUE
  | ._false => .FALSE
  | .var _ => .VAR
  | .not _ => .NOT
  | .and _ _ => .AND
  | .or _ _ => .OR
  | .xor _ _ => .XOR
  | .iff _ _ => .IFF
  | .implies _ _ => .IMPLIES
  | .eq _ _ => .EQ
  | .ge _ _ => .GE
  | .gt _ _ => .GT
  | .le _ _ => .LE
  | .lt _ _ => .LT
  | .array_eq _ _ => .ARRAY_EQ

/-- The virtual function `equals(other)` of the node classes: `SymBoolTrue`,
`SymBoolFalse`, `SymBoolVar` and `SymBoolNot` test the type of `other` themselves;
`SymBoolBinop`, `SymBoolCompare` and `SymBoolArrayEq` return false when the types differ
and compare the two operands otherwise.  `bv` and `arr` are `equals` on bitvector and
array nodes. -/
def SymBoolAbstract.equals (bv : SymBitVector → SymBitVector → Bool)
    (arr : SymArray → SymArray → Bool) : SymBool → SymBool → Bool
  | ._true, other => decide (SymBoolAbstract.type other = .TRUE)
  | ._false, other => decide (SymBoolAbstract.type other = .FALSE)
  | .var name_, .var other_name_ => decide (name_ = other_name_)
  | .var _, _ => false
  | .not b_, .not other_b_ => SymBoolAbstract.equals bv arr b_ other_b_
  | .not _, _ => false
  | .and a_ b_, .and c_ d_ =>
      SymBoolAbstract.equals bv arr a_ c_ && SymBoolAbstract.equals bv arr b_ d_
  | .and _ _, _ => false
  | .or a_ b_, .or c_ d_ =>
      SymBoolAbstract.equals bv arr a_ c_ && SymBoolAbstract.equals bv arr b_ d_
  | .or _ _, _ => false
  | .xor a_ b_, .xor c_ d_ =>
      SymBoolAbstract.equals bv arr a_ c_ && SymBoolAbstract.equals bv arr b_ d_
  | .xor _ _, _ => false
  | .iff a_ b_, .iff c_ d_ =>
      SymBoolAbstract.equals bv arr a_ c_ && SymBoolAbstract.equals bv arr b_ d_
  | .iff _ _, _ => false
  | .implies a_ b_, .implies c_ d_ =>
      SymBoolAbstract.equals bv arr a_ c_ && SymBoolAbstract.equals bv arr b_ d_
  | .implies _ _, _ => false
  | .eq a_ b_, .eq c_ d_ => bv a_ c_ && bv b_ d_
  | .eq _ _, _ => false
  | .ge a_ b_, .ge c_ d_ => bv a_ c_ && bv b_ d_
  | .ge _ _, _ => false
  | .gt a_ b_, .gt c_ d_ => bv a_ c_ && bv b_ d_
  | .gt _ _, _ => false
  | .le a_ b_, .le c_ d_ => bv a_ c_ && bv b_ d_
  | .le _ _, _ => false
  | .lt a_ b_, .lt c_ d_ => bv a_ c_ && bv b_ d_
  | .lt _ _, _ => false
  | .array_eq a_ b_, .array_eq c_ d_ => arr a_ c_ && arr b_ d_
  | .array_eq _ _, _ => false

/-- Model of `SymBool::type()`: the type of the node, `NONE` for a null pointer. -/
def SymBool.type : Option SymBool → SymBool.NodeType
  | some ptr => SymBoolAbstract.type ptr
  | none => .NONE

/-- Model of `SymBool::equals(other)`: the nodes are compared when both pointers are
non-null, the pointers themselves otherwise (one of them is null then, so that they
are equal only when both are). -/
def SymBool.equals (bv : SymBitVector → SymBitVector → Bool)
    (arr : SymArray → SymArray → Bool) : Option SymBool → Option SymBool → Bool
  | some ptr, some other_ptr => SymBoolAbstract.equals bv arr ptr other_ptr
  | none, none => true
  | _, _ => false

/-- The terms built from `_true`, `_false`, `var` and the operators `!`, `&`, `|`, `^`,
`==` and `implies` of `SymBool`. -/
def SymBool.propositional : SymBool → Bool
  | ._true => true
  | ._false => true
  | .var _ => true
  | .not a => a.propositional
  | .and a b => a.propositional && b.propositional
  | .or a b => a.propositional && b.propositional
  | .xor a b => a.propositional && b.propositional
  | .iff a b => a.propositional && b.propositional
  | .implies a b => a.propositional && b.propositional
  | _ => false

/-! ## The obligation checker (`src/validator/smt_obligation_checker.cc`)

`SmtObligationChecker::check` is glue between collaborators whose sources are not part of
the repository sources at hand (the instruction handlers, the invariant classes, the
path unroller, the sandbox, the state generator, the model queries of the solver).  They
are parameters of the embedding, gathered in `SmtObligationChecker.Externals`; `check`
itself, `build_circuit`, `get_jump_inv`, `check_counterexample`, `return_error` and
`generate_arm_testcases` are translated from the source.

* A call of the callback appends the result to the list `Run.callbacks`.
* The caller's `assume` and `prove` are objects behind shared pointers which `check`
  modifies in place; the embedding returns them as they are after the call.
* A failed `assert`, an uncaught exception and undefined behaviour (a null pointer
  dereferenced, a `static_cast` to a class the object does not have) end the call
  without a return: `check` yields an `Abort` then.
* Timings, the version string and the solver and strategy tags of a result are not
  modelled. -/

/-- Register sets (`x64asm::RegSet`), by their bit mask. -/
abbrev RegSet := Nat

/-- The attributes of an `x64asm::Instruction` that the validators read: `text` is what
`operator<<` prints, `att` the AT&T name of the opcode (`opcode_write_att`), `mem_index`
the index register of the memory operand when `contains_index()` holds. -/
structure Instruction where
  text : String
  att : String
  is_jcc : Bool
  is_label_defn : Bool
  is_nop : Bool
  is_any_jump : Bool
  is_ret : Bool
  is_memory_dereference : Bool
  is_explicit_memory_dereference : Bool
  mem_index : Option Nat
deriving DecidableEq, Repr

/-- Instruction sequences (`x64asm::Code`). -/
abbrev Code := List Instruction

/-- The values of `ErrorCode` that the checker assigns or tests. -/
inductive ErrorCode where
  | NORMAL | SIGBUS_ | SIGFPE_ | SIGSEGV_
deriving DecidableEq, Repr

/-- A concrete machine state (`CpuState`): its error code, register files and the bytes
of its memory.  `operator==` compares all of them. -/
structure CpuState where
  code : ErrorCode
  gp : List Nat
  sse : List Nat
  rf : List Bool
  memory : List (Nat × Nat)
deriving DecidableEq, Repr

/-- A default-constructed `CpuState`. -/
def CpuState.init : CpuState := { code := .NORMAL, gp := [], sse := [], rf := [], memory := [] }

/-- The members of a `LineInfo` that the checker reads. -/
structure LineInfo where
  deref : DereferenceInfo
  rip_offset : Nat
deriving DecidableEq, Repr

/-- A `LineMap`, a `std::map<size_t, LineInfo>`. -/
abbrev LineMap := SMap LineInfo

/-- A path: the list of its basic blocks (`CfgPath`). -/
abbrev CfgPath := List Nat

/-- What the validators read from a control flow graph (`Cfg`): the code, the number of
instructions of a block, the index in the code of the `k`-th instruction of a block
(`get_index(loc_type(bb, k))`), and the registers defined on entry and live on exit. -/
structure Cfg where
  code : Code
  num_instrs : Nat → Nat
  get_index : Nat → Nat → Nat
  def_ins : RegSet
  live_outs : RegSet

/-- Modelled from the spec: the members of `FlatMemory` (`src/symstate/memory/flat.h`,
not among the sources) that the checker reads.  The spec describes the flat model as
"one monolithic symbolic array indexed by 64-bit address"; `heap_` is that array as the
accesses have left it (`get_variable()`), `start_variable_` the array before any access
(`get_start_variable()`) and `constraints_` what `get_constraints()` returns. -/
structure FlatMemory where
  separate_stack : Bool
  heap_ : SymArray
  start_variable_ : SymArray
  constraints_ : List SymBool

/-- The object behind the pointer `SymState::memory`, by its class. -/
inductive Memory where
  | null : Memory
  | flat (m : FlatMemory) : Memory
  | arm (m : ArmMemory) : Memory
  | trivial (m : TrivialMemory) : Memory

/-- The members of a symbolic state (`SymState`) that the checker touches: the general
purpose registers behind `operator[]`, the accumulated constraints, the memory model,
the dereference site set by `set_deref` and the instruction pointer. -/
structure SymState where
  regs : Nat → SymBitVector
  constraints : List SymBool
  memory : Memory
  deref : DereferenceInfo
  rip : SymBitVector

/-- The exception class `validator_error`. -/
structure validator_error where
  file : String
  line : Nat
  message : String
deriving DecidableEq, Repr

/-- What a call of a handler leaves behind: the state it has updated, its error message
(`error()`; `has_error()` holds when the message is not empty) and the counter of
temporaries. -/
structure HandlerResult where
  state : SymState
  error_ : String
  tmp_counter : Nat

/-- A handler (`Handler::build_circuit(instr, state)`); it may throw a `validator_error`. -/
abbrev stoke.Handler := Instruction → SymState → Nat → Except validator_error HandlerResult

/-- What a call of a filter leaves behind: the constraints it returns, the state, its
error message (`error()`; `has_error()` holds when the message is not empty) and the
counter of temporaries. -/
structure FilterResult where
  constraints : List SymBool
  state : SymState
  error_ : String
  tmp_counter : Nat

/-- A filter (`Filter::operator()(instr, state)`); the name `Filter` is taken by the
library, it lives in the namespace `stoke` of the source, as `Handler` does. -/
abbrev stoke.Filter := Instruction → SymState → Nat → Except validator_error FilterResult

/-- Model of `DefaultFilter::operator()` (`src/validator/filters/default.h`): clears the
error, runs the handler, records the handler's error and returns no constraint. -/
def DefaultFilter (handler_ : stoke.Handler) : stoke.Filter := fun instr state ctr =>
  match handler_ instr state ctr with
  | .error e => .error e
  | .ok r =>
    .ok { constraints := [], state := r.state,
          error_ := (if r.error_ ≠ "" then
            "Error building circuit for: " ++ instr.text ++ "." ++ "Handler says: " ++ r.error_
            else ""),
          tmp_counter := r.tmp_counter }

namespace ObligationChecker

/-- The alias strategies (`ObligationChecker::AliasStrategy`).  `check` tests for `FLAT`,
`ARM` and `DUMMY`; `other` stands for the remaining enumerators. -/
inductive AliasStrategy where
  | FLAT | ARM | DUMMY
  | other (n : Nat)
deriving DecidableEq, Repr

/-- The direction a path takes at the end of a block (`ObligationChecker::JumpType`). -/
inductive JumpType where
  | NONE | FALL_THROUGH | JUMP
deriving DecidableEq, Repr

/-- The members of `ObligationChecker::Result` that `check` assigns.  A counterexample
state is `none` in a result that `check` does not assign one to. -/
structure Result where
  verified : Bool
  has_ceg : Bool
  has_error : Bool
  error_message : String
  comments : String
  target_ceg : Option CpuState
  rewrite_ceg : Option CpuState
  target_final_ceg : Option CpuState
  rewrite_final_ceg : Option CpuState
deriving DecidableEq, Repr

end ObligationChecker

/-- An invariant that is not a `ConjunctionInvariant`: a `MemoryEqualityInvariant`, the
`TrueInvariant` and the `FlagInvariant` that `get_jump_inv` builds, or an object of
another class, which the checker does not look into. -/
inductive SimpleInvariant where
  | memory_equality (id : Nat)
  | _true
  | flag (jump_instr : Instruction) (is_rewrite : Bool) (is_fallthrough : Bool)
  | other (id : Nat)
deriving DecidableEq, Repr

/-- The object behind a `std::shared_ptr<Invariant>`: a `ConjunctionInvariant` with its
vector `invariants_`, or an invariant of another class.  The checker tests a conjunct
only for being a `MemoryEqualityInvariant`. -/
inductive Invariant where
  | simple (inv : SimpleInvariant)
  | conjunction (invariants_ : List SimpleInvariant)
deriving DecidableEq, Repr

/-- Model of `dynamic_pointer_cast<MemoryEqualityInvariant>(inv)` being non-null. -/
def SimpleInvariant.is_memequ : SimpleInvariant → Bool
  | .memory_equality _ => true
  | _ => false

/-- A location excluded from a memory equality (an element of
`get_excluded_locations()`). -/
structure Location where
  id : Nat
  is_rewrite : Bool
  size : Nat
deriving DecidableEq, Repr

/-- How a call ends that does not return: an uncaught `std::out_of_range`, a failed
`assert`, or undefined behaviour (a null pointer dereferenced, a `static_cast` to a class
the object does not have, a vector indexed past its end), or, in the ARM engine, a failed
`assert` or a flood fill that does not return. -/
inductive Abort where
  | out_of_range
  | assertion
  | null_pointer
  | bad_cast
  | bad_index
  | arm_no_return
  | arm_assertion (a : ArmMemory.Assertion)
deriving DecidableEq, Repr

/-- What leaves `build_circuit` other than a return: a `validator_error`, which `check`
catches, or the `std::out_of_range` of `line_info.at`, which it does not. -/
inductive Thrown where
  | validator (e : validator_error)
  | out_of_range
deriving DecidableEq, Repr

namespace SmtObligationChecker

/-- What `(*inv)(left, right, number)` leaves behind: the formula, the two states (an
invariant over memory reads through their memory models), the number and the counter of
temporaries. -/
structure Formula where
  b : SymBool
  left : SymState
  right : SymState
  number : Nat
  tmp_counter : Nat

/-- What a run of the sandbox under the data collector leaves behind: the traces of
`get_detailed_traces` (the states `cs` of their entries) and the output state
`*sb.get_output(0)`. -/
structure SandboxRun where
  traces : List (List CpuState)
  output : CpuState

/-- The collaborators of the checker, as functions. -/
structure Externals where
  /-- The constructor `SymState(name)`. -/
  new_state : String → SymState
  /-- The constructor `FlatMemory(separate_stack)`, which names its arrays with the
  counter of temporaries: the memory and the counter afterwards. -/
  new_flat : Bool → Nat → FlatMemory × Nat
  /-- The constructor `ArmMemory(separate_stack, solver)`, but for its solver. -/
  new_arm : Bool → Nat → ArmMemory × Nat
  /-- The symbolic `operator()` of the invariant classes. -/
  formula : Invariant → SymState → SymState → Nat → Nat → Formula
  /-- The concrete `check` of the invariant classes. -/
  check : Invariant → CpuState → CpuState → Bool
  /-- The member `get_dereference_map` of the invariant classes. -/
  get_dereference_map : Invariant → ArmMemory.DereferenceMap → CpuState → CpuState → Nat →
    ArmMemory.DereferenceMap × Nat
  /-- The member `get_excluded_locations` of `MemoryEqualityInvariant`. -/
  get_excluded_locations : Nat → List Location
  /-- The member `get_addr(state_t, state_r)` of an excluded location. -/
  location_addr : Location → SymState → SymState → SymBitVector
  /-- The member `get_excluded_addresses` of `MemoryEqualityInvariant`. -/
  get_excluded_addresses : Nat → SymState → SymState → List SymBitVector
  /-- The members `write` of `FlatMemory` and of `ArmMemory`. -/
  flat_write : FlatMemory → SymBitVector → SymBitVector → Nat → DereferenceInfo → FlatMemory
  arm_write : ArmMemory → SymBitVector → SymBitVector → Nat → DereferenceInfo → ArmMemory
  /-- The members `finalize_heap` and `get_variable` of `ArmMemory`. -/
  arm_finalize_heap : ArmMemory → ArmMemory
  arm_get_variable : ArmMemory → SymArray
  /-- The function `PathUnroller::generate_linemap`: line map and unrolled code. -/
  generate_linemap : Cfg → CfgPath → Bool → LineMap × Code
  /-- The function `ObligationChecker::is_jump(cfg, end_block, path, i)`. -/
  is_jump : Cfg → Nat → CfgPath → Nat → ObligationChecker.JumpType
  /-- The function `ConditionalHandler::condition_predicate(condition, state)`. -/
  condition_predicate : String → SymState → SymBool
  /-- The call `state.equality_constraints(final, RegSet::universe(), {})`, where
  `final` is `SymState(name)`. -/
  equality_constraints : SymState → String → List SymBool
  /-- The text of `solver_.get_error()` after a query. -/
  get_error : List SymBool → String
  /-- The function `state_from_model(name_suffix)`, reading the model of a query. -/
  state_from_model : List SymBool → String → CpuState
  /-- The function `build_testcase_from_array` on the model of a query, for one side and
  for the start (false) or the end (true) variables of the two memories: its result and
  the state it has filled in. -/
  build_testcase_from_array : List SymBool → CpuState → Memory → Memory → Bool → Bool →
    Bool × CpuState
  /-- A sandbox run of an unrolled code on a start state, as `check_counterexample`
  sets it up. -/
  run_sandbox : Code → RegSet → RegSet → LineMap → CpuState → SandboxRun
  /-- The traces of the checker's own sandbox, collected before each instruction. -/
  collect_traces : Code → LineMap → CpuState → List (List CpuState)
  /-- The member `get_addr(instr, rip_offset)` of a `CpuState`. -/
  get_addr : CpuState → Instruction → Nat → Nat
  /-- The call `StateGen::get(tc, cfg, true)`: the repaired test case when it succeeds. -/
  stategen_get : CpuState → Code → RegSet → RegSet → LineMap → Option CpuState

end SmtObligationChecker

/-- The members of a `SmtObligationChecker` that `check` reads.  The member `error_` is
assigned the empty string before `check` reads it; it is a local variable of the
embedding (`Build.error_`). -/
structure SmtObligationChecker where
  alias_strategy_ : ObligationChecker.AliasStrategy
  separate_stack_ : Bool
  check_counterexamples_ : Bool
  nacl_ : Bool
  solver_ : Solver
  filter_ : stoke.Filter

namespace SmtObligationChecker

/-- What a call of `check` leaves behind: the results passed to the callback, in order,
the caller's two invariants and the counter of temporaries. -/
structure Run where
  callbacks : List ObligationChecker.Result
  assume : Invariant
  prove : Invariant
  tmp_counter : Nat

/-- How `check` ends before its last statement: it returns, or the call is cut short. -/
inductive Exit where
  | returned (run : Run)
  | abort (a : Abort)

end SmtObligationChecker

namespace SmtObligationChecker

/-- Model of `callback(result, optional)`. -/
def callback (result : ObligationChecker.Result) (run : Run) : Run :=
  { run with callbacks := run.callbacks ++ [result] }

/-- Model of `return_error(callback, s, optional, smt_duration, gen_duration)`. -/
def return_error (s : String) (run : Run) : Run :=
  callback { verified := false, has_ceg := false, has_error := true, error_message := s,
             comments := "", target_ceg := none, rewrite_ceg := none,
             target_final_ceg := none, rewrite_final_ceg := none } run

/-- The variables of `build_circuit` that outlive one instruction: the state, the line
number, the member `error_` of the checker and the counter of temporaries. -/
structure Build where
  state : SymState
  line_no : Nat
  error_ : String
  tmp_counter : Nat

/-- The constraints that `build_circuit` adds under `nacl_` for an instruction whose
memory operand has an index register. -/
def nacl_constraints (nacl_ : Bool) (instr : Instruction) (state : SymState) : List SymBool :=
  if nacl_ && instr.is_explicit_memory_dereference then
    match instr.mem_index with
    | some index =>
      [SymBool.ge (state.regs index) (SymBitVector.constant 64 0x10),
       SymBool.le (state.regs index) (SymBitVector.constant 64 0xfffffff0)]
    | none => []
  else []

/-- The state that `build_circuit` hands to the filter: the dereference site and the
instruction pointer of the line are set, the constraints of `nacl_` added. -/
def before_filter (nacl_ : Bool) (instr : Instruction) (li : LineInfo) (state : SymState) :
    SymState :=
  let state1 := { state with deref := li.deref, rip := SymBitVector.constant 64 li.rip_offset }
  { state1 with constraints := state1.constraints ++ nacl_constraints nacl_ instr state1 }

/-- One turn of the loop of `build_circuit`, for the instruction `instr`.  The result is
the updated variables and whether the function returned (on a `ret`). -/
def build_instr (c : SmtObligationChecker) (ext : Externals) (jump : ObligationChecker.JumpType)
    (line_info : LineMap) (ignore_last_line : Bool) (instr : Instruction) (s : Build) :
    Except Thrown (Bool × Build) :=
  match line_info.find? s.line_no with
  | none => .error .out_of_range
  | some li =>
    let s1 := { s with line_no := s.line_no + 1 }
    if instr.is_jcc then
      if ignore_last_line then .ok (false, s1)
      else
        let constraint := ext.condition_predicate (instr.att.drop 1) s1.state
        match jump with
        | .JUMP =>
          .ok (false, { s1 with state :=
            { s1.state with constraints := s1.state.constraints ++ [constraint] } })
        | .FALL_THROUGH =>
          .ok (false, { s1 with state :=
            { s1.state with constraints := s1.state.constraints ++ [SymBool.not constraint] } })
        | .NONE => .ok (false, s1)
    else if instr.is_label_defn || instr.is_nop || instr.is_any_jump then .ok (false, s1)
    else if instr.is_ret then .ok (true, s1)
    else
      match c.filter_ instr (before_filter c.nacl_ instr li s1.state) s1.tmp_counter with
      | .error e => .error (.validator e)
      | .ok r =>
        .ok (false,
          { state := { r.state with constraints := r.state.constraints ++ r.constraints },
            line_no := s1.line_no,
            error_ := (if r.error_ ≠ "" then r.error_ else s1.error_),
            tmp_counter := r.tmp_counter })

/-- The loop of `build_circuit` over the instructions of a block. -/
def build_loop (c : SmtObligationChecker) (ext : Externals) (jump : ObligationChecker.JumpType)
    (line_info : LineMap) (ignore_last_line : Bool) : List Instruction → Build →
    Except Thrown Build
  | [], s => .ok s
  | instr :: rest, s =>
    match build_instr c ext jump line_info ignore_last_line instr s with
    | .error e => .error e
    | .ok (true, s1) => .ok s1
    | .ok (false, s1) => build_loop c ext jump line_info ignore_last_line rest s1

/-- The instructions of block `bb`: those at the indices `start_index` to `end_index - 1`
of the code (as many of them as the code has). -/
def block_instrs (cfg : Cfg) (bb : Nat) : List Instruction :=
  (cfg.code.drop (cfg.get_index bb 0)).take (cfg.num_instrs bb)

/-- Model of `build_circuit(cfg, bb, jump, state, line_no, line_info, ignore_last_line)`. -/
def build_circuit (c : SmtObligationChecker) (ext : Externals) (cfg : Cfg) (bb : Nat)
    (jump : ObligationChecker.JumpType) (s : Build) (line_info : LineMap)
    (ignore_last_line : Bool) : Except Thrown Build :=
  if cfg.num_instrs bb = 0 then .ok s
  else build_loop c ext jump line_info ignore_last_line (block_instrs cfg bb) s

/-- The loop `for (i = 0; i < P.size(); ++i) build_circuit(cfg, P[i], is_jump(cfg, block,
P, i), state, line_no, linemap, i == P.size() - 1)` of `check`, from index `i` on. -/
def build_path (c : SmtObligationChecker) (ext : Externals) (cfg : Cfg) (end_block : Nat)
    (P : CfgPath) (line_info : LineMap) : Nat → List Nat → Build → Except Thrown Build
  | _, [], s => .ok s
  | i, bb :: rest, s =>
    match build_circuit c ext cfg bb (ext.is_jump cfg end_block P i) s line_info
        (decide (i = P.length - 1)) with
    | .error e => .error e
    | .ok s1 => build_path c ext cfg end_block P line_info (i + 1) rest s1

/-- Model of `get_jump_inv(cfg, end_block, p, is_rewrite)`. -/
def get_jump_inv (ext : Externals) (cfg : Cfg) (end_block : Nat) (p : CfgPath)
    (is_rewrite : Bool) : Except Abort Invariant :=
  let jump_type := ext.is_jump cfg end_block p (p.length - 1)
  if jump_type = .NONE then .ok (.simple ._true)
  else
    let last_block := p.getD (p.length - 1) 0
    let instr_count := cfg.num_instrs last_block
    if instr_count = 0 then .error .assertion
    else
      match cfg.code[cfg.get_index last_block (instr_count - 1)]? with
      | none => .error .bad_index
      | some jump_instr =>
        if !jump_instr.is_jcc then .ok (.simple ._true)
        else .ok (.simple (.flag jump_instr is_rewrite (decide (jump_type = .FALL_THROUGH))))

end SmtObligationChecker

namespace SmtObligationChecker

/-- One turn of the loop `for (k = 0; k < 2; ++k)` of `check_counterexample`: the start
state is replayed in a sandbox; the result is the output state of the trace, or `none`
when the function returns false (the run did not end with code `NORMAL`, or its output
differs from the expected state). -/
def replay (ext : Externals) (program : Cfg) (unroll : Code) (linemap : LineMap)
    (start expected : CpuState) : Except Abort (Option CpuState) :=
  let run := ext.run_sandbox unroll program.def_ins program.live_outs linemap start
  match run.traces with
  | [] => .error .assertion
  | trace :: _ =>
    if run.output.code ≠ .NORMAL then .ok none
    else
      match trace.getLast? with
      | none => .error .bad_index
      | some output => if output ≠ expected then .ok none else .ok (some output)

/-- Model of `check_counterexample`.  When the start states fail `assume`, the source
prints the failing conjuncts through `dynamic_pointer_cast<ConjunctionInvariant>(assume)`
without testing the pointer it gets. -/
def check_counterexample (ext : Externals) (target rewrite : Cfg)
    (target_unroll rewrite_unroll : Code) (target_linemap rewrite_linemap : LineMap)
    (assume prove : Invariant) (ceg_t ceg_r ceg_t_expected ceg_r_expected : CpuState) :
    Except Abort Bool :=
  match replay ext target target_unroll target_linemap ceg_t ceg_t_expected with
  | .error a => .error a
  | .ok none => .ok false
  | .ok (some target_output) =>
    match replay ext rewrite rewrite_unroll rewrite_linemap ceg_r ceg_r_expected with
    | .error a => .error a
    | .ok none => .ok false
    | .ok (some rewrite_output) =>
      if !ext.check assume ceg_t ceg_r then
        match assume with
        | .conjunction _ => .ok false
        | .simple _ => .error .null_pointer
      else if ext.check prove target_output rewrite_output then .ok false
      else .ok true

/-- Model of `generate_arm_testcases`: the test cases after the call.  The states and
flat memories it builds are its own; `my_assume` is a clone of `assume`. -/
def generate_arm_testcases (c : SmtObligationChecker) (ext : Externals) (target rewrite : Cfg)
    (target_unroll rewrite_unroll : Code) (target_linemap rewrite_linemap : LineMap)
    (separate_stack : Bool) (assume : Invariant) (testcases : List (CpuState × CpuState))
    (ctr : Nat) : List (CpuState × CpuState) × Nat :=
  let target_flat := ext.new_flat separate_stack ctr
  let rewrite_flat := ext.new_flat separate_stack target_flat.2
  let state_t := { ext.new_state "1" with memory := .flat target_flat.1 }
  let state_r := { ext.new_state "2" with memory := .flat rewrite_flat.1 }
  let f := ext.formula assume state_t state_r 0 rewrite_flat.2
  let query := [f.b]
  let assumption_sat := (c.solver_ query).is_sat
  if (c.solver_ query).has_error || !assumption_sat then (testcases, f.tmp_counter)
  else
    let target_tc := (ext.build_testcase_from_array query (ext.state_from_model query "_1")
      f.left.memory f.right.memory false false).2
    let rewrite_tc := (ext.build_testcase_from_array query (ext.state_from_model query "_2")
      f.left.memory f.right.memory true false).2
    match ext.stategen_get target_tc target_unroll target.def_ins target.live_outs
        target_linemap with
    | none => (testcases, f.tmp_counter)
    | some target_tc1 =>
      match ext.stategen_get rewrite_tc rewrite_unroll rewrite.def_ins rewrite.live_outs
          rewrite_linemap with
      | none => (testcases, f.tmp_counter)
      | some rewrite_tc1 => (testcases ++ [(target_tc1, rewrite_tc1)], f.tmp_counter)

/-- Model of the virtual call `state.memory->write(address, value, size, info)`. -/
def memory_write (ext : Externals) (memory : Memory) (address value : SymBitVector) (size : Nat)
    (info : DereferenceInfo) : Except Abort Memory :=
  match memory with
  | .null => .error .null_pointer
  | .flat m => .ok (.flat (ext.flat_write m address value size info))
  | .arm m => .ok (.arm (ext.arm_write m address value size info))
  | .trivial m => .ok (.trivial (m.write address value size info).2)

end SmtObligationChecker

namespace SmtObligationChecker

/-- The arguments of a call of `check`, but for the callback. -/
structure Obligation where
  target : Cfg
  rewrite : Cfg
  target_block : Nat
  rewrite_block : Nat
  P : CfgPath
  Q : CfgPath
  assume : Invariant
  prove : Invariant
  given_testcases : List (CpuState × CpuState)
  override_separate_stack : Bool

/-- The local variables of `check` that are live once the assumption has been translated
(line 647 of the source). -/
structure Assumed where
  constraints : List SymBool
  state_t : SymState
  state_r : SymState
  assume : Invariant
  assumption : SymBool
  invariant_lineno : Nat
  tmp_counter : Nat

/-- The memory model that `check` allocates for a state, by the alias strategy; with
another strategy the state keeps the memory its constructor gave it. -/
def new_memory (c : SmtObligationChecker) (ext : Externals) (separate_stack : Bool)
    (state : SymState) (ctr : Nat) : SymState × Nat :=
  match c.alias_strategy_ with
  | .FLAT =>
    ({ state with memory := .flat (ext.new_flat separate_stack ctr).1 },
     (ext.new_flat separate_stack ctr).2)
  | .ARM =>
    let arm : ArmMemory := { (ext.new_arm separate_stack ctr).1 with solver_ := c.solver_ }
    ({ state with memory := .arm arm }, (ext.new_arm separate_stack ctr).2)
  | .DUMMY => ({ state with memory := .trivial TrivialMemory.init }, ctr)
  | .other _ => (state, ctr)

/-- The first conjunct that is a `MemoryEqualityInvariant`: its index, counted from `i`,
and its identity. -/
def find_memequ : List SimpleInvariant → Nat → Option (Nat × Nat)
  | [], _ => none
  | .memory_equality id :: _, i => some (i, id)
  | _ :: rest, i => find_memequ rest (i + 1)

/-- One turn of the loop over the excluded locations of an assumed memory equality: a
write of a fresh value at the location, into the memory of its side. -/
def excluded_write (ext : Externals) (loc : Location) (s : Assumed) : Except Abort Assumed :=
  let di : DereferenceInfo :=
    { is_rewrite := loc.is_rewrite, is_invariant := true, implicit_dereference := false,
      line_number := 2 ^ 64 - 1, invariant_number := s.invariant_lineno }
  let var_addr := ext.location_addr loc s.state_t s.state_r
  let var_value := SymBitVector.tmp_var (loc.size * 8) s.tmp_counter
  let s1 := { s with invariant_lineno := s.invariant_lineno + 1,
                     tmp_counter := s.tmp_counter + 1 }
  if loc.is_rewrite then
    match memory_write ext s.state_r.memory var_addr var_value (loc.size * 8 % 2 ^ 16) di with
    | .error a => .error a
    | .ok m => .ok { s1 with state_r := { s.state_r with memory := m } }
  else
    match memory_write ext s.state_t.memory var_addr var_value (loc.size * 8 % 2 ^ 16) di with
    | .error a => .error a
    | .ok m => .ok { s1 with state_t := { s.state_t with memory := m } }

/-- The loop over the excluded locations. -/
def excluded_writes (ext : Externals) : List Location → Assumed → Except Abort Assumed
  | [], s => .ok s
  | loc :: rest, s =>
    match excluded_write ext loc s with
    | .error a => .error a
    | .ok s1 => excluded_writes ext rest s1

/-- Lines 610 to 642 of `check`: when `assume` is a conjunction with a memory equality
among its conjuncts, the first of them is translated on its own, its excluded locations
are written to, and it is removed from the caller's conjunction (`remove(i)` erases the
element at index `i`, as the member of that name of `DisjunctionInvariant` does). -/
def assume_memequ (ext : Externals) (s : Assumed) : Except Abort Assumed :=
  match s.assume with
  | .simple _ => .ok s
  | .conjunction invariants_ =>
    match find_memequ invariants_ 0 with
    | none => .ok s
    | some (i, id) =>
      let f := ext.formula (.simple (.memory_equality id)) s.state_t s.state_r
        s.invariant_lineno s.tmp_counter
      let s1 := { s with constraints := s.constraints ++ [f.b], state_t := f.left,
                         state_r := f.right, invariant_lineno := f.number,
                         tmp_counter := f.tmp_counter }
      match excluded_writes ext (ext.get_excluded_locations id) s1 with
      | .error a => .error a
      | .ok s2 => .ok { s2 with assume := .conjunction (invariants_.eraseIdx i) }

/-- Lines 573 to 647 of `check`: the states and their memories, the memory equality of
the assumption and the assumption. -/
def check_assume (c : SmtObligationChecker) (ext : Externals) (o : Obligation) (ctr : Nat) :
    Except Abort Assumed :=
  let separate_stack := c.separate_stack_ || o.override_separate_stack
  let t := new_memory c ext separate_stack (ext.new_state "1_INIT") ctr
  let r := new_memory c ext separate_stack (ext.new_state "2_INIT") t.2
  let s0 : Assumed :=
    { constraints := [], state_t := t.1, state_r := r.1,
      assume := o.assume, assumption := SymBool._true, invariant_lineno := 0,
      tmp_counter := r.2 }
  match assume_memequ ext s0 with
  | .error a => .error a
  | .ok s1 =>
    let f := ext.formula s1.assume s1.state_t s1.state_r s1.invariant_lineno s1.tmp_counter
    .ok { s1 with constraints := s1.constraints ++ [f.b], state_t := f.left,
                  state_r := f.right, assumption := f.b,
                  invariant_lineno := f.number + 1, tmp_counter := f.tmp_counter }

end SmtObligationChecker

namespace SmtObligationChecker

/-- The local variables of `check` that are live once the circuits are built and their
constraints gathered (line 705 of the source). -/
structure Circuit where
  constraints : List SymBool
  state_t : SymState
  state_r : SymState
  assume : Invariant
  assumption : SymBool
  invariant_lineno : Nat
  target_linemap : LineMap
  rewrite_linemap : LineMap
  target_unroll : Code
  rewrite_unroll : Code
  tmp_counter : Nat

/-- The message that the `catch` clause of `check` builds from a `validator_error`. -/
def error_text (e : validator_error) : String :=
  e.file ++ ":" ++ toString e.line ++ ": " ++ e.message

/-- Lines 680 to 694 of `check`: the constraint of the last jump of a path, appended to
`constraints`.  Both state arguments of the invariant are the state of the path. -/
def last_jump (ext : Externals) (cfg : Cfg) (end_block : Nat) (p : CfgPath) (is_rewrite : Bool)
    (invariant_lineno : Nat) (constraints : List SymBool) (state : SymState) (ctr : Nat) :
    Except Abort (List SymBool × SymState × Nat) :=
  if p.length > 0 then
    match get_jump_inv ext cfg end_block p is_rewrite with
    | .error a => .error a
    | .ok ji =>
      let f := ext.formula ji state state invariant_lineno ctr
      .ok (constraints ++ [f.b], f.left, f.tmp_counter)
  else .ok (constraints, state, ctr)

/-- Lines 532 to 705 of `check`: up to the constraints of the two circuits.  The call
returns early, with an error result, when a `validator_error` is caught or when the
filter has reported an error. -/
def check_circuit (c : SmtObligationChecker) (ext : Externals) (o : Obligation) (ctr : Nat) :
    Except Exit Circuit :=
  match check_assume c ext o ctr with
  | .error a => .error (.abort a)
  | .ok s =>
    let target_lines := ext.generate_linemap o.target o.P false
    let rewrite_lines := ext.generate_linemap o.rewrite o.Q true
    let run : Run := { callbacks := [], assume := s.assume, prove := o.prove,
                       tmp_counter := s.tmp_counter }
    match build_path c ext o.target o.target_block o.P target_lines.1 0 o.P
        { state := s.state_t, line_no := 0, error_ := "", tmp_counter := s.tmp_counter } with
    | .error (.validator e) => .error (.returned (return_error (error_text e) run))
    | .error .out_of_range => .error (.abort .out_of_range)
    | .ok bt =>
      match build_path c ext o.rewrite o.rewrite_block o.Q rewrite_lines.1 0 o.Q
          { state := s.state_r, line_no := 0, error_ := bt.error_,
            tmp_counter := bt.tmp_counter } with
      | .error (.validator e) => .error (.returned (return_error (error_text e) run))
      | .error .out_of_range => .error (.abort .out_of_range)
      | .ok br =>
        match last_jump ext o.target o.target_block o.P false s.invariant_lineno
            s.constraints bt.state br.tmp_counter with
        | .error a => .error (.abort a)
        | .ok (constraints1, state_t, ctr1) =>
          match last_jump ext o.rewrite o.rewrite_block o.Q true s.invariant_lineno
              constraints1 br.state ctr1 with
          | .error a => .error (.abort a)
          | .ok (constraints2, state_r, ctr2) =>
            if br.error_ ≠ "" then
              .error (.returned (return_error br.error_ { run with tmp_counter := ctr2 }))
            else
              .ok { constraints := constraints2 ++ state_t.constraints ++ state_r.constraints,
                    state_t := state_t, state_r := state_r, assume := s.assume,
                    assumption := s.assumption, invariant_lineno := s.invariant_lineno,
                    target_linemap := target_lines.1, rewrite_linemap := rewrite_lines.1,
                    target_unroll := target_lines.2, rewrite_unroll := rewrite_lines.2,
                    tmp_counter := ctr2 }

/-- The result that `check` delivers when the obligation is proved; `comments` is the
remark of the short cut, empty elsewhere. -/
def verified_result (comments : String) : ObligationChecker.Result :=
  { verified := true, has_ceg := false, has_error := false, error_message := "",
    comments := comments, target_ceg := none, rewrite_ceg := none,
    target_final_ceg := none, rewrite_final_ceg := none }

/-- Lines 707 to 736 of `check`: without test cases the constraints gathered so far are
sent to the solver, and the call returns a proof when they are unsatisfiable. -/
def check_shortcut (c : SmtObligationChecker) (o : Obligation) (k : Circuit) :
    Except Exit Unit :=
  if o.given_testcases.length = 0 then
    if !(c.solver_ k.constraints).is_sat && !(c.solver_ k.constraints).has_error then
      .error (.returned (callback (verified_result "No memory short circuit")
        { callbacks := [], assume := k.assume, prove := o.prove,
          tmp_counter := k.tmp_counter }))
    else .ok ()
  else .ok ()

end SmtObligationChecker

namespace SmtObligationChecker

/-- Lines 739 to 753 of `check`: the conjuncts to prove, the memory equality taken out of
them, if any, and the caller's `prove` afterwards.  When `prove` is a conjunction,
`prove_conj` is the caller's object and the removal shows in it; otherwise `prove_conj`
is a new conjunction of the single invariant `prove`. -/
def prove_conjuncts (prove : Invariant) : List SimpleInvariant × Option Nat × Invariant :=
  match prove with
  | .conjunction invariants_ =>
    match find_memequ invariants_ 0 with
    | none => (invariants_, none, prove)
    | some (i, id) => (invariants_.eraseIdx i, some id, .conjunction (invariants_.eraseIdx i))
  | .simple inv =>
    match find_memequ [inv] 0 with
    | none => ([inv], none, prove)
    | some (i, id) => ([inv].eraseIdx i, some id, prove)

/-- Model of `deref_map[dri] = addr`. -/
def deref_set (deref_map : ArmMemory.DereferenceMap) (dri : DereferenceInfo) (addr : Nat) :
    ArmMemory.DereferenceMap :=
  fun d => if d = dri then some addr else deref_map d

/-- A default-constructed `DereferenceInfo`, what `linemap[i]` holds for an absent key. -/
def default_deref : DereferenceInfo :=
  { is_rewrite := false, is_invariant := false, implicit_dereference := false,
    line_number := 0, invariant_number := 0 }

/-- The loop `for (i = 0; i < traces[0].size(); ++i)` of lines 829 to 845, from index `i`
on: the addresses of the dereferences of the unrolled code, as the trace has them, and
the last state of the trace. -/
def code_dereferences (ext : Externals) (unroll_code : Code) (linemap : LineMap) :
    Nat → List CpuState → ArmMemory.DereferenceMap × CpuState →
    Except Abort (ArmMemory.DereferenceMap × CpuState)
  | _, [], acc => .ok acc
  | i, cs :: rest, acc =>
    match unroll_code[i]? with
    | none => .error .bad_index
    | some instr =>
      let li := linemap.getD i { deref := default_deref, rip_offset := 0 }
      let deref_map :=
        if instr.is_memory_dereference then
          deref_set acc.1 li.deref (ext.get_addr cs instr li.rip_offset)
        else acc.1
      code_dereferences ext unroll_code linemap (i + 1) rest (deref_map, cs)

/-- One turn of the loop `for (k = 0; k < 2; ++k)` of lines 804 to 846. -/
def side_dereferences (ext : Externals) (unroll_code : Code) (linemap : LineMap)
    (testcase : CpuState) (deref_map : ArmMemory.DereferenceMap) :
    Except Abort (ArmMemory.DereferenceMap × CpuState) :=
  if linemap.length + 1 ≠ unroll_code.length then .error .assertion
  else
    match ext.collect_traces unroll_code linemap testcase with
    | [] => .error .bad_index
    | trace :: _ => code_dereferences ext unroll_code linemap 0 trace (deref_map, CpuState.init)

/-- Lines 767 to 855 of `check`: the dereference maps handed to the ARM engine, one map
built from the first test case. -/
def dereference_maps (ext : Externals) (assume prove : Invariant) (invariant_lineno : Nat)
    (target_unroll rewrite_unroll : Code) (target_linemap rewrite_linemap : LineMap)
    (testcases : List (CpuState × CpuState)) : Except Abort (List ArmMemory.DereferenceMap) :=
  match testcases with
  | [] => .ok []
  | tc_pair :: _ =>
    let m1 := ext.get_dereference_map assume (fun _ => none) tc_pair.1 tc_pair.2 0
    let m2 := ext.get_dereference_map prove m1.1 tc_pair.1 tc_pair.2 m1.2
    match side_dereferences ext target_unroll target_linemap tc_pair.1 m2.1 with
    | .error a => .error a
    | .ok (m3, last_target) =>
      match side_dereferences ext rewrite_unroll rewrite_linemap tc_pair.2 m3 with
      | .error a => .error a
      | .ok (m4, last_rewrite) =>
        .ok [(ext.get_dereference_map prove m4 last_target last_rewrite invariant_lineno).1]

/-- Model of `static_cast<ArmMemory*>(state.memory)`. -/
def as_arm (memory : Memory) : Except Abort ArmMemory :=
  match memory with
  | .arm m => .ok m
  | _ => .error .bad_cast

/-- Model of `static_cast<FlatMemory*>(state.memory)`. -/
def as_flat (memory : Memory) : Except Abort FlatMemory :=
  match memory with
  | .flat m => .ok m
  | _ => .error .bad_cast

/-- The heap read at lines 927 to 930: `get_variable()` of the memory, taken for an
`ArmMemory` under the ARM strategy and for a `FlatMemory` otherwise. -/
def get_variable (ext : Externals) (arm_model : Bool) (memory : Memory) :
    Except Abort SymArray :=
  if arm_model then
    match as_arm memory with
    | .error a => .error a
    | .ok m => .ok (ext.arm_get_variable m)
  else
    match as_flat memory with
    | .error a => .error a
    | .ok m => .ok m.heap_

/-- Lines 932 to 951 of `check`: the constraint that the memories differ or the rest of
`prove` fails, and the counter of temporaries. -/
def prove_memequ_constraint (excluded_badaddrs : List SymBitVector)
    (target_heap rewrite_heap : SymArray) (prove_part2 : SymBool) (ctr : Nat) : SymBool × Nat :=
  if excluded_badaddrs.length ≠ 0 then
    let badaddr := SymBitVector.tmp_var 64 ctr
    let is_badaddr := excluded_badaddrs.foldl
      (fun acc it => SymBool.and acc (SymBool.not (SymBool.eq it badaddr))) SymBool._true
    let target_read := SymBitVector.select target_heap badaddr
    let rewrite_read := SymBitVector.select rewrite_heap badaddr
    let is_badaddr1 := SymBool.and is_badaddr (SymBool.not (SymBool.eq target_read rewrite_read))
    let prove_part1 := SymBool.or SymBool._false is_badaddr1
    (SymBool.or prove_part1 prove_part2, ctr + 1)
  else
    (SymBool.or (SymBool.not (SymBool.array_eq target_heap rewrite_heap)) prove_part2, ctr)

end SmtObligationChecker

namespace SmtObligationChecker

/-- The local variables of `check` that are live when the final query is made (line 972
of the source). -/
structure Query where
  constraints : List SymBool
  state_t : SymState
  state_r : SymState
  assume : Invariant
  prove : Invariant
  target_linemap : LineMap
  rewrite_linemap : LineMap
  target_unroll : Code
  rewrite_unroll : Code
  tmp_counter : Nat

/-- Lines 876 to 921 of `check`: the constraints of the memory models are appended.  Under
the ARM strategy the engine runs on the assumption alone; the call returns a proof when
the engine finds the assumption unsatisfiable. -/
def memory_constraints (c : SmtObligationChecker) (k : Circuit)
    (prove : Invariant) (deref_maps : List ArmMemory.DereferenceMap)
    (constraints : List SymBool) (state_t state_r : SymState) (ctr : Nat) :
    Except Exit (List SymBool × SymState × SymState × Nat) :=
  match c.alias_strategy_ with
  | .FLAT =>
    match as_flat state_t.memory, as_flat state_r.memory with
    | .ok target_flat, .ok rewrite_flat =>
      .ok (constraints ++ target_flat.constraints_ ++ rewrite_flat.constraints_,
           state_t, state_r, ctr)
    | _, _ => .error (.abort .bad_cast)
  | .ARM =>
    match as_arm state_t.memory, as_arm state_r.memory with
    | .ok target_arm, .ok rewrite_arm =>
      match ArmMemory.generate_constraints target_arm rewrite_arm [k.assumption] deref_maps
          ctr with
      | .error a => .error (.abort (.arm_assertion a))
      | .ok none => .error (.abort .arm_no_return)
      | .ok (some g) =>
        if !g.sat then
          .error (.returned (callback (verified_result "")
            { callbacks := [], assume := k.assume, prove := prove,
              tmp_counter := g.tmp_counter }))
        else
          .ok (constraints ++ g.mem.constraints_ ++ g.other.constraints_,
               { state_t with memory := .arm g.mem }, { state_r with memory := .arm g.other },
               g.tmp_counter)
    | _, _ => .error (.abort .bad_cast)
  | _ => .ok (constraints, state_t, state_r, ctr)

/-- Model of `finalize_heap()` on the memory of a state, under the ARM strategy. -/
def finalize (ext : Externals) (state : SymState) : Except Abort SymState :=
  match as_arm state.memory with
  | .error a => .error a
  | .ok m => .ok { state with memory := .arm (ext.arm_finalize_heap m) }

/-- Lines 923 to 954 of `check`: the negated `prove` is appended. -/
def prove_constraint (c : SmtObligationChecker) (ext : Externals) (prove_memequ : Option Nat)
    (prove_part2 : SymBool) (constraints : List SymBool) (state_t state_r : SymState)
    (ctr : Nat) : Except Abort (List SymBool × Nat) :=
  match prove_memequ with
  | none => .ok (constraints ++ [prove_part2], ctr)
  | some id =>
    let arm_model := decide (c.alias_strategy_ = .ARM)
    match get_variable ext arm_model state_t.memory,
          get_variable ext arm_model state_r.memory with
    | .ok target_heap, .ok rewrite_heap =>
      let r := prove_memequ_constraint (ext.get_excluded_addresses id state_t state_r)
        target_heap rewrite_heap prove_part2 ctr
      .ok (constraints ++ [r.1], r.2)
    | _, _ => .error .bad_cast

/-- Lines 739 to 971 of `check`: from the constraints of the circuits to the constraints
of the final query. -/
def check_memory (c : SmtObligationChecker) (ext : Externals) (o : Obligation) (k : Circuit) :
    Except Exit Query :=
  let arm_model := decide (c.alias_strategy_ = .ARM)
  let separate_stack := c.separate_stack_ || o.override_separate_stack
  let pc := prove_conjuncts o.prove
  let f := ext.formula (.conjunction pc.1) k.state_t k.state_r k.invariant_lineno k.tmp_counter
  let prove_part2 := SymBool.not f.b
  let tcs : List (CpuState × CpuState) × Nat :=
    if arm_model && decide (o.given_testcases.length = 0) then
      generate_arm_testcases c ext o.target o.rewrite k.target_unroll k.rewrite_unroll
        k.target_linemap k.rewrite_linemap separate_stack k.assume o.given_testcases
        f.tmp_counter
    else (o.given_testcases, f.tmp_counter)
  let arm_testcases := arm_model && decide (tcs.1.length > 0)
  let maps : Except Abort (List ArmMemory.DereferenceMap) :=
    if arm_testcases then
      dereference_maps ext k.assume pc.2.2 f.number k.target_unroll k.rewrite_unroll
        k.target_linemap k.rewrite_linemap tcs.1
    else .ok []
  let finals : Except Abort (SymState × SymState) :=
    if arm_model then
      match finalize ext f.left, finalize ext f.right with
      | .ok state_t, .ok state_r => .ok (state_t, state_r)
      | _, _ => .error .bad_cast
    else .ok (f.left, f.right)
  match maps, finals with
  | .error a, _ => .error (.abort a)
  | .ok _, .error a => .error (.abort a)
  | .ok deref_maps, .ok (state_t, state_r) =>
    let constraints1 := k.constraints ++ ext.equality_constraints state_t "1_FINAL"
      ++ ext.equality_constraints state_r "2_FINAL"
    match memory_constraints c k pc.2.2 deref_maps constraints1 state_t state_r tcs.2 with
    | .error e => .error e
    | .ok (constraints2, state_t1, state_r1, ctr1) =>
      match prove_constraint c ext pc.2.1 prove_part2 constraints2 state_t1 state_r1 ctr1 with
      | .error a => .error (.abort a)
      | .ok (constraints3, ctr2) =>
        .ok { constraints := constraints3, state_t := state_t1, state_r := state_r1,
              assume := k.assume, prove := pc.2.2,
              target_linemap := k.target_linemap, rewrite_linemap := k.rewrite_linemap,
              target_unroll := k.target_unroll, rewrite_unroll := k.rewrite_unroll,
              tmp_counter := ctr2 }

end SmtObligationChecker

namespace SmtObligationChecker

/-- The four states read from the model of the final query, with their memories filled
in where the strategy has a memory to read them from (lines 1003 to 1047), and whether
the memories of the two start states could be built. -/
structure Counterexample where
  ok : Bool
  ceg_t : CpuState
  ceg_r : CpuState
  ceg_tf : CpuState
  ceg_rf : CpuState

/-- Lines 1003 to 1047 of `check`. -/
def extract_counterexample (c : SmtObligationChecker) (ext : Externals) (q : Query) :
    Counterexample :=
  let ceg_t := ext.state_from_model q.constraints "_1_INIT"
  let ceg_r := ext.state_from_model q.constraints "_2_INIT"
  let ceg_tf := ext.state_from_model q.constraints "_1_FINAL"
  let ceg_rf := ext.state_from_model q.constraints "_2_FINAL"
  if c.alias_strategy_ = .FLAT ∨ c.alias_strategy_ = .ARM then
    let bt := ext.build_testcase_from_array q.constraints ceg_t q.state_t.memory
      q.state_r.memory false false
    let br := ext.build_testcase_from_array q.constraints ceg_r q.state_t.memory
      q.state_r.memory true false
    let btf := ext.build_testcase_from_array q.constraints ceg_tf q.state_t.memory
      q.state_r.memory false true
    let brf := ext.build_testcase_from_array q.constraints ceg_rf q.state_t.memory
      q.state_r.memory true true
    { ok := bt.1 && br.1, ceg_t := bt.2, ceg_r := br.2, ceg_tf := btf.2, ceg_rf := brf.2 }
  else { ok := true, ceg_t := ceg_t, ceg_r := ceg_r, ceg_tf := ceg_tf, ceg_rf := ceg_rf }

/-- Lines 972 to 1116 of `check`: the final query and the result delivered after it. -/
def check_solve (c : SmtObligationChecker) (ext : Externals) (o : Obligation) (q : Query) :
    Except Abort Run :=
  let run : Run := { callbacks := [], assume := q.assume, prove := q.prove,
                     tmp_counter := q.tmp_counter }
  let is_sat := (c.solver_ q.constraints).is_sat
  if (c.solver_ q.constraints).has_error then
    .ok (return_error ("solver: " ++ ext.get_error q.constraints) run)
  else if is_sat then
    let ceg := extract_counterexample c ext q
    let checked : Except Abort Bool :=
      if !c.check_counterexamples_ then .ok true
      else check_counterexample ext o.target o.rewrite q.target_unroll q.rewrite_unroll
        q.target_linemap q.rewrite_linemap q.assume q.prove ceg.ceg_t ceg.ceg_r ceg.ceg_tf
        ceg.ceg_rf
    match checked with
    | .error a => .error a
    | .ok good =>
      .ok (callback
        { verified := false, has_ceg := (if good then ceg.ok else false), has_error := false,
          error_message := "", comments := "", target_ceg := some ceg.ceg_t,
          rewrite_ceg := some ceg.ceg_r, target_final_ceg := some ceg.ceg_tf,
          rewrite_final_ceg := some ceg.ceg_rf } run)
  else .ok (callback (verified_result "") run)

/-- Model of `SmtObligationChecker::check`.  `ctr` is the counter of temporaries when the
call is made. -/
def check (c : SmtObligationChecker) (ext : Externals) (o : Obligation) (ctr : Nat) :
    Except Abort Run :=
  match check_circuit c ext o ctr with
  | .error (.returned run) => .ok run
  | .error (.abort a) => .error a
  | .ok k =>
    match check_shortcut c o k with
    | .error (.returned run) => .ok run
    | .error (.abort a) => .error a
    | .ok _ =>
      match check_memory c ext o k with
      | .error (.returned run) => .ok run
      | .error (.abort a) => .error a
      | .ok q => check_solve c ext o q

/-- The final query of a call of `check`: the variables live at line 972, when the call
gets there. -/
def final_query (c : SmtObligationChecker) (ext : Externals) (o : Obligation) (ctr : Nat) :
    Option Query :=
  match check_circuit c ext o ctr with
  | .error _ => none
  | .ok k =>
    match check_shortcut c o k with
    | .error _ => none
    | .ok _ =>
      match check_memory c ext o k with
      | .error _ => none
      | .ok q => some q

end SmtObligationChecker

/-- At most one of the flags `verified`, `has_ceg` and `has_error` of a result is set. -/
def ObligationChecker.Result.exclusive (r : ObligationChecker.Result) : Prop :=
  (r.verified = true → r.has_ceg = false ∧ r.has_error = false) ∧
  (r.has_ceg = true → r.verified = false ∧ r.has_error = false) ∧
  (r.has_error = true → r.verified = false ∧ r.has_ceg = false)

namespace SmtObligationChecker

/-- The callback was invoked exactly once, with a result of which at most one flag is
set. -/
def Run.delivered_once (run : Run) : Prop :=
  ∃ r, run.callbacks = [r] ∧ r.exclusive

/-- The start state replays in the sandbox: the run of the unrolled code ends with code
`NORMAL` and the last state of its trace is the expected state. -/
def replays (ext : Externals) (program : Cfg) (unroll : Code) (linemap : LineMap)
    (start expected : CpuState) : Prop :=
  (ext.run_sandbox unroll program.def_ins program.live_outs linemap start).output.code
      = ErrorCode.NORMAL ∧
  ∃ trace rest,
    (ext.run_sandbox unroll program.def_ins program.live_outs linemap start).traces
      = trace :: rest ∧
    trace.getLast? = some expected

/-- The counterexample read from the model of the final query is genuine: both start
states replay in the sandbox to the end states of the model, the start states satisfy
the invariant `assume` of the query and the end states violate its invariant `prove`. -/
def genuine (ext : Externals) (o : Obligation) (q : Query) (ceg : Counterexample) : Prop :=
  replays ext o.target q.target_unroll q.target_linemap ceg.ceg_t ceg.ceg_tf ∧
  replays ext o.rewrite q.rewrite_unroll q.rewrite_linemap ceg.ceg_r ceg.ceg_rf ∧
  ext.check q.assume ceg.ceg_t ceg.ceg_r = true ∧
  ext.check q.prove ceg.ceg_tf ceg.ceg_rf = false

end SmtObligationChecker

/-! ## The bounded validator (`src/validator/bounded.cc`) -/

/-- The members of a `BoundedValidator` that `verify` touches: the error flag and message,
the bound, and the paths enumerated for the target (`paths_[false]`) and for the rewrite
(`paths_[true]`).  `world` stands for everything else that the collaborators of `verify`
can change (the sandbox, the paths learnt from the test cases, the solver). -/
structure BoundedValidator (σ : Type) where
  has_error_ : Bool
  error_ : String
  bound_ : Nat
  paths_false : List CfgPath
  paths_true : List CfgPath
  world : σ

namespace BoundedValidator

/-- The functions that `verify` calls and whose sources are not at hand or depend on the
sandbox: `is_supported` of the validator, the set of registers that
`Handler::regset_is_supported` builds from constants of the assembler library,
`PathEnumerator::find_paths`, `learn_paths` and `verify_pair`. -/
structure Externals (σ : Type) where
  is_supported : Instruction → Bool
  supported : RegSet
  find_paths : Cfg → Nat → List CfgPath
  learn_paths : Cfg → Bool → BoundedValidator σ → BoundedValidator σ
  verify_pair : Cfg → Cfg → CfgPath → CfgPath → BoundedValidator σ → Bool × BoundedValidator σ

/-- Modelled from the spec: the macro `SET_ERROR`, defined in a header that is not among
the sources.  The test `UnsupportedInstruction` expects `has_error()` to hold and
`error()` to be the message after a `verify` that went through it, which is also what
the `catch` clause of `verify_pair` does by hand: the flag is set and the message
stored. -/
def SET_ERROR {σ : Type} (message : String) (v : BoundedValidator σ) : BoundedValidator σ :=
  { v with has_error_ := true, error_ := message }

/-- Model of `Handler::regset_is_supported(rs)` (`src/validator/handler.cc`):
`(supported & rs) == rs`. -/
def regset_is_supported {σ : Type} (ext : Externals σ) (rs : RegSet) : Bool :=
  decide (ext.supported &&& rs = rs)

/-- The instructions that the first loop of `verify` tests: all but label definitions,
jumps and returns. -/
def needs_support (instr : Instruction) : Bool :=
  !(instr.is_label_defn || instr.is_any_jump || instr.is_ret)

/-- The loop of step 3 of `verify` over the rewrite paths, for one target path. -/
def verify_row {σ : Type} (ext : Externals σ) (target rewrite : Cfg) (target_path : CfgPath) :
    List CfgPath → Bool × BoundedValidator σ → Bool × BoundedValidator σ
  | [], acc => acc
  | rewrite_path :: rest, (ok, v) =>
    let r := ext.verify_pair target rewrite target_path rewrite_path v
    verify_row ext target rewrite target_path rest (ok && r.1, r.2)

/-- The loop of step 3 of `verify` over the target paths. -/
def verify_pairs {σ : Type} (ext : Externals σ) (target rewrite : Cfg)
    (rewrite_paths : List CfgPath) :
    List CfgPath → Bool × BoundedValidator σ → Bool × BoundedValidator σ
  | [], acc => acc
  | target_path :: rest, acc =>
    verify_pairs ext target rewrite rewrite_paths rest
      (verify_row ext target rewrite target_path rewrite_paths acc)

/-- Model of `BoundedValidator::verify(target, rewrite)`: the value returned and the
validator afterwards. -/
def verify {σ : Type} (ext : Externals σ) (target rewrite : Cfg) (v : BoundedValidator σ) :
    Bool × BoundedValidator σ :=
  let v0 := { v with has_error_ := false }
  match (target.code ++ rewrite.code).find?
      (fun instr => needs_support instr && !ext.is_supported instr) with
  | some instr => (false, SET_ERROR ("Instruction " ++ instr.text ++ " is unsupported.") v0)
  | none =>
    if target.def_ins ≠ rewrite.def_ins then
      (false, SET_ERROR "Target def-ins do not match rewrite def-ins" v0)
    else if target.live_outs ≠ target.live_outs then
      (false, SET_ERROR "Target live-outs do not match rewrite live-outs" v0)
    else if !regset_is_supported ext target.def_ins then
      (false, SET_ERROR "Def-ins are not supported" v0)
    else if !regset_is_supported ext target.live_outs then
      (false, SET_ERROR "Live outs are not supported" v0)
    else if !regset_is_supported ext rewrite.def_ins then
      (false, SET_ERROR "Def-ins are not supported" v0)
    else if !regset_is_supported ext rewrite.live_outs then
      (false, SET_ERROR "Live outs are not supported" v0)
    else
      let v1 := { v0 with
        paths_false := v0.paths_false ++ ext.find_paths target v0.bound_,
        paths_true := v0.paths_true ++ ext.find_paths rewrite v0.bound_ }
      let v2 := ext.learn_paths target false v1
      let v3 := ext.learn_paths rewrite true v2
      verify_pairs ext target rewrite v3.paths_true v3.paths_false (true, v3)

end BoundedValidator

/-! ### Small concrete programs and validators -/

/-- An instruction with the printed form `text` that is no jump, label, `nop` or
return and dereferences no memory. -/
def Instruction.plain (text : String) : Instruction :=
  { text := text, att := text, is_jcc := false, is_label_defn := false, is_nop := false,
    is_any_jump := false, is_ret := false, is_memory_dereference := false,
    is_explicit_memory_dereference := false, mem_index := none }

/-- The instruction `retq`. -/
def Instruction.retq : Instruction :=
  { Instruction.plain "retq" with is_ret := true }

/-- A control flow graph with the single block 0 holding `code`. -/
def Cfg.single (code : Code) (def_ins live_outs : RegSet) : Cfg :=
  { code := code, num_instrs := fun _ => code.length, get_index := fun _ k => k,
    def_ins := def_ins, live_outs := live_outs }

namespace BoundedValidator

/-- Collaborators of `verify` for the examples: every instruction but `cpuid` is
supported, the registers 0 and 1 are supported, each program has the one path through
block 0, and `verify_pair` proves every pair and counts its calls in `world`. -/
def sample_ext : Externals Nat :=
  { is_supported := fun instr => decide (instr.text ≠ "cpuid"),
    supported := 3,
    find_paths := fun _ _ => [[0]],
    learn_paths := fun _ _ v => v,
    verify_pair := fun _ _ _ _ v => (true, { v with world := v.world + 1 }) }

/-- A validator that has not run yet. -/
def fresh : BoundedValidator Nat :=
  { has_error_ := false, error_ := "", bound_ := 2, paths_false := [], paths_true := [],
    world := 0 }

/-- The program `cpuid; retq`, of the test `UnsupportedInstruction`. -/
def cpuid_program : Cfg := Cfg.single [Instruction.plain "cpuid", Instruction.retq] 3 3

/-- The program `incq %rax; retq` with the given registers defined on entry and live on
exit. -/
def incq_program (def_ins live_outs : RegSet) : Cfg :=
  Cfg.single [Instruction.plain "incq %rax", Instruction.retq] def_ins live_outs

end BoundedValidator

namespace SmtObligationChecker

/-- Collaborators for the examples: the heap that a memory equality speaks about. -/
def sample_heap : Memory → SymArray
  | .flat m => m.heap_
  | .arm m => m.heap_
  | _ => SymArray.var "no_heap"

/-- Collaborators for the examples: the formula of an invariant that is not a
conjunction.  A memory equality says that the heaps of the two states are equal. -/
def sample_simple (left right : SymState) : SimpleInvariant → SymBool
  | .memory_equality _ => SymBool.array_eq (sample_heap left.memory) (sample_heap right.memory)
  | ._true => SymBool._true
  | .flag jump_instr _ is_fallthrough =>
    if is_fallthrough then SymBool.not (SymBool.var jump_instr.att)
    else SymBool.var jump_instr.att
  | .other id => SymBool.var ("invariant_" ++ toString id)

/-- Collaborators for the examples: `operator()` of the invariants.  A conjunction
starts from `true` and joins the formulas of its conjuncts with `&`, counting them, as
`DisjunctionInvariant` does with `false` and `|`. -/
def sample_formula (inv : Invariant) (left right : SymState) (number ctr : Nat) : Formula :=
  match inv with
  | .simple s =>
    { b := sample_simple left right s, left := left, right := right, number := number,
      tmp_counter := ctr }
  | .conjunction invariants_ =>
    { b := invariants_.foldl (fun b it => SymBool.and b (sample_simple left right it))
        SymBool._true,
      left := left, right := right, number := number + invariants_.length,
      tmp_counter := ctr }

/-- Collaborators for the examples: `check` of an invariant that is not a conjunction.
A memory equality compares the memories and the invariant `other 0` the general purpose
registers; the invariant `other 1` is about the contents of memory, it holds when the
target has a byte of memory; the rest hold of all states. -/
def sample_check_simple (target rewrite : CpuState) : SimpleInvariant → Bool
  | .memory_equality _ => decide (target.memory = rewrite.memory)
  | .other 0 => decide (target.gp = rewrite.gp)
  | .other 1 => decide (target.memory ≠ [])
  | _ => true

/-- Collaborators for the examples: `check` of the invariants. -/
def sample_check (inv : Invariant) (target rewrite : CpuState) : Bool :=
  match inv with
  | .simple s => sample_check_simple target rewrite s
  | .conjunction invariants_ => invariants_.all (sample_check_simple target rewrite)

/-- Collaborators for the examples: a handler that knows `incq %rax` (register 0 is
incremented) and reports an error for everything else. -/
def sample_handler : stoke.Handler := fun instr state ctr =>
  if instr.text = "incq %rax" then
    let regs : Nat → SymBitVector := fun r =>
      if r = 0 then SymBitVector.plus (state.regs 0) (SymBitVector.constant 64 1)
      else state.regs r
    .ok { state := { state with regs := regs }, error_ := "", tmp_counter := ctr }
  else .ok { state := state, error_ := "unsupported opcode", tmp_counter := ctr }

/-- Collaborators for the examples: the line map of a straight-line code, one entry for
each of the `n` lines below `n`. -/
def sample_linemap (is_rewrite : Bool) : Nat → LineMap
  | 0 => []
  | n + 1 =>
    sample_linemap is_rewrite n ++
      [(n, { deref := { default_deref with is_rewrite := is_rewrite, line_number := n },
             rip_offset := 0 })]

/-- Collaborators for the examples: an `ArmMemory` without accesses. -/
def sample_arm (ctr : Nat) : ArmMemory :=
  { accesses_ := [], all_accesses_ := [], cells_ := [], access_offsets_ := fun _ _ => none,
    heap_ := SymArray.var ("heap_" ++ toString ctr),
    start_variable_ := SymArray.var ("heap_" ++ toString ctr),
    final_heap_ := SymArray.var ("heap_" ++ toString ctr),
    constraints_ := [], unsound_ := false, stop_now_ := false,
    solver_ := fun _ => { is_sat := true, has_error := false } }

end SmtObligationChecker

namespace SmtObligationChecker

/-- Collaborators for the examples.  States are named after their suffix, memories after
the counter of temporaries; programs are straight-line code whose path is block 0; the
model of every query is the default state, which the sandbox leaves as it is. -/
def sample_ext : Externals :=
  { new_state := fun name =>
      { regs := fun r => SymBitVector.var 64 ("r" ++ toString r ++ "_" ++ name),
        constraints := [], memory := Memory.null, deref := default_deref,
        rip := SymBitVector.constant 64 0 },
    new_flat := fun separate_stack ctr =>
      ({ separate_stack := separate_stack, heap_ := SymArray.var ("heap_" ++ toString ctr),
         start_variable_ := SymArray.var ("heap_" ++ toString ctr), constraints_ := [] },
       ctr + 1),
    new_arm := fun _ ctr => (sample_arm ctr, ctr + 1),
    formula := sample_formula,
    check := sample_check,
    get_dereference_map := fun _ deref_map _ _ number => (deref_map, number),
    get_excluded_locations := fun _ => [],
    location_addr := fun _ _ _ => SymBitVector.constant 64 0,
    get_excluded_addresses := fun _ _ _ => [],
    flat_write := fun m address value _ _ =>
      { m with heap_ := SymArray.update m.heap_ address value },
    arm_write := fun m _ _ _ _ => m,
    arm_finalize_heap := fun m => m,
    arm_get_variable := fun m => m.heap_,
    generate_linemap := fun cfg _ is_rewrite =>
      (sample_linemap is_rewrite cfg.code.length, cfg.code),
    is_jump := fun _ _ _ _ => ObligationChecker.JumpType.NONE,
    condition_predicate := fun condition _ => SymBool.var condition,
    equality_constraints := fun _ _ => [],
    get_error := fun _ => "timeout",
    state_from_model := fun _ _ => CpuState.init,
    build_testcase_from_array := fun _ ceg _ _ _ _ => (true, ceg),
    run_sandbox := fun _ _ _ _ start => { traces := [[start]], output := start },
    collect_traces := fun _ _ testcase => [[testcase]],
    get_addr := fun _ _ _ => 0,
    stategen_get := fun tc _ _ _ _ => some tc }

/-- A checker for the examples: flat memory, counterexamples checked, the default filter
over the sample handler. -/
def sample_checker (solver : Solver) : SmtObligationChecker :=
  { alias_strategy_ := ObligationChecker.AliasStrategy.FLAT, separate_stack_ := false,
    check_counterexamples_ := true, nacl_ := false, solver_ := solver,
    filter_ := DefaultFilter sample_handler }

/-- An obligation for the examples: target and rewrite are the single block `code` with
the path through it, without test cases. -/
def sample_obligation (code : Code) (assume prove : Invariant) : Obligation :=
  { target := Cfg.single code 1 1, rewrite := Cfg.single code 1 1, target_block := 0,
    rewrite_block := 0, P := [0], Q := [0], assume := assume, prove := prove,
    given_testcases := [], override_separate_stack := false }

end SmtObligationChecker

namespace SmtObligationChecker

/-- The program `incq %rax; retq`. -/
def incq_code : Code := [Instruction.plain "incq %rax", Instruction.retq]

/-- An obligation whose `assume` is a single invariant over the contents of memory, not a
conjunction.  The invariant fails on the start states read from the model, which have
no memory. -/
def lone_assume (code : Code) : Obligation :=
  sample_obligation code (Invariant.simple (SimpleInvariant.other 1))
    (Invariant.simple (SimpleInvariant.other 0))

/-- The same obligation with the invariant as the only conjunct of a conjunction. -/
def conjunction_assume (code : Code) : Obligation :=
  sample_obligation code (Invariant.conjunction [SimpleInvariant.other 1])
    (Invariant.simple (SimpleInvariant.other 0))

/-- The result of a spurious counterexample whose four states are the default state. -/
def spurious : ObligationChecker.Result :=
  { verified := false, has_ceg := false, has_error := false, error_message := "",
    comments := "", target_ceg := some CpuState.init, rewrite_ceg := some CpuState.init,
    target_final_ceg := some CpuState.init, rewrite_final_ceg := some CpuState.init }

end SmtObligationChecker

namespace SmtObligationChecker

/-- A solver for the examples: it answers the queries of up to three constraints
"satisfiable" and ends every longer query, the final query of the examples, with the
error flag set, still answering "satisfiable". -/
def solver_late_error : Solver := fun cs =>
  if cs.length ≤ 3 then { is_sat := true, has_error := false }
  else { is_sat := true, has_error := true }

/-- The constraints that `solver_refute` refutes: `false`, and `(true & x) & !x` for a
variable `x`. -/
def refutable : SymBool → Bool
  | ._false => true
  | .and (.and ._true (.var x)) (.not (.var y)) => decide (x = y)
  | _ => false

/-- A solver for the examples: "unsatisfiable" for the queries with a constraint that
is refutable on its own, "satisfiable" for the others, never an error. -/
def solver_refute : Solver := fun cs =>
  { is_sat := !(cs.any refutable), has_error := false }

/-- The instruction `jz`, a conditional jump. -/
def jz : Instruction :=
  { Instruction.plain "jz" with is_jcc := true, is_any_jump := true }

/-- An obligation whose assumption contradicts itself: the flag tested by `jz` is
assumed set and assumed clear. -/
def contradictory_assume : Obligation :=
  sample_obligation incq_code
    (Invariant.conjunction [SimpleInvariant.flag jz false false, SimpleInvariant.flag jz false true])
    (Invariant.simple (SimpleInvariant.other 0))

end SmtObligationChecker

namespace SmtObligationChecker

/-- The program `cpuid; incq %rax; retq`; the sample handler reports an error for its
first instruction. -/
def cpuid_code : Code :=
  [Instruction.plain "cpuid", Instruction.plain "incq %rax", Instruction.retq]

/-- The variables of `build_circuit` when `check` starts on the target. -/
def sample_build : Build :=
  { state := sample_ext.new_state "1_INIT", line_no := 0, error_ := "", tmp_counter := 0 }

/-- The message of the default filter for the error of the sample handler on `cpuid`. -/
def cpuid_message : String :=
  "Error building circuit for: cpuid.Handler says: unsupported opcode"

/-- A constraint that says that two arrays are equal. -/
def heaps_equal : SymBool → Bool
  | .array_eq _ _ => true
  | _ => false

/-- A constraint of the form `!(a == b) | !true` for two arrays `a` and `b`. -/
def heaps_unequal : SymBool → Bool
  | .or (.not (.array_eq _ _)) (.not ._true) => true
  | _ => false

/-- A solver for the examples: "unsatisfiable" for the queries that contain both an
equality of two arrays and a constraint `!(a == b) | !true`, "satisfiable" for the
others, never an error. -/
def solver_heaps : Solver := fun cs =>
  { is_sat := !(cs.any heaps_equal && cs.any heaps_unequal), has_error := false }

/-- The obligation to prove the memories equal under the assumption that they are equal,
for the program `incq %rax; retq`: `assume` is a conjunction whose only conjunct is a
memory equality, `prove` is a memory equality. -/
def same_memory (assume : Invariant) : Obligation :=
  sample_obligation incq_code assume (Invariant.simple (SimpleInvariant.memory_equality 0))

/-- An assignment under which the heaps of the second call differ at address 0. -/
def heaps_differ : Env :=
  { bv := fun _ => 0, tmp := fun _ => 0,
    arr := fun name _ => if name = "heap_2" then 1 else 0, bool := fun _ => false }

end SmtObligationChecker

namespace SmtObligationChecker

/-- The constraints of the final query of the first call on `same_memory`. -/
def first_query : List SymBool :=
  [SymBool.array_eq (SymArray.var "heap_0") (SymArray.var "heap_1"), SymBool._true,
   SymBool._true, SymBool._true,
   SymBool.or (SymBool.not (SymBool.array_eq (SymArray.var "heap_0") (SymArray.var "heap_1")))
     (SymBool.not SymBool._true)]

/-- The constraints of the final query of the second call on `same_memory`. -/
def second_query : List SymBool :=
  [SymBool._true, SymBool._true, SymBool._true,
   SymBool.or (SymBool.not (SymBool.array_eq (SymArray.var "heap_2") (SymArray.var "heap_3")))
     (SymBool.not SymBool._true)]

end SmtObligationChecker

/-! ## The bounded validator's own circuit builder (`src/validator/bounded.cc`) -/

namespace BoundedValidator

/-- Model of `BoundedValidator::is_jump(cfg, P, i)`.  `succ block` is the range from
`cfg.succ_begin(block)` to `cfg.succ_end(block)`; an iterator into it is a position, the
end iterator the length.  `P.size() - 1` is computed in `size_t`.  Indexing the path past
its end is undefined: the model yields `none` then. -/
def is_jump (succ : Nat → List Nat) (P : CfgPath) (i : Nat) :
    Option ObligationChecker.JumpType :=
  if i = (P.length + 2 ^ 64 - 1) % 2 ^ 64 then some .NONE
  else
    match P[i]? with
    | none => none
    | some block =>
      let first := 0
      if first = (succ block).length then some .NONE
      else
        -- `auto second = first++;` gives `second` the value `first` had; the advanced
        -- `first` is not read again
        let second := first
        if second = (succ block).length then some .NONE
        else
          match P[i + 1]? with
          | none => none
          | some next_block =>
            if next_block = block + 1 then some .FALL_THROUGH else some .JUMP

end BoundedValidator

namespace BoundedValidator

/-- The collaborators of `BoundedValidator::build_circuit`, as functions: the handler
`handler_`, the member `set_lineno` of `SymState`, the function
`ConditionalHandler::condition_predicate` and the macro `VALIDATOR_ERROR`, which builds
the exception from the message. -/
structure Builders where
  handler_ : stoke.Handler
  set_lineno : SymState → Nat → SymState
  condition_predicate : String → SymState → SymBool
  VALIDATOR_ERROR : String → validator_error

/-- The variables of `build_circuit` that outlive one instruction: the state, the line
number and the counter of temporaries. -/
structure Build where
  state : SymState
  line_no : Nat
  tmp_counter : Nat

/-- One turn of the loop of `BoundedValidator::build_circuit`, for the instruction
`instr`.  The result is the updated variables and whether the function returned (on a
`ret`); a handler error is thrown as a `validator_error`. -/
def build_instr (b : Builders) (jump : ObligationChecker.JumpType) (instr : Instruction)
    (s : Build) : Except validator_error (Bool × Build) :=
  let s1 := { s with line_no := s.line_no + 1 }
  if instr.is_jcc then
    let constraint := b.condition_predicate (instr.att.drop 1) s1.state
    match jump with
    | .JUMP =>
      .ok (false, { s1 with state :=
        { s1.state with constraints := s1.state.constraints ++ [constraint] } })
    | .FALL_THROUGH =>
      .ok (false, { s1 with state :=
        { s1.state with constraints := s1.state.constraints ++ [SymBool.not constraint] } })
    | .NONE => .ok (false, s1)
  else if instr.is_label_defn || instr.is_nop || instr.is_any_jump then .ok (false, s1)
  else if instr.is_ret then .ok (true, s1)
  else
    match b.handler_ instr (b.set_lineno s1.state (s1.line_no - 1)) s1.tmp_counter with
    | .error e => .error e
    | .ok r =>
      if r.error_ ≠ "" then
        .error (b.VALIDATOR_ERROR
          ("Error building circuit for: " ++ instr.text ++ "." ++ "Handler says: " ++ r.error_))
      else .ok (false, { state := r.state, line_no := s1.line_no, tmp_counter := r.tmp_counter })

/-- The loop of `BoundedValidator::build_circuit` over the instructions of a block. -/
def build_loop (b : Builders) (jump : ObligationChecker.JumpType) : List Instruction → Build →
    Except validator_error Build
  | [], s => .ok s
  | instr :: rest, s =>
    match build_instr b jump instr s with
    | .error e => .error e
    | .ok (true, s1) => .ok s1
    | .ok (false, s1) => build_loop b jump rest s1

/-- Model of `BoundedValidator::build_circuit(cfg, bb, jump, state, line_no)`. -/
def build_circuit (b : Builders) (cfg : Cfg) (bb : Nat) (jump : ObligationChecker.JumpType)
    (s : Build) : Except validator_error Build :=
  if cfg.num_instrs bb = 0 then .ok s
  else build_loop b jump (SmtObligationChecker.block_instrs cfg bb) s

end BoundedValidator

/-- What makes an instruction reach the `is_ret()` branch of `build_circuit`: it is a
return and none of a conditional jump, a label definition, a nop or a jump. -/
def Instruction.returns (instr : Instruction) : Bool :=
  instr.is_ret && !instr.is_jcc && !instr.is_label_defn && !instr.is_nop && !instr.is_any_jump

namespace BoundedValidator

/-- Collaborators for the examples: the sample handler, a `set_lineno` that leaves the
rest of the state alone, the condition predicate of the sample checker and an exception
that carries the message. -/
def sample_builders : Builders :=
  { handler_ := SmtObligationChecker.sample_handler,
    set_lineno := fun state _ => state,
    condition_predicate := SmtObligationChecker.sample_ext.condition_predicate,
    VALIDATOR_ERROR := fun message =>
      { file := "src/validator/bounded.cc", line := 143, message := message } }

/-- The variables of `BoundedValidator::build_circuit` at the start of a path. -/
def sample_build : Build :=
  { state := SmtObligationChecker.sample_ext.new_state "1_INIT", line_no := 0,
    tmp_counter := 0 }

end BoundedValidator

/-- The conjunction that `remove(i)` leaves behind when `i` is the index of the first
`MemoryEqualityInvariant` among the conjuncts; an invariant that is not a conjunction, or
has no such conjunct, is left as it is. -/
def Invariant.without_memequ : Invariant → Invariant
  | .simple inv => .simple inv
  | .conjunction invariants_ =>
    match SmtObligationChecker.find_memequ invariants_ 0 with
    | none => .conjunction invariants_
    | some (i, _) => .conjunction (invariants_.eraseIdx i)

namespace SmtObligationChecker

/-- Collaborators for the examples: as `sample_ext`, but the model of every query gives
the rewrite one byte of memory, the byte 1 at address 0, and the target none. -/
def sample_ext_memory : Externals :=
  { sample_ext with
    build_testcase_from_array := fun _ ceg _ _ is_rewrite _ =>
      (true, if is_rewrite then { ceg with memory := [(0, 1)] } else ceg) }

/-- The obligation to prove the memories equal for `incq %rax; retq`, assuming the
registers equal; both invariants are conjunctions. -/
def memory_goal : Obligation :=
  sample_obligation incq_code (Invariant.conjunction [SimpleInvariant.other 0])
    (Invariant.conjunction [SimpleInvariant.memory_equality 0])

/-- The counterexample that the model of `sample_ext_memory` gives: the start states and
the end states differ in the byte at address 0. -/
def memory_ceg : ObligationChecker.Result :=
  { verified := false, has_ceg := false, has_error := false, error_message := "",
    comments := "", target_ceg := some CpuState.init,
    rewrite_ceg := some { CpuState.init with memory := [(0, 1)] },
    target_final_ceg := some CpuState.init,
    rewrite_final_ceg := some { CpuState.init with memory := [(0, 1)] } }

end SmtObligationChecker

/-! ## Concrete memory (`src/state/memory.h`) -/

/-- The members of a concrete memory (`stoke::Memory`; the name `Memory` is taken by the
memory models of the symbolic state).  `contents_` and `valid_` are bit vectors of the
library `cpputil`, of which the embedding keeps the size: `contents_` is the value of
`contents_.num_fixed_bytes()`, which `resize_for_fixed_bytes(n)` sets to `n`, and
`valid_` the number of bits of `valid_`. -/
structure stoke.Memory where
  base_ : Nat
  contents_ : Nat
  valid_ : Nat
deriving DecidableEq, Repr

namespace stoke.Memory

/-- Model of `Memory::resize(base, size)` on 64-bit `uint64_t` and `size_t`; `none` when
the `assert` fails. -/
def resize (base size : Nat) : Option stoke.Memory :=
  -- Round down to 256-bit (32-byte) align.
  let base_ := base &&& 0xffffffffffffffe0
  -- Pad size with amount rounded down and 256-bits (32-bytes) of headroom.
  let size1 := (size + (base % 32 + 32)) % 2 ^ 64
  -- Round size up to align to an 8 byte boundary.
  let size2 := ((size1 + 7) % 2 ^ 64) &&& 0xfffffffffffffff8
  if (base_ + size2) % 2 ^ 64 > base_ ∨ (base_ + size2) % 2 ^ 64 ≤ 0x20 then
    some { base_ := base_, contents_ := size2, valid_ := size2 }
  else none

/-- Model of the constructor `Memory()`, which calls `resize(0, 0)`. -/
def init : Option stoke.Memory := resize 0 0

/-- Model of `Memory::size()`. -/
def size (m : stoke.Memory) : Nat := (m.contents_ + 2 ^ 64 - 32) % 2 ^ 64

/-- Model of `Memory::lower_bound()`. -/
def lower_bound (m : stoke.Memory) : Nat := m.base_

/-- Model of `Memory::upper_bound()`. -/
def upper_bound (m : stoke.Memory) : Nat := (m.base_ + m.size) % 2 ^ 64

/-- Model of `Memory::in_range(addr)`. -/
def in_range (m : stoke.Memory) (addr : Nat) : Bool :=
  decide (addr ≥ m.lower_bound) && decide ((addr + 2 ^ 64 - m.base_) % 2 ^ 64 < m.size)

end stoke.Memory

/-! ## The queries of offset discovery

The functions below are `generate_constraints_offsets_nodata` and
`generate_constraints_offsets_data` once more, with the constraint lists passed to
`solver_.is_sat` collected in the order of the calls. -/

namespace ArmMemory

/-- The formula `!(a.address + constant(64, d) == b.address)` of the queries of offset
discovery. -/
def offset_check (a b : Access) (d : Int) : SymBool :=
  SymBool.not (SymBool.eq (SymBitVector.plus a.address (SymBitVector.constant 64 d)) b.address)

/-- Body of the inner loop of `generate_constraints_offsets_nodata` for the pair
`(i, j)`, with the queries made so far. -/
def nodata_pair_logged (solver : Solver) (stop : Bool) (a1 a2 : Access) (i j : Nat)
    (st : OffsetsSt) (log : List (List SymBool)) :
    Except Assertion (OffsetsSt × List (List SymBool)) :=
  if st.returned then .ok (st, log)
  else
    let check_same := SymBool.not (SymBool.eq a1.address a2.address)
    let q_same := st.initial_constraints ++ [check_same]
    if stop then .ok ({ st with initial_constraints := q_same, returned := true }, log)
    else if !(solver q_same).is_sat then
      .ok ({ st with access_offsets_ := (set_offset (set_offset st.access_offsets_ i j 0) j i 0) },
           log ++ [q_same])
    else if a1.size % 8 ≠ 0 then .error .size_multiple_of_8
    else
      let check_a1first := offset_check a1 a2 (a1.size / 8 : Nat)
      let q_a1first := st.initial_constraints ++ [check_a1first]
      if stop then
        .ok ({ st with initial_constraints := q_a1first, returned := true }, log ++ [q_same])
      else if !(solver q_a1first).is_sat then
        .ok ({ st with access_offsets_ :=
                (set_offset (set_offset st.access_offsets_ i j (a1.size / 8 : Nat)) j i
                  (Int.tdiv (-(a1.size : Int)) 8)) },
             log ++ [q_same, q_a1first])
      else if a2.size % 8 ≠ 0 then .error .size_multiple_of_8
      else
        let check_a2first := offset_check a2 a1 (a2.size / 8 : Nat)
        let q_a2first := st.initial_constraints ++ [check_a2first]
        if stop then
          .ok ({ st with initial_constraints := q_a2first, returned := true },
               log ++ [q_same, q_a1first])
        else if !(solver q_a2first).is_sat then
          .ok ({ st with access_offsets_ :=
                  (set_offset (set_offset st.access_offsets_ i j (Int.tdiv (-(a2.size : Int)) 8))
                    j i (a2.size / 8 : Nat)) },
               log ++ [q_same, q_a1first, q_a2first])
        else .ok (st, log ++ [q_same, q_a1first, q_a2first])

/-- The function `generate_constraints_offsets_nodata(initial_constraints)` with the
queries it makes: the memory, the caller's constraint list and the queries. -/
def generate_constraints_offsets_nodata_logged (m : ArmMemory)
    (initial_constraints : List SymBool) :
    Except Assertion (ArmMemory × List SymBool × List (List SymBool)) :=
  let step := fun (s : OffsetsSt × List (List SymBool)) (p : Nat × Nat) =>
    match m.all_accesses_[p.1]?, m.all_accesses_[p.2]? with
    | some a1, some a2 => nodata_pair_logged m.solver_ m.stop_now_ a1 a2 p.1 p.2 s.1 s.2
    | _, _ => .ok s
  match (nodata_pairs m.all_accesses_.length).foldlM step
      ({ access_offsets_ := m.access_offsets_, initial_constraints := initial_constraints,
         returned := false }, []) with
  | .error e => .error e
  | .ok s => .ok ({ m with access_offsets_ := s.1.access_offsets_ }, s.1.initial_constraints, s.2)

end ArmMemory

namespace ArmMemory

/-- The inner loop of `generate_constraints_offsets_data` for access `i`, with the
queries made so far. -/
def data_find_logged (solver : Solver) (all : List Access) (initial_constraints : List SymBool)
    (deref_maps : List DereferenceMap) (i_access : Access) (i_addr : Nat) :
    List Nat → List (List SymBool) → Option (Nat × Nat) × List (List SymBool)
  | [], log => (none, log)
  | j :: js, log =>
    match all[j]?, deref_maps.head? with
    | some j_access, some deref_map =>
      match deref_map j_access.deref with
      | none =>
        data_find_logged solver all initial_constraints deref_maps i_access i_addr js log
      | some j_addr =>
        let diff := diff64 j_addr i_addr
        let works := deref_maps.tail.all (fun test_map =>
          match test_map j_access.deref, test_map i_access.deref with
          | some j_addr_test, some i_addr_test => diff64 j_addr_test i_addr_test == diff
          | _, _ => true)
        if !works then
          data_find_logged solver all initial_constraints deref_maps i_access i_addr js log
        else
          let check := offset_check i_access j_access (diff : Int)
          let answer := solver (initial_constraints ++ [check])
          if !answer.is_sat && !answer.has_error then
            (some (j, diff), log ++ [initial_constraints ++ [check]])
          else
            data_find_logged solver all initial_constraints deref_maps i_access i_addr js
              (log ++ [initial_constraints ++ [check]])
    | _, _ => data_find_logged solver all initial_constraints deref_maps i_access i_addr js log

/-- Body of the outer loop of `generate_constraints_offsets_data` for access `i`, on the
offsets, the union-find and the queries made so far. -/
def data_step_logged (m : ArmMemory) (initial_constraints : List SymBool)
    (deref_maps : List DereferenceMap)
    (st : ((Nat → Nat → Option Int) × UnionFind) × List (List SymBool)) (i : Nat) :
    ((Nat → Nat → Option Int) × UnionFind) × List (List SymBool) :=
  match m.all_accesses_[i]?, deref_maps.head? with
  | some i_access, some deref_map =>
    match deref_map i_access.deref with
    | none => st
    | some i_addr =>
      let components := st.1.2.components
      let unionfind := st.1.2.add i
      let found := data_find_logged m.solver_ m.all_accesses_ initial_constraints deref_maps
        i_access i_addr components st.2
      match found.1 with
      | none => ((st.1.1, unionfind), found.2)
      | some (j, diff) =>
        ((set_offset (set_offset st.1.1 i j (s64 diff)) j i (s64 (diff64 0 diff)),
          unionfind.join i j), found.2)
  | _, _ => st

/-- The function `generate_constraints_offsets_data(initial_constraints, deref_maps)`
with the queries it makes. -/
def generate_constraints_offsets_data_logged (m : ArmMemory)
    (initial_constraints : List SymBool) (deref_maps : List DereferenceMap) :
    ArmMemory × List (List SymBool) :=
  let r := (List.range m.all_accesses_.length).foldl
    (data_step_logged m initial_constraints deref_maps) ((m.access_offsets_, UnionFind.empty), [])
  ({ m with access_offsets_ := r.1.1 }, r.2)

end ArmMemory

/-- A constraint `!(a == b)` between bitvector terms built from constants and additions
that have the same value: it holds under no assignment. -/
def SymBool.refuted : SymBool → Bool
  | .not (.eq a b) =>
    match a.closed, b.closed with
    | some x, some y => x == y
    | _, _ => false
  | _ => false

namespace ArmMemory

/-- A solver that finds a query unsatisfiable when one of its constraints says that two
equal constants differ, and satisfiable otherwise. -/
def solver_equal : Solver := fun cs =>
  { is_sat := !(cs.any SymBool.refuted), has_error := false }

/-- A memory whose stop flag is set, with two one-byte accesses at the constant address
4096. -/
def stopped : ArmMemory :=
  { fresh [] "1" solver_equal with
    all_accesses_ := [const_access 4096 true 0, const_access 4096 false 1],
    stop_now_ := true }

end ArmMemory

namespace ArmMemory

/-- An assignment under which `rax` holds 0 and every other register 1. -/
def distinct_env : Env :=
  { bv := fun n => if n = "rax" then 0 else 1, tmp := fun _ => 0, arr := fun _ _ => 0,
    bool := fun _ => false }

/-- The query of `generate_constraints_offsets_nodata` for the two accesses of
`two_bytes`: the initial constraint `true` and "the addresses differ". -/
def two_bytes_query : List SymBool :=
  [SymBool._true, SymBool.not (SymBool.eq (SymBitVector.var 64 "rbx") (SymBitVector.var 64 "rax"))]

end ArmMemory

/-! ## The offset graph -/

namespace ArmMemory

/-- The cell id of the access at index `i`, if that access exists and has a cell. -/
def cell_at (m : ArmMemory) (i : Nat) : Option Nat :=
  match m.all_accesses_[i]? with
  | none => none
  | some a => a.cell

/-- An edge of the offset graph on `n` accesses: the table has an entry for `(i, j)`. -/
def Edge (offs : Nat → Nat → Option Int) (n : Nat) (i j : Nat) : Prop :=
  i < n ∧ j < n ∧ (offs i j).isSome = true

/-- Two accesses are connected in the offset graph: they are linked by a chain of edges,
taken in either direction. -/
def Connected (offs : Nat → Nat → Option Int) (n : Nat) : Nat → Nat → Prop :=
  Relation.EqvGen (Edge offs n)

/-- Every access that the table of `m` relates to access `i` has a cell. -/
def NbrDone (m : ArmMemory) (i : Nat) : Prop :=
  ∀ j, j < m.all_accesses_.length → (m.access_offsets_ i j).isSome = true →
    (cell_at m j).isSome = true

end ArmMemory

namespace ArmMemory

/-- The state of loop (b) of `generate_constraints_enumerate_cells` once the accesses
below `k` have been visited: they have cells, every access with a cell has all its
neighbours in the same cell, every cell has an access below `k`, and below an access of
cell `cj` there is an access of every cell `c < cj`. -/
structure Flooded (m : ArmMemory) (k : Nat) : Prop where
  done : ∀ i, i < k → i < m.all_accesses_.length → (cell_at m i).isSome = true
  closed : ∀ i, (cell_at m i).isSome = true → NbrDone m i
  edge_same : ∀ i j c1 c2, cell_at m i = some c1 → cell_at m j = some c2 →
    (m.access_offsets_ i j).isSome = true → c1 = c2
  order : ∀ j cj, cell_at m j = some cj → ∀ c, c < cj → ∃ i, i < j ∧ cell_at m i = some c
  anchors : ∀ c, c < m.cells_.length → ∃ i, i < k ∧ cell_at m i = some c

/-- The offset table has an entry for `(i, j)` whenever it has one for `(j, i)`. -/
def symmetric (offs : Nat → Nat → Option Int) : Prop :=
  ∀ i j, (offs i j).isSome = true → (offs j i).isSome = true

end ArmMemory

namespace ArmMemory

/-- Every cell id in use is the index of a cell. -/
def IdsBelow (m : ArmMemory) : Prop :=
  ∀ i c, cell_at m i = some c → c < m.cells_.length

/-- Accesses with the same cell id are connected in the offset graph. -/
def SameConn (m : ArmMemory) : Prop :=
  ∀ i j c, cell_at m i = some c → cell_at m j = some c →
    Connected m.access_offsets_ m.all_accesses_.length i j

/-- The connected components of the offset graph on `n` accesses: the accesses up to
connectedness. -/
def component_setoid (offs : Nat → Nat → Option Int) (n : Nat) : Setoid (Fin n) where
  r := fun a b => Connected offs n a b
  iseqv := ⟨fun a => Relation.EqvGen.refl _, fun h => Relation.EqvGen.symm _ _ h,
    fun h1 h2 => Relation.EqvGen.trans _ _ _ h1 h2⟩

end ArmMemory

namespace ArmMemory

/-- A memory with a two-byte access at the constant address `2^64 - 1`, whose second
byte lies at address 0, and a one-byte access at the constant address 0. -/
def wrapping : ArmMemory :=
  { fresh [] "1" solver_fold with
    all_accesses_ :=
      [{ reg_access "" 16 true 0 with address := SymBitVector.constant 64 (2 ^ 64 - 1) },
       const_access 0 false 1] }

/-- The memory `wrapping` after cell enumeration. -/
def wrapping_cells : ArmMemory := (generate_constraints_enumerate_cells wrapping).getD wrapping

end ArmMemory

/-! ## The two simulations of the accesses against flat heaps

The fast path and the conservative simulation of `generate_constraints_given_cells` are
compared with a pair of flat heaps, one for each side, on which the accesses act in list
order.  `flat_step` and `read_blocks` are this reference; the other definitions state
where the cells are and how far a simulation has come. -/

namespace ArmMemory

/-- The two flat heaps (this side, the other side) after the access `a`: a write stores
its bytes in the heap of its side, a read changes nothing. -/
def flat_step (env : Env) (cells : List Cell) (heaps : (Nat → Nat) × (Nat → Nat)) (a : Access) :
    (Nat → Nat) × (Nat → Nat) :=
  if a.write then
    if a.is_other then
      (heaps.1, flat_store heaps.2 (flat_address env cells a) (a.value.eval env).v (a.size / 8))
    else (flat_store heaps.1 (flat_address env cells a) (a.value.eval env).v (a.size / 8), heaps.2)
  else heaps

/-- The constraints `cs` consist of one block for each access, in list order, and the
block of a read holds exactly when the value of the read is the number found at its
address in the flat heap of its side after the earlier writes (the block of a write
holds always). -/
def read_blocks (env : Env) (cells : List Cell) :
    (Nat → Nat) × (Nat → Nat) → List Access → List SymBool → Prop
  | _, [], cs => cs = []
  | heaps, a :: rest, cs =>
    ∃ block more, cs = block ++ more ∧
      (env.sat block ↔ (a.write = false → a.value.eval env
        = ⟨a.size, flat_load (if a.is_other then heaps.2 else heaps.1) (flat_address env cells a)
            (a.size / 8)⟩)) ∧
      read_blocks env cells (flat_step env cells heaps a) rest more

/-- The two flat heaps after all accesses. -/
def flat_final (env : Env) (cells : List Cell) (heaps : (Nat → Nat) × (Nat → Nat))
    (all : List Access) : (Nat → Nat) × (Nat → Nat) :=
  all.foldl (flat_step env cells) heaps

/-- Where a cell is: its address, its index and its size. -/
def Cell.place (c : Cell) : SymBitVector × Nat × Nat := (c.address, c.index, c.size)

/-- The cells are laid out without overlap under the assignment: indices are positions,
addresses are 64 bits wide, and no byte belongs to two cells. -/
structure NoOverlap (env : Env) (cells : List Cell) : Prop where
  count : cells.length < 2 ^ 64
  index : ∀ (k : Nat) (c : Cell), cells[k]? = some c → c.index = k
  width : ∀ (k : Nat) (c : Cell), cells[k]? = some c → (c.address.eval env).w = 64
  size : ∀ (k : Nat) (c : Cell), cells[k]? = some c → c.size < 2 ^ 64
  disjoint : ∀ (k k' : Nat) (c c' : Cell) (i j : Nat), cells[k]? = some c → cells[k']? = some c' → k ≠ k' →
    i < c.size → j < c'.size →
    ((c.address.eval env).v + i) % 2 ^ 64 ≠ ((c'.address.eval env).v + j) % 2 ^ 64

/-- The access lies in a cell: it has a cell, its bytes are bytes of the cell, its size is
a positive number of bytes and its value has that many bits. -/
def Access.placed (env : Env) (cells : List Cell) (a : Access) : Prop :=
  ∃ (k : Nat) (c : Cell) (o n : Nat), a.cell = some k ∧ cells[k]? = some c ∧ a.cell_offset = (o : Int) ∧
    a.size = 8 * n ∧ 0 < n ∧ o + n ≤ c.size ∧ (a.value.eval env).w = a.size

/-- What the comparison of the two simulations assumes of a memory after cell
enumeration: the stop flag is down, the cells are laid out without overlap and are not
dirty, and every access lies in its cell. -/
structure Placed (env : Env) (m : ArmMemory) : Prop where
  stop : m.stop_now_ = false
  layout : NoOverlap env m.cells_
  clean : ∀ (k : Nat) (c : Cell), m.cells_[k]? = some c → c.dirty = false ∧ c.other_dirty = false
  access : ∀ a ∈ m.all_accesses_, a.placed env m.cells_

/-- Body of the loop of `flush_dirty`, for the cell at position `k`. -/
def flush_step (stop : Bool) (skip_index : Nat) (r : Bool × Sim) (k : Nat) : Bool × Sim :=
  match r.2.cells[k]? with
  | none => r
  | some cell =>
    if stop then r
    else if cell.index = skip_index then r
    else
      let r1 : Bool × Sim :=
        if cell.dirty then
          (true, { r.2 with
            heap := write_back r.2.heap cell.address cell.size cell.cache
            cells := r.2.cells.set k { cell with dirty := false } })
        else r
      match r1.2.cells[k]? with
      | none => r1
      | some cell1 =>
        if cell1.other_dirty then
          (true, { r1.2 with
            other_heap := write_back r1.2.other_heap cell1.address cell1.size cell1.other_cache
            cells := r1.2.cells.set k { cell1 with other_dirty := false } })
        else r1

/-- The conservative simulation agrees with the flat heaps: the cells are where they
were, every cache holds the bytes of its cell, the heaps hold the flat heaps wherever
no dirty cell lies, and at most one cell is dirty. -/
structure SimInv (env : Env) (cells0 : List Cell) (heaps : (Nat → Nat) × (Nat → Nat))
    (s : Sim) : Prop where
  layout : s.cells.map Cell.place = cells0.map Cell.place
  cache : ∀ (k : Nat) (c : Cell), s.cells[k]? = some c →
    c.cache.eval env = ⟨8 * c.size, flat_load heaps.1 (c.address.eval env).v c.size⟩
  other_cache : ∀ (k : Nat) (c : Cell), s.cells[k]? = some c →
    c.other_cache.eval env = ⟨8 * c.size, flat_load heaps.2 (c.address.eval env).v c.size⟩
  heap : ∀ x, s.heap.eval env x % 256 = heaps.1 x % 256 ∨
    ∃ (k : Nat) (c : Cell) (i : Nat), s.cells[k]? = some c ∧ c.dirty = true ∧ i < c.size ∧
      x = ((c.address.eval env).v + i) % 2 ^ 64
  other_heap : ∀ x, s.other_heap.eval env x % 256 = heaps.2 x % 256 ∨
    ∃ (k : Nat) (c : Cell) (i : Nat), s.cells[k]? = some c ∧ c.other_dirty = true ∧ i < c.size ∧
      x = ((c.address.eval env).v + i) % 2 ^ 64
  one_dirty : ∀ (k k' : Nat) (c c' : Cell), s.cells[k]? = some c → s.cells[k']? = some c' →
    (c.dirty || c.other_dirty) = true → (c'.dirty || c'.other_dirty) = true → k = k'

end ArmMemory

/-- The keys of the map increase strictly, as the keys of a `std::map` do. -/
def SMap.sorted {α : Type} (m : SMap α) : Prop := List.Pairwise (fun p q => p.1 < q.1) m

namespace ArmMemory

/-- The element `memloc[cell][offset]`, if the map has one. -/
def MemLoc.lookup (memloc : MemLoc) (cell offset : Nat) : Option SymBitVector :=
  match SMap.find? memloc cell with
  | none => none
  | some inner => SMap.find? inner offset

/-- The map of maps has increasing keys on both levels. -/
def MemLoc.sorted (memloc : MemLoc) : Prop :=
  SMap.sorted memloc ∧ ∀ p ∈ memloc, SMap.sorted p.2

/-- Body of the inner loop of the first loop of the fast path, for byte `i` of `access`. -/
def init_step (access : Access) (st : MemLoc × MemLoc × Nat) (i : Nat) : MemLoc × MemLoc × Nat :=
  let offset := u64 (access.cell_offset + (i : Int))
  if access.is_other then
    if (st.2.1.getD access.cell_key []).count offset then st
    else (st.1, st.2.1.set2 access.cell_key offset (SymBitVector.tmp_var 8 st.2.2), st.2.2 + 1)
  else
    if (st.1.getD access.cell_key []).count offset then st
    else (st.1.set2 access.cell_key offset (SymBitVector.tmp_var 8 st.2.2), st.2.1, st.2.2 + 1)

/-- Body of the inner loops of the third loop of the fast path, for byte `i` of `access`. -/
def run_step (access : Access) (st : MemLoc × MemLoc × List SymBool) (i : Nat) :
    MemLoc × MemLoc × List SymBool :=
  let offset := u64 (access.cell_offset + (i : Int))
  if access.write then
    if access.is_other then
      (st.1, st.2.1.set2 access.cell_key offset (byte_of access.value i), st.2.2)
    else (st.1.set2 access.cell_key offset (byte_of access.value i), st.2.1, st.2.2)
  else
    let memloc := if access.is_other then st.2.1 else st.1
    (st.1, st.2.1, st.2.2 ++
      [SymBool.eq (memloc.get2 access.cell_key offset) (byte_of access.value i)])

/-- The heaps of the two sides as the fast path has them when it adds the two start
equations: the heaps of the memories with the fresh bytes of the first loop stored. -/
def start_heaps (m am : ArmMemory) (ctr : Nat) : SymArray × SymArray :=
  (heap_of_memloc m.cells_ (memloc_init m.all_accesses_ ctr).1 m.heap_,
   heap_of_memloc m.cells_ (memloc_init m.all_accesses_ ctr).2.1 am.heap_)

end ArmMemory

namespace ArmMemory

/-- What the first loop of the fast path establishes of a map: its keys increase, and
every byte it holds lies in a cell and is 8 bits wide. -/
structure LocInit (env : Env) (cells : List Cell) (memloc : MemLoc) : Prop where
  sorted : memloc.sorted
  bytes : ∀ (c o : Nat) (v : SymBitVector), memloc.lookup c o = some v →
    (∃ cell, cells[c]? = some cell ∧ o < cell.size) ∧ (v.eval env).w = 8

/-- The map of a side agrees with the flat heap of the side: its keys increase, and
every byte it holds lies in a cell and has the value the flat heap has there. -/
structure LocInv (env : Env) (cells : List Cell) (heap : Nat → Nat) (memloc : MemLoc) :
    Prop where
  sorted : memloc.sorted
  bytes : ∀ (c o : Nat) (v : SymBitVector), memloc.lookup c o = some v →
    ∃ cell, cells[c]? = some cell ∧ o < cell.size ∧
      v.eval env = ⟨8, heap (((cell.address.eval env).v + o) % 2 ^ 64) % 256⟩

/-- The maps hold every byte of the access. -/
def Covers (my other : MemLoc) (a : Access) : Prop :=
  ∀ i, i < a.size / 8 →
    ((if a.is_other then other else my).lookup a.cell_key
      (u64 (a.cell_offset + (i : Int)))).isSome = true

/-- The second map holds every byte the first one holds. -/
def Keeps (memloc memloc1 : MemLoc) : Prop :=
  ∀ (c o : Nat), (memloc.lookup c o).isSome = true → (memloc1.lookup c o).isSome = true

end ArmMemory

namespace ArmMemory

/-- A memory with two accesses of either side: a two-byte write through `rax` and a
four-byte read through `rbx`, proved to lie one byte below it, and on the other side a
one-byte write and a one-byte read through `rcx`. -/
def mixed : ArmMemory :=
  { fresh [] "1" solver_sat with
    all_accesses_ :=
      [reg_access "rax" 16 true 0, reg_access "rbx" 32 false 1,
       { reg_access "rcx" 8 true 0 with is_other := true },
       { reg_access "rdx" 8 false 1 with is_other := true, address := SymBitVector.var 64 "rcx" }]
    access_offsets_ := fun i j =>
      if i = 0 ∧ j = 1 then some (-1) else if i = 1 ∧ j = 0 then some 1
      else if (i = 2 ∧ j = 3) ∨ (i = 3 ∧ j = 2) then some 0 else none }

/-- The memory `mixed` after cell enumeration. -/
def mixed_cells : ArmMemory := (generate_constraints_enumerate_cells mixed).getD mixed

/-- An assignment under which the offsets of `mixed` hold (`rax = 4104`, `rbx = 4103`,
`rcx = 8192`) and every byte of a heap and every fresh byte is 5. -/
def mixed_env : Env :=
  { bv := fun s => if s = "rax" then 4104 else if s = "rbx" then 4103
      else if s = "rcx" then 8192 else 43981,
    tmp := fun _ => 5, arr := fun _ _ => 5, bool := fun _ => false }

end ArmMemory

/-! ## Pairing test cases of two paths (`BoundedValidator::find_pair_testcase`) -/

namespace BoundedValidator

/-- The loop `while (j < rewrite_tcs.size() && rewrite_tcs[j] < i) j++`, with as many
turns allowed as `fuel`; it is run with the length of the vector, which `j` cannot
exceed. -/
def skip_smaller (rewrite_tcs : List Nat) (i : Nat) : Nat → Nat → Nat
  | 0, j => j
  | fuel + 1, j =>
    match rewrite_tcs[j]? with
    | none => j
    | some r => if r < i then skip_smaller rewrite_tcs i fuel (j + 1) else j

/-- The loop `for (size_t i : target_tcs)` of `find_pair_testcase`, from the position `j`
in `rewrite_tcs` on.  The test `rewrite_tcs[j] == i` reads the vector without a test of
`j` against its size: a read at or past the size is undefined behaviour and ends the run
with `Abort.bad_index`.  The result is the index `i` whose input is copied into `tc`
when the function returns true, `none` when it returns false. -/
def find_pair_loop (rewrite_tcs : List Nat) : List Nat → Nat → Except Abort (Option Nat)
  | [], _ => .ok none
  | i :: rest, j =>
    let j1 := skip_smaller rewrite_tcs i rewrite_tcs.length j
    match rewrite_tcs[j1]? with
    | none => .error .bad_index
    | some r => if r = i then .ok (some i) else find_pair_loop rewrite_tcs rest j1

/-- Model of `BoundedValidator::find_pair_testcase(target, rewrite, P, Q, tc)`, given the
vectors `path_to_testcase_[0][P]` and `path_to_testcase_[1][Q]`. -/
def find_pair_testcase (target_tcs rewrite_tcs : List Nat) : Except Abort (Option Nat) :=
  find_pair_loop rewrite_tcs target_tcs 0

/-- The indices that `learn_paths` records for one path, given for every input whether
its run took that path within the bound: `path_to_testcase_[is_rewrite][p].push_back(i)`
for `i` from 0 to `num_inputs - 1`. -/
def learnt_indices (takes : Nat → Bool) (num_inputs : Nat) : List Nat :=
  (List.range num_inputs).filter takes

end BoundedValidator

/-! ## The aliasing formula of the cell model (`CellMemory::aliasing_formula`) -/

namespace CellMemory

/-- The constraint that the cells `cell` and `other_cell` do not overlap:
`cell_addr + cell_size <= other_addr | other_addr + other_size <= cell_addr`. -/
def no_overlap (m : CellMemory) (cell other_cell : Nat) : SymBool :=
  let cell_addr := m.cell_addrs_.getD cell .null
  let cell_size := m.cell_sizes_.getD cell 0
  let other_addr := m.cell_addrs_.getD other_cell .null
  let other_size := m.cell_sizes_.getD other_cell 0
  SymBool.or
    (SymBool.le (SymBitVector.plus cell_addr (SymBitVector.constant 64 (cell_size : Int)))
      other_addr)
    (SymBool.le (SymBitVector.plus other_addr (SymBitVector.constant 64 (other_size : Int)))
      cell_addr)

/-- The inner loop `for (auto q : cells_)` of `aliasing_formula`, for the cell `cell`. -/
def alias_pairs (m : CellMemory) (cell : Nat) : List (Nat × SymBitVector) → SymBool → SymBool
  | [], condition => condition
  | (q, _) :: qs, condition =>
    if m.cell_unconstrained_.getD q false then alias_pairs m cell qs condition
    else if q > cell then
      alias_pairs m cell qs (SymBool.and condition (no_overlap m cell q))
    else alias_pairs m cell qs condition

/-- The outer loop `for (auto p : cells_)` of `aliasing_formula`.  A map read through
`operator[]` yields the default value for a key it does not have. -/
def alias_cells (m other : CellMemory) : List (Nat × SymBitVector) → SymBool →
    Except Assertion SymBool
  | [], condition => .ok condition
  | (cell, _) :: ps, condition =>
    let cell_size := m.cell_sizes_.getD cell 0
    let cell_addr := m.cell_addrs_.getD cell .null
    if !other.cells_.count cell then .error .other_has_cell
    else if other.cell_sizes_.getD cell 0 ≠ cell_size then .error .other_same_size
    else
      let c1 := SymBool.and condition
        (SymBool.le cell_addr (SymBitVector.constant 64 (-(cell_size : Int) - 0x3f)))
      let c2 := SymBool.and c1 (SymBool.ge cell_addr (SymBitVector.constant 64 0x40))
      if m.cell_unconstrained_.getD cell false then alias_cells m other ps c2
      else alias_cells m other ps (alias_pairs m cell m.cells_ c2)

/-- Model of `a.aliasing_formula(other)`: the formula, and the two memories and the
counter as `equalize_cells` leaves them. -/
def aliasing_formula (a other : CellMemory) (ctr : Nat) :
    Except Assertion (SymBool × CellMemory × CellMemory × Nat) :=
  let e := equalize_cells a other ctr
  match alias_cells e.1 e.2.1 e.1.cells_ SymBool._true with
  | .error x => .error x
  | .ok condition => .ok (condition, e)

/-- A memory with two 4-byte cells at the addresses `rdi` and `rsi`, and a third cell of
8 bytes at `rdx` that is marked unconstrained. -/
def three_cells : CellMemory :=
  { map_ := [],
    cells_ := [(0, SymBitVector.var 32 "cell_0"), (1, SymBitVector.var 32 "cell_1"),
      (2, SymBitVector.var 64 "cell_2")],
    init_cells_ := [(0, SymBitVector.var 32 "cell_0"), (1, SymBitVector.var 32 "cell_1"),
      (2, SymBitVector.var 64 "cell_2")],
    cell_sizes_ := [(0, 4), (1, 4), (2, 8)],
    cell_addrs_ := [(0, SymBitVector.var 64 "rdi"), (1, SymBitVector.var 64 "rsi"),
      (2, SymBitVector.var 64 "rdx")],
    cell_unconstrained_ := [(0, false), (1, false), (2, true)],
    secret_cell_ := SymBitVector.var 64 "secret_1" }

/-- An assignment with `rdi = 4096`, `rsi = 4100` and `rdx = 4098`. -/
def three_cells_env : Env :=
  { bv := fun s => if s = "rdi" then 4096 else if s = "rsi" then 4100 else 4098,
    tmp := fun _ => 0, arr := fun _ _ => 0, bool := fun _ => false }

/-- A memory with the single cell 0 of `2 ^ 64 - 1` bytes at the address `rdi`. -/
def huge_cell : CellMemory :=
  { map_ := [],
    cells_ := [(0, SymBitVector.var 8 "cell_0")],
    init_cells_ := [(0, SymBitVector.var 8 "cell_0")],
    cell_sizes_ := [(0, 2 ^ 64 - 1)],
    cell_addrs_ := [(0, SymBitVector.var 64 "rdi")],
    cell_unconstrained_ := [(0, false)],
    secret_cell_ := SymBitVector.var 64 "secret_1" }

/-- An assignment with `rdi = 64`. -/
def huge_cell_env : Env :=
  { bv := fun _ => 64, tmp := fun _ => 0, arr := fun _ _ => 0, bool := fun _ => false }

/-- The formula that `aliasing_formula` returns for `three_cells`. -/
def three_cells_formula : SymBool :=
  SymBool.and (SymBool.and (SymBool.and (SymBool.and (SymBool.and (SymBool.and (SymBool.and
    SymBool._true
    (SymBool.le (SymBitVector.var 64 "rdi") (SymBitVector.constant 64 (-67))))
    (SymBool.ge (SymBitVector.var 64 "rdi") (SymBitVector.constant 64 64)))
    (SymBool.or
      (SymBool.le (SymBitVector.plus (SymBitVector.var 64 "rdi") (SymBitVector.constant 64 4))
        (SymBitVector.var 64 "rsi"))
      (SymBool.le (SymBitVector.plus (SymBitVector.var 64 "rsi") (SymBitVector.constant 64 4))
        (SymBitVector.var 64 "rdi"))))
    (SymBool.le (SymBitVector.var 64 "rsi") (SymBitVector.constant 64 (-67))))
    (SymBool.ge (SymBitVector.var 64 "rsi") (SymBitVector.constant 64 64)))
    (SymBool.le (SymBitVector.var 64 "rdx") (SymBitVector.constant 64 (-71))))
    (SymBool.ge (SymBitVector.var 64 "rdx") (SymBitVector.constant 64 64))

/-- The formula that `aliasing_formula` returns for `huge_cell`. -/
def huge_cell_formula : SymBool :=
  SymBool.and (SymBool.and SymBool._true
    (SymBool.le (SymBitVector.var 64 "rdi")
      (SymBitVector.constant 64 (-((2 ^ 64 - 1 : Nat) : Int) - 0x3f))))
    (SymBool.ge (SymBitVector.var 64 "rdi") (SymBitVector.constant 64 0x40))

end CellMemory

/-! ## The overflow flags of the handlers (`src/validator/handler.cc`) -/

namespace Handler

/-- Model of `Handler::plus_of(arg1_msb, arg2_msb, total_msb)`:
`(arg1_msb == arg2_msb) & (arg1_msb != total_msb)`, where `==` on `SymBool` builds an
`iff` node and `!=` its negation. -/
def plus_of (arg1_msb arg2_msb total_msb : SymBool) : SymBool :=
  SymBool.and (SymBool.iff arg1_msb arg2_msb) (SymBool.not (SymBool.iff arg1_msb total_msb))

/-- Model of `Handler::minus_of(arg1_msb, arg2_msb, total_msb)`:
`(arg2_msb == total_msb) & (arg1_msb != arg2_msb)`. -/
def minus_of (arg1_msb arg2_msb total_msb : SymBool) : SymBool :=
  SymBool.and (SymBool.iff arg2_msb total_msb) (SymBool.not (SymBool.iff arg1_msb arg2_msb))

/-- The most significant bit of a `w`-bit number is set. -/
def msb (w x : Nat) : Prop := 2 ^ (w - 1) ≤ x

/-- The value of a `w`-bit number read as two's complement. -/
def signed (w x : Nat) : Int := if x < 2 ^ (w - 1) then (x : Int) else (x : Int) - 2 ^ w

/-- An integer is a `w`-bit two's-complement number. -/
def fits (w : Nat) (z : Int) : Prop := -(2 ^ (w - 1) : Int) ≤ z ∧ z < 2 ^ (w - 1)

/-- The `w`-bit sum `a + b`. -/
def wrap_add (w a b : Nat) : Nat := (a + b) % 2 ^ w

/-- The `w`-bit difference `a - b`. -/
def wrap_sub (w a b : Nat) : Nat := (a + 2 ^ w - b) % 2 ^ w

end Handler

/-! ## Patching the memory layout (`src/stategen/stategen.cc`)

A concrete memory is a `stoke.Memory` (its base and the sizes of its two bit vectors)
together with the bits of `valid_` and the bytes of `contents_`, both by index.  The bit
vectors are objects of the library `cpputil`; what `resize_for_fixed_bytes` and
`resize_for_bits` do to the bits they hold is a parameter of the embedding.  A failed
`assert` ends a call without a return: the functions yield `none` then. -/

namespace StateGen

/-- A concrete memory with the contents of its bit vectors. -/
structure Region where
  mem : stoke.Memory
  valid : Nat → Bool
  bytes : Nat → Nat

/-- What the library does to the bits and bytes of a bit vector that is resized: the
old contents, the old size, the new size. -/
structure Library where
  resize_bits : (Nat → Bool) → Nat → Nat → (Nat → Bool)
  resize_bytes : (Nat → Nat) → Nat → Nat → (Nat → Nat)

/-- Model of `mem.resize(base, size)` on a memory of the state generator. -/
def Region.resize (lib : Library) (r : Region) (base size : Nat) : Option Region :=
  match stoke.Memory.resize base size with
  | none => none
  | some m =>
    some { mem := m,
           valid := lib.resize_bits r.valid r.mem.valid_ m.valid_,
           bytes := lib.resize_bytes r.bytes r.mem.contents_ m.contents_ }

/-- Model of the constructor `Memory()`: empty bit vectors, then `resize(0, 0)`. -/
def Region.init (lib : Library) : Option Region :=
  Region.resize lib { mem := { base_ := 0, contents_ := 0, valid_ := 0 },
                      valid := fun _ => false, bytes := fun _ => 0 } 0 0

/-- Model of `mem.is_valid(addr)`, with its `assert(in_range(addr))`. -/
def Region.is_valid (r : Region) (addr : Nat) : Option Bool :=
  if r.mem.in_range addr then some (r.valid ((addr + 2 ^ 64 - r.mem.base_) % 2 ^ 64)) else none

/-- Body of the loop of `randomize_mem` for the index `i`: an invalid byte is marked valid
and set to `gen_() % 256`.  The state is the memory and the number of calls of `gen_`. -/
def randomize_step (gen : Nat → Nat) (st : Option (Region × Nat)) (i : Nat) :
    Option (Region × Nat) :=
  match st with
  | none => none
  | some (r, ctr) =>
    let addr := (r.mem.lower_bound + i) % 2 ^ 64
    match r.is_valid addr with
    | none => none
    | some true => some (r, ctr)
    | some false =>
      let k := (addr + 2 ^ 64 - r.mem.base_) % 2 ^ 64
      some ({ r with
              valid := fun j => if j = k then true else r.valid j
              bytes := fun j => if j = k then gen ctr % 256 else r.bytes j },
            ctr + 1)

/-- Model of `StateGen::randomize_mem(mem)`. -/
def randomize_mem (gen : Nat → Nat) (r : Region) (ctr : Nat) : Option (Region × Nat) :=
  (List.range r.mem.size).foldl (randomize_step gen) (some (r, ctr))

/-- The tail `mem.resize(base, size); randomize_mem(mem); return true;` of the resize
functions. -/
def resize_and_fill (lib : Library) (gen : Nat → Nat) (r : Region) (ctr : Nat)
    (base size : Nat) : Option (Bool × Region × Nat) :=
  match r.resize lib base size with
  | none => none
  | some r1 =>
    match randomize_mem gen r1 ctr with
    | none => none
    | some (r2, ctr2) => some (true, r2, ctr2)

/-- Model of `StateGen::resize_within(mem, addr, size)` on `uint64_t` and `size_t`. -/
def resize_within (max_memory_ : Nat) (lib : Library) (gen : Nat → Nat) (r : Region)
    (ctr : Nat) (addr size : Nat) : Option (Bool × Region × Nat) :=
  if ¬ ((addr + size + 2 ^ 64 - r.mem.size) % 2 ^ 64 > r.mem.lower_bound) then none
  else
    let delta := (addr + size + 2 ^ 64 - r.mem.upper_bound) % 2 ^ 64
    if (r.mem.size + delta) % 2 ^ 64 > max_memory_ then some (false, r, ctr)
    else resize_and_fill lib gen r ctr r.mem.lower_bound ((r.mem.size + delta) % 2 ^ 64)

/-- Model of `StateGen::resize_below(mem, addr, size)`. -/
def resize_below (max_memory_ : Nat) (lib : Library) (gen : Nat → Nat) (r : Region)
    (ctr : Nat) (addr size : Nat) : Option (Bool × Region × Nat) :=
  let new_size :=
    if (addr + size + 2 ^ 64 - r.mem.size) % 2 ^ 64 > r.mem.lower_bound then size
    else (r.mem.upper_bound + 2 ^ 64 - addr) % 2 ^ 64
  if new_size > max_memory_ then some (false, r, ctr)
  else resize_and_fill lib gen r ctr addr new_size

/-- Model of `StateGen::resize_above(mem, addr, size)`. -/
def resize_above (max_memory_ : Nat) (lib : Library) (gen : Nat → Nat) (r : Region)
    (ctr : Nat) (addr size : Nat) : Option (Bool × Region × Nat) :=
  let delta := (addr + size + 2 ^ 64 + 2 ^ 64 - r.mem.lower_bound - r.mem.size) % 2 ^ 64
  if (r.mem.size + delta) % 2 ^ 64 > max_memory_ then some (false, r, ctr)
  else resize_and_fill lib gen r ctr r.mem.lower_bound ((r.mem.size + delta) % 2 ^ 64)

/-- An `else if (test && call)` of `resize_mem`: the call is made when the test holds,
and the chain goes on when the test fails or the call returns false. -/
def or_else (test : Bool) (call : Option (Bool × Region × Nat))
    (next : Region → Nat → Option (Bool × Region × Nat)) (r : Region) (ctr : Nat) :
    Option (Bool × Region × Nat) :=
  if test then
    match call with
    | none => none
    | some (true, r1, ctr1) => some (true, r1, ctr1)
    | some (false, r1, ctr1) => next r1 ctr1
  else next r ctr

/-- Model of `StateGen::resize_mem(mem, addr, size)`: the value returned, the memory and
the number of calls of `gen_`; `none` when an `assert` fails. -/
def resize_mem (max_memory_ : Nat) (lib : Library) (gen : Nat → Nat) (r : Region)
    (ctr : Nat) (addr size : Nat) : Option (Bool × Region × Nat) :=
  if r.mem.size = 0 then resize_and_fill lib gen r ctr addr size
  else
    or_else (r.mem.in_range addr) (resize_within max_memory_ lib gen r ctr addr size)
      (fun r1 ctr1 =>
        or_else (decide (addr < r1.mem.lower_bound))
          (resize_below max_memory_ lib gen r1 ctr1 addr size)
          (fun r2 ctr2 =>
            or_else (decide (r2.mem.upper_bound ≠ 0) && decide (addr ≥ r2.mem.upper_bound))
              (resize_above max_memory_ lib gen r2 ctr2 addr size)
              (fun r3 ctr3 => some (false, r3, ctr3)) r2 ctr2) r1 ctr1) r ctr

end StateGen

namespace StateGen

/-- The members of the state `fixed` that the memory part of `fix` assigns. -/
structure Fixed where
  stack : Region
  heap : Region
  segments : List Region

/-- What `fix` has worked out when it reaches the test for misalignment: the error code
`cs.code`, the value of `is_supported_deref(instr)`, the address and the size of the
access, and the value of `is_misaligned(addr, size) && !allow_unaligned_`. -/
structure Access where
  code : ErrorCode
  supported_deref : Bool
  addr : Nat
  size : Nat
  misaligned : Bool

/-- The functions `fix` calls whose sources are not at hand: `already_allocated` (declared
in the header) and `fix_misalignment`, which assigns a register of `fixed` and no memory;
of the latter the embedding keeps the value returned. -/
structure Externals where
  already_allocated : Region → Nat → Nat → Bool
  fix_misalignment : Access → Bool

/-- The loop `for (auto& segment : segments) if (resize_mem(segment, addr, size)) ...` of
`fix`: the segments already tried, in reverse, and those still to try.  On the first
success the result is the whole vector with the segment replaced by the resized one; when
no call succeeds it is `none` with the vector as the calls have left it. -/
def resize_first (max_memory_ : Nat) (lib : Library) (gen : Nat → Nat) (addr size : Nat) :
    List Region → List Region → Nat → Option (Option (List Region) × List Region × Nat)
  | tried, [], ctr => some (none, tried.reverse, ctr)
  | tried, segment :: rest, ctr =>
    match resize_mem max_memory_ lib gen segment ctr addr size with
    | none => none
    | some (true, r, ctr1) => some (some (tried.reverse ++ r :: rest), tried.reverse ++ r :: rest, ctr1)
    | some (false, r, ctr1) => resize_first max_memory_ lib gen addr size (r :: tried) rest ctr1

/-- Model of `StateGen::fix(cs, fixed, cfg, line)`, for an access worked out as `a`: the
value returned, the members `stack`, `heap` and `segments` of `fixed` and the number of
calls of `gen_`; `none` when an `assert` fails or a vector is read past its end. -/
def fix (max_memory_ : Nat) (lib : Library) (gen : Nat → Nat) (ext : Externals) (a : Access)
    (fixed : Fixed) (ctr : Nat) : Option (Bool × Fixed × Nat) :=
  -- Only sigsegv is fixable
  if a.code ≠ ErrorCode.SIGSEGV_ then some (false, fixed, ctr)
  -- Only explicit dereferences are fixable
  else if !a.supported_deref then some (false, fixed, ctr)
  -- We can't do anything about misaligned memory or pre-allocated memory
  else if a.misaligned then some (ext.fix_misalignment a, fixed, ctr)
  else
    -- push_back(stack), push_back(heap), insert(begin(), fixed.segments)
    let segments := fixed.segments ++ [fixed.stack, fixed.heap]
    if segments.any (fun segment => ext.already_allocated segment a.addr a.size) then
      some (false, fixed, ctr)
    else
      match resize_first max_memory_ lib gen a.addr a.size [] segments ctr with
      | none => none
      | some (some segments1, _, ctr1) =>
        match segments1 with
        | s0 :: s1 :: rest => some (true, { stack := s0, heap := s1, segments := rest }, ctr1)
        | _ => none
      | some (none, segments1, ctr1) =>
        -- If not, create a new segment!
        match Region.init lib with
        | none => none
        | some m =>
          match resize_mem max_memory_ lib gen m ctr1 a.addr a.size with
          | none => none
          | some (false, _, _) => none
          | some (true, m1, ctr2) =>
            some (true, { fixed with segments := segments1 ++ [m1] }, ctr2)

/-- A library that leaves the bits and bytes of a resized bit vector where they are. -/
def sample_library : Library :=
  { resize_bits := fun bits _ _ => bits, resize_bytes := fun bytes _ _ => bytes }

/-- A random number generator that returns 7. -/
def sample_gen : Nat → Nat := fun _ => 7

/-- A memory of `size` valid bytes (a multiple of 8) at the 32-byte aligned address
`base`, as `resize(base, size)` and `randomize_mem` leave it. -/
def sample_region (base size : Nat) : Region :=
  { mem := { base_ := base, contents_ := size + 32, valid_ := size + 32 },
    valid := fun _ => true, bytes := fun _ => 7 }

/-- The function `already_allocated` as the header is expected to define it: the first
and the last byte of the access are in range of the memory. -/
def sample_externals : Externals :=
  { already_allocated := fun r addr size =>
      r.mem.in_range addr && r.mem.in_range ((addr + size + 2 ^ 64 - 1) % 2 ^ 64),
    fix_misalignment := fun _ => false }

/-- A state with a stack of 64 bytes at `0x7000` and a heap of 64 bytes at `0x4000`, and
with the extra segments `segments`. -/
def sample_fixed (segments : List Region) : Fixed :=
  { stack := sample_region 0x7000 64, heap := sample_region 0x4000 64, segments := segments }

/-- A segfault of an aligned 8-byte access at `addr`. -/
def sample_access (addr : Nat) : Access :=
  { code := ErrorCode.SIGSEGV_, supported_deref := true, addr := addr, size := 8,
    misaligned := false }

end StateGen

/-! ## The program alignment automaton (`src/validator/paa.cc`)

The header `paa.h` is not among the sources: the fields of `State` and `Edge` are those
the functions of `paa.cc` use, `operator!=` is taken to be the negation of `operator==`,
and the members `next_edges`, `start_state` and `exit_state` are parameters.  The fields
`from` and `to` of an edge are written `from_` and `to_`, the parameter `end` of
`get_paths` is written `end_`. -/

namespace ProgramAlignmentAutomata

/-- A state of the automaton: a block of the target and a block of the rewrite. -/
structure State where
  ts : Nat
  rs : Nat
  deriving DecidableEq, Repr

/-- Model of `State::operator==`. -/
def State.eq (a other : State) : Bool :=
  decide (a.ts = other.ts) && decide (a.rs = other.rs)

/-- Model of `State::operator<`; `none` is the failure of `assert(*this == other)`. -/
def State.lt (a other : State) : Option Bool :=
  if a.ts ≠ other.ts then some (decide (a.ts < other.ts))
  else if a.rs ≠ other.rs then some (decide (a.rs < other.rs))
  else if State.eq a other then some false
  else none

/-- An edge of the automaton: a path of the target and a path of the rewrite between two
states. -/
structure Edge where
  from_ : State
  to_ : State
  te : List Nat
  re : List Nat
  empty_ : Bool
  deriving DecidableEq, Repr

/-- Model of the constructor `Edge(tail, tp, rp)`. -/
def Edge.new (tail : State) (tp rp : List Nat) : Edge :=
  { to_ := tail, te := tp, re := rp, empty_ := false,
    from_ := { ts := (match tp with | [] => tail.ts | x :: _ => x),
               rs := (match rp with | [] => tail.rs | x :: _ => x) } }

/-- Model of `Edge::operator==`. -/
def Edge.eq (a other : Edge) : Bool :=
  State.eq a.from_ other.from_ && State.eq a.to_ other.to_ && decide (a.te = other.te)
    && decide (a.re = other.re)

/-- The loops `for (i < te.size()) if (te[i] != other.te[i]) return te[i] < other.te[i];`
of `Edge::operator<`, run on two vectors of the same size: the value returned, or `none`
when the loop ends. -/
def first_difference : List Nat → List Nat → Option Bool
  | x :: xs, y :: ys => if x ≠ y then some (decide (x < y)) else first_difference xs ys
  | _, _ => none

/-- Model of `Edge::operator<`; `none` is the failure of an assertion (of a nested
`State::operator<`, or of the final `assert(*this == other)`). -/
def Edge.lt (a other : Edge) : Option Bool :=
  if ¬ State.eq a.from_ other.from_ then State.lt a.from_ other.from_
  else if ¬ State.eq a.to_ other.to_ then State.lt a.to_ other.to_
  else if a.te.length ≠ other.te.length then some (decide (a.te.length < other.te.length))
  else if a.re.length ≠ other.re.length then some (decide (a.re.length < other.re.length))
  else
    match first_difference a.te other.te with
    | some r => some r
    | none =>
      match first_difference a.re other.re with
      | some r => some r
      | none => if Edge.eq a other then some false else none

/-- The numbers `Edge::operator<` compares, in the order it compares them. -/
def Edge.key (e : Edge) : List Nat :=
  [e.from_.ts, e.from_.rs, e.to_.ts, e.to_.rs, e.te.length, e.re.length] ++ (e.te ++ e.re)

/-- Model of the lambda `compare` that `compute_topological_sort` passes to `std::sort`;
`target_scc` and `rewrite_scc` are `CfgSccs::get_scc` of the two programs. -/
def compare (target_scc rewrite_scc : Nat → Nat) (a b : State) : Bool :=
  if target_scc a.ts > target_scc b.ts then true
  else decide (rewrite_scc a.rs > rewrite_scc b.rs)

/-- Model of `compute_topological_sort`: the value of `topological_sort_` afterwards.
`keys` are the states with an invariant, `sort` is `std::sort`. -/
def compute_topological_sort (sort : (State → State → Bool) → List State → List State)
    (start_state exit_state fail_state : State) (keys : List State)
    (target_scc rewrite_scc : Nat → Nat) : List State :=
  let nodes := keys.filter (fun node =>
    !(State.eq node start_state || State.eq node exit_state || State.eq node fail_state))
  let nodes := sort (compare target_scc rewrite_scc) nodes
  start_state :: nodes ++ [exit_state]

/-- The loop of `get_paths` over the edges that leave `start`; `continuation` is the
recursive call, `none` when it does not return. -/
def get_paths_loop (continuation : State → Option (List (List Edge))) (end_ : State) :
    List Edge → List (List Edge) → Option (List (List Edge))
  | [], results => some results
  | e :: rest, results =>
    if State.eq e.to_ e.from_ then get_paths_loop continuation end_ rest results
    else if State.eq e.to_ end_ then
      get_paths_loop continuation end_ rest (results ++ [[e]])
    else
      match continuation e.to_ with
      | none => none
      | some continuation_paths =>
        get_paths_loop continuation end_ rest
          (results ++ continuation_paths.map (fun path => e :: path))

/-- Model of `get_paths(start, end)` with a bound `fuel` on the depth of the recursion;
`none` when the bound is reached. -/
def get_paths (next_edges : State → List Edge) : Nat → State → State →
    Option (List (List Edge))
  | 0, _, _ => none
  | fuel + 1, start, end_ =>
    get_paths_loop (fun successor => get_paths next_edges fuel successor end_) end_
      (next_edges start) []

/-- An automaton with the cycle `(1,1) → (2,2) → (1,1)`, a self-loop at `(1,1)` and an
edge from `(2,2)` to `(3,3)` when `with_exit` is set. -/
def cycle (with_exit : Bool) (s : State) : List Edge :=
  if s = ⟨1, 1⟩ then [Edge.new ⟨1, 1⟩ [1, 1] [1, 1], Edge.new ⟨2, 2⟩ [1, 2] [1, 2]]
  else if s = ⟨2, 2⟩ then
    Edge.new ⟨1, 1⟩ [2, 1] [2, 1] :: (if with_exit then [Edge.new ⟨3, 3⟩ [2, 3] [2, 3]] else [])
  else []

/-- An automaton without a cycle of two or more states: a self-loop at `(1,1)`, two edges
from `(1,1)` to `(2,2)` and one from `(2,2)` to `(3,3)`. -/
def diamond (s : State) : List Edge :=
  if s = ⟨1, 1⟩ then
    [Edge.new ⟨1, 1⟩ [1, 1] [1, 1], Edge.new ⟨2, 2⟩ [1, 2] [1, 2], Edge.new ⟨2, 2⟩ [1, 4, 2] [1, 2]]
  else if s = ⟨2, 2⟩ then [Edge.new ⟨3, 3⟩ [2, 3] [2, 3]]
  else []

end ProgramAlignmentAutomata

/-! ## Disjunctions of invariants (`src/validator/invariants/disjunction.h`) -/

namespace DisjunctionInvariant

/-- The virtual members of the class `Invariant` that a disjunction calls on its
disjuncts, for disjuncts of type `ι`: the concrete `check`, the symbolic `operator()`
(the formula and the number as the call leaves it), and what `write` and `write_pretty`
send to the stream. -/
structure Disjuncts (ι : Type) where
  check : ι → CpuState → CpuState → Bool
  formula : ι → SymState → SymState → Nat → SymBool × Nat
  write : ι → String
  write_pretty : ι → String

/-- Model of `DisjunctionInvariant::operator()(left, right, number)`: the formula and the
number afterwards. -/
def call {ι : Type} (ops : Disjuncts ι) (invariants_ : List ι) (left right : SymState)
    (number : Nat) : SymBool × Nat :=
  invariants_.foldl (fun (acc : SymBool × Nat) (it : ι) =>
    let r := ops.formula it left right acc.2
    (SymBool.or acc.1 r.1, r.2 + 1)) (SymBool._false, number)

/-- Model of `DisjunctionInvariant::check(target, rewrite)`. -/
def check {ι : Type} (ops : Disjuncts ι) : List ι → CpuState → CpuState → Bool
  | [], _, _ => false
  | it :: rest, target, rewrite =>
    if ops.check it target rewrite then true else check ops rest target rewrite

/-- The loop of `write`, from the index `i` on: every disjunct, and `" v "` after all but
the last. -/
def write_loop {ι : Type} (ops : Disjuncts ι) (size : Nat) : List ι → Nat → String
  | [], _ => ""
  | it :: rest, i =>
    ops.write it ++ (if i ≠ size - 1 then " v " else "") ++ write_loop ops size rest (i + 1)

/-- Model of `DisjunctionInvariant::write(os)`: the text sent to the stream. -/
def write {ι : Type} (ops : Disjuncts ι) (invariants_ : List ι) : String :=
  match invariants_ with
  | [] => "false"
  | [it] => ops.write it
  | _ => "( " ++ write_loop ops invariants_.length invariants_ 0 ++ " )"

/-- The loop of `write_pretty`, from the index `i` on. -/
def write_pretty_loop {ι : Type} (ops : Disjuncts ι) (size : Nat) : List ι → Nat → String
  | [], _ => ""
  | it :: rest, i =>
    "    " ++ ops.write_pretty it ++ (if i ≠ size - 1 then " v \n" else "")
      ++ write_pretty_loop ops size rest (i + 1)

/-- Model of `DisjunctionInvariant::write_pretty(os)`: the text sent to the stream. -/
def write_pretty {ι : Type} (ops : Disjuncts ι) (invariants_ : List ι) : String :=
  match invariants_ with
  | [] => "    true\n"
  | _ => write_pretty_loop ops invariants_.length invariants_ 0 ++ "\n"

end DisjunctionInvariant

/-! ### An offset table whose sums leave the range of `int64_t` -/

namespace ArmMemory

/-- A memory with three two-byte accesses: the second is recorded `2^63 - 1` bytes below
the first and the third `2^63 - 1` bytes above it.  Every recorded offset is an
`int64_t`; the third access ends `2^63 + 1` bytes above the first. -/
def far_apart : ArmMemory :=
  { fresh [] "1" solver_sat with
    all_accesses_ :=
      [reg_access "rax" 16 true 0, reg_access "rbx" 16 false 1, reg_access "rcx" 16 false 2]
    access_offsets_ := fun i j =>
      if i = 0 ∧ j = 1 then some (-(2 ^ 63 - 1))
      else if i = 1 ∧ j = 0 then some (2 ^ 63 - 1)
      else if i = 0 ∧ j = 2 then some (2 ^ 63 - 1)
      else if i = 2 ∧ j = 0 then some (-(2 ^ 63 - 1))
      else none }

end ArmMemory

namespace CellMemory

/-- The conjunction of the per-cell equalities, as the comment of `equality_constraint`
describes it: for every cell `(k, v)` of the first map, in key order, the equality of `v`
with the cell `k` of the second map, conjoined to `true` from the left. -/
def per_cell_equalities (cells other_cells : SMap SymBitVector) : SymBool :=
  cells.foldl (fun condition p =>
    SymBool.and condition (SymBool.eq p.2 (other_cells.getD p.1 .null))) SymBool._true

/-- A memory with the single 4-byte cell 0, whose value is the variable `name`, and the
secret cell `secret`. -/
def one_valued_cell (name secret : String) : CellMemory :=
  { one_cell with
    cells_ := [(0, SymBitVector.var 32 name)]
    init_cells_ := [(0, SymBitVector.var 32 name)]
    secret_cell_ := SymBitVector.var 64 secret }

end CellMemory

namespace ArmMemory

/-- Every access of `m'` has a cell and lies inside it (`0 <= cell_offset` and
`cell_offset + size/8 <= cell.size`), and the address of the cell is a 64-bit value under
the assignment `env`. -/
def Inside (env : Env) (m' : ArmMemory) : Prop :=
  ∀ a ∈ m'.all_accesses_, ∃ id c, a.cell = some id ∧ m'.cells_[id]? = some c ∧
    0 ≤ a.cell_offset ∧ a.cell_offset + ((a.size / 8 : Nat) : Int) ≤ (c.size : Int) ∧
    (c.address.eval env).w = 64

end ArmMemory
/-! # Theorems -/

/-! ## Properties of TrivialMemory -/

theorem TrivialMemory.run_lists (cs : List TrivialMemory.Call) (m : TrivialMemory) (ctr : Nat)
    (hr : m.all_list_.filter (fun sa => sa.is_read) = m.read_list_)
    (hw : m.all_list_.filter (fun sa => !sa.is_read) = m.write_list_) :
    (TrivialMemory.run cs (m, ctr)).1.all_list_.filter (fun sa => sa.is_read)
        = (TrivialMemory.run cs (m, ctr)).1.read_list_ ∧
    (TrivialMemory.run cs (m, ctr)).1.all_list_.filter (fun sa => !sa.is_read)
        = (TrivialMemory.run cs (m, ctr)).1.write_list_ := by
  induction cs generalizing m ctr with
  | nil => exact ⟨hr, hw⟩
  | cons c cs ih =>
    cases c with
    | write a v sz i =>
      apply ih
      · simp [TrivialMemory.write, List.filter_append, hr]
      · simp [TrivialMemory.write, List.filter_append, hw]
    | read a sz i =>
      apply ih
      · simp [TrivialMemory.read, List.filter_append, hr]
      · simp [TrivialMemory.read, List.filter_append, hw]

/-- C10: `TrivialMemory::write` and `TrivialMemory::read` return the constant false as
fault condition and record exactly one access each: `write` appends
`{info, size/8, address, value, is_read = false}` to the write list and to the list of
all accesses and leaves the read list alone; `read` appends a record holding the fresh
`size`-bit temporary it returns to the read list and to the list of all accesses and
leaves the write list alone; after any sequence of calls on a new memory, `get_reads`
and `get_writes` are the reads and the writes of `get_all` in call order. -/
theorem TrivialMemory.C10_access_recording :
    (∀ (m : TrivialMemory) (a v : SymBitVector) (sz : Nat) (i : DereferenceInfo),
      (m.write a v sz i).1 = SymBool._false ∧
      (m.write a v sz i).2.write_list_ = m.write_list_ ++ [⟨i, sz / 8, a, v, false, none⟩] ∧
      (m.write a v sz i).2.all_list_ = m.all_list_ ++ [⟨i, sz / 8, a, v, false, none⟩] ∧
      (m.write a v sz i).2.read_list_ = m.read_list_) ∧
    (∀ (m : TrivialMemory) (ctr : Nat) (a : SymBitVector) (sz : Nat) (i : DereferenceInfo),
      (m.read ctr a sz i).1 = (SymBitVector.tmp_var sz ctr, SymBool._false) ∧
      (m.read ctr a sz i).2.2 = ctr + 1 ∧
      (m.read ctr a sz i).2.1.read_list_
        = m.read_list_ ++ [⟨i, sz / 8, a, SymBitVector.tmp_var sz ctr, true, none⟩] ∧
      (m.read ctr a sz i).2.1.all_list_
        = m.all_list_ ++ [⟨i, sz / 8, a, SymBitVector.tmp_var sz ctr, true, none⟩] ∧
      (m.read ctr a sz i).2.1.write_list_ = m.write_list_) ∧
    (∀ (cs : List TrivialMemory.Call) (ctr : Nat),
      (TrivialMemory.run cs (TrivialMemory.init, ctr)).1.get_all.filter (fun sa => sa.is_read)
        = (TrivialMemory.run cs (TrivialMemory.init, ctr)).1.get_reads ∧
      (TrivialMemory.run cs (TrivialMemory.init, ctr)).1.get_all.filter (fun sa => !sa.is_read)
        = (TrivialMemory.run cs (TrivialMemory.init, ctr)).1.get_writes) := by
  refine ⟨fun m a v sz i => ⟨rfl, rfl, rfl, rfl⟩, fun m ctr a sz i => ⟨rfl, rfl, rfl, rfl, rfl⟩, ?_⟩
  intro cs ctr
  exact TrivialMemory.run_lists cs TrivialMemory.init ctr rfl rfl

/-! ## Properties of CellMemory -/

theorem SMap.find?_set {α : Type} (m : SMap α) (k : Nat) (v : α) (k' : Nat) :
    (m.set k v).find? k' = if k' = k then some v else m.find? k' := by
  induction m with
  | nil =>
    by_cases h : k' = k
    · simp [SMap.set, SMap.find?, h]
    · have h' : ¬ k = k' := fun e => h e.symm
      simp [SMap.set, SMap.find?, h, h']
  | cons p t ih =>
    obtain ⟨k0, v0⟩ := p
    unfold SMap.set
    by_cases h1 : k < k0
    · by_cases h : k' = k
      · simp [h1, SMap.find?, h]
      · have h' : ¬ k = k' := fun e => h e.symm
        simp [h1, SMap.find?, h, h']
    · by_cases h2 : k = k0
      · subst h2
        by_cases h : k' = k
        · simp [SMap.find?, h]
        · have h' : ¬ k = k' := fun e => h e.symm
          simp [SMap.find?, h, h']
      · simp only [h1, h2, if_false, SMap.find?]
        by_cases h3 : k0 = k'
        · have : ¬ k' = k := fun e => h2 (by omega)
          simp [h3, this]
        · simp [h3, ih]

theorem SMap.count_set {α : Type} (m : SMap α) (k : Nat) (v : α) (k' : Nat) :
    (m.set k v).count k' = (decide (k' = k) || m.count k') := by
  unfold SMap.count
  rw [SMap.find?_set]
  by_cases h : k' = k <;> simp [h]

theorem SMap.count_eq_true_iff_mem_keys {α : Type} (m : SMap α) (k : Nat) :
    m.count k = true ↔ k ∈ m.keys := by
  induction m with
  | nil => simp [SMap.count, SMap.find?, SMap.keys]
  | cons p t ih =>
    obtain ⟨k0, v0⟩ := p
    by_cases h : k0 = k
    · simp [SMap.count, SMap.find?, SMap.keys, h]
    · have h' : ¬ k = k0 := fun e => h e.symm
      have ih' := ih
      simp only [SMap.count, SMap.keys] at ih'
      simp [SMap.count, SMap.find?, SMap.keys, h, h', ih']

theorem CellMemory.add_missing_count (src : CellMemory) (acc : CellMemory × Nat) (k0 k : Nat) :
    (CellMemory.add_missing src acc k0).1.cells_.count k
      = (acc.1.cells_.count k || decide (k = k0)) := by
  unfold CellMemory.add_missing
  by_cases h : acc.1.cells_.count k0 = true
  · by_cases hk : k = k0
    · subst hk; simp [h]
    · simp [h, hk]
  · simp only [h]
    simp only [Bool.false_eq_true, if_false, SMap.count_set]
    exact Bool.or_comm _ _

theorem CellMemory.add_missing_keep (src : CellMemory) (acc : CellMemory × Nat) (k0 k : Nat)
    (h : acc.1.cells_.count k = true) :
    (CellMemory.add_missing src acc k0).1.cell k = acc.1.cell k := by
  unfold CellMemory.add_missing
  by_cases h0 : acc.1.cells_.count k0 = true
  · simp [h0]
  · have hk : k ≠ k0 := by
      intro e; subst e; exact h0 h
    simp [h0, CellMemory.cell, SMap.find?_set, hk]

theorem CellMemory.add_missing_new (src : CellMemory) (acc : CellMemory × Nat) (k0 : Nat)
    (h : acc.1.cells_.count k0 = false) :
    (CellMemory.add_missing src acc k0).1.cell k0
      = CellMemory.placeholder (src.cell_sizes_.getD k0 0) (src.cell_addrs_.getD k0 .null)
          (src.cell_unconstrained_.getD k0 false) acc.2 ∧
    (CellMemory.add_missing src acc k0).2 = acc.2 + 1 := by
  unfold CellMemory.add_missing
  simp [h, CellMemory.cell, CellMemory.placeholder, SMap.find?_set]

theorem CellMemory.add_missing_frame (src : CellMemory) (acc : CellMemory × Nat) (k0 : Nat) :
    acc.2 ≤ (CellMemory.add_missing src acc k0).2 ∧
    (CellMemory.add_missing src acc k0).1.map_ = acc.1.map_ ∧
    (CellMemory.add_missing src acc k0).1.secret_cell_ = acc.1.secret_cell_ := by
  unfold CellMemory.add_missing
  by_cases h0 : acc.1.cells_.count k0 = true <;> simp [h0]

theorem CellMemory.fold_add_missing (src : CellMemory) (ks : List Nat) (acc : CellMemory × Nat) :
    (∀ k, (ks.foldl (CellMemory.add_missing src) acc).1.cells_.count k
        = (acc.1.cells_.count k || decide (k ∈ ks))) ∧
    (∀ k, acc.1.cells_.count k = true →
        (ks.foldl (CellMemory.add_missing src) acc).1.cell k = acc.1.cell k) ∧
    acc.2 ≤ (ks.foldl (CellMemory.add_missing src) acc).2 ∧
    (ks.foldl (CellMemory.add_missing src) acc).1.map_ = acc.1.map_ ∧
    (ks.foldl (CellMemory.add_missing src) acc).1.secret_cell_ = acc.1.secret_cell_ ∧
    (∀ k ∈ ks, acc.1.cells_.count k = false → ∃ n, acc.2 ≤ n ∧
        n < (ks.foldl (CellMemory.add_missing src) acc).2 ∧
        (ks.foldl (CellMemory.add_missing src) acc).1.cell k
          = CellMemory.placeholder (src.cell_sizes_.getD k 0) (src.cell_addrs_.getD k .null)
              (src.cell_unconstrained_.getD k false) n) := by
  induction ks generalizing acc with
  | nil => simp
  | cons k0 ks ih =>
    simp only [List.foldl_cons]
    obtain ⟨i1, i2, i3, i4, i5, i6⟩ := ih (CellMemory.add_missing src acc k0)
    obtain ⟨f1, f2, f3⟩ := CellMemory.add_missing_frame src acc k0
    refine ⟨?_, ?_, le_trans f1 i3, i4.trans f2, i5.trans f3, ?_⟩
    · intro k
      rw [i1, CellMemory.add_missing_count]
      by_cases e : k = k0 <;> simp [e, Bool.or_assoc]
    · intro k hk
      rw [i2 k (by rw [CellMemory.add_missing_count, hk]; rfl)]
      exact CellMemory.add_missing_keep src acc k0 k hk
    · intro k hk hc
      by_cases e : k = k0
      · subst e
        obtain ⟨n1, n2⟩ := CellMemory.add_missing_new src acc k hc
        refine ⟨acc.2, le_refl _, ?_, ?_⟩
        · omega
        · rw [i2 k (by rw [CellMemory.add_missing_count]; simp)]
          exact n1
      · have hk' : k ∈ ks := by
          rcases List.mem_cons.mp hk with h | h
          · exact absurd h e
          · exact h
        obtain ⟨n, a1, a2, a3⟩ := i6 k hk' (by rw [CellMemory.add_missing_count, hc]; simp [e])
        exact ⟨n, le_trans f1 a1, a2, a3⟩

theorem CellMemory.fold_add_missing_id (src : CellMemory) (ks : List Nat) (acc : CellMemory × Nat)
    (h : ∀ k ∈ ks, acc.1.cells_.count k = true) :
    ks.foldl (CellMemory.add_missing src) acc = acc := by
  induction ks with
  | nil => rfl
  | cons k0 ks ih =>
    have h0 : CellMemory.add_missing src acc k0 = acc := by
      unfold CellMemory.add_missing
      simp [h k0 (List.mem_cons_self _ _)]
    simp only [List.foldl_cons, h0]
    exact ih (fun k hk => h k (List.mem_cons_of_mem _ hk))

theorem CellMemory.placeholder_inj {sz sz' : Nat} {addr addr' : SymBitVector} {unc unc' : Bool}
    {n n' : Nat}
    (h : CellMemory.placeholder sz addr unc n = CellMemory.placeholder sz' addr' unc' n') :
    n = n' := by
  unfold CellMemory.placeholder at h
  injection h with h1 _
  injection h1 with h1
  injection h1

theorem CellMemory.count_of_cell_placeholder {m : CellMemory} {k sz n : Nat}
    {addr : SymBitVector} {unc : Bool}
    (h : m.cell k = CellMemory.placeholder sz addr unc n) : m.cells_.count k = true := by
  unfold CellMemory.cell CellMemory.placeholder at h
  injection h with h1 _
  simp [SMap.count, h1]

theorem CellMemory.fold_add_missing_distinct (src : CellMemory) (ks : List Nat)
    (acc : CellMemory × Nat) (k k' : Nat) (hne : k ≠ k')
    (hc : acc.1.cells_.count k = false) (hc' : acc.1.cells_.count k' = false)
    (sz sz' n n' : Nat) (addr addr' : SymBitVector) (unc unc' : Bool)
    (h : (ks.foldl (CellMemory.add_missing src) acc).1.cell k
          = CellMemory.placeholder sz addr unc n)
    (h' : (ks.foldl (CellMemory.add_missing src) acc).1.cell k'
          = CellMemory.placeholder sz' addr' unc' n') :
    n ≠ n' := by
  induction ks generalizing acc with
  | nil =>
    have := CellMemory.count_of_cell_placeholder h
    simp only [List.foldl_nil] at this
    rw [hc] at this
    exact absurd this (by simp)
  | cons k0 ks ih =>
    simp only [List.foldl_cons] at h h'
    obtain ⟨i1, i2, i3, -, -, i6⟩ := CellMemory.fold_add_missing src ks (CellMemory.add_missing src acc k0)
    have key : ∀ (x y : Nat) (sx nx sy ny : Nat) (ax ay : SymBitVector) (ux uy : Bool),
        x = k0 → y ≠ k0 → acc.1.cells_.count x = false → acc.1.cells_.count y = false →
        (ks.foldl (CellMemory.add_missing src) (CellMemory.add_missing src acc k0)).1.cell x
          = CellMemory.placeholder sx ax ux nx →
        (ks.foldl (CellMemory.add_missing src) (CellMemory.add_missing src acc k0)).1.cell y
          = CellMemory.placeholder sy ay uy ny → nx ≠ ny := by
      intro x y sx nx sy ny ax ay ux uy ex ey cx cy hx hy
      subst ex
      obtain ⟨n1, n2⟩ := CellMemory.add_missing_new src acc x cx
      rw [i2 x (by rw [CellMemory.add_missing_count]; simp), n1] at hx
      have e1 : acc.2 = nx := CellMemory.placeholder_inj hx
      have cy' : (CellMemory.add_missing src acc x).1.cells_.count y = false := by
        rw [CellMemory.add_missing_count, cy]; simp [ey]
      have hy_mem : y ∈ ks := by
        have := CellMemory.count_of_cell_placeholder hy
        rw [i1, cy'] at this
        simpa using this
      obtain ⟨m, m1, -, m3⟩ := i6 y hy_mem cy'
      rw [m3] at hy
      have e2 : m = ny := CellMemory.placeholder_inj hy
      omega
    by_cases e : k = k0
    · exact key k k' sz n sz' n' addr addr' unc unc' e (fun e' => hne (e.trans e'.symm)) hc hc' h h'
    · by_cases e' : k' = k0
      · exact (key k' k sz' n' sz n addr' addr unc' unc e' e hc' hc h' h).symm
      · exact ih (CellMemory.add_missing src acc k0)
          (by rw [CellMemory.add_missing_count, hc]; simp [e])
          (by rw [CellMemory.add_missing_count, hc']; simp [e']) h h'

theorem SMap.decide_mem_keys {α : Type} (m : SMap α) (k : Nat) :
    decide (k ∈ m.keys) = m.count k := by
  by_cases h : m.count k = true
  · rw [h]; exact decide_eq_true ((SMap.count_eq_true_iff_mem_keys m k).mp h)
  · have h' : ¬ k ∈ m.keys := fun hm => h ((SMap.count_eq_true_iff_mem_keys m k).mpr hm)
    rw [Bool.not_eq_true] at h
    rw [h]; exact decide_eq_false h'

theorem SMap.getD_of_find? {α : Type} {m : SMap α} {k : Nat} {v : α} (d : α)
    (h : m.find? k = some v) : m.getD k d = v := by
  simp [SMap.getD, h]

theorem SMap.exists_of_count {α : Type} {m : SMap α} {k : Nat} (h : m.count k = true) :
    ∃ v, m.find? k = some v := by
  unfold SMap.count at h
  exact Option.isSome_iff_exists.mp h

theorem CellMemory.equalize_cells_id (x y : CellMemory) (n : Nat)
    (h1 : ∀ k ∈ x.cells_.keys, y.cells_.count k = true)
    (h2 : ∀ k ∈ y.cells_.keys, x.cells_.count k = true) :
    CellMemory.equalize_cells x y n = (x, y, n) := by
  unfold CellMemory.equalize_cells
  rw [CellMemory.fold_add_missing_id x x.cells_.keys (y, n) h1]
  simp only
  rw [CellMemory.fold_add_missing_id y y.cells_.keys (x, n) h2]

/-- C7: after `a.equalize_cells(b)` (on memories whose per-cell maps agree on their keys)
both memories have the same cell ids, the union of the ids before the call; a cell that
existed keeps its value, initial value, size, address and flag; a cell inserted on one
side copies size, address and flag from the other side and has one temporary of
`size * 8` bits, created during the call and different from that of every other cell
inserted on that side, as both its initial and its current value; and calling
`equalize_cells` again changes neither memory nor the counter of temporaries. -/
theorem CellMemory.C7_equalize_cells (a b : CellMemory) (ctr : Nat) (ha : a.wf) (hb : b.wf) :
    (∀ k, k ∈ (CellMemory.equalize_cells a b ctr).1.cells_.keys
        ↔ (k ∈ a.cells_.keys ∨ k ∈ b.cells_.keys)) ∧
    (∀ k, k ∈ (CellMemory.equalize_cells a b ctr).2.1.cells_.keys
        ↔ (k ∈ a.cells_.keys ∨ k ∈ b.cells_.keys)) ∧
    (∀ k, k ∈ a.cells_.keys → (CellMemory.equalize_cells a b ctr).1.cell k = a.cell k) ∧
    (∀ k, k ∈ b.cells_.keys → (CellMemory.equalize_cells a b ctr).2.1.cell k = b.cell k) ∧
    (∀ k, k ∉ a.cells_.keys → k ∈ b.cells_.keys → ∃ n sz addr unc,
        ctr ≤ n ∧ n < (CellMemory.equalize_cells a b ctr).2.2 ∧
        b.cell_sizes_.find? k = some sz ∧ b.cell_addrs_.find? k = some addr ∧
        b.cell_unconstrained_.find? k = some unc ∧
        (CellMemory.equalize_cells a b ctr).1.cell k = CellMemory.placeholder sz addr unc n) ∧
    (∀ k, k ∉ b.cells_.keys → k ∈ a.cells_.keys → ∃ n sz addr unc,
        ctr ≤ n ∧ n < (CellMemory.equalize_cells a b ctr).2.2 ∧
        a.cell_sizes_.find? k = some sz ∧ a.cell_addrs_.find? k = some addr ∧
        a.cell_unconstrained_.find? k = some unc ∧
        (CellMemory.equalize_cells a b ctr).2.1.cell k = CellMemory.placeholder sz addr unc n) ∧
    (∀ k k' sz sz' n n' addr addr' unc unc', k ≠ k' → k ∉ a.cells_.keys → k' ∉ a.cells_.keys →
        (CellMemory.equalize_cells a b ctr).1.cell k = CellMemory.placeholder sz addr unc n →
        (CellMemory.equalize_cells a b ctr).1.cell k' = CellMemory.placeholder sz' addr' unc' n' →
        n ≠ n') ∧
    (∀ k k' sz sz' n n' addr addr' unc unc', k ≠ k' → k ∉ b.cells_.keys → k' ∉ b.cells_.keys →
        (CellMemory.equalize_cells a b ctr).2.1.cell k = CellMemory.placeholder sz addr unc n →
        (CellMemory.equalize_cells a b ctr).2.1.cell k' = CellMemory.placeholder sz' addr' unc' n' →
        n ≠ n') ∧
    CellMemory.equalize_cells (CellMemory.equalize_cells a b ctr).1
        (CellMemory.equalize_cells a b ctr).2.1 (CellMemory.equalize_cells a b ctr).2.2
      = CellMemory.equalize_cells a b ctr := by
  obtain ⟨p1, p2, p3, -, -, p6⟩ := CellMemory.fold_add_missing a a.cells_.keys (b, ctr)
  obtain ⟨q1, q2, q3, -, -, q6⟩ := CellMemory.fold_add_missing
    (a.cells_.keys.foldl (CellMemory.add_missing a) (b, ctr)).1
    (a.cells_.keys.foldl (CellMemory.add_missing a) (b, ctr)).1.cells_.keys
    (a, (a.cells_.keys.foldl (CellMemory.add_missing a) (b, ctr)).2)
  have nc : ∀ (m : CellMemory) (k : Nat), k ∉ m.cells_.keys → m.cells_.count k = false := by
    intro m k h
    rw [← Bool.not_eq_true]
    exact fun h' => h ((SMap.count_eq_true_iff_mem_keys _ k).mp h')
  have yc : ∀ (m : CellMemory) (k : Nat), k ∈ m.cells_.keys → m.cells_.count k = true :=
    fun m k h => (SMap.count_eq_true_iff_mem_keys _ k).mpr h
  simp only [SMap.decide_mem_keys] at p1 q1
  have cb : ∀ k, (CellMemory.equalize_cells a b ctr).2.1.cells_.count k
      = (b.cells_.count k || a.cells_.count k) := p1
  have ca : ∀ k, (CellMemory.equalize_cells a b ctr).1.cells_.count k
      = (a.cells_.count k || b.cells_.count k) := by
    intro k
    have := q1 k
    rw [p1 k] at this
    rw [show (CellMemory.equalize_cells a b ctr).1.cells_.count k = _ from this]
    cases a.cells_.count k <;> cases b.cells_.count k <;> rfl
  refine ⟨?_, ?_, ?_, ?_, ?_, ?_, ?_, ?_, ?_⟩
  · intro k
    rw [← SMap.count_eq_true_iff_mem_keys, ← SMap.count_eq_true_iff_mem_keys,
      ← SMap.count_eq_true_iff_mem_keys, ca k]
    simp
  · intro k
    rw [← SMap.count_eq_true_iff_mem_keys, ← SMap.count_eq_true_iff_mem_keys,
      ← SMap.count_eq_true_iff_mem_keys, cb k]
    simp [or_comm]
  · intro k hk
    exact q2 k (yc a k hk)
  · intro k hk
    exact p2 k (yc b k hk)
  · intro k hka hkb
    have hkb' := yc b k hkb
    obtain ⟨h1, h2, h3, h4⟩ := hb k hkb'
    obtain ⟨sz, hsz⟩ := SMap.exists_of_count h2
    obtain ⟨addr, haddr⟩ := SMap.exists_of_count h3
    obtain ⟨unc, hunc⟩ := SMap.exists_of_count h4
    have hmem : k ∈ (a.cells_.keys.foldl (CellMemory.add_missing a) (b, ctr)).1.cells_.keys := by
      rw [← SMap.count_eq_true_iff_mem_keys, p1 k, hkb']; rfl
    obtain ⟨n, n1, n2, n3⟩ := q6 k hmem (nc a k hka)
    have hcell := p2 k hkb'
    simp only [CellMemory.cell, Prod.mk.injEq] at hcell
    obtain ⟨-, -, c3, c4, c5⟩ := hcell
    rw [SMap.getD_of_find? 0 (c3.trans hsz), SMap.getD_of_find? .null (c4.trans haddr),
      SMap.getD_of_find? false (c5.trans hunc)] at n3
    exact ⟨n, sz, addr, unc, le_trans p3 n1, n2, hsz, haddr, hunc, n3⟩
  · intro k hkb hka
    have hka' := yc a k hka
    obtain ⟨h1, h2, h3, h4⟩ := ha k hka'
    obtain ⟨sz, hsz⟩ := SMap.exists_of_count h2
    obtain ⟨addr, haddr⟩ := SMap.exists_of_count h3
    obtain ⟨unc, hunc⟩ := SMap.exists_of_count h4
    obtain ⟨n, n1, n2, n3⟩ := p6 k hka (nc b k hkb)
    rw [SMap.getD_of_find? 0 hsz, SMap.getD_of_find? .null haddr,
      SMap.getD_of_find? false hunc] at n3
    exact ⟨n, sz, addr, unc, n1, lt_of_lt_of_le n2 q3, hsz, haddr, hunc, n3⟩
  · intro k k' sz sz' n n' addr addr' unc unc' hne hk hk' h h'
    exact CellMemory.fold_add_missing_distinct _ _ _ k k' hne (nc a k hk) (nc a k' hk')
      sz sz' n n' addr addr' unc unc' h h'
  · intro k k' sz sz' n n' addr addr' unc unc' hne hk hk' h h'
    exact CellMemory.fold_add_missing_distinct _ _ _ k k' hne (nc b k hk) (nc b k' hk')
      sz sz' n n' addr addr' unc unc' h h'
  · rw [CellMemory.equalize_cells_id]
    · intro k hk
      have := yc _ k hk
      rw [ca k] at this
      rw [cb k, Bool.or_comm]; exact this
    · intro k hk
      have := yc _ k hk
      rw [cb k] at this
      rw [ca k, Bool.or_comm]; exact this

theorem CellMemory.no_cells_wf (name : String) : (CellMemory.no_cells name).wf := by
  intro k h
  simp [CellMemory.no_cells, SMap.count, SMap.find?] at h

theorem CellMemory.one_cell_wf : CellMemory.one_cell.wf := by
  intro k h
  by_cases e : k = 0
  · subst e
    simp [CellMemory.one_cell, SMap.count, SMap.find?]
  · have e' : ¬ 0 = k := fun x => e x.symm
    simp [CellMemory.one_cell, SMap.count, SMap.find?, e'] at h

/-- Witness for C7: a memory with one cell equalized with a memory without cells. -/
theorem CellMemory.C7_equalize_cells_witness :
    CellMemory.one_cell.wf ∧ (CellMemory.no_cells "secret_2").wf ∧
    CellMemory.equalize_cells
        (CellMemory.equalize_cells CellMemory.one_cell (CellMemory.no_cells "secret_2") 0).1
        (CellMemory.equalize_cells CellMemory.one_cell (CellMemory.no_cells "secret_2") 0).2.1
        (CellMemory.equalize_cells CellMemory.one_cell (CellMemory.no_cells "secret_2") 0).2.2
      = CellMemory.equalize_cells CellMemory.one_cell (CellMemory.no_cells "secret_2") 0 :=
  ⟨CellMemory.one_cell_wf, CellMemory.no_cells_wf "secret_2",
    (CellMemory.C7_equalize_cells CellMemory.one_cell (CellMemory.no_cells "secret_2") 0
      CellMemory.one_cell_wf (CellMemory.no_cells_wf "secret_2")).2.2.2.2.2.2.2.2⟩

theorem CellMemory.equalize_cells_count (a b : CellMemory) (ctr : Nat) :
    (∀ k, (CellMemory.equalize_cells a b ctr).1.cells_.count k
        = (a.cells_.count k || b.cells_.count k)) ∧
    (∀ k, (CellMemory.equalize_cells a b ctr).2.1.cells_.count k
        = (a.cells_.count k || b.cells_.count k)) ∧
    (CellMemory.equalize_cells a b ctr).1.secret_cell_ = a.secret_cell_ ∧
    (CellMemory.equalize_cells a b ctr).2.1.secret_cell_ = b.secret_cell_ := by
  obtain ⟨p1, -, -, -, p5, -⟩ := CellMemory.fold_add_missing a a.cells_.keys (b, ctr)
  obtain ⟨q1, -, -, -, q5, -⟩ := CellMemory.fold_add_missing
    (a.cells_.keys.foldl (CellMemory.add_missing a) (b, ctr)).1
    (a.cells_.keys.foldl (CellMemory.add_missing a) (b, ctr)).1.cells_.keys
    (a, (a.cells_.keys.foldl (CellMemory.add_missing a) (b, ctr)).2)
  simp only [SMap.decide_mem_keys] at p1 q1
  refine ⟨?_, ?_, q5, p5⟩
  · intro k
    have := q1 k
    rw [p1 k] at this
    rw [show (CellMemory.equalize_cells a b ctr).1.cells_.count k = _ from this]
    cases a.cells_.count k <;> cases b.cells_.count k <;> rfl
  · intro k
    rw [show (CellMemory.equalize_cells a b ctr).2.1.cells_.count k = _ from p1 k]
    exact Bool.or_comm _ _

theorem CellMemory.cell_equalities_ok (other : CellMemory) (ps : List (Nat × SymBitVector))
    (condition : SymBool) (h : ∀ p ∈ ps, other.cells_.count p.1 = true) :
    ∃ c, CellMemory.cell_equalities other ps condition = .ok c := by
  induction ps generalizing condition with
  | nil => exact ⟨condition, rfl⟩
  | cons p ps ih =>
    obtain ⟨k, v⟩ := p
    have hk : other.cells_.count k = true := h (k, v) (List.mem_cons_self _ _)
    unfold CellMemory.cell_equalities
    simp only [hk, if_true]
    exact ih _ (fun p hp => h p (List.mem_cons_of_mem _ hp))

theorem SMap.count_fst_of_mem {α : Type} (m : SMap α) (p : Nat × α) (h : p ∈ m) :
    m.count p.1 = true := by
  rw [SMap.count_eq_true_iff_mem_keys]
  exact List.mem_map_of_mem Prod.fst h

/-- The loop of `equality_constraint` conjoins, from the left and in key order, the
equality of every cell with the cell of the same key in `other`. -/
theorem CellMemory.cell_equalities_eq (other : CellMemory) (ps : List (Nat × SymBitVector))
    (condition : SymBool) (h : ∀ p ∈ ps, other.cells_.count p.1 = true) :
    CellMemory.cell_equalities other ps condition =
      .ok (ps.foldl (fun condition p =>
        SymBool.and condition (SymBool.eq p.2 (other.cells_.getD p.1 .null))) condition) := by
  induction ps generalizing condition with
  | nil => rfl
  | cons p ps ih =>
    obtain ⟨k, v⟩ := p
    have hk : other.cells_.count k = true := h (k, v) (List.mem_cons_self _ _)
    unfold CellMemory.cell_equalities
    simp only [hk, if_true, List.foldl_cons]
    exact ih _ (fun p hp => h p (List.mem_cons_of_mem _ hp))

/-- A conjunction built by the loop of `equality_constraint` holds exactly when its
starting condition holds and every cell equals the cell of the same key in `other`. -/
theorem CellMemory.fold_equalities_holds (other_cells : SMap SymBitVector) (env : Env)
    (ps : List (Nat × SymBitVector)) (condition : SymBool) :
    (ps.foldl (fun condition p =>
        SymBool.and condition (SymBool.eq p.2 (other_cells.getD p.1 .null))) condition).holds env ↔
      (condition.holds env ∧
        ∀ p ∈ ps, p.2.eval env = (other_cells.getD p.1 .null).eval env) := by
  induction ps generalizing condition with
  | nil => simp
  | cons p ps ih =>
    rw [List.foldl_cons, ih]
    simp only [SymBool.holds, List.mem_cons, forall_eq_or_imp, and_assoc]

/-- C6: `CellMemory::equality_constraint` never fails its assertion and always returns
the conjunction of the per-cell equalities (every cell of the equalized first memory
equal to the cell of the same key in the equalized second memory) with
`secret_cell_ == other.secret_cell_`; the per-cell part holds under an assignment exactly
when every such pair of cells has the same value.  For two memories without cells whose
secret cells are distinct variables of positive width, the per-cell part is
`true`, which holds under every assignment, while the returned formula is false under
some assignment. -/
theorem CellMemory.C6_secret_cell_necessity :
    (∀ (a b : CellMemory) (ctr : Nat),
      CellMemory.equality_constraint a b ctr
        = .ok (SymBool.and
            (CellMemory.per_cell_equalities (CellMemory.equalize_cells a b ctr).1.cells_
              (CellMemory.equalize_cells a b ctr).2.1.cells_)
            (SymBool.eq a.secret_cell_ b.secret_cell_),
          CellMemory.equalize_cells a b ctr)) ∧
    (∀ (cells other_cells : SMap SymBitVector) (env : Env),
      (CellMemory.per_cell_equalities cells other_cells).holds env ↔
        ∀ p ∈ cells, p.2.eval env = (other_cells.getD p.1 .null).eval env) ∧
    (∀ (a b : CellMemory) (ctr w1 w2 : Nat) (n1 n2 : String),
      a.cells_ = [] → b.cells_ = [] → a.secret_cell_ = SymBitVector.var w1 n1 →
      b.secret_cell_ = SymBitVector.var w2 n2 → n1 ≠ n2 → 0 < w1 → 0 < w2 →
      CellMemory.equality_constraint a b ctr
          = .ok (SymBool.and SymBool._true (SymBool.eq a.secret_cell_ b.secret_cell_),
              (a, b, ctr)) ∧
        CellMemory.per_cell_equalities a.cells_ b.cells_ = SymBool._true ∧
        (∀ env, (CellMemory.per_cell_equalities a.cells_ b.cells_).holds env) ∧
        (∃ env, ¬ (SymBool.and SymBool._true
            (SymBool.eq a.secret_cell_ b.secret_cell_)).holds env)) := by
  have part1 : ∀ (a b : CellMemory) (ctr : Nat),
      CellMemory.equality_constraint a b ctr
        = .ok (SymBool.and
            (CellMemory.per_cell_equalities (CellMemory.equalize_cells a b ctr).1.cells_
              (CellMemory.equalize_cells a b ctr).2.1.cells_)
            (SymBool.eq a.secret_cell_ b.secret_cell_),
          CellMemory.equalize_cells a b ctr) := by
    intro a b ctr
    obtain ⟨c1, c2, s1, s2⟩ := CellMemory.equalize_cells_count a b ctr
    have hc := CellMemory.cell_equalities_eq (CellMemory.equalize_cells a b ctr).2.1
      (CellMemory.equalize_cells a b ctr).1.cells_ SymBool._true (by
        intro p hp
        have := SMap.count_fst_of_mem _ p hp
        rw [c1] at this
        rw [c2]; exact this)
    unfold CellMemory.equality_constraint
    simp only [hc, s1, s2]
    rfl
  refine ⟨part1, ?_, ?_⟩
  · intro cells other_cells env
    unfold CellMemory.per_cell_equalities
    rw [CellMemory.fold_equalities_holds]
    simp only [SymBool.holds, true_and]
  · intro a b ctr w1 w2 n1 n2 ha hb hsa hsb hne _ hw
    have hid : CellMemory.equalize_cells a b ctr = (a, b, ctr) := by
      apply CellMemory.equalize_cells_id
      · intro k hk; simp [ha, SMap.keys] at hk
      · intro k hk; simp [hb, SMap.keys] at hk
    have hp : CellMemory.per_cell_equalities a.cells_ b.cells_ = SymBool._true := by
      rw [ha]; rfl
    refine ⟨?_, hp, ?_, ?_⟩
    · rw [part1 a b ctr, hid, hp]
    · intro env
      rw [hp]
      exact trivial
    · refine ⟨⟨fun s => if s = n1 then 0 else 1, fun _ => 0, fun _ _ => 0, fun _ => false⟩, ?_⟩
      rw [hsa, hsb]
      simp only [SymBool.holds, SymBitVector.eval, true_and]
      intro h
      injection h with _ h2
      have hne' : ¬ n2 = n1 := fun e => hne e.symm
      simp only [if_true, hne', if_false, Nat.zero_mod] at h2
      have : 1 < 2 ^ w2 := Nat.one_lt_two_pow (by omega)
      rw [Nat.mod_eq_of_lt this] at h2
      exact absurd h2 (by decide)

/-- Witness for C6: two memories without cells and secret cells `secret_1`, `secret_2`;
and two memories with one cell each, whose equality the returned formula demands. -/
theorem CellMemory.C6_secret_cell_necessity_witness :
    (CellMemory.equality_constraint (CellMemory.no_cells "secret_1")
          (CellMemory.no_cells "secret_2") 0
        = .ok (SymBool.and SymBool._true
            (SymBool.eq (CellMemory.no_cells "secret_1").secret_cell_
              (CellMemory.no_cells "secret_2").secret_cell_),
          (CellMemory.no_cells "secret_1", CellMemory.no_cells "secret_2", 0)) ∧
      CellMemory.per_cell_equalities (CellMemory.no_cells "secret_1").cells_
        (CellMemory.no_cells "secret_2").cells_ = SymBool._true ∧
      (∀ env, (CellMemory.per_cell_equalities (CellMemory.no_cells "secret_1").cells_
        (CellMemory.no_cells "secret_2").cells_).holds env) ∧
      (∃ env, ¬ (SymBool.and SymBool._true
          (SymBool.eq (CellMemory.no_cells "secret_1").secret_cell_
            (CellMemory.no_cells "secret_2").secret_cell_)).holds env)) ∧
    (match CellMemory.equality_constraint (CellMemory.one_valued_cell "x" "secret_1")
        (CellMemory.one_valued_cell "y" "secret_2") 0 with
      | .ok r => some r.1
      | .error _ => none) =
      some (SymBool.and
        (SymBool.and SymBool._true (SymBool.eq (SymBitVector.var 32 "x") (SymBitVector.var 32 "y")))
        (SymBool.eq (SymBitVector.var 64 "secret_1") (SymBitVector.var 64 "secret_2"))) :=
  ⟨CellMemory.C6_secret_cell_necessity.2.2 (CellMemory.no_cells "secret_1")
    (CellMemory.no_cells "secret_2") 0 64 64 "secret_1" "secret_2" rfl rfl rfl rfl
    (by decide) (by decide) (by decide), by rfl⟩

theorem SymBitVector.eval_cat (env : Env) (a b : SymBitVector) :
    (a.cat b).eval env
      = ⟨(a.eval env).w + (b.eval env).w, (a.eval env).v * 2 ^ (b.eval env).w + (b.eval env).v⟩ := by
  cases a <;> cases b <;> simp [SymBitVector.cat, SymBitVector.eval]

theorem SymBitVector.eval_lt (env : Env) : ∀ t : SymBitVector, (t.eval env).v < 2 ^ (t.eval env).w
  | .null => by simp [SymBitVector.eval]
  | .constant w v => by
    simp only [SymBitVector.eval]
    have h2 : (0 : Int) < 2 ^ w := by positivity
    have h1 := Int.emod_lt_of_pos v h2
    have h0 := Int.emod_nonneg v (ne_of_gt h2)
    have : ((v % 2 ^ w).toNat : Int) < ((2 ^ w : Nat) : Int) := by
      rw [Int.toNat_of_nonneg h0]; push_cast; exact h1
    exact_mod_cast this
  | .var w n => by simp only [SymBitVector.eval]; exact Nat.mod_lt _ (by positivity)
  | .tmp_var w n => by simp only [SymBitVector.eval]; exact Nat.mod_lt _ (by positivity)
  | .plus a b => by simp only [SymBitVector.eval]; exact Nat.mod_lt _ (by positivity)
  | .concat a b => by
    simp only [SymBitVector.eval]
    have ha := SymBitVector.eval_lt env a
    have hb := SymBitVector.eval_lt env b
    calc (a.eval env).v * 2 ^ (b.eval env).w + (b.eval env).v
        < (a.eval env).v * 2 ^ (b.eval env).w + 2 ^ (b.eval env).w := by omega
      _ = ((a.eval env).v + 1) * 2 ^ (b.eval env).w := by ring
      _ ≤ 2 ^ (a.eval env).w * 2 ^ (b.eval env).w := Nat.mul_le_mul_right _ ha
      _ = 2 ^ ((a.eval env).w + (b.eval env).w) := by rw [pow_add]
  | .extract a hi lo => by simp only [SymBitVector.eval]; exact Nat.mod_lt _ (by positivity)
  | .select arr k => by simp only [SymBitVector.eval]; exact Nat.mod_lt _ (by norm_num)

theorem Nat.testBit_concat_bits (a b wb i : Nat) (hb : b < 2 ^ wb) :
    (a * 2 ^ wb + b).testBit i = if i < wb then b.testBit i else a.testBit (i - wb) := by
  rw [Nat.mul_comm]
  exact Nat.testBit_mul_pow_two_add a hb i

theorem Nat.testBit_extract_bits (x lo w i : Nat) :
    ((x / 2 ^ lo) % 2 ^ w).testBit i = (decide (i < w) && x.testBit (lo + i)) := by
  rw [Nat.testBit_mod_two_pow, ← Nat.shiftRight_eq_div_pow, Nat.testBit_shiftRight]

theorem CellMemory.write_value_spec (access : CellMemory.SymbolicAccess)
    (old_value value : SymBitVector)
    (hfit : access.cell_offset + access.size ≤ access.cell_size) :
    ∃ stored, CellMemory.write_value access old_value value = .ok stored ∧
      ∀ env, (old_value.eval env).w = access.cell_size * 8 →
        (value.eval env).w = access.size * 8 →
        (stored.eval env).w = access.cell_size * 8 ∧
        ∀ i, i < access.cell_size * 8 →
          (stored.eval env).v.testBit i =
            if access.cell_offset * 8 ≤ i ∧ i < (access.cell_offset + access.size) * 8 then
              (value.eval env).v.testBit (i - access.cell_offset * 8)
            else (old_value.eval env).v.testBit i := by
  obtain ⟨cell, o, s, c, unc⟩ := access
  simp only at hfit ⊢
  unfold CellMemory.write_value
  simp only
  by_cases h1 : s = c
  · have ho : o = 0 := by omega
    subst ho
    refine ⟨value, by simp [h1], ?_⟩
    intro env _ hv
    refine ⟨by rw [hv, h1], ?_⟩
    intro i hi
    have : i < s * 8 := by omega
    simp [this]
  · by_cases h2 : o = 0
    · subst h2
      refine ⟨_, by rw [if_neg h1, if_pos rfl], ?_⟩
      intro env _ hv
      have hvl := SymBitVector.eval_lt env value
      rw [hv] at hvl
      rw [SymBitVector.eval_cat]
      simp only [SymBitVector.eval, hv]
      refine ⟨by omega, ?_⟩
      intro i hi
      rw [Nat.testBit_concat_bits _ _ _ _ hvl]
      by_cases h3 : i < s * 8
      · have : 0 * 8 ≤ i ∧ i < (0 + s) * 8 := by omega
        simp [h3, this]
      · have : ¬ (0 * 8 ≤ i ∧ i < (0 + s) * 8) := by omega
        simp only [h3, this, if_false]
        rw [Nat.testBit_extract_bits]
        have e1 : decide (i - s * 8 < c * 8 - 1 + 1 - s * 8) = true := by
          apply decide_eq_true; omega
        have e2 : s * 8 + (i - s * 8) = i := by omega
        rw [e1, e2]; rfl
    · by_cases h3 : o = c - s
      · refine ⟨_, by rw [if_neg h1, if_neg h2, if_pos h3], ?_⟩
        intro env _ hv
        rw [SymBitVector.eval_cat]
        simp only [SymBitVector.eval, hv]
        have hw : o * 8 - 1 + 1 - 0 = o * 8 := by omega
        rw [hw]
        refine ⟨by omega, ?_⟩
        intro i hi
        rw [Nat.testBit_concat_bits _ _ _ _ (Nat.mod_lt _ (by positivity))]
        by_cases h4 : i < o * 8
        · have : ¬ (o * 8 ≤ i ∧ i < (o + s) * 8) := by omega
          simp only [h4, this, if_false, if_true]
          rw [Nat.testBit_extract_bits]
          simp [h4]
        · have : o * 8 ≤ i ∧ i < (o + s) * 8 := by omega
          simp [h4, this]
      · refine ⟨_, by rw [if_neg h1, if_neg h2, if_neg h3], ?_⟩
        intro env _ hv
        have hvl := SymBitVector.eval_lt env value
        rw [hv] at hvl
        rw [SymBitVector.eval_cat, SymBitVector.eval_cat]
        simp only [SymBitVector.eval, hv]
        have hw : o * 8 - 1 + 1 - 0 = o * 8 := by omega
        rw [hw]
        refine ⟨by omega, ?_⟩
        intro i hi
        rw [Nat.testBit_concat_bits _ _ _ _ (Nat.mod_lt _ (by positivity))]
        by_cases h4 : i < o * 8
        · have : ¬ (o * 8 ≤ i ∧ i < (o + s) * 8) := by omega
          simp only [h4, this, if_false, if_true]
          rw [Nat.testBit_extract_bits]
          simp [h4]
        · simp only [h4, if_false]
          rw [Nat.testBit_concat_bits _ _ _ _ hvl]
          by_cases h5 : i - o * 8 < s * 8
          · have : o * 8 ≤ i ∧ i < (o + s) * 8 := by omega
            simp [h5, this]
          · have : ¬ (o * 8 ≤ i ∧ i < (o + s) * 8) := by omega
            simp only [h5, this, if_false]
            rw [Nat.testBit_extract_bits]
            have e1 : decide (i - o * 8 - s * 8 < c * 8 - 1 + 1 - (s * 8 + o * 8)) = true := by
              apply decide_eq_true; omega
            have e2 : s * 8 + o * 8 + (i - o * 8 - s * 8) = i := by omega
            rw [e1, e2]; rfl

theorem Env.sat_append {env : Env} {cs ds : List SymBool} :
    env.sat (cs ++ ds) ↔ env.sat cs ∧ env.sat ds := by
  unfold Env.sat
  constructor
  · intro h
    exact ⟨fun c hc => h c (List.mem_append_left _ hc), fun c hc => h c (List.mem_append_right _ hc)⟩
  · rintro ⟨h1, h2⟩ c hc
    rcases List.mem_append.mp hc with h | h
    · exact h1 c h
    · exact h2 c h

theorem Env.sat_singleton {env : Env} {c : SymBool} : env.sat [c] ↔ c.holds env := by
  unfold Env.sat
  simp

/-- C8: for a constrained access of `s` bytes at byte offset `o` of a cell of `c` bytes
with `o + s <= c`, `CellMemory::write` fails no assertion and returns the fault condition
false; under every assignment that satisfies the constraints of the state after the write
(the old cell value being `8c` bits wide and the written value `8s` bits wide) the new
cell value is `8c` bits wide, has the bits of the written value at positions
`[8o, 8(o+s))` and the bits of the old value everywhere else. -/
theorem CellMemory.C8_write_splices (st : CellMemory.St) (address value : SymBitVector)
    (size line_no : Nat) (access : CellMemory.SymbolicAccess)
    (hmap : st.mem.map_.find? line_no = some access) (hcon : access.unconstrained = false)
    (hfit : access.cell_offset + access.size ≤ access.cell_size) :
    ∃ st', CellMemory.write st address value size line_no = .ok (SymBool._false, st') ∧
      ∀ env, env.sat st'.constraints →
        ((st.mem.cells_.getD access.cell .null).eval env).w = access.cell_size * 8 →
        (value.eval env).w = access.size * 8 →
        ((st'.mem.cells_.getD access.cell .null).eval env).w = access.cell_size * 8 ∧
        ∀ i, i < access.cell_size * 8 →
          ((st'.mem.cells_.getD access.cell .null).eval env).v.testBit i =
            if access.cell_offset * 8 ≤ i ∧ i < (access.cell_offset + access.size) * 8 then
              (value.eval env).v.testBit (i - access.cell_offset * 8)
            else ((st.mem.cells_.getD access.cell .null).eval env).v.testBit i := by
  obtain ⟨stored, hs, hspec⟩ := CellMemory.write_value_spec access
    (st.mem.cells_.getD access.cell .null) value hfit
  refine ⟨_, by
    unfold CellMemory.write
    simp only [hmap, hcon, hfit, hs, not_true_eq_false, if_false, Bool.false_eq_true]
    rfl, ?_⟩
  intro env hsat hw hv
  simp only [Env.sat_append, Env.sat_singleton] at hsat
  have hnew := hsat.2
  simp only [SymBool.holds] at hnew
  have hget : (st.mem.cells_.set access.cell
      (SymBitVector.tmp_var (access.cell_size * 8) st.tmp_counter)).getD access.cell .null
      = SymBitVector.tmp_var (access.cell_size * 8) st.tmp_counter := by
    simp [SMap.getD, SMap.find?_set]
  simp only [hget, hnew]
  exact hspec env hw hv

/-- Witness for C8: a two-byte write in the middle of the four-byte cell of `one_cell`. -/
theorem CellMemory.C8_write_splices_witness :
    ∃ st', CellMemory.write CellMemory.one_cell_st (SymBitVector.var 64 "rax")
        (SymBitVector.var 16 "val") 16 0 = .ok (SymBool._false, st') ∧
      ∀ env, env.sat st'.constraints →
        ((CellMemory.one_cell_st.mem.cells_.getD 0 .null).eval env).w = 4 * 8 →
        ((SymBitVector.var 16 "val").eval env).w = 2 * 8 →
        ((st'.mem.cells_.getD 0 .null).eval env).w = 4 * 8 ∧
        ∀ i, i < 4 * 8 →
          ((st'.mem.cells_.getD 0 .null).eval env).v.testBit i =
            if 1 * 8 ≤ i ∧ i < (1 + 2) * 8 then
              ((SymBitVector.var 16 "val").eval env).v.testBit (i - 1 * 8)
            else ((CellMemory.one_cell_st.mem.cells_.getD 0 .null).eval env).v.testBit i :=
  CellMemory.C8_write_splices CellMemory.one_cell_st (SymBitVector.var 64 "rax")
    (SymBitVector.var 16 "val") 16 0
    { cell := 0, cell_offset := 1, size := 2, cell_size := 4, unconstrained := false }
    rfl rfl (by decide)

theorem CellMemory.write_eq (st : CellMemory.St) (address value : SymBitVector)
    (size line_no : Nat) (access : CellMemory.SymbolicAccess) (stored : SymBitVector)
    (hmap : st.mem.map_.find? line_no = some access) (hcon : access.unconstrained = false)
    (hfit : access.cell_offset + access.size ≤ access.cell_size)
    (hs : CellMemory.write_value access (st.mem.cells_.getD access.cell .null) value = .ok stored) :
    CellMemory.write st address value size line_no = .ok (SymBool._false,
      { mem := { st.mem with cells_ := (st.mem.cells_.set access.cell
                  (SymBitVector.tmp_var (access.cell_size * 8) st.tmp_counter)) },
        constraints := (st.constraints ++
          [SymBool.eq address (SymBitVector.plus (st.mem.cell_addrs_.getD access.cell .null)
            (SymBitVector.constant 64 access.cell_offset))] ++
          [SymBool.eq (SymBitVector.tmp_var (access.cell_size * 8) st.tmp_counter) stored]),
        tmp_counter := st.tmp_counter + 1 }) := by
  unfold CellMemory.write
  simp only [hmap, hcon, hfit, hs, not_true_eq_false, if_false, Bool.false_eq_true]

/-- C9: for a constrained access of `s > 0` bytes at offset `o` of a cell of `c` bytes
with `o + s <= c`, a `CellMemory::read` through the access right after a
`CellMemory::write` through it succeeds with fault condition false, adds exactly the
address constraint to the state, leaves the memory (every cell value) and the counter of
temporaries as they were, and returns a term whose value equals the written value under
every assignment satisfying the constraints of the state (the old cell value being `8c`
bits wide and the written value `8s` bits wide). -/
theorem CellMemory.C9_read_after_write (st : CellMemory.St)
    (address value address' : SymBitVector) (size size' line_no : Nat)
    (access : CellMemory.SymbolicAccess)
    (hmap : st.mem.map_.find? line_no = some access) (hcon : access.unconstrained = false)
    (hfit : access.cell_offset + access.size ≤ access.cell_size) (hpos : 0 < access.size) :
    ∃ st1 term, CellMemory.write st address value size line_no = .ok (SymBool._false, st1) ∧
      CellMemory.read st1 address' size' line_no = .ok ((term, SymBool._false),
        { mem := st1.mem,
          constraints := (st1.constraints ++
            [SymBool.eq address' (SymBitVector.plus (st1.mem.cell_addrs_.getD access.cell .null)
              (SymBitVector.constant 64 access.cell_offset))]),
          tmp_counter := st1.tmp_counter }) ∧
      ∀ env, env.sat st1.constraints →
        ((st.mem.cells_.getD access.cell .null).eval env).w = access.cell_size * 8 →
        (value.eval env).w = access.size * 8 →
        term.eval env = value.eval env := by
  obtain ⟨stored, hs, hspec⟩ := CellMemory.write_value_spec access
    (st.mem.cells_.getD access.cell .null) value hfit
  have hw := CellMemory.write_eq st address value size line_no access stored hmap hcon hfit hs
  refine ⟨_, (if access.size = access.cell_size then
      SymBitVector.tmp_var (access.cell_size * 8) st.tmp_counter
    else SymBitVector.extract (SymBitVector.tmp_var (access.cell_size * 8) st.tmp_counter)
      (access.size * 8 + access.cell_offset * 8 - 1) (access.cell_offset * 8)), hw, ?_, ?_⟩
  · have hget : (st.mem.cells_.set access.cell
        (SymBitVector.tmp_var (access.cell_size * 8) st.tmp_counter)).getD access.cell .null
        = SymBitVector.tmp_var (access.cell_size * 8) st.tmp_counter := by
      simp [SMap.getD, SMap.find?_set]
    unfold CellMemory.read
    simp only [hmap, hcon, Bool.false_eq_true, if_false, hget]
    by_cases h1 : access.size = access.cell_size
    · have ho : access.cell_offset = 0 := by omega
      simp only [h1, ho, if_true]
    · simp only [h1, if_false]
  · intro env hsat hwo hwv
    simp only [Env.sat_append, Env.sat_singleton] at hsat
    have hnew := hsat.2
    simp only [SymBool.holds] at hnew
    obtain ⟨sw, sbits⟩ := hspec env hwo hwv
    have hget : (st.mem.cells_.set access.cell
        (SymBitVector.tmp_var (access.cell_size * 8) st.tmp_counter)).getD access.cell .null
        = SymBitVector.tmp_var (access.cell_size * 8) st.tmp_counter := by
      simp [SMap.getD, SMap.find?_set]
    have hvl := SymBitVector.eval_lt env value
    have hsl := SymBitVector.eval_lt env stored
    rw [hwv] at hvl
    rw [sw] at hsl
    by_cases h1 : access.size = access.cell_size
    · have ho : access.cell_offset = 0 := by omega
      simp only [h1, if_true, hnew]
      have e : (stored.eval env).v = (value.eval env).v := by
        apply Nat.eq_of_testBit_eq
        intro i
        by_cases hi : i < access.cell_size * 8
        · rw [sbits i hi]
          have : access.cell_offset * 8 ≤ i ∧ i < (access.cell_offset + access.size) * 8 := by
            omega
          rw [if_pos this, ho]
          rfl
        · have p1 : 2 ^ (access.cell_size * 8) ≤ 2 ^ i :=
            Nat.pow_le_pow_right (by norm_num) (by omega)
          rw [Nat.testBit_lt_two_pow (lt_of_lt_of_le hsl p1),
            Nat.testBit_lt_two_pow (lt_of_lt_of_le hvl (by rw [h1]; exact p1))]
      cases hse : stored.eval env with
      | mk w1 v1 =>
        cases hve : value.eval env with
        | mk w2 v2 =>
          rw [hse] at sw e
          rw [hve] at hwv e
          simp only at sw e hwv
          rw [sw, e, hwv, h1]
    · simp only [h1, if_false]
      simp only [SymBitVector.eval]
      have e : ((stored.eval env).v / 2 ^ (access.cell_offset * 8))
            % 2 ^ (access.size * 8 + access.cell_offset * 8 - 1 + 1 - access.cell_offset * 8)
          = (value.eval env).v := by
        have hw' : access.size * 8 + access.cell_offset * 8 - 1 + 1 - access.cell_offset * 8
            = access.size * 8 := by omega
        rw [hw']
        apply Nat.eq_of_testBit_eq
        intro i
        rw [Nat.testBit_extract_bits]
        by_cases hi : i < access.size * 8
        · rw [sbits _ (by omega)]
          have : access.cell_offset * 8 ≤ access.cell_offset * 8 + i ∧
              access.cell_offset * 8 + i < (access.cell_offset + access.size) * 8 := by omega
          simp [this, hi]
        · have p1 : 2 ^ (access.size * 8) ≤ 2 ^ i :=
            Nat.pow_le_pow_right (by norm_num) (by omega)
          rw [Nat.testBit_lt_two_pow (lt_of_lt_of_le hvl p1)]
          simp [hi]
      have hnv : (env.tmp st.tmp_counter % 2 ^ (access.cell_size * 8)) = (stored.eval env).v := by
        have := congrArg BVal.v hnew
        simpa [SymBitVector.eval] using this
      rw [hnv, e]
      cases hve : value.eval env with
      | mk w2 v2 =>
        rw [hve] at hwv
        simp only at hwv
        simp only [BVal.mk.injEq, and_true]
        omega

/-- Witness for C9: write then read through the access of `one_cell`. -/
theorem CellMemory.C9_read_after_write_witness :
    ∃ st1 term, CellMemory.write CellMemory.one_cell_st (SymBitVector.var 64 "rax")
        (SymBitVector.var 16 "val") 16 0 = .ok (SymBool._false, st1) ∧
      CellMemory.read st1 (SymBitVector.var 64 "rax") 16 0 = .ok ((term, SymBool._false),
        { mem := st1.mem,
          constraints := (st1.constraints ++
            [SymBool.eq (SymBitVector.var 64 "rax")
              (SymBitVector.plus (st1.mem.cell_addrs_.getD 0 .null)
                (SymBitVector.constant 64 ((1 : Nat) : Int)))]),
          tmp_counter := st1.tmp_counter }) ∧
      ∀ env, env.sat st1.constraints →
        ((CellMemory.one_cell_st.mem.cells_.getD 0 .null).eval env).w = 4 * 8 →
        ((SymBitVector.var 16 "val").eval env).w = 2 * 8 →
        term.eval env = (SymBitVector.var 16 "val").eval env :=
  CellMemory.C9_read_after_write CellMemory.one_cell_st (SymBitVector.var 64 "rax")
    (SymBitVector.var 16 "val") (SymBitVector.var 64 "rax") 16 16 0
    { cell := 0, cell_offset := 1, size := 2, cell_size := 4, unconstrained := false }
    rfl rfl (by decide) (by decide)

/-! ## Properties of ArmMemory: cell enumeration -/

theorem ArmMemory.Ext.refl (m : ArmMemory) : ArmMemory.Ext m m :=
  ⟨rfl, le_refl _, rfl, rfl, fun _ _ h _ => h⟩

theorem ArmMemory.Ext.trans {m1 m2 m3 : ArmMemory} (h12 : ArmMemory.Ext m1 m2)
    (h23 : ArmMemory.Ext m2 m3) : ArmMemory.Ext m1 m3 := by
  obtain ⟨a1, a2, a3, a4, a5⟩ := h12
  obtain ⟨b1, b2, b3, b4, b5⟩ := h23
  exact ⟨b1.trans a1, le_trans b2 a2, b3.trans a3, b4.trans a4,
    fun j a h hc => b5 j a (a5 j a h hc) hc⟩

theorem ArmMemory.unassigned_set (l : List ArmMemory.Access) (i : Nat) (ai a' : ArmMemory.Access)
    (hi : l[i]? = some ai) (hn : ai.cell = none) (hs : a'.cell.isSome = true) :
    (l.set i a').countP (fun a => a.cell.isNone) + 1 = l.countP (fun a => a.cell.isNone) := by
  obtain ⟨hlt, hget⟩ := List.getElem?_eq_some_iff.mp hi
  rw [List.countP_set _ _ _ _ hlt, hget]
  have h1 : ai.cell.isNone = true := by rw [hn]; rfl
  have h2 : a'.cell.isNone = false := by
    cases hc : a'.cell with
    | none => rw [hc] at hs; exact absurd hs (by simp)
    | some x => rfl
  simp only [h1, h2, if_true, Bool.false_eq_true, if_false, Nat.add_zero]
  have hpos : 0 < l.countP (fun a => a.cell.isNone) := by
    apply List.countP_pos_iff.mpr
    exact ⟨ai, List.getElem?_mem hi, h1⟩
  omega

theorem ArmMemory.assign_cell_ext (m : ArmMemory) (i : Nat) (ai access : ArmMemory.Access)
    (cell_index : Nat) (d : Int) (hi : m.all_accesses_[i]? = some ai) (hn : ai.cell = none) :
    ArmMemory.Ext m (ArmMemory.assign_cell m i ai access cell_index d) ∧
    ArmMemory.unassigned (ArmMemory.assign_cell m i ai access cell_index d) + 1
      = ArmMemory.unassigned m ∧
    (ArmMemory.assign_cell m i ai access cell_index d).all_accesses_[i]?
      = some { ai with cell := some cell_index, cell_offset := access.cell_offset + d } := by
  have hu := ArmMemory.unassigned_set m.all_accesses_ i ai
    { ai with cell := some cell_index, cell_offset := access.cell_offset + d } hi hn rfl
  obtain ⟨hlt, -⟩ := List.getElem?_eq_some_iff.mp hi
  refine ⟨⟨?_, ?_, rfl, rfl, ?_⟩, hu, ?_⟩
  · simp only [ArmMemory.assign_cell, List.length_set]
  · unfold ArmMemory.unassigned
    simp only [ArmMemory.assign_cell]
    omega
  · intro j a hj hc
    simp only [ArmMemory.assign_cell]
    by_cases e : i = j
    · subst e
      rw [hi] at hj
      injection hj with hj
      subst hj
      rw [hn] at hc
      exact absurd hc (by simp)
    · rw [List.getElem?_set_ne e]; exact hj
  · simp only [ArmMemory.assign_cell]
    rw [List.getElem?_set_self hlt]

theorem List.foldlM_cons_some {α β : Type} (f : β → α → Option β) (b b' : β) (a : α)
    (l : List α) (h : f b a = some b') : (a :: l).foldlM f b = l.foldlM f b' := by
  simp [List.foldlM_cons, h]

theorem ArmMemory.recurse_cell_assignment_spec (P : ArmMemory → Prop)
    (hP : ArmMemory.AssignInvariant P) :
    ∀ (fuel : Nat) (m : ArmMemory) (k : Nat), P m → m.stop_now_ = false →
      ArmMemory.unassigned m < fuel →
      (∃ access c, m.all_accesses_[k]? = some access ∧ access.cell = some c) →
      ∃ m', ArmMemory.recurse_cell_assignment fuel m k = some m' ∧ P m' ∧ ArmMemory.Ext m m' := by
  intro fuel
  induction fuel with
  | zero => intro m k _ _ h; exact absurd h (Nat.not_lt_zero _)
  | succ fuel ih =>
    intro m k hPm hstop hfuel hk
    have loop : ∀ (is : List Nat) (mc : ArmMemory),
        (∀ i ∈ is, i < mc.all_accesses_.length) → P mc → mc.stop_now_ = false →
        ArmMemory.unassigned mc ≤ fuel →
        (∃ access c, mc.all_accesses_[k]? = some access ∧ access.cell = some c) →
        ∃ m', is.foldlM (ArmMemory.recurse_body (ArmMemory.recurse_cell_assignment fuel) k) mc
            = some m' ∧ P m' ∧ ArmMemory.Ext mc m' := by
      intro is
      induction is with
      | nil => intro mc _ h _ _ _; exact ⟨mc, rfl, h, ArmMemory.Ext.refl mc⟩
      | cons i is ihl =>
        intro mc hlen hPc hsc hu hkc
        obtain ⟨access, c, hacc, hcell⟩ := hkc
        have hi : i < mc.all_accesses_.length := hlen i (List.mem_cons_self _ _)
        obtain ⟨ai, hai⟩ : ∃ ai, mc.all_accesses_[i]? = some ai :=
          ⟨mc.all_accesses_[i], List.getElem?_eq_getElem hi⟩
        have hrest : ∀ j ∈ is, j < mc.all_accesses_.length :=
          fun j hj => hlen j (List.mem_cons_of_mem _ hj)
        have same : ArmMemory.recurse_body (ArmMemory.recurse_cell_assignment fuel) k mc i
            = some mc → ∃ m', (i :: is).foldlM
              (ArmMemory.recurse_body (ArmMemory.recurse_cell_assignment fuel) k) mc
                = some m' ∧ P m' ∧ ArmMemory.Ext mc m' := by
          intro hb
          rw [List.foldlM_cons_some _ _ _ _ _ hb]
          exact ihl mc hrest hPc hsc hu ⟨access, c, hacc, hcell⟩
        by_cases hassigned : ai.cell.isSome = true
        · apply same
          simp [ArmMemory.recurse_body, hsc, hai, hacc, hassigned]
        · have hnone : ai.cell = none := by
            cases hc : ai.cell with
            | none => rfl
            | some x => rw [hc] at hassigned; exact absurd rfl hassigned
          cases hoff : mc.access_offsets_ k i with
          | none =>
            apply same
            simp [ArmMemory.recurse_body, hsc, hai, hacc, hassigned, hoff]
          | some d =>
            obtain ⟨e1, e2, e3⟩ := ArmMemory.assign_cell_ext mc i ai access c d hai hnone
            obtain ⟨m1, r1, r2, r3⟩ := ih (ArmMemory.assign_cell mc i ai access c d) i
              (hP mc i k ai access c d hPc hai hnone hacc hcell hoff)
              (by rw [e1.2.2.1]; exact hsc) (by omega) ⟨_, c, e3, rfl⟩
            have hb : ArmMemory.recurse_body (ArmMemory.recurse_cell_assignment fuel) k mc i
                = some m1 := by
              simp [ArmMemory.recurse_body, hsc, hai, hacc, hassigned, hoff, hcell, r1]
            rw [List.foldlM_cons_some _ _ _ _ _ hb]
            have e13 := ArmMemory.Ext.trans e1 r3
            obtain ⟨m', s1, s2, s3⟩ := ihl m1
              (fun j hj => by rw [e13.1]; exact hrest j hj) r2
              (by rw [e13.2.2.1]; exact hsc) (le_trans e13.2.1 hu)
              ⟨access, c, e13.2.2.2.2 k access hacc (by rw [hcell]; rfl), hcell⟩
            exact ⟨m', s1, s2, ArmMemory.Ext.trans e13 s3⟩
    unfold ArmMemory.recurse_cell_assignment
    simp only [hstop, Bool.false_eq_true, if_false]
    exact loop (List.range m.all_accesses_.length) m
      (fun i hi => List.mem_range.mp hi) hPm hstop (by omega) hk

theorem ArmMemory.anchor_ext (m : ArmMemory) (i : Nat) (a : ArmMemory.Access) (c : ArmMemory.Cell)
    (id : Nat) (hi : m.all_accesses_[i]? = some a) (hn : a.cell = none) :
    ArmMemory.Ext m { m with
        cells_ := m.cells_ ++ [c]
        all_accesses_ := m.all_accesses_.set i { a with cell := some id, cell_offset := 0 } } ∧
    ArmMemory.unassigned { m with
        cells_ := m.cells_ ++ [c]
        all_accesses_ := m.all_accesses_.set i { a with cell := some id, cell_offset := 0 } } + 1
      = ArmMemory.unassigned m := by
  have hu := ArmMemory.unassigned_set m.all_accesses_ i a
    { a with cell := some id, cell_offset := 0 } hi hn rfl
  refine ⟨⟨?_, ?_, rfl, rfl, ?_⟩, hu⟩
  · simp only [List.length_set]
  · unfold ArmMemory.unassigned
    simp only
    omega
  · intro j b hj hc
    simp only
    by_cases e : i = j
    · subst e
      rw [hi] at hj
      injection hj with hj
      subst hj
      rw [hn] at hc
      exact absurd hc (by simp)
    · rw [List.getElem?_set_ne e]; exact hj

theorem ArmMemory.enumerate_anchor_loop (P : ArmMemory → Prop)
    (hP : ArmMemory.AssignInvariant P) (hA : ArmMemory.AnchorInvariant P) (fuel : Nat) :
    ∀ (is : List Nat) (m : ArmMemory), (∀ i ∈ is, i < m.all_accesses_.length) → P m →
      m.stop_now_ = false → m.all_accesses_.length < fuel →
      ∃ m', is.foldlM (ArmMemory.enumerate_anchor fuel) m = some m' ∧ P m' ∧
        ArmMemory.Ext m m' ∧
        ∀ i ∈ is, ∃ a c, m'.all_accesses_[i]? = some a ∧ a.cell = some c := by
  intro is
  induction is with
  | nil => intro m _ h _ _; exact ⟨m, rfl, h, ArmMemory.Ext.refl m, fun i hi => by cases hi⟩
  | cons i is ih =>
    intro m hlen hPm hstop hfuel
    have hi : i < m.all_accesses_.length := hlen i (List.mem_cons_self _ _)
    obtain ⟨a, ha⟩ : ∃ a, m.all_accesses_[i]? = some a :=
      ⟨m.all_accesses_[i], List.getElem?_eq_getElem hi⟩
    have hrest : ∀ j ∈ is, j < m.all_accesses_.length :=
      fun j hj => hlen j (List.mem_cons_of_mem _ hj)
    have finish : ∀ (m1 : ArmMemory), ArmMemory.enumerate_anchor fuel m i = some m1 → P m1 →
        ArmMemory.Ext m m1 → (∃ b c, m1.all_accesses_[i]? = some b ∧ b.cell = some c) →
        ∃ m', (i :: is).foldlM (ArmMemory.enumerate_anchor fuel) m = some m' ∧ P m' ∧
          ArmMemory.Ext m m' ∧
          ∀ j ∈ i :: is, ∃ a c, m'.all_accesses_[j]? = some a ∧ a.cell = some c := by
      intro m1 hstep hP1 hext hdone
      rw [List.foldlM_cons_some _ _ _ _ _ hstep]
      obtain ⟨m', s1, s2, s3, s4⟩ := ih m1 (fun j hj => by rw [hext.1]; exact hrest j hj) hP1
        (by rw [hext.2.2.1]; exact hstop) (by rw [hext.1]; exact hfuel)
      refine ⟨m', s1, s2, ArmMemory.Ext.trans hext s3, ?_⟩
      intro j hj
      rcases List.mem_cons.mp hj with e | e
      · subst e
        obtain ⟨b, c, hb, hc⟩ := hdone
        exact ⟨b, c, s3.2.2.2.2 j b hb (by rw [hc]; rfl), hc⟩
      · exact s4 j e
    by_cases hassigned : a.cell.isSome = true
    · obtain ⟨c, hc⟩ := Option.isSome_iff_exists.mp hassigned
      exact finish m (by simp [ArmMemory.enumerate_anchor, ha, hassigned]) hPm
        (ArmMemory.Ext.refl m) ⟨a, c, ha, hc⟩
    · have hnone : a.cell = none := by
        cases hc : a.cell with
        | none => rfl
        | some x => rw [hc] at hassigned; exact absurd rfl hassigned
      obtain ⟨e1, e2⟩ := ArmMemory.anchor_ext m i a
        { ArmMemory.Cell.init a.address with
          index := m.cells_.length
          tmp_min_offset := 0
          tmp_max_offset := ((a.size / 8 : Nat) : Int) } m.cells_.length ha hnone
      have hget : (m.all_accesses_.set i
            { a with cell := some m.cells_.length, cell_offset := 0 })[i]?
          = some { a with cell := some m.cells_.length, cell_offset := 0 } :=
        List.getElem?_set_self hi
      have hle : ArmMemory.unassigned m ≤ m.all_accesses_.length := List.countP_le_length _
      obtain ⟨m1, r1, r2, r3⟩ := ArmMemory.recurse_cell_assignment_spec P hP fuel _ i
        (hA m i a hPm ha hnone) hstop (by omega) ⟨_, m.cells_.length, hget, rfl⟩
      have e13 := ArmMemory.Ext.trans e1 r3
      have hstep : ArmMemory.enumerate_anchor fuel m i = some m1 := by
        unfold ArmMemory.enumerate_anchor
        simp only [ha, hnone, Option.isSome_none, Bool.false_eq_true, if_false]
        exact r1
      exact finish m1 hstep r2 e13
        ⟨_, m.cells_.length, r3.2.2.2.2 i _ hget rfl, rfl⟩

theorem ArmMemory.enumerate_finish_prefix (m : ArmMemory)
    (hidx : ∀ (id : Nat) (c : ArmMemory.Cell), m.cells_[id]? = some c → c.index = id) :
    ∀ j, j ≤ m.cells_.length →
      (List.range j).foldl ArmMemory.enumerate_finish m =
        { m with
          cells_ := m.cells_.mapIdx (fun id c => if id < j then c.finished else c)
          all_accesses_ := m.all_accesses_.map (ArmMemory.rebase m.cells_ j) } := by
  intro j
  induction j with
  | zero =>
    intro _
    have h1 : m.cells_.mapIdx (fun id c => if id < 0 then c.finished else c) = m.cells_ := by
      apply List.ext_getElem?
      intro n
      simp
    have h2 : m.all_accesses_.map (ArmMemory.rebase m.cells_ 0) = m.all_accesses_ := by
      apply List.ext_getElem?
      intro n
      rw [List.getElem?_map]
      cases m.all_accesses_[n]? with
      | none => rfl
      | some a =>
        simp only [Option.map_some', ArmMemory.rebase]
        cases a.cell <;> simp
    simp only [List.range_zero, List.foldl_nil, h1, h2]
  | succ j ih =>
    intro hj
    rw [List.range_succ, List.foldl_append, ih (by omega)]
    simp only [List.foldl_cons, List.foldl_nil]
    obtain ⟨c, hc⟩ : ∃ c, m.cells_[j]? = some c :=
      ⟨m.cells_[j], List.getElem?_eq_getElem (by omega)⟩
    have hci := hidx j c hc
    unfold ArmMemory.enumerate_finish
    simp only [List.getElem?_mapIdx, hc, Option.map_some', lt_irrefl, if_false]
    congr 1
    · apply List.ext_getElem?
      intro n
      rw [List.getElem?_map, List.getElem?_map, List.getElem?_map]
      cases m.all_accesses_[n]? with
      | none => rfl
      | some a =>
        simp only [Option.map_some', ArmMemory.rebase, hci]
        cases hcell : a.cell with
        | none => simp [hcell]
        | some id =>
          simp only
          by_cases h1 : id < j
          · have h2 : id < j + 1 := by omega
            have h3 : id ≠ j := by omega
            simp only [h1, h2, if_true]
            cases m.cells_[id]? with
            | none => simp [hcell, h3]
            | some c' => simp [hcell, h3]
          · by_cases h2 : id = j
            · subst h2
              simp [hcell, hc]
            · have h3 : ¬ id < j + 1 := by omega
              simp [h1, h3, hcell, h2]
    · apply List.ext_getElem?
      intro n
      by_cases e : j = n
      · subst e
        rw [List.getElem?_set_self (by simpa using hj)]
        simp [hc, ArmMemory.Cell.finished]
      · rw [List.getElem?_set_ne e]
        simp only [List.getElem?_mapIdx]
        cases m.cells_[n]? with
        | none => rfl
        | some c' =>
          simp only [Option.map_some']
          by_cases h1 : n < j
          · have h2 : n < j + 1 := by omega
            simp [h1, h2]
          · have h2 : ¬ n < j + 1 := by omega
            simp [h1, h2]

theorem ArmMemory.Cell.widen_spec (cell : ArmMemory.Cell) (off : Int) (bytes : Nat) :
    (cell.widen off bytes).index = cell.index ∧
    (cell.widen off bytes).address = cell.address ∧
    (cell.widen off bytes).tmp_min_offset = min cell.tmp_min_offset off ∧
    (cell.widen off bytes).tmp_max_offset = max cell.tmp_max_offset (off + (bytes : Int)) := by
  unfold ArmMemory.Cell.widen
  by_cases h1 : off < cell.tmp_min_offset
  · by_cases h2 : off + (bytes : Int) > cell.tmp_max_offset
    · simp only [h1, h2, if_true]
      refine ⟨trivial, trivial, ?_, ?_⟩
      · rw [min_eq_right (le_of_lt h1)]
      · rw [max_eq_right (le_of_lt h2)]
    · simp only [h1, h2, if_true, if_false]
      refine ⟨trivial, trivial, ?_, ?_⟩
      · rw [min_eq_right (le_of_lt h1)]
      · rw [max_eq_left (not_lt.mp h2)]
  · by_cases h2 : off + (bytes : Int) > cell.tmp_max_offset
    · simp only [h1, h2, if_true, if_false]
      refine ⟨trivial, trivial, ?_, ?_⟩
      · rw [min_eq_left (not_lt.mp h1)]
      · rw [max_eq_right (le_of_lt h2)]
    · simp only [h1, h2, if_false]
      refine ⟨trivial, trivial, ?_, ?_⟩
      · rw [min_eq_left (not_lt.mp h1)]
      · rw [max_eq_left (not_lt.mp h2)]

theorem ArmMemory.indexInv_assign : ArmMemory.AssignInvariant ArmMemory.IndexInv := by
  intro m i k ai access cell_index d h _ _ _ _ _ id c hc
  simp only [ArmMemory.assign_cell] at hc
  cases hcell : m.cells_[cell_index]? with
  | none =>
    rw [hcell] at hc
    exact h id c hc
  | some cell =>
    rw [hcell] at hc
    simp only at hc
    by_cases e : cell_index = id
    · subst e
      have hlt : cell_index < m.cells_.length := (List.getElem?_eq_some_iff.mp hcell).1
      rw [List.getElem?_set_self hlt] at hc
      injection hc with hc
      have := h cell_index cell hcell
      rw [← hc, (ArmMemory.Cell.widen_spec cell _ _).1]
      exact this
    · rw [List.getElem?_set_ne e] at hc
      exact h id c hc

theorem ArmMemory.indexInv_anchor : ArmMemory.AnchorInvariant ArmMemory.IndexInv := by
  intro m i a h _ _ id c hc
  simp only at hc
  by_cases e : id < m.cells_.length
  · rw [List.getElem?_append_left e] at hc
    exact h id c hc
  · rw [List.getElem?_append_right (by omega)] at hc
    have hid : id - m.cells_.length = 0 := by
      by_contra hne
      have : ([({ ArmMemory.Cell.init a.address with
          index := m.cells_.length
          tmp_min_offset := 0
          tmp_max_offset := ((a.size / 8 : Nat) : Int) } : ArmMemory.Cell)])[id - m.cells_.length]? = none := by
        apply List.getElem?_eq_none
        simp only [List.length_singleton]
        omega
      rw [this] at hc
      exact absurd hc (by simp)
    rw [hid] at hc
    simp only [List.getElem?_cons_zero, Option.some.injEq] at hc
    rw [← hc]
    simp only
    omega

theorem ArmMemory.assignInvariant_conj {P Q : ArmMemory → Prop}
    (hP : ArmMemory.AssignInvariant P) (hQ : ArmMemory.AssignInvariant Q) :
    ArmMemory.AssignInvariant (fun m => P m ∧ Q m) :=
  fun m i k ai access cell_index d h h1 h2 h3 h4 h5 =>
    ⟨hP m i k ai access cell_index d h.1 h1 h2 h3 h4 h5,
     hQ m i k ai access cell_index d h.2 h1 h2 h3 h4 h5⟩

theorem ArmMemory.anchorInvariant_conj {P Q : ArmMemory → Prop}
    (hP : ArmMemory.AnchorInvariant P) (hQ : ArmMemory.AnchorInvariant Q) :
    ArmMemory.AnchorInvariant (fun m => P m ∧ Q m) :=
  fun m i a h h1 h2 => ⟨hP m i a h.1 h1 h2, hQ m i a h.2 h1 h2⟩

theorem ArmMemory.enumerate_cells_spec (P : ArmMemory → Prop)
    (hP : ArmMemory.AssignInvariant P) (hA : ArmMemory.AnchorInvariant P) (m : ArmMemory)
    (hstop : m.stop_now_ = false) (hcells : m.cells_ = [])
    (hinit : P (ArmMemory.enumerate_reset m)) :
    ∃ m2, ArmMemory.generate_constraints_enumerate_cells m = some (ArmMemory.finish_all m2) ∧
      P m2 ∧ ArmMemory.IndexInv m2 ∧ m2.all_accesses_.length = m.all_accesses_.length ∧
      (∀ (i : Nat) (a : ArmMemory.Access), m2.all_accesses_[i]? = some a →
        ∃ c, a.cell = some c) := by
  have hlen : (ArmMemory.enumerate_reset m).all_accesses_.length = m.all_accesses_.length := by
    simp [ArmMemory.enumerate_reset]
  have hidx0 : ArmMemory.IndexInv (ArmMemory.enumerate_reset m) := by
    intro id c hc
    simp [ArmMemory.enumerate_reset, hcells] at hc
  obtain ⟨m2, r1, r2, r3, r4⟩ := ArmMemory.enumerate_anchor_loop
    (fun m => P m ∧ ArmMemory.IndexInv m)
    (ArmMemory.assignInvariant_conj hP ArmMemory.indexInv_assign)
    (ArmMemory.anchorInvariant_conj hA ArmMemory.indexInv_anchor)
    ((ArmMemory.enumerate_reset m).all_accesses_.length + 1)
    (List.range (ArmMemory.enumerate_reset m).all_accesses_.length) (ArmMemory.enumerate_reset m)
    (fun i hi => List.mem_range.mp hi) ⟨hinit, hidx0⟩ hstop (by omega)
  refine ⟨m2, ?_, r2.1, r2.2, r3.1.trans hlen, ?_⟩
  · unfold ArmMemory.generate_constraints_enumerate_cells
    simp only [hstop, Bool.false_eq_true, if_false, r1]
    rw [ArmMemory.enumerate_finish_prefix m2 r2.2 _ (le_refl _)]
    have : m2.cells_.mapIdx (fun id c => if id < m2.cells_.length then c.finished else c)
        = m2.cells_.map ArmMemory.Cell.finished := by
      apply List.ext_getElem?
      intro n
      simp only [List.getElem?_mapIdx, List.getElem?_map]
      cases hn : m2.cells_[n]? with
      | none => rfl
      | some c =>
        have : n < m2.cells_.length := (List.getElem?_eq_some_iff.mp hn).1
        simp [this]
    rw [this]
    rfl
  · intro i a hi
    have hlt : i < m2.all_accesses_.length := (List.getElem?_eq_some_iff.mp hi).1
    obtain ⟨b, c, hb, hc⟩ := r4 i (List.mem_range.mpr (by rw [← r3.1]; exact hlt))
    rw [hi] at hb
    injection hb with hb
    subst hb
    exact ⟨c, hc⟩

theorem ArmMemory.assigned_nonneg (m : ArmMemory) : 0 ≤ ArmMemory.assigned m := by
  unfold ArmMemory.assigned ArmMemory.unassigned
  have : m.all_accesses_.countP (fun a => a.cell.isNone) ≤ m.all_accesses_.length :=
    List.countP_le_length _
  omega

theorem ArmMemory.assigned_le (m : ArmMemory) :
    ArmMemory.assigned m ≤ (m.all_accesses_.length : Int) := by
  unfold ArmMemory.assigned
  omega

theorem ArmMemory.cellInv_assign (B : Nat) : ArmMemory.AssignInvariant (ArmMemory.CellInv B) := by
  intro m i k ai access cell_index d h hi hn hk hcell hoff
  obtain ⟨hT, hS, hC, hA⟩ := h
  obtain ⟨cell, hcl, hlo, hhi⟩ := hA k access cell_index hk hcell
  obtain ⟨e1, e2, e3⟩ := ArmMemory.assign_cell_ext m i ai access cell_index d hi hn
  obtain ⟨w1, w2, w3, w4⟩ := ArmMemory.Cell.widen_spec cell (access.cell_offset + d) (ai.size / 8)
  have hAs : ArmMemory.assigned (ArmMemory.assign_cell m i ai access cell_index d)
      = ArmMemory.assigned m + 1 := by
    unfold ArmMemory.assigned
    rw [e1.1]
    omega
  have hA0 := ArmMemory.assigned_nonneg m
  have hKB : 2 * (ArmMemory.assigned m + 1) * (B : Int)
      = 2 * ArmMemory.assigned m * (B : Int) + 2 * (B : Int) := by ring
  have hKnn : 0 ≤ 2 * ArmMemory.assigned m * (B : Int) := by positivity
  obtain ⟨d1, d2⟩ := hT k i d hoff
  have hsi : ai.size / 8 ≤ B := hS i ai hi
  have hsk : (0 : Int) ≤ ((access.size / 8 : Nat) : Int) := Int.ofNat_nonneg _
  obtain ⟨c1, c2, c3, c4⟩ := hC cell_index cell hcl
  have hlt : cell_index < m.cells_.length := (List.getElem?_eq_some_iff.mp hcl).1
  have hcells : (ArmMemory.assign_cell m i ai access cell_index d).cells_
      = m.cells_.set cell_index (cell.widen (access.cell_offset + d) (ai.size / 8)) := by
    simp only [ArmMemory.assign_cell, hcl]
  have hall : (ArmMemory.assign_cell m i ai access cell_index d).all_accesses_
      = m.all_accesses_.set i
          { ai with cell := some cell_index, cell_offset := access.cell_offset + d } := rfl
  have hsi' : ((ai.size / 8 : Nat) : Int) ≤ (B : Int) := by exact_mod_cast hsi
  refine ⟨hT, ?_, ?_, ?_⟩
  · intro j a hj
    rw [hall] at hj
    by_cases e : i = j
    · subst e
      rw [← hall, e3] at hj
      injection hj with hj
      rw [← hj]
      exact hsi
    · rw [List.getElem?_set_ne e] at hj
      exact hS j a hj
  · intro id c hc
    rw [hcells] at hc
    rw [hAs, hKB]
    by_cases e : cell_index = id
    · subst e
      rw [List.getElem?_set_self hlt] at hc
      injection hc with hc
      rw [← hc, w3, w4]
      refine ⟨?_, ?_, ?_, ?_⟩
      · exact le_trans (min_le_left _ _) c1
      · exact le_trans c2 (le_max_left _ _)
      · apply le_min <;> linarith
      · apply max_le <;> linarith
    · rw [List.getElem?_set_ne e] at hc
      obtain ⟨b1, b2, b3, b4⟩ := hC id c hc
      have : (0 : Int) ≤ 2 * (B : Int) := by positivity
      exact ⟨b1, b2, by linarith, by linarith⟩
  · intro j a id hj hid
    rw [hall] at hj
    rw [hcells]
    by_cases e : i = j
    · subst e
      rw [← hall, e3] at hj
      injection hj with hj
      rw [← hj] at hid ⊢
      simp only [Option.some.injEq] at hid
      subst hid
      refine ⟨_, List.getElem?_set_self hlt, ?_, ?_⟩
      · rw [w3]; exact min_le_right _ _
      · rw [w4]; exact le_max_right _ _
    · rw [List.getElem?_set_ne e] at hj
      obtain ⟨c, g1, g2, g3⟩ := hA j a id hj hid
      by_cases e' : cell_index = id
      · subst e'
        rw [hcl] at g1
        injection g1 with g1
        subst g1
        refine ⟨_, List.getElem?_set_self hlt, ?_, ?_⟩
        · rw [w3]; exact le_trans (min_le_left _ _) g2
        · rw [w4]; exact le_trans g3 (le_max_left _ _)
      · exact ⟨c, by rw [List.getElem?_set_ne e']; exact g1, g2, g3⟩

theorem ArmMemory.cellInv_anchor (B : Nat) : ArmMemory.AnchorInvariant (ArmMemory.CellInv B) := by
  intro m i a h hi hn
  obtain ⟨hT, hS, hC, hA⟩ := h
  obtain ⟨e1, e2⟩ := ArmMemory.anchor_ext m i a
    { ArmMemory.Cell.init a.address with
      index := m.cells_.length
      tmp_min_offset := 0
      tmp_max_offset := ((a.size / 8 : Nat) : Int) } m.cells_.length hi hn
  have hilt : i < m.all_accesses_.length := (List.getElem?_eq_some_iff.mp hi).1
  have hAs : ArmMemory.assigned { m with
      cells_ := m.cells_ ++ [{ ArmMemory.Cell.init a.address with
        index := m.cells_.length
        tmp_min_offset := 0
        tmp_max_offset := ((a.size / 8 : Nat) : Int) }]
      all_accesses_ := m.all_accesses_.set i { a with cell := some m.cells_.length,
                                                      cell_offset := 0 } }
      = ArmMemory.assigned m + 1 := by
    unfold ArmMemory.assigned
    rw [e1.1]
    omega
  have hA0 := ArmMemory.assigned_nonneg m
  have hKB : 2 * (ArmMemory.assigned m + 1) * (B : Int)
      = 2 * ArmMemory.assigned m * (B : Int) + 2 * (B : Int) := by ring
  have hKnn : 0 ≤ 2 * ArmMemory.assigned m * (B : Int) := by positivity
  have hsi : a.size / 8 ≤ B := hS i a hi
  have hsi' : ((a.size / 8 : Nat) : Int) ≤ (B : Int) := by exact_mod_cast hsi
  have hB0 : (0 : Int) ≤ (B : Int) := Int.ofNat_nonneg _
  have hnew : ∀ (id : Nat) (c : ArmMemory.Cell),
      (m.cells_ ++ [({ ArmMemory.Cell.init a.address with
        index := m.cells_.length
        tmp_min_offset := 0
        tmp_max_offset := ((a.size / 8 : Nat) : Int) } : ArmMemory.Cell)])[id]? = some c →
      m.cells_[id]? = some c ∨ (id = m.cells_.length ∧
        c = { ArmMemory.Cell.init a.address with
          index := m.cells_.length
          tmp_min_offset := 0
          tmp_max_offset := ((a.size / 8 : Nat) : Int) }) := by
    intro id c hc
    by_cases e : id < m.cells_.length
    · rw [List.getElem?_append_left e] at hc
      exact Or.inl hc
    · rw [List.getElem?_append_right (by omega)] at hc
      by_cases hid : id - m.cells_.length = 0
      · rw [hid] at hc
        simp only [List.getElem?_cons_zero, Option.some.injEq] at hc
        exact Or.inr ⟨by omega, hc.symm⟩
      · have : ([({ ArmMemory.Cell.init a.address with
            index := m.cells_.length
            tmp_min_offset := 0
            tmp_max_offset := ((a.size / 8 : Nat) : Int) } : ArmMemory.Cell)])[id - m.cells_.length]?
            = none := by
          apply List.getElem?_eq_none
          simp only [List.length_singleton]
          omega
        rw [this] at hc
        exact absurd hc (by simp)
  refine ⟨hT, ?_, ?_, ?_⟩
  · intro j b hj
    simp only at hj
    by_cases e : i = j
    · subst e
      rw [List.getElem?_set_self hilt] at hj
      injection hj with hj
      rw [← hj]
      exact hsi
    · rw [List.getElem?_set_ne e] at hj
      exact hS j b hj
  · intro id c hc
    rw [hAs, hKB]
    rcases hnew id c hc with h1 | ⟨-, h2⟩
    · obtain ⟨b1, b2, b3, b4⟩ := hC id c h1
      exact ⟨b1, b2, by linarith, by linarith⟩
    · subst h2
      simp only
      exact ⟨le_refl _, Int.ofNat_nonneg _, by linarith, by linarith⟩
  · intro j b id hj hid
    simp only at hj ⊢
    by_cases e : i = j
    · subst e
      rw [List.getElem?_set_self hilt] at hj
      injection hj with hj
      rw [← hj] at hid ⊢
      simp only [Option.some.injEq] at hid
      subst hid
      refine ⟨{ ArmMemory.Cell.init a.address with
          index := m.cells_.length
          tmp_min_offset := 0
          tmp_max_offset := ((a.size / 8 : Nat) : Int) }, ?_, ?_, ?_⟩
      · rw [List.getElem?_append_right (le_refl _)]
        simp only [Nat.sub_self, List.getElem?_cons_zero]
      · exact le_refl _
      · simp
    · rw [List.getElem?_set_ne e] at hj
      obtain ⟨c, g1, g2, g3⟩ := hA j b id hj hid
      have hlt : id < m.cells_.length := (List.getElem?_eq_some_iff.mp g1).1
      exact ⟨c, by rw [List.getElem?_append_left hlt]; exact g1, g2, g3⟩

theorem u64_of_range (x : Int) (h0 : 0 ≤ x) (h1 : x < 2 ^ 64) : ((u64 x : Nat) : Int) = x := by
  unfold u64
  rw [Int.emod_eq_of_lt h0 h1, Int.toNat_of_nonneg h0]

/-- C3 (amended): when `generate_constraints_enumerate_cells` runs to completion (stop flag clear)
on a memory whose cell list was cleared, with an offset table and access sizes small
enough that the `int64_t` offset arithmetic cannot overflow (`4 * n * B < 2^63` for `n`
accesses and a bound `B` on the recorded offsets and the byte sizes), it produces a
result in which every access has a cell id below the number of cells and a cell
offset with `0 <= offset` and `offset + size/8 <= size of its cell`. -/
theorem ArmMemory.C3_cell_accounting (m : ArmMemory) (B : Nat)
    (hstop : m.stop_now_ = false) (hcells : m.cells_ = [])
    (htable : ∀ (i j : Nat) (d : Int), m.access_offsets_ i j = some d → -(B : Int) ≤ d ∧ d ≤ B)
    (hsize : ∀ a ∈ m.all_accesses_, a.size / 8 ≤ B)
    (hB : 4 * m.all_accesses_.length * B < 2 ^ 63) :
    ∃ m', ArmMemory.generate_constraints_enumerate_cells m = some m' ∧
      m'.all_accesses_.length = m.all_accesses_.length ∧
      ∀ a ∈ m'.all_accesses_, ∃ id c, a.cell = some id ∧ id < m'.cells_.length ∧
        m'.cells_[id]? = some c ∧ 0 ≤ a.cell_offset ∧
        a.cell_offset + ((a.size / 8 : Nat) : Int) ≤ (c.size : Int) := by
  have hinit : ArmMemory.CellInv B (ArmMemory.enumerate_reset m) := by
    refine ⟨htable, ?_, ?_, ?_⟩
    · intro i a hi
      simp only [ArmMemory.enumerate_reset, List.getElem?_mapIdx] at hi
      cases hm : m.all_accesses_[i]? with
      | none => rw [hm] at hi; exact absurd hi (by simp)
      | some b =>
        rw [hm] at hi
        simp only [Option.map_some', Option.some.injEq] at hi
        rw [← hi]
        exact hsize b (List.getElem?_mem hm)
    · intro id c hc
      simp [ArmMemory.enumerate_reset, hcells] at hc
    · intro i a id hi hid
      simp only [ArmMemory.enumerate_reset, List.getElem?_mapIdx] at hi
      cases hm : m.all_accesses_[i]? with
      | none => rw [hm] at hi; exact absurd hi (by simp)
      | some b =>
        rw [hm] at hi
        simp only [Option.map_some', Option.some.injEq] at hi
        rw [← hi] at hid
        exact absurd hid (by simp)
  obtain ⟨m2, r1, ⟨-, -, hC, hA⟩, r3, r4, r5⟩ := ArmMemory.enumerate_cells_spec
    (ArmMemory.CellInv B) (ArmMemory.cellInv_assign B) (ArmMemory.cellInv_anchor B) m hstop hcells
    hinit
  refine ⟨_, r1, ?_, ?_⟩
  · simp [ArmMemory.finish_all, r4]
  · intro a ha
    simp only [ArmMemory.finish_all, List.mem_map] at ha
    obtain ⟨a0, ha0, hr⟩ := ha
    obtain ⟨i, hi⟩ := List.getElem?_of_mem ha0
    obtain ⟨id, hid⟩ := r5 i a0 hi
    obtain ⟨c0, g1, g2, g3⟩ := hA i a0 id hi hid
    obtain ⟨b1, b2, b3, b4⟩ := hC id c0 g1
    have hlt : id < m2.cells_.length := (List.getElem?_eq_some_iff.mp g1).1
    have hra : a = { a0 with cell_offset := a0.cell_offset - c0.tmp_min_offset } := by
      rw [← hr]
      simp [ArmMemory.rebase, hid, hlt, g1]
    have hAle := ArmMemory.assigned_le m2
    have hA0 := ArmMemory.assigned_nonneg m2
    have hB0 : (0 : Int) ≤ (B : Int) := Int.ofNat_nonneg _
    have hprod : ArmMemory.assigned m2 * (B : Int) ≤ (m.all_accesses_.length : Int) * (B : Int) := by
      rw [← r4]
      exact mul_le_mul_of_nonneg_right hAle hB0
    have hB' : (4 : Int) * (m.all_accesses_.length : Int) * (B : Int) < 2 ^ 63 := by
      exact_mod_cast hB
    have hsz : ((u64 (c0.tmp_max_offset - c0.tmp_min_offset) : Nat) : Int)
        = c0.tmp_max_offset - c0.tmp_min_offset := by
      apply u64_of_range
      · linarith
      · have : (2 : Int) ^ 63 < 2 ^ 64 := by norm_num
        linarith
    refine ⟨id, c0.finished, ?_, ?_, ?_, ?_, ?_⟩
    · rw [hra]
      exact hid
    · simp [ArmMemory.finish_all, hlt]
    · simp [ArmMemory.finish_all, g1]
    · rw [hra]
      simp only
      linarith
    · rw [hra]
      simp only [ArmMemory.Cell.finished]
      rw [hsz]
      linarith

theorem ArmMemory.addrInv_assign (env : Env) :
    ArmMemory.AssignInvariant (ArmMemory.AddrInv env) := by
  intro m i k ai access cell_index d h hi hn hk hcell hoff
  obtain ⟨hH, hW, hR, hAn⟩ := h
  obtain ⟨cell, hcl, hrel⟩ := hR k access cell_index hk hcell
  obtain ⟨e1, e2, e3⟩ := ArmMemory.assign_cell_ext m i ai access cell_index d hi hn
  obtain ⟨w1, w2, w3, w4⟩ := ArmMemory.Cell.widen_spec cell (access.cell_offset + d) (ai.size / 8)
  have hlt : cell_index < m.cells_.length := (List.getElem?_eq_some_iff.mp hcl).1
  have hilt : i < m.all_accesses_.length := (List.getElem?_eq_some_iff.mp hi).1
  have hcells : (ArmMemory.assign_cell m i ai access cell_index d).cells_
      = m.cells_.set cell_index (cell.widen (access.cell_offset + d) (ai.size / 8)) := by
    simp only [ArmMemory.assign_cell, hcl]
  have hall : (ArmMemory.assign_cell m i ai access cell_index d).all_accesses_
      = m.all_accesses_.set i
          { ai with cell := some cell_index, cell_offset := access.cell_offset + d } := rfl
  -- every access of the new list has the address of the access it replaces
  have haddr : ∀ (j : Nat) (b : ArmMemory.Access),
      (m.all_accesses_.set i
        { ai with cell := some cell_index, cell_offset := access.cell_offset + d })[j]? = some b →
      ∃ b0, m.all_accesses_[j]? = some b0 ∧ b0.address = b.address ∧ (i ≠ j → b0 = b) := by
    intro j b hj
    by_cases e : i = j
    · subst e
      rw [List.getElem?_set_self hilt] at hj
      injection hj with hj
      exact ⟨ai, hi, by rw [← hj], fun h => absurd rfl h⟩
    · rw [List.getElem?_set_ne e] at hj
      exact ⟨b, hj, rfl, fun _ => rfl⟩
  refine ⟨?_, ?_, ?_, ?_⟩
  · intro i' j' d' ai' aj' ho h1 h2
    rw [hall] at h1 h2
    obtain ⟨a1, p1, p2, -⟩ := haddr i' ai' h1
    obtain ⟨a2, q1, q2, -⟩ := haddr j' aj' h2
    rw [← p2, ← q2]
    exact hH i' j' d' a1 a2 ho p1 q1
  · intro j b hj
    rw [hall] at hj
    obtain ⟨b0, p1, p2, -⟩ := haddr j b hj
    rw [← p2]
    exact hW j b0 p1
  · intro j b id hj hid
    rw [hall] at hj
    rw [hcells]
    by_cases e : i = j
    · subst e
      rw [List.getElem?_set_self hilt] at hj
      injection hj with hj
      rw [← hj] at hid ⊢
      simp only [Option.some.injEq] at hid
      subst hid
      refine ⟨_, List.getElem?_set_self hlt, ?_⟩
      rw [w2]
      simp only
      have := hH k i d access ai hoff hk hi
      rw [← this, ← hrel, Int.emod_add_emod]
      congr 1
      ring
    · rw [List.getElem?_set_ne e] at hj
      obtain ⟨c, g1, g2⟩ := hR j b id hj hid
      by_cases e' : cell_index = id
      · subst e'
        rw [hcl] at g1
        injection g1 with g1
        subst g1
        exact ⟨_, List.getElem?_set_self hlt, by rw [w2]; exact g2⟩
      · exact ⟨c, by rw [List.getElem?_set_ne e']; exact g1, g2⟩
  · intro id c hc
    rw [hcells] at hc
    rw [hall]
    have key : ∀ c0, m.cells_[id]? = some c0 → c0.address = c.address →
        ∃ (i_1 : Nat) (b : ArmMemory.Access), (m.all_accesses_.set i
            { ai with cell := some cell_index, cell_offset := access.cell_offset + d })[i_1]?
              = some b ∧ b.cell = some id ∧ b.cell_offset = 0 ∧ c.address = b.address := by
      intro c0 hc0 hca
      obtain ⟨i0, b, p1, p2, p3, p4⟩ := hAn id c0 hc0
      have hne : i ≠ i0 := by
        intro e
        subst e
        rw [hi] at p1
        injection p1 with p1
        rw [← p1, hn] at p2
        exact absurd p2 (by simp)
      exact ⟨i0, b, by rw [List.getElem?_set_ne hne]; exact p1, p2, p3, by rw [← hca]; exact p4⟩
    by_cases e : cell_index = id
    · subst e
      rw [List.getElem?_set_self hlt] at hc
      injection hc with hc
      exact key cell hcl (by rw [← hc, w2])
    · rw [List.getElem?_set_ne e] at hc
      exact key c hc rfl

theorem ArmMemory.getElem?_set_address (l : List ArmMemory.Access) (i : Nat)
    (ai a' : ArmMemory.Access) (hi : l[i]? = some ai) (ha : a'.address = ai.address)
    (j : Nat) (b : ArmMemory.Access) (hj : (l.set i a')[j]? = some b) :
    ∃ b0, l[j]? = some b0 ∧ b0.address = b.address ∧ (i ≠ j → b0 = b) ∧ (i = j → b = a') := by
  have hilt : i < l.length := (List.getElem?_eq_some_iff.mp hi).1
  by_cases e : i = j
  · subst e
    rw [List.getElem?_set_self hilt] at hj
    injection hj with hj
    exact ⟨ai, hi, by rw [← hj, ha], fun h => absurd rfl h, fun _ => hj.symm⟩
  · rw [List.getElem?_set_ne e] at hj
    exact ⟨b, hj, rfl, fun _ => rfl, fun h => absurd h e⟩

theorem ArmMemory.addrInv_anchor (env : Env) :
    ArmMemory.AnchorInvariant (ArmMemory.AddrInv env) := by
  intro m i a h hi hn
  obtain ⟨hH, hW, hR, hAn⟩ := h
  have hilt : i < m.all_accesses_.length := (List.getElem?_eq_some_iff.mp hi).1
  have haddr := ArmMemory.getElem?_set_address m.all_accesses_ i a
    { a with cell := some m.cells_.length, cell_offset := 0 } hi rfl
  refine ⟨?_, ?_, ?_, ?_⟩
  · intro i' j' d' ai' aj' ho h1 h2
    obtain ⟨a1, p1, p2, -, -⟩ := haddr i' ai' h1
    obtain ⟨a2, q1, q2, -, -⟩ := haddr j' aj' h2
    rw [← p2, ← q2]
    exact hH i' j' d' a1 a2 ho p1 q1
  · intro j b hj
    obtain ⟨b0, p1, p2, -, -⟩ := haddr j b hj
    rw [← p2]
    exact hW j b0 p1
  · intro j b id hj hid
    obtain ⟨b0, p1, p2, p3, p4⟩ := haddr j b hj
    simp only
    by_cases e : i = j
    · have hb := p4 e
      rw [hb] at hid ⊢
      simp only [Option.some.injEq] at hid
      subst hid
      refine ⟨{ ArmMemory.Cell.init a.address with
          index := m.cells_.length
          tmp_min_offset := 0
          tmp_max_offset := ((a.size / 8 : Nat) : Int) }, ?_, ?_⟩
      · rw [List.getElem?_append_right (le_refl _)]
        simp only [Nat.sub_self, List.getElem?_cons_zero]
      · simp only [ArmMemory.Cell.init, add_zero]
        have hlt := SymBitVector.eval_lt env a.address
        rw [hW i a hi] at hlt
        apply Int.emod_eq_of_lt (Int.ofNat_nonneg _)
        exact_mod_cast hlt
    · have hb := p3 e
      subst hb
      obtain ⟨c, g1, g2⟩ := hR j b0 id p1 hid
      have hlt : id < m.cells_.length := (List.getElem?_eq_some_iff.mp g1).1
      exact ⟨c, by rw [List.getElem?_append_left hlt]; exact g1, g2⟩
  · intro id c hc
    simp only at hc ⊢
    by_cases e : id < m.cells_.length
    · rw [List.getElem?_append_left e] at hc
      obtain ⟨i0, b, p1, p2, p3, p4⟩ := hAn id c hc
      have hne : i ≠ i0 := by
        intro e
        subst e
        rw [hi] at p1
        injection p1 with p1
        rw [← p1, hn] at p2
        exact absurd p2 (by simp)
      exact ⟨i0, b, by rw [List.getElem?_set_ne hne]; exact p1, p2, p3, p4⟩
    · rw [List.getElem?_append_right (by omega)] at hc
      by_cases hid : id - m.cells_.length = 0
      · rw [hid] at hc
        simp only [List.getElem?_cons_zero, Option.some.injEq] at hc
        have hid' : id = m.cells_.length := by omega
        refine ⟨i, _, List.getElem?_set_self hilt, ?_, rfl, ?_⟩
        · rw [hid']
        · rw [← hc]
          rfl
      · have : ([({ ArmMemory.Cell.init a.address with
            index := m.cells_.length
            tmp_min_offset := 0
            tmp_max_offset := ((a.size / 8 : Nat) : Int) } : ArmMemory.Cell)])[id - m.cells_.length]?
            = none := by
          apply List.getElem?_eq_none
          simp only [List.length_singleton]
          omega
        rw [this] at hc
        exact absurd hc (by simp)

theorem Int.rebase_emod (cv : Nat) (mn off : Int) (N : Int) :
    (((cv : Int) + mn % N) % N + (off - mn)) % N = ((cv : Int) + off) % N := by
  rw [Int.emod_add_emod]
  have hdef : mn % N = mn - N * (mn / N) := by rw [Int.emod_def]
  rw [hdef]
  have : (cv : Int) + (mn - N * (mn / N)) + (off - mn) = (cv : Int) + off + N * (-(mn / N)) := by
    ring
  rw [this, Int.add_mul_emod_self_left]

theorem ArmMemory.finished_address_eval (env : Env) (c : ArmMemory.Cell)
    (hw : (c.address.eval env).w = 64) (off : Int) :
    ((((c.finished).address.eval env).v : Int) + (off - c.tmp_min_offset)) % 2 ^ 64
      = (((c.address.eval env).v : Int) + off) % 2 ^ 64 := by
  simp only [ArmMemory.Cell.finished, SymBitVector.eval, hw]
  have hnn : 0 ≤ c.tmp_min_offset % 2 ^ 64 := Int.emod_nonneg _ (by norm_num)
  have hcast : ((((c.address.eval env).v + (c.tmp_min_offset % 2 ^ 64).toNat) % 2 ^ 64 : Nat) : Int)
      = (((c.address.eval env).v : Int) + c.tmp_min_offset % 2 ^ 64) % 2 ^ 64 := by
    rw [Int.ofNat_emod, Int.ofNat_add, Int.toNat_of_nonneg hnn]
    rfl
  rw [hcast]
  exact Int.rebase_emod _ _ _ _

/-- C4: under an assignment of values for which every recorded offset holds
(`address_i + access_offsets[i][j] = address_j` modulo `2^64`, addresses being 64 bits
wide), `generate_constraints_enumerate_cells`, run to completion on a memory whose cell
list was cleared, gives every access a cell with
`address = cell.address + cell_offset` modulo `2^64`; the cell's address is the address
of its anchor (an access of the cell, at offset minus the minimum offset after
rebasing) plus the cell's minimum offset. -/
theorem ArmMemory.C4_cell_addresses (m : ArmMemory) (env : Env)
    (hstop : m.stop_now_ = false) (hcells : m.cells_ = [])
    (hwidth : ∀ a ∈ m.all_accesses_, (a.address.eval env).w = 64)
    (hoffs : ∀ (i j : Nat) (d : Int) (ai aj : ArmMemory.Access),
      m.access_offsets_ i j = some d → m.all_accesses_[i]? = some ai →
      m.all_accesses_[j]? = some aj →
      (((ai.address.eval env).v : Int) + d) % 2 ^ 64 = ((aj.address.eval env).v : Int)) :
    ∃ m', ArmMemory.generate_constraints_enumerate_cells m = some m' ∧
      ∀ a ∈ m'.all_accesses_, ∃ id c, a.cell = some id ∧ m'.cells_[id]? = some c ∧
        (((c.address.eval env).v : Int) + a.cell_offset) % 2 ^ 64
          = ((a.address.eval env).v : Int) ∧
        ∃ anchor ∈ m'.all_accesses_, anchor.cell = some id ∧
          anchor.cell_offset = -c.tmp_min_offset ∧
          c.address = SymBitVector.plus anchor.address
            (SymBitVector.constant 64 c.tmp_min_offset) := by
  have hreset : ∀ (i : Nat) (a : ArmMemory.Access),
      (ArmMemory.enumerate_reset m).all_accesses_[i]? = some a →
      ∃ b, m.all_accesses_[i]? = some b ∧ a.address = b.address ∧ a.cell = none := by
    intro i a hi
    simp only [ArmMemory.enumerate_reset, List.getElem?_mapIdx] at hi
    cases hm : m.all_accesses_[i]? with
    | none => rw [hm] at hi; exact absurd hi (by simp)
    | some b =>
      rw [hm] at hi
      simp only [Option.map_some', Option.some.injEq] at hi
      exact ⟨b, rfl, by rw [← hi], by rw [← hi]⟩
  have hinit : ArmMemory.AddrInv env (ArmMemory.enumerate_reset m) := by
    refine ⟨?_, ?_, ?_, ?_⟩
    · intro i j d ai aj ho h1 h2
      obtain ⟨b1, p1, p2, -⟩ := hreset i ai h1
      obtain ⟨b2, q1, q2, -⟩ := hreset j aj h2
      rw [p2, q2]
      exact hoffs i j d b1 b2 ho p1 q1
    · intro i a hi
      obtain ⟨b, p1, p2, -⟩ := hreset i a hi
      rw [p2]
      exact hwidth b (List.getElem?_mem p1)
    · intro i a id hi hid
      obtain ⟨b, -, -, p3⟩ := hreset i a hi
      rw [p3] at hid
      exact absurd hid (by simp)
    · intro id c hc
      simp [ArmMemory.enumerate_reset, hcells] at hc
  obtain ⟨m2, r1, ⟨-, hW, hR, hAn⟩, r3, r4, r5⟩ := ArmMemory.enumerate_cells_spec
    (ArmMemory.AddrInv env) (ArmMemory.addrInv_assign env) (ArmMemory.addrInv_anchor env) m
    hstop hcells hinit
  refine ⟨_, r1, ?_⟩
  intro a ha
  simp only [ArmMemory.finish_all, List.mem_map] at ha
  obtain ⟨a0, ha0, hr⟩ := ha
  obtain ⟨i, hi⟩ := List.getElem?_of_mem ha0
  obtain ⟨id, hid⟩ := r5 i a0 hi
  obtain ⟨c0, g1, g2⟩ := hR i a0 id hi hid
  obtain ⟨i0, b, p1, p2, p3, p4⟩ := hAn id c0 g1
  have hlt : id < m2.cells_.length := (List.getElem?_eq_some_iff.mp g1).1
  have hra : a = { a0 with cell_offset := a0.cell_offset - c0.tmp_min_offset } := by
    rw [← hr]
    simp [ArmMemory.rebase, hid, hlt, g1]
  have hcw : (c0.address.eval env).w = 64 := by
    rw [p4]
    exact hW i0 b p1
  refine ⟨id, c0.finished, ?_, ?_, ?_, ?_⟩
  · rw [hra]
    exact hid
  · simp [ArmMemory.finish_all, g1]
  · rw [hra]
    simp only
    rw [ArmMemory.finished_address_eval env c0 hcw]
    exact g2
  · refine ⟨{ b with cell_offset := b.cell_offset - c0.tmp_min_offset }, ?_, p2, ?_, ?_⟩
    · simp only [ArmMemory.finish_all, List.mem_map]
      refine ⟨b, List.getElem?_mem p1, ?_⟩
      simp [ArmMemory.rebase, p2, hlt, g1]
    · simp only [p3, ArmMemory.Cell.finished]
      ring
    · simp only [ArmMemory.Cell.finished, p4]

theorem ArmMemory.linked_table (i j : Nat) (d : Int)
    (h : ArmMemory.linked.access_offsets_ i j = some d) :
    (i = 0 ∧ j = 1 ∧ d = -8) ∨ (i = 1 ∧ j = 0 ∧ d = 8) := by
  simp only [ArmMemory.linked] at h
  split_ifs at h with h1 h2
  · left
    injection h with h
    exact ⟨h1.1, h1.2, h.symm⟩
  · right
    injection h with h
    exact ⟨h2.1, h2.2, h.symm⟩

theorem ArmMemory.linked_sizes : ∀ a ∈ ArmMemory.linked.all_accesses_, a.size / 8 ≤ 8 := by
  intro a ha
  simp only [ArmMemory.linked, List.mem_cons, List.mem_singleton, List.not_mem_nil,
    or_false] at ha
  rcases ha with rfl | rfl | rfl <;> decide

/-- Witness for C3: the memory `linked`, with the bound 8. -/
theorem ArmMemory.C3_cell_accounting_witness :
    ∃ m', ArmMemory.generate_constraints_enumerate_cells ArmMemory.linked = some m' ∧
      m'.all_accesses_.length = ArmMemory.linked.all_accesses_.length ∧
      ∀ a ∈ m'.all_accesses_, ∃ id c, a.cell = some id ∧ id < m'.cells_.length ∧
        m'.cells_[id]? = some c ∧ 0 ≤ a.cell_offset ∧
        a.cell_offset + ((a.size / 8 : Nat) : Int) ≤ (c.size : Int) :=
  ArmMemory.C3_cell_accounting ArmMemory.linked 8 rfl rfl
    (fun i j d h => by
      rcases ArmMemory.linked_table i j d h with ⟨-, -, rfl⟩ | ⟨-, -, rfl⟩ <;> decide)
    ArmMemory.linked_sizes (by decide)

/-- Witness for C4: the memory `linked` under the assignment `linked_env`. -/
theorem ArmMemory.C4_cell_addresses_witness :
    ∃ m', ArmMemory.generate_constraints_enumerate_cells ArmMemory.linked = some m' ∧
      ∀ a ∈ m'.all_accesses_, ∃ id c, a.cell = some id ∧ m'.cells_[id]? = some c ∧
        (((c.address.eval ArmMemory.linked_env).v : Int) + a.cell_offset) % 2 ^ 64
          = ((a.address.eval ArmMemory.linked_env).v : Int) ∧
        ∃ anchor ∈ m'.all_accesses_, anchor.cell = some id ∧
          anchor.cell_offset = -c.tmp_min_offset ∧
          c.address = SymBitVector.plus anchor.address
            (SymBitVector.constant 64 c.tmp_min_offset) :=
  ArmMemory.C4_cell_addresses ArmMemory.linked ArmMemory.linked_env rfl rfl
    (fun a ha => by
      simp only [ArmMemory.linked, List.mem_cons, List.mem_singleton, List.not_mem_nil,
        or_false] at ha
      rcases ha with rfl | rfl | rfl <;> rfl)
    (fun i j d ai aj h h1 h2 => by
      rcases ArmMemory.linked_table i j d h with ⟨rfl, rfl, rfl⟩ | ⟨rfl, rfl, rfl⟩
      · simp only [ArmMemory.linked, List.getElem?_cons_zero, List.getElem?_cons_succ,
          Option.some.injEq] at h1 h2
        subst h1 h2
        decide!
      · simp only [ArmMemory.linked, List.getElem?_cons_zero, List.getElem?_cons_succ,
          Option.some.injEq] at h1 h2
        subst h1 h2
        decide!)

/-! ## ArmMemory: the conservative simulation on three overlapping cells -/

set_option maxRecDepth 100000 in
/-- C5 (failing input): for the target accesses write `[rax]`, read `[rbx]`, read `[rcx]`
(one byte each, no assumption, nothing provable about the addresses)
`generate_constraints` puts the accesses in three one-byte cells, takes the conservative
simulation and constrains the value read through `rcx` to the byte of the initial heap.
Under the assignment `stale_env`, where the three addresses coincide, all generated
constraints hold and the value read through `rcx` is 0, while the flat heap holds 170 at
that address after the earlier write through `rax`. -/
theorem ArmMemory.C5_stale_cache_after_flush :
    ArmMemory.stale_run.map (fun g =>
        g.mem.all_accesses_.map (fun a => (a.is_other, a.write, a.cell, a.cell_offset, a.size / 8)))
      = some [(false, true, some 0, 0, 1), (false, false, some 1, 0, 1),
          (false, false, some 2, 0, 1)] ∧
    ArmMemory.stale_run.map (fun g => g.mem.cells_.map (fun c => c.size)) = some [1, 1, 1] ∧
    ArmMemory.stale_run.map (fun g => g.mem.constraints_) = some ArmMemory.stale_constraints ∧
    ArmMemory.stale_env.sat ArmMemory.stale_constraints ∧
    ArmMemory.stale_run.map (fun g =>
        (g.mem.all_accesses_.map (fun a => (a.value.eval ArmMemory.stale_env).v))[2]?)
      = some (some 0) ∧
    ArmMemory.stale_run.map (fun g =>
        ArmMemory.flat_read ArmMemory.stale_env g.mem.cells_ (ArmMemory.stale_env.arr "heap_1")
          g.mem.all_accesses_ 2)
      = some (some 170) := by
  refine ⟨by rfl, by rfl, by rfl, ?_, by decide!, by decide!⟩
  intro c hc
  simp only [ArmMemory.stale_constraints, List.mem_cons, List.mem_singleton, List.not_mem_nil,
    or_false] at hc
  rcases hc with rfl | rfl | rfl | rfl
  · show _ = _
    decide!
  · show _ = _
    decide!
  · intro k
    simp only [SymArray.eval, SymBitVector.eval, ArmMemory.stale_env, ArmMemory.byte_cell_address]
    by_cases h : k = 170
    · subst h
      decide!
    · have h1 : ("heap_1" = "final_1") = False := by decide
      simp [h, h1]
  · intro k
    rfl

/-! ## ArmMemory: solver errors -/

set_option maxRecDepth 100000 in
/-- C1 (failing input): with a solver that times out (`is_sat` false, error flag set)
`generate_constraints` returns false, which its caller reports as trivially proved; and
when only the queries after the sanity check time out,
`generate_constraints_offsets_nodata` records the offset 0 between two accesses whose
addresses are unrelated registers, although the one query made for them ended with the
error flag set.  `generate_constraints_offsets_data` records nothing on the same
answers, and a solver that answers without errors and proves nothing leads to no
offset either. -/
theorem ArmMemory.C1_timeout_taken_as_proof :
    (ArmMemory.solver_timeout [SymBool._true]).has_error = true ∧
    ArmMemory.generated_sat ArmMemory.solver_timeout = some false ∧
    (ArmMemory.solver_timeout_later
      ([SymBool._true] ++ [SymBool.not (SymBool.eq (SymBitVector.var 64 "rbx")
        (SymBitVector.var 64 "rax"))])).has_error = true ∧
    ArmMemory.nodata_offsets ArmMemory.solver_timeout_later = some (some 0, some 0) ∧
    ArmMemory.data_offsets ArmMemory.solver_timeout_later = (none, none) ∧
    ArmMemory.nodata_offsets ArmMemory.solver_sat = some (none, none) := by
  refine ⟨rfl, by rfl, by rfl, by rfl, by rfl, by rfl⟩

/-! ## UnionFind and the runs of `check_nonoverlapping` -/

theorem UnionFind.contains_iff (u : UnionFind) (x : Nat) : u.contains x = true ↔ u.elems x := by
  unfold UnionFind.contains UnionFind.elems
  rw [List.any_eq_true]
  constructor
  · rintro ⟨c, hc, hx⟩
    exact ⟨c, hc, by simpa using hx⟩
  · rintro ⟨c, hc, hx⟩
    exact ⟨c, hc, by simpa using hx⟩

theorem UnionFind.elems_add (u : UnionFind) (x y : Nat) :
    (u.add x).elems y ↔ (u.elems y ∨ y = x) := by
  unfold UnionFind.add
  by_cases h : u.contains x = true
  · simp only [h, if_true]
    constructor
    · exact Or.inl
    · rintro (h1 | h1)
      · exact h1
      · subst h1
        exact (UnionFind.contains_iff u y).mp h
  · simp only [h, if_false]
    unfold UnionFind.elems
    constructor
    · rintro ⟨c, hc, hy⟩
      rcases List.mem_append.mp hc with h1 | h1
      · exact Or.inl ⟨c, h1, hy⟩
      · simp only [List.mem_singleton] at h1
        subst h1
        simp only [List.mem_singleton] at hy
        exact Or.inr hy
    · rintro (⟨c, hc, hy⟩ | h1)
      · exact ⟨c, List.mem_append_left _ hc, hy⟩
      · exact ⟨[x], List.mem_append_right _ (List.mem_singleton.mpr rfl), by simp [h1]⟩

theorem UnionFind.mem_class_of (u : UnionFind) (x y : Nat) :
    y ∈ u.class_of x ↔ ∃ c ∈ u.classes, x ∈ c ∧ y ∈ c := by
  unfold UnionFind.class_of
  rw [List.mem_flatten]
  constructor
  · rintro ⟨c, hc, hy⟩
    rw [List.mem_filter] at hc
    exact ⟨c, hc.1, by simpa using hc.2, hy⟩
  · rintro ⟨c, hc, hx, hy⟩
    exact ⟨c, List.mem_filter.mpr ⟨hc, by simpa using hx⟩, hy⟩

theorem UnionFind.elems_join (u : UnionFind) (a b y : Nat) :
    (u.join a b).elems y ↔ u.elems y := by
  unfold UnionFind.join
  by_cases h : (u.class_of a).contains b = true
  · simp only [h, if_true]
  · simp only [h, if_false]
    unfold UnionFind.elems
    constructor
    · rintro ⟨c, hc, hy⟩
      rcases List.mem_append.mp hc with h1 | h1
      · exact ⟨c, (List.mem_filter.mp h1).1, hy⟩
      · simp only [List.mem_singleton] at h1
        subst h1
        rcases List.mem_append.mp hy with h2 | h2
        · obtain ⟨c, hc, -, hy'⟩ := (UnionFind.mem_class_of u a y).mp h2
          exact ⟨c, hc, hy'⟩
        · obtain ⟨c, hc, -, hy'⟩ := (UnionFind.mem_class_of u b y).mp h2
          exact ⟨c, hc, hy'⟩
    · rintro ⟨c, hc, hy⟩
      by_cases ha : a ∈ c
      · refine ⟨_, List.mem_append_right _ (List.mem_singleton.mpr rfl), ?_⟩
        exact List.mem_append_left _ ((UnionFind.mem_class_of u a y).mpr ⟨c, hc, ha, hy⟩)
      · by_cases hb : b ∈ c
        · refine ⟨_, List.mem_append_right _ (List.mem_singleton.mpr rfl), ?_⟩
          exact List.mem_append_right _ ((UnionFind.mem_class_of u b y).mpr ⟨c, hc, hb, hy⟩)
        · refine ⟨c, List.mem_append_left _ (List.mem_filter.mpr ⟨hc, ?_⟩), hy⟩
          simp [ha, hb]

theorem UnionFind.foldl_min_le (l : List Nat) (init : Nat) :
    l.foldl min init ≤ init ∧ (∀ x ∈ l, l.foldl min init ≤ x) ∧
    (l.foldl min init = init ∨ l.foldl min init ∈ l) := by
  induction l generalizing init with
  | nil => simp
  | cons a l ih =>
    obtain ⟨h1, h2, h3⟩ := ih (min init a)
    simp only [List.foldl_cons]
    refine ⟨le_trans h1 (min_le_left _ _), ?_, ?_⟩
    · intro x hx
      rcases List.mem_cons.mp hx with e | e
      · subst e
        exact le_trans h1 (min_le_right _ _)
      · exact h2 x e
    · rcases h3 with e | e
      · rcases min_choice init a with e' | e'
        · left; rw [e, e']
        · right; rw [e, e']; exact List.mem_cons_self _ _
      · right; exact List.mem_cons_of_mem _ e

theorem UnionFind.class_min_spec (c : List Nat) (x : Nat) (hx : x ∈ c) :
    UnionFind.class_min c ≤ x ∧ UnionFind.class_min c ∈ c := by
  unfold UnionFind.class_min
  cases c with
  | nil => cases hx
  | cons a l =>
    obtain ⟨h1, h2, h3⟩ := UnionFind.foldl_min_le (a :: l) a
    simp only [List.headD_cons]
    refine ⟨h2 x hx, ?_⟩
    rcases h3 with e | e
    · rw [e]; exact List.mem_cons_self _ _
    · exact e

theorem UnionFind.foldl_max_ge (l : List Nat) (init : Nat) :
    init ≤ l.foldl max init ∧ (∀ x ∈ l, x ≤ l.foldl max init) ∧
    (l.foldl max init = init ∨ l.foldl max init ∈ l) := by
  induction l generalizing init with
  | nil => simp
  | cons a l ih =>
    obtain ⟨h1, h2, h3⟩ := ih (max init a)
    simp only [List.foldl_cons]
    refine ⟨le_trans (le_max_left _ _) h1, ?_, ?_⟩
    · intro x hx
      rcases List.mem_cons.mp hx with e | e
      · subst e
        exact le_trans (le_max_right _ _) h1
      · exact h2 x e
    · rcases h3 with e | e
      · rcases max_choice init a with e' | e'
        · left; rw [e, e']
        · right; rw [e, e']; exact List.mem_cons_self _ _
      · right; exact List.mem_cons_of_mem _ e

/-- A run covers its class: for an element `x` of a class `c`, the component of `c` is
at most `x`, its `max_value` is at least `x`, and both are elements of the union-find. -/
theorem UnionFind.run_covers (u : UnionFind) (c : List Nat) (hc : c ∈ u.classes) (x : Nat)
    (hx : x ∈ c) :
    UnionFind.class_min c ∈ u.components ∧ UnionFind.class_min c ≤ x ∧
    x ≤ u.max_value (UnionFind.class_min c) ∧ u.elems (UnionFind.class_min c) ∧
    u.elems (u.max_value (UnionFind.class_min c)) := by
  obtain ⟨m1, m2⟩ := UnionFind.class_min_spec c x hx
  have hxin : x ∈ u.class_of (UnionFind.class_min c) :=
    (UnionFind.mem_class_of u _ x).mpr ⟨c, hc, m2, hx⟩
  obtain ⟨g1, g2, g3⟩ := UnionFind.foldl_max_ge (u.class_of (UnionFind.class_min c)) 0
  refine ⟨List.mem_map_of_mem _ hc, m1, g2 x hxin, ⟨c, hc, m2⟩, ?_⟩
  unfold UnionFind.max_value UnionFind.class_max
  rcases g3 with e | e
  · have hx0 : x = 0 := by
      have := g2 x hxin
      omega
    have hmin0 : UnionFind.class_min c = 0 := by omega
    rw [e, ← hmin0]
    exact ⟨c, hc, m2⟩
  · obtain ⟨c', hc', -, hy⟩ := (UnionFind.mem_class_of u _ _).mp e
    exact ⟨c', hc', hy⟩

theorem ArmMemory.run_add_elems (access : ArmMemory.Access) (uf : UnionFind) (i y : Nat) :
    (ArmMemory.run_add access uf i).elems y
      ↔ (uf.elems y ∨ y = u64 (access.cell_offset + (i : Int))) := by
  unfold ArmMemory.run_add
  simp only
  split <;> split <;>
    simp only [UnionFind.elems_join, UnionFind.elems_add]

theorem ArmMemory.run_fold_elems (access : ArmMemory.Access) (uf : UnionFind) (n y : Nat) :
    ((List.range n).foldl (ArmMemory.run_add access) uf).elems y
      ↔ (uf.elems y ∨ ∃ k, k < n ∧ y = u64 (access.cell_offset + (k : Int))) := by
  induction n with
  | zero => simp
  | succ n ih =>
    rw [List.range_succ, List.foldl_append]
    simp only [List.foldl_cons, List.foldl_nil]
    rw [ArmMemory.run_add_elems, ih]
    constructor
    · rintro ((h | ⟨k, hk, h⟩) | h)
      · exact Or.inl h
      · exact Or.inr ⟨k, by omega, h⟩
      · exact Or.inr ⟨n, by omega, h⟩
    · rintro (h | ⟨k, hk, h⟩)
      · exact Or.inl (Or.inl h)
      · by_cases e : k = n
        · subst e; exact Or.inr h
        · exact Or.inl (Or.inr ⟨k, by omega, h⟩)

theorem UnionFind.not_elems_empty (x : Nat) : ¬ UnionFind.empty.elems x := by
  rintro ⟨c, hc, -⟩
  simp [UnionFind.empty] at hc

theorem ArmMemory.covered_run_access (R : SMap UnionFind) (a : ArmMemory.Access) (key x : Nat) :
    ArmMemory.Covered (ArmMemory.run_access R a) key x
      ↔ (ArmMemory.Covered R key x ∨
          (a.cell_key = key ∧ ∃ k, k < a.size / 8 ∧ x = u64 (a.cell_offset + (k : Int)))) := by
  unfold ArmMemory.Covered ArmMemory.run_access
  simp only [SMap.find?_set]
  by_cases e : key = a.cell_key
  · subst e
    simp only [if_true, Option.some.injEq, exists_eq_left', true_and]
    rw [ArmMemory.run_fold_elems]
    have : (R.getD a.cell_key UnionFind.empty).elems x
        ↔ ∃ uf, R.find? a.cell_key = some uf ∧ uf.elems x := by
      unfold SMap.getD
      cases R.find? a.cell_key with
      | none =>
        simp only [Option.getD_none]
        constructor
        · intro h; exact absurd h (UnionFind.not_elems_empty x)
        · rintro ⟨uf, h, -⟩; exact absurd h (by simp)
      | some uf0 => simp
    rw [this]
  · have e' : ¬ a.cell_key = key := fun h => e h.symm
    simp only [e, if_false, e', false_and, or_false]

theorem ArmMemory.covered_fold (accs : List ArmMemory.Access) (R : SMap UnionFind)
    (key x : Nat) :
    ArmMemory.Covered (accs.foldl ArmMemory.run_access R) key x
      ↔ (ArmMemory.Covered R key x ∨ ArmMemory.Touched accs key x) := by
  induction accs generalizing R with
  | nil =>
    simp only [List.foldl_nil, ArmMemory.Touched, List.not_mem_nil, false_and, exists_false,
      or_false]
  | cons a accs ih =>
    simp only [List.foldl_cons]
    rw [ih, ArmMemory.covered_run_access]
    unfold ArmMemory.Touched
    constructor
    · rintro ((h | h) | ⟨b, hb, h⟩)
      · exact Or.inl h
      · exact Or.inr ⟨a, List.mem_cons_self _ _, h⟩
      · exact Or.inr ⟨b, List.mem_cons_of_mem _ hb, h⟩
    · rintro (h | ⟨b, hb, h⟩)
      · exact Or.inl (Or.inl h)
      · rcases List.mem_cons.mp hb with e | e
        · subst e; exact Or.inl (Or.inr h)
        · exact Or.inr ⟨b, e, h⟩

theorem ArmMemory.covered_runs (m : ArmMemory) (key x : Nat) :
    ArmMemory.Covered (ArmMemory.runs m) key x ↔ ArmMemory.Touched m.all_accesses_ key x := by
  unfold ArmMemory.runs
  rw [ArmMemory.covered_fold]
  constructor
  · rintro (⟨uf, h, -⟩ | h)
    · simp [SMap.find?] at h
    · exact h
  · exact Or.inr

theorem SMap.getD_set {α : Type} (m : SMap α) (k : Nat) (v : α) (k' : Nat) (d : α) :
    (m.set k v).getD k' d = if k' = k then v else m.getD k' d := by
  unfold SMap.getD
  rw [SMap.find?_set]
  by_cases h : k' = k <;> simp [h]

theorem SMap.mem_of_find? {α : Type} (m : SMap α) (k : Nat) (v : α) (h : m.find? k = some v) :
    (k, v) ∈ m := by
  induction m with
  | nil => simp [SMap.find?] at h
  | cons p t ih =>
    obtain ⟨k0, v0⟩ := p
    unfold SMap.find? at h
    by_cases e : k0 = k
    · simp only [e, if_true, Option.some.injEq] at h
      subst e h
      exact List.mem_cons_self _ _
    · simp only [e, if_false] at h
      exact List.mem_cons_of_mem _ (ih h)

theorem ArmMemory.range_add_mono (cells : List ArmMemory.Cell) (p : Nat × UnionFind)
    (rg : SMap (List (SymBitVector × SymBitVector))) (component id : Nat)
    (r : SymBitVector × SymBitVector) (h : r ∈ rg.getD id []) :
    r ∈ (ArmMemory.range_add cells p rg component).getD id [] := by
  unfold ArmMemory.range_add
  cases cells[p.1]? with
  | none => exact h
  | some cell =>
    simp only [SMap.getD_set]
    by_cases e : id = p.1
    · subst e
      simp only [if_true]
      exact List.mem_append_left _ h
    · simp only [e, if_false]
      exact h

theorem ArmMemory.range_fold_mono (cells : List ArmMemory.Cell) (p : Nat × UnionFind)
    (comps : List Nat) (rg : SMap (List (SymBitVector × SymBitVector))) (id : Nat)
    (r : SymBitVector × SymBitVector) (h : r ∈ rg.getD id []) :
    r ∈ (comps.foldl (ArmMemory.range_add cells p) rg).getD id [] := by
  induction comps generalizing rg with
  | nil => exact h
  | cons c comps ih =>
    simp only [List.foldl_cons]
    exact ih _ (ArmMemory.range_add_mono cells p rg c id r h)

theorem ArmMemory.range_fold_adds (cells : List ArmMemory.Cell) (p : Nat × UnionFind)
    (cell : ArmMemory.Cell) (hcell : cells[p.1]? = some cell) (comps : List Nat)
    (rg : SMap (List (SymBitVector × SymBitVector))) (component : Nat)
    (hc : component ∈ comps) :
    ArmMemory.run_range cell p.2 component
      ∈ (comps.foldl (ArmMemory.range_add cells p) rg).getD p.1 [] := by
  induction comps generalizing rg with
  | nil => cases hc
  | cons c comps ih =>
    simp only [List.foldl_cons]
    rcases List.mem_cons.mp hc with e | e
    · subst e
      apply ArmMemory.range_fold_mono
      unfold ArmMemory.range_add
      simp only [hcell, SMap.getD_set, if_true]
      exact List.mem_append_right _ (List.mem_singleton.mpr rfl)
    · exact ih _ e

theorem ArmMemory.ranges_fold (cells : List ArmMemory.Cell) (L : List (Nat × UnionFind))
    (rg : SMap (List (SymBitVector × SymBitVector))) :
    (∀ (id : Nat) (r : SymBitVector × SymBitVector), r ∈ rg.getD id [] →
      r ∈ (L.foldl (fun rg p => p.2.components.foldl (ArmMemory.range_add cells p) rg) rg).getD
        id []) ∧
    (∀ p ∈ L, ∀ (cell : ArmMemory.Cell), cells[p.1]? = some cell →
      ∀ component ∈ p.2.components, ArmMemory.run_range cell p.2 component
        ∈ (L.foldl (fun rg p => p.2.components.foldl (ArmMemory.range_add cells p) rg) rg).getD
          p.1 []) := by
  induction L generalizing rg with
  | nil => exact ⟨fun _ _ h => h, fun p hp => by cases hp⟩
  | cons q L ih =>
    simp only [List.foldl_cons]
    obtain ⟨i1, i2⟩ := ih (q.2.components.foldl (ArmMemory.range_add cells q) rg)
    refine ⟨?_, ?_⟩
    · intro id r h
      exact i1 id r (ArmMemory.range_fold_mono cells q _ rg id r h)
    · intro p hp cell hcell component hc
      rcases List.mem_cons.mp hp with e | e
      · subst e
        exact i1 _ _ (ArmMemory.range_fold_adds cells p cell hcell _ rg component hc)
      · exact i2 p e cell hcell component hc

/-- Every byte offset that an access of a cell touches lies in a run of that cell whose
range is among the ranges `check_nonoverlapping` compares. -/
theorem ArmMemory.touched_in_range (m : ArmMemory) (a : ArmMemory.Access)
    (ha : a ∈ m.all_accesses_) (k : Nat) (hk : k < a.size / 8) (cell : ArmMemory.Cell)
    (hcell : m.cells_[a.cell_key]? = some cell) :
    ∃ (uf : UnionFind) (low : Nat),
      ArmMemory.run_range cell uf low ∈ (ArmMemory.ranges m).getD a.cell_key [] ∧
      low ≤ u64 (a.cell_offset + (k : Int)) ∧
      u64 (a.cell_offset + (k : Int)) ≤ uf.max_value low ∧
      ArmMemory.Touched m.all_accesses_ a.cell_key low ∧
      ArmMemory.Touched m.all_accesses_ a.cell_key (uf.max_value low) := by
  have hcov : ArmMemory.Covered (ArmMemory.runs m) a.cell_key (u64 (a.cell_offset + (k : Int))) :=
    (ArmMemory.covered_runs m _ _).mpr ⟨a, ha, rfl, k, hk, rfl⟩
  obtain ⟨uf, huf, c, hc, hx⟩ := hcov
  obtain ⟨r1, r2, r3, r4, r5⟩ := UnionFind.run_covers uf c hc _ hx
  refine ⟨uf, UnionFind.class_min c, ?_, r2, r3, ?_, ?_⟩
  · exact (ArmMemory.ranges_fold m.cells_ (ArmMemory.runs m) []).2 (a.cell_key, uf)
      (SMap.mem_of_find? _ _ _ huf) cell hcell _ r1
  · exact (ArmMemory.covered_runs m _ _).mp ⟨uf, huf, r4⟩
  · exact (ArmMemory.covered_runs m _ _).mp ⟨uf, huf, r5⟩

theorem ArmMemory.check_nonoverlapping_pairs (m : ArmMemory) (ic : List SymBool)
    (h : ArmMemory.check_nonoverlapping m ic = true) (i j : Nat) (hi : i < m.cells_.length)
    (hji : j < i) (ri rj : SymBitVector × SymBitVector)
    (hri : ri ∈ (ArmMemory.ranges m).getD i []) (hrj : rj ∈ (ArmMemory.ranges m).getD j []) :
    (m.solver_ (ic ++ [SymBool.not (ArmMemory.ranges_apart ri rj)])).is_sat = false ∧
    (m.solver_ (ic ++ [SymBool.not (ArmMemory.ranges_apart ri rj)])).has_error = false := by
  unfold ArmMemory.check_nonoverlapping at h
  rw [List.all_eq_true] at h
  have h1 := h i (List.mem_range.mpr hi)
  rw [List.all_eq_true] at h1
  have h2 := h1 j (List.mem_range.mpr (by omega))
  have hnle : ¬ i ≤ j := by omega
  simp only [hnle, if_false] at h2
  rw [List.all_eq_true] at h2
  have h3 := h2 ri hri
  rw [List.all_eq_true] at h3
  have h4 := h3 rj hrj
  simpa using h4

theorem ArmMemory.solver_assign (s : Solver) :
    ArmMemory.AssignInvariant (fun m => m.solver_ = s) := by
  intro m i k ai access cell_index d h _ _ _ _ _
  exact h

theorem ArmMemory.solver_anchor (s : Solver) :
    ArmMemory.AnchorInvariant (fun m => m.solver_ = s) := by
  intro m i a h _ _
  exact h

theorem ArmMemory.cellInv_reset (m : ArmMemory) (B : Nat) (hcells : m.cells_ = [])
    (htable : ∀ (i j : Nat) (d : Int), m.access_offsets_ i j = some d → -(B : Int) ≤ d ∧ d ≤ B)
    (hsize : ∀ a ∈ m.all_accesses_, a.size / 8 ≤ B) :
    ArmMemory.CellInv B (ArmMemory.enumerate_reset m) := by
  refine ⟨htable, ?_, ?_, ?_⟩
  · intro i a hi
    simp only [ArmMemory.enumerate_reset, List.getElem?_mapIdx] at hi
    cases hm : m.all_accesses_[i]? with
    | none => rw [hm] at hi; exact absurd hi (by simp)
    | some b =>
      rw [hm] at hi
      simp only [Option.map_some', Option.some.injEq] at hi
      rw [← hi]
      exact hsize b (List.getElem?_mem hm)
  · intro id c hc
    simp [ArmMemory.enumerate_reset, hcells] at hc
  · intro i a id hi hid
    simp only [ArmMemory.enumerate_reset, List.getElem?_mapIdx] at hi
    cases hm : m.all_accesses_[i]? with
    | none => rw [hm] at hi; exact absurd hi (by simp)
    | some b =>
      rw [hm] at hi
      simp only [Option.map_some', Option.some.injEq] at hi
      rw [← hi] at hid
      exact absurd hid (by simp)

theorem ArmMemory.addrInv_reset (m : ArmMemory) (env : Env) (hcells : m.cells_ = [])
    (hwidth : ∀ a ∈ m.all_accesses_, (a.address.eval env).w = 64)
    (hoffs : ∀ (i j : Nat) (d : Int) (ai aj : ArmMemory.Access),
      m.access_offsets_ i j = some d → m.all_accesses_[i]? = some ai →
      m.all_accesses_[j]? = some aj →
      (((ai.address.eval env).v : Int) + d) % 2 ^ 64 = ((aj.address.eval env).v : Int)) :
    ArmMemory.AddrInv env (ArmMemory.enumerate_reset m) := by
  have hreset : ∀ (i : Nat) (a : ArmMemory.Access),
      (ArmMemory.enumerate_reset m).all_accesses_[i]? = some a →
      ∃ b, m.all_accesses_[i]? = some b ∧ a.address = b.address ∧ a.cell = none := by
    intro i a hi
    simp only [ArmMemory.enumerate_reset, List.getElem?_mapIdx] at hi
    cases hm : m.all_accesses_[i]? with
    | none => rw [hm] at hi; exact absurd hi (by simp)
    | some b =>
      rw [hm] at hi
      simp only [Option.map_some', Option.some.injEq] at hi
      exact ⟨b, rfl, by rw [← hi], by rw [← hi]⟩
  refine ⟨?_, ?_, ?_, ?_⟩
  · intro i j d ai aj ho h1 h2
    obtain ⟨b1, p1, p2, -⟩ := hreset i ai h1
    obtain ⟨b2, q1, q2, -⟩ := hreset j aj h2
    rw [p2, q2]
    exact hoffs i j d b1 b2 ho p1 q1
  · intro i a hi
    obtain ⟨b, p1, p2, -⟩ := hreset i a hi
    rw [p2]
    exact hwidth b (List.getElem?_mem p1)
  · intro i a id hi hid
    obtain ⟨b, -, -, p3⟩ := hreset i a hi
    rw [p3] at hid
    exact absurd hid (by simp)
  · intro id c hc
    simp [ArmMemory.enumerate_reset, hcells] at hc

theorem ArmMemory.enumerate_cells_layout (m : ArmMemory) (env : Env) (B : Nat)
    (hstop : m.stop_now_ = false) (hcells : m.cells_ = [])
    (htable : ∀ (i j : Nat) (d : Int), m.access_offsets_ i j = some d → -(B : Int) ≤ d ∧ d ≤ B)
    (hsize : ∀ a ∈ m.all_accesses_, a.size / 8 ≤ B)
    (hB : 4 * m.all_accesses_.length * B < 2 ^ 63)
    (hwidth : ∀ a ∈ m.all_accesses_, (a.address.eval env).w = 64)
    (hoffs : ∀ (i j : Nat) (d : Int) (ai aj : ArmMemory.Access),
      m.access_offsets_ i j = some d → m.all_accesses_[i]? = some ai →
      m.all_accesses_[j]? = some aj →
      (((ai.address.eval env).v : Int) + d) % 2 ^ 64 = ((aj.address.eval env).v : Int)) :
    ∃ m', ArmMemory.generate_constraints_enumerate_cells m = some m' ∧
      m'.solver_ = m.solver_ ∧ ArmMemory.Layout env m' := by
  obtain ⟨m2, r1, ⟨⟨⟨-, -, hC, hA⟩, ⟨-, hW, hR, hAn⟩⟩, hsol⟩, r3, r4, r5⟩ :=
    ArmMemory.enumerate_cells_spec
      (fun x => (ArmMemory.CellInv B x ∧ ArmMemory.AddrInv env x) ∧ x.solver_ = m.solver_)
      (ArmMemory.assignInvariant_conj
        (ArmMemory.assignInvariant_conj (ArmMemory.cellInv_assign B)
          (ArmMemory.addrInv_assign env)) (ArmMemory.solver_assign m.solver_))
      (ArmMemory.anchorInvariant_conj
        (ArmMemory.anchorInvariant_conj (ArmMemory.cellInv_anchor B)
          (ArmMemory.addrInv_anchor env)) (ArmMemory.solver_anchor m.solver_))
      m hstop hcells
      ⟨⟨ArmMemory.cellInv_reset m B hcells htable hsize,
        ArmMemory.addrInv_reset m env hcells hwidth hoffs⟩, rfl⟩
  refine ⟨_, r1, hsol, ?_⟩
  intro a ha
  simp only [ArmMemory.finish_all, List.mem_map] at ha
  obtain ⟨a0, ha0, hr⟩ := ha
  obtain ⟨i, hi⟩ := List.getElem?_of_mem ha0
  obtain ⟨id, hid⟩ := r5 i a0 hi
  obtain ⟨c0, g1, g2, g3⟩ := hA i a0 id hi hid
  obtain ⟨c0', g1', g4⟩ := hR i a0 id hi hid
  rw [g1] at g1'
  injection g1' with g1'
  subst g1'
  obtain ⟨b1, b2, b3, b4⟩ := hC id c0 g1
  obtain ⟨i0, b, p1, p2, p3, p4⟩ := hAn id c0 g1
  have hlt : id < m2.cells_.length := (List.getElem?_eq_some_iff.mp g1).1
  have hra : a = { a0 with cell_offset := a0.cell_offset - c0.tmp_min_offset } := by
    rw [← hr]
    simp [ArmMemory.rebase, hid, hlt, g1]
  have hAle := ArmMemory.assigned_le m2
  have hA0 := ArmMemory.assigned_nonneg m2
  have hB0 : (0 : Int) ≤ (B : Int) := Int.ofNat_nonneg _
  have hprod : ArmMemory.assigned m2 * (B : Int) ≤ (m.all_accesses_.length : Int) * (B : Int) := by
    rw [← r4]
    exact mul_le_mul_of_nonneg_right hAle hB0
  have hB' : (4 : Int) * (m.all_accesses_.length : Int) * (B : Int) < 2 ^ 63 := by
    exact_mod_cast hB
  have hsz : ((u64 (c0.tmp_max_offset - c0.tmp_min_offset) : Nat) : Int)
      = c0.tmp_max_offset - c0.tmp_min_offset := by
    apply u64_of_range
    · linarith
    · have : (2 : Int) ^ 63 < 2 ^ 64 := by norm_num
      linarith
  have hcw : (c0.address.eval env).w = 64 := by
    rw [p4]
    exact hW i0 b p1
  refine ⟨id, c0.finished, ?_, ?_, ?_, ?_, ?_, ?_, ?_⟩
  · rw [hra]; exact hid
  · simp [ArmMemory.finish_all, hlt]
  · simp [ArmMemory.finish_all, g1]
  · rw [hra]; simp only; linarith
  · rw [hra]
    simp only [ArmMemory.Cell.finished]
    rw [hsz]
    linarith
  · rw [hra]
    simp only
    rw [ArmMemory.finished_address_eval env c0 hcw]
    exact g4
  · simp only [ArmMemory.Cell.finished, SymBitVector.eval]
    exact hcw

theorem SymBitVector.eval_plus_constant (env : Env) (t : SymBitVector) (n : Nat)
    (hw : (t.eval env).w = 64) (h : (t.eval env).v + n < 2 ^ 64) :
    ((SymBitVector.plus t (SymBitVector.constant 64 (n : Int))).eval env).v
      = (t.eval env).v + n := by
  simp only [SymBitVector.eval, hw]
  have hn : n < 2 ^ 64 := by omega
  have h1 : ((n : Int) % 2 ^ 64).toNat = n := by
    have : ((n : Int) % 2 ^ 64) = (n : Int) :=
      Int.emod_eq_of_lt (Int.ofNat_nonneg _) (by exact_mod_cast hn)
    rw [this]
    exact Int.toNat_ofNat n
  rw [h1, Nat.mod_eq_of_lt h]

theorem ArmMemory.cell_key_of_cell (a : ArmMemory.Access) (id : Nat) (h : a.cell = some id) :
    a.cell_key = id := by
  simp [ArmMemory.Access.cell_key, h]

/-- Under a layout without wrap-around, byte `k` of an access lies between the first and
the last address of one of the ranges recorded for its cell. -/
theorem ArmMemory.run_bounds (env : Env) (m' : ArmMemory) (hL : ArmMemory.Layout env m')
    (a : ArmMemory.Access) (ha : a ∈ m'.all_accesses_) (id : Nat) (c : ArmMemory.Cell)
    (hid : a.cell = some id) (hc : m'.cells_[id]? = some c)
    (hnowrap : (c.address.eval env).v + c.size ≤ 2 ^ 64) (k : Nat) (hk : k < a.size / 8) :
    ∃ r ∈ (ArmMemory.ranges m').getD id [],
      (r.1.eval env).v ≤ (a.address.eval env).v + k ∧
      (a.address.eval env).v + k ≤ (r.2.eval env).v := by
  obtain ⟨id', c', e1, -, e3, e4, e5, e6, e7⟩ := hL a ha
  rw [hid] at e1
  injection e1 with e1
  subst e1
  rw [hc] at e3
  injection e3 with e3
  subst e3
  have hkey := ArmMemory.cell_key_of_cell a id hid
  obtain ⟨uf, low, hr, hlo, hhi, -, ⟨a', ha', hkey', k', hk', hhigh⟩⟩ :=
    ArmMemory.touched_in_range m' a ha k hk c (by rw [hkey]; exact hc)
  rw [hkey] at hr
  -- the touched offset is the plain sum
  have hoff : ((u64 (a.cell_offset + (k : Int)) : Nat) : Int) = a.cell_offset + (k : Int) := by
    apply u64_of_range
    · omega
    · have : ((c.size : Nat) : Int) ≤ 2 ^ 64 := by
        have : c.size ≤ 2 ^ 64 := by omega
        exact_mod_cast this
      omega
  -- the high end of the run is a touched offset of the same cell
  obtain ⟨id2, c2, f1, -, f3, f4, f5, -, -⟩ := hL a' ha'
  have hid2 : id2 = id := by
    have := ArmMemory.cell_key_of_cell a' id2 f1
    rw [hkey'] at this
    rw [← hkey, this]
  subst hid2
  rw [hc] at f3
  injection f3 with f3
  subst f3
  have hoff' : ((u64 (a'.cell_offset + (k' : Int)) : Nat) : Int)
      = a'.cell_offset + (k' : Int) := by
    apply u64_of_range
    · omega
    · have : ((c.size : Nat) : Int) ≤ 2 ^ 64 := by
        have : c.size ≤ 2 ^ 64 := by omega
        exact_mod_cast this
      omega
  have hhigh_lt : uf.max_value low < c.size := by
    have : ((uf.max_value low : Nat) : Int) < (c.size : Int) := by
      rw [hhigh, hoff']
      omega
    exact_mod_cast this
  -- the address of the access is the cell address plus the offset
  have hA : ((a.address.eval env).v : Int) = ((c.address.eval env).v : Int) + a.cell_offset := by
    rw [← e6]
    apply Int.emod_eq_of_lt
    · omega
    · have : (((c.address.eval env).v + c.size : Nat) : Int) ≤ 2 ^ 64 := by
        exact_mod_cast hnowrap
      push_cast at this
      omega
  have hlow_le : low ≤ uf.max_value low := le_trans hlo hhi
  refine ⟨_, hr, ?_, ?_⟩
  · simp only [ArmMemory.run_range]
    rw [SymBitVector.eval_plus_constant env c.address low e7 (by omega)]
    have : (((c.address.eval env).v + low : Nat) : Int) ≤ (((a.address.eval env).v + k : Nat) : Int) := by
      push_cast
      rw [hA]
      have : ((low : Nat) : Int) ≤ ((u64 (a.cell_offset + (k : Int)) : Nat) : Int) := by
        exact_mod_cast hlo
      rw [hoff] at this
      omega
    exact_mod_cast this
  · simp only [ArmMemory.run_range]
    rw [SymBitVector.eval_plus_constant env c.address (uf.max_value low) e7 (by omega)]
    have : (((a.address.eval env).v + k : Nat) : Int)
        ≤ (((c.address.eval env).v + uf.max_value low : Nat) : Int) := by
      push_cast
      rw [hA]
      have : ((u64 (a.cell_offset + (k : Int)) : Nat) : Int) ≤ ((uf.max_value low : Nat) : Int) := by
        exact_mod_cast hhi
      rw [hoff] at this
      omega
    exact_mod_cast this

/-! ## ArmMemory: accesses in different cells -/

/-- C2 (amended): when cell enumeration has placed two accesses in different cells and
`check_nonoverlapping` has returned true on the result, with a solver whose error-free
"unsatisfiable" answers are correct, then under every assignment that satisfies the
initial constraints and the recorded offsets and under which no cell wraps around the
end of the address space, the byte ranges `[address, address + size/8)` of the two
accesses are disjoint.  (Offsets and sizes are bounded so that the `int64_t` arithmetic
of the enumeration cannot overflow, and `cells_` was cleared before.) -/
theorem ArmMemory.C2_disjoint_after_check (m m' : ArmMemory) (ic : List SymBool) (env : Env)
    (B : Nat) (hstop : m.stop_now_ = false) (hcells : m.cells_ = [])
    (htable : ∀ (i j : Nat) (d : Int), m.access_offsets_ i j = some d → -(B : Int) ≤ d ∧ d ≤ B)
    (hsize : ∀ a ∈ m.all_accesses_, a.size / 8 ≤ B)
    (hB : 4 * m.all_accesses_.length * B < 2 ^ 63)
    (hwidth : ∀ a ∈ m.all_accesses_, (a.address.eval env).w = 64)
    (hoffs : ∀ (i j : Nat) (d : Int) (ai aj : ArmMemory.Access),
      m.access_offsets_ i j = some d → m.all_accesses_[i]? = some ai →
      m.all_accesses_[j]? = some aj →
      (((ai.address.eval env).v : Int) + d) % 2 ^ 64 = ((aj.address.eval env).v : Int))
    (henum : ArmMemory.generate_constraints_enumerate_cells m = some m')
    (hsound : m.solver_.sound) (hcheck : ArmMemory.check_nonoverlapping m' ic = true)
    (hsat : env.sat ic)
    (hnowrap : ∀ c ∈ m'.cells_, (c.address.eval env).v + c.size ≤ 2 ^ 64) :
    ∀ a ∈ m'.all_accesses_, ∀ b ∈ m'.all_accesses_, a.cell ≠ b.cell →
      ArmMemory.bytes_disjoint env a b := by
  obtain ⟨m'', h1, hsol, hL⟩ := ArmMemory.enumerate_cells_layout m env B hstop hcells htable
    hsize hB hwidth hoffs
  rw [henum] at h1
  injection h1 with h1
  subst h1
  intro a ha b hb hne x hx
  obtain ⟨xa1, xa2, xb1, xb2⟩ := hx
  obtain ⟨ia, ca, a1, a2, a3, -⟩ := hL a ha
  obtain ⟨ib, cb, b1, b2, b3, -⟩ := hL b hb
  have hne' : ia ≠ ib := by
    intro e
    apply hne
    rw [a1, b1, e]
  obtain ⟨ra, hra, ra1, ra2⟩ := ArmMemory.run_bounds env m' hL a ha ia ca a1 a3
    (hnowrap ca (List.getElem?_mem a3)) (x - (a.address.eval env).v) (by omega)
  obtain ⟨rb, hrb, rb1, rb2⟩ := ArmMemory.run_bounds env m' hL b hb ib cb b1 b3
    (hnowrap cb (List.getElem?_mem b3)) (x - (b.address.eval env).v) (by omega)
  have key : ∀ (i j : Nat) (ri rj : SymBitVector × SymBitVector), i < m'.cells_.length →
      j < i → ri ∈ (ArmMemory.ranges m').getD i [] → rj ∈ (ArmMemory.ranges m').getD j [] →
      (ri.1.eval env).v > (rj.2.eval env).v ∨ (ri.2.eval env).v < (rj.1.eval env).v := by
    intro i j ri rj hi hji hri hrj
    obtain ⟨s1, s2⟩ := ArmMemory.check_nonoverlapping_pairs m' ic hcheck i j hi hji ri rj hri hrj
    rw [hsol] at s1 s2
    have hns := hsound _ s1 s2 env
    by_contra hcon
    apply hns
    rw [Env.sat_append, Env.sat_singleton]
    refine ⟨hsat, ?_⟩
    simp only [SymBool.holds, ArmMemory.ranges_apart]
    exact hcon
  rcases Nat.lt_or_gt_of_ne hne' with hlt | hgt
  · rcases key ib ia rb ra b2 hlt hrb hra with h | h <;> omega
  · rcases key ia ib ra rb a2 hgt hra hrb with h | h <;> omega

set_option maxRecDepth 100000 in
/-- C2 (counterexample): the accesses of `three_bytes` are placed in three different
cells, yet under the assignment `stale_env`, which satisfies the assumption `true`, the
access through `rax` and the access through `rcx` both cover the byte at address 170. -/
theorem ArmMemory.C2_different_cells_may_overlap :
    ∃ g, ArmMemory.stale_run = some g ∧
      ¬ ArmMemory.placed_apart_never_overlap g.mem [SymBool._true] := by
  have hlist : ArmMemory.stale_run.map (fun g => g.mem.all_accesses_.map (fun a =>
      (a.cell, (a.address.eval ArmMemory.stale_env).v, a.size / 8)))
      = some [(some 0, 170, 1), (some 1, 170, 1), (some 2, 170, 1)] := by decide!
  cases h : ArmMemory.stale_run with
  | none =>
    rw [h] at hlist
    exact absurd hlist (by simp)
  | some g =>
    refine ⟨g, rfl, ?_⟩
    intro hclaim
    rw [h] at hlist
    simp only [Option.map_some', Option.some.injEq] at hlist
    have h0 := congrArg (fun l => l[0]?) hlist
    have h2 := congrArg (fun l => l[2]?) hlist
    simp only [List.getElem?_map, List.getElem?_cons_zero, List.getElem?_cons_succ,
      Option.map_eq_some'] at h0 h2
    obtain ⟨a, ha, hfa⟩ := h0
    obtain ⟨b, hb, hfb⟩ := h2
    simp only [Prod.mk.injEq] at hfa hfb
    obtain ⟨a1, a2, a3⟩ := hfa
    obtain ⟨b1, b2, b3⟩ := hfb
    have hsat : ArmMemory.stale_env.sat [SymBool._true] := by
      intro c hc
      simp only [List.mem_singleton] at hc
      subst hc
      exact trivial
    have hne : a.cell ≠ b.cell := by
      rw [a1, b1]
      decide
    apply hclaim ArmMemory.stale_env hsat a (List.getElem?_mem ha) b (List.getElem?_mem hb) hne 170
    rw [a2, a3, b2, b3]
    decide

theorem SymBitVector.closed_eval (env : Env) :
    ∀ (t : SymBitVector) (x : BVal), t.closed = some x → t.eval env = x
  | .null, _, h => by simp [SymBitVector.closed] at h
  | .constant w v, x, h => by
    simp only [SymBitVector.closed, Option.some.injEq] at h
    simp only [SymBitVector.eval]
    exact h
  | .var _ _, _, h => by simp [SymBitVector.closed] at h
  | .tmp_var _ _, _, h => by simp [SymBitVector.closed] at h
  | .plus a b, x, h => by
    simp only [SymBitVector.closed] at h
    cases ha : a.closed with
    | none => rw [ha] at h; simp at h
    | some xa =>
      cases hb : b.closed with
      | none => rw [ha, hb] at h; simp at h
      | some xb =>
        rw [ha, hb] at h
        simp only [Option.some.injEq] at h
        simp only [SymBitVector.eval, SymBitVector.closed_eval env a xa ha,
          SymBitVector.closed_eval env b xb hb]
        exact h
  | .concat _ _, _, h => by simp [SymBitVector.closed] at h
  | .extract _ _ _, _, h => by simp [SymBitVector.closed] at h
  | .select _ _, _, h => by simp [SymBitVector.closed] at h

theorem SymBool.closed_holds (env : Env) :
    ∀ (c : SymBool) (b : Bool), c.closed = some b → (c.holds env ↔ b = true) := by
  intro c
  induction c with
  | _true => intro b h; simp only [SymBool.closed, Option.some.injEq] at h; simp [SymBool.holds, ← h]
  | _false => intro b h; simp only [SymBool.closed, Option.some.injEq] at h; simp [SymBool.holds, ← h]
  | not a ih =>
    intro b h
    simp only [SymBool.closed, Option.map_eq_some'] at h
    obtain ⟨x, hx, hb⟩ := h
    simp only [SymBool.holds, ih x hx, ← hb]
    cases x <;> simp
  | or a b iha ihb =>
    intro r h
    simp only [SymBool.closed] at h
    cases ha : a.closed with
    | none => rw [ha] at h; simp at h
    | some x =>
      cases hb : b.closed with
      | none => rw [ha, hb] at h; simp at h
      | some y =>
        rw [ha, hb] at h
        simp only [Option.some.injEq] at h
        simp only [SymBool.holds, iha x ha, ihb y hb, ← h]
        cases x <;> cases y <;> simp
  | gt a b =>
    intro r h
    simp only [SymBool.closed] at h
    cases ha : a.closed with
    | none => rw [ha] at h; simp at h
    | some x =>
      cases hb : b.closed with
      | none => rw [ha, hb] at h; simp at h
      | some y =>
        rw [ha, hb] at h
        simp only [Option.some.injEq] at h
        simp only [SymBool.holds, SymBitVector.closed_eval env a x ha,
          SymBitVector.closed_eval env b y hb, ← h, decide_eq_true_eq]
  | lt a b =>
    intro r h
    simp only [SymBool.closed] at h
    cases ha : a.closed with
    | none => rw [ha] at h; simp at h
    | some x =>
      cases hb : b.closed with
      | none => rw [ha, hb] at h; simp at h
      | some y =>
        rw [ha, hb] at h
        simp only [Option.some.injEq] at h
        simp only [SymBool.holds, SymBitVector.closed_eval env a x ha,
          SymBitVector.closed_eval env b y hb, ← h, decide_eq_true_eq]
  | var _ => intro b h; simp [SymBool.closed] at h
  | and _ _ _ _ => intro b h; simp [SymBool.closed] at h
  | xor _ _ _ _ => intro b h; simp [SymBool.closed] at h
  | iff _ _ _ _ => intro b h; simp [SymBool.closed] at h
  | implies _ _ _ _ => intro b h; simp [SymBool.closed] at h
  | eq _ _ => intro b h; simp [SymBool.closed] at h
  | ge _ _ => intro b h; simp [SymBool.closed] at h
  | le _ _ => intro b h; simp [SymBool.closed] at h
  | array_eq _ _ => intro b h; simp [SymBool.closed] at h

theorem ArmMemory.solver_fold_sound : Solver.sound ArmMemory.solver_fold := by
  intro cs h1 _ env hsat
  unfold ArmMemory.solver_fold at h1
  by_cases hany : cs.any (fun c => c.closed == some false) = true
  · rw [List.any_eq_true] at hany
    obtain ⟨c, hc, hcl⟩ := hany
    have hcl' : c.closed = some false := by simpa using hcl
    have := (SymBool.closed_holds env c false hcl').mp (hsat c hc)
    exact absurd this (by simp)
  · simp only [hany, if_false] at h1
    exact absurd h1 (by simp)

theorem ArmMemory.apart_nowrap :
    ∀ c ∈ ArmMemory.apart_cells.cells_,
      (c.address.eval ArmMemory.linked_env).v + c.size ≤ 2 ^ 64 := by
  have hcs : ArmMemory.apart_cells.cells_.map
      (fun c => decide ((c.address.eval ArmMemory.linked_env).v + c.size ≤ 2 ^ 64))
      = [true, true] := by decide!
  intro c hc
  have hm := List.mem_map_of_mem
    (fun c => decide ((c.address.eval ArmMemory.linked_env).v + c.size ≤ 2 ^ 64)) hc
  rw [hcs] at hm
  simp only [List.mem_cons, List.mem_singleton, List.not_mem_nil, or_false, or_self,
    decide_eq_true_eq] at hm
  exact hm

set_option maxRecDepth 100000 in
/-- Witness for C2: one-byte accesses at the constant addresses 4096 and 8192 and the
constant-folding solver, which proves the two cells disjoint. -/
theorem ArmMemory.C2_disjoint_after_check_witness :
    ArmMemory.generate_constraints_enumerate_cells ArmMemory.apart
      = some ArmMemory.apart_cells ∧
    ArmMemory.check_nonoverlapping ArmMemory.apart_cells [SymBool._true] = true ∧
    ∀ a ∈ ArmMemory.apart_cells.all_accesses_, ∀ b ∈ ArmMemory.apart_cells.all_accesses_,
      a.cell ≠ b.cell → ArmMemory.bytes_disjoint ArmMemory.linked_env a b :=
  ⟨by rfl, by rfl, ArmMemory.C2_disjoint_after_check ArmMemory.apart ArmMemory.apart_cells [SymBool._true]
    ArmMemory.linked_env 1 rfl rfl
    (fun i j d h => by simp [ArmMemory.apart, ArmMemory.fresh] at h)
    (fun a ha => by
      simp only [ArmMemory.apart, List.mem_cons, List.mem_singleton, List.not_mem_nil,
        or_false] at ha
      rcases ha with rfl | rfl <;> decide)
    (by decide)
    (fun a ha => by
      simp only [ArmMemory.apart, List.mem_cons, List.mem_singleton, List.not_mem_nil,
        or_false] at ha
      rcases ha with rfl | rfl <;> rfl)
    (fun i j d ai aj h => by simp [ArmMemory.apart, ArmMemory.fresh] at h)
    (by rfl) ArmMemory.solver_fold_sound (by rfl)
    (fun c hc => by
      simp only [List.mem_singleton] at hc
      subst hc
      exact trivial)
    ArmMemory.apart_nowrap⟩

/-! ## Structural equality of boolean terms -/

/-- On a propositional term, `equals` is true exactly on the identical term. -/
theorem SymBoolAbstract.equals_iff (bv : SymBitVector → SymBitVector → Bool)
    (arr : SymArray → SymArray → Bool) (a : SymBool) (ha : a.propositional = true) :
    ∀ b : SymBool, SymBoolAbstract.equals bv arr a b = true ↔ a = b := by
  induction a with
  | _true => intro b; cases b <;> simp [SymBoolAbstract.equals, SymBoolAbstract.type]
  | _false => intro b; cases b <;> simp [SymBoolAbstract.equals, SymBoolAbstract.type]
  | var n => intro b; cases b <;> simp [SymBoolAbstract.equals]
  | not a ih =>
    intro b
    simp only [SymBool.propositional] at ha
    cases b <;> simp [SymBoolAbstract.equals, ih ha]
  | and a b iha ihb =>
    intro c
    simp only [SymBool.propositional, Bool.and_eq_true] at ha
    cases c <;> simp [SymBoolAbstract.equals, iha ha.1, ihb ha.2]
  | or a b iha ihb =>
    intro c
    simp only [SymBool.propositional, Bool.and_eq_true] at ha
    cases c <;> simp [SymBoolAbstract.equals, iha ha.1, ihb ha.2]
  | xor a b iha ihb =>
    intro c
    simp only [SymBool.propositional, Bool.and_eq_true] at ha
    cases c <;> simp [SymBoolAbstract.equals, iha ha.1, ihb ha.2]
  | iff a b iha ihb =>
    intro c
    simp only [SymBool.propositional, Bool.and_eq_true] at ha
    cases c <;> simp [SymBoolAbstract.equals, iha ha.1, ihb ha.2]
  | implies a b iha ihb =>
    intro c
    simp only [SymBool.propositional, Bool.and_eq_true] at ha
    cases c <;> simp [SymBoolAbstract.equals, iha ha.1, ihb ha.2]
  | eq a b => simp [SymBool.propositional] at ha
  | ge a b => simp [SymBool.propositional] at ha
  | gt a b => simp [SymBool.propositional] at ha
  | le a b => simp [SymBool.propositional] at ha
  | lt a b => simp [SymBool.propositional] at ha
  | array_eq a b => simp [SymBool.propositional] at ha

/-- A node never has the type `NONE`. -/
theorem SymBoolAbstract.type_ne_NONE (p : SymBool) :
    SymBoolAbstract.type p ≠ SymBool.NodeType.NONE := by
  cases p <;> simp [SymBoolAbstract.type]

/-- C11: if one of two `SymBool` handles has a null pointer, `equals` holds exactly when
both pointers are null; the type of a null handle is `NONE`, that of a constructed term
never is, and a null handle and a constructed term are unequal in either order. -/
theorem SymBool.C11_null_equals (bv : SymBitVector → SymBitVector → Bool)
    (arr : SymArray → SymArray → Bool) (a b : Option SymBool) (h : a = none ∨ b = none) :
    (SymBool.equals bv arr a b = true ↔ (a = none ∧ b = none)) ∧
    SymBool.type none = SymBool.NodeType.NONE ∧
    (∀ p : SymBool, SymBool.type (some p) ≠ SymBool.NodeType.NONE ∧
      SymBool.equals bv arr none (some p) = false ∧
      SymBool.equals bv arr (some p) none = false) := by
  refine ⟨?_, rfl, fun p => ⟨SymBoolAbstract.type_ne_NONE p, rfl, rfl⟩⟩
  rcases h with h | h
  · subst h
    cases b <;> simp [SymBool.equals]
  · subst h
    cases a <;> simp [SymBool.equals]

/-- C11 at the null handle and the constructed term `_true & _false`. -/
theorem SymBool.C11_null_equals_witness :
    (SymBool.equals (fun _ _ => true) (fun _ _ => true) none
        (some (SymBool.and SymBool._true SymBool._false)) = true ↔
      ((none : Option SymBool) = none ∧
        some (SymBool.and SymBool._true SymBool._false) = none)) ∧
    SymBool.type none = SymBool.NodeType.NONE ∧
    (∀ p : SymBool, SymBool.type (some p) ≠ SymBool.NodeType.NONE ∧
      SymBool.equals (fun _ _ => true) (fun _ _ => true) none (some p) = false ∧
      SymBool.equals (fun _ _ => true) (fun _ _ => true) (some p) none = false) :=
  SymBool.C11_null_equals (fun _ _ => true) (fun _ _ => true) none
    (some (SymBool.and SymBool._true SymBool._false)) (Or.inl rfl)

/-- C12: on terms built from true, false, named variables, not, and, or, xor, iff and
implies, `SymBool::equals` is structural identity: two constructed handles are equal
exactly when their terms are the same term (same shape, node types and variable names).
It is therefore reflexive, symmetric and transitive on these terms. -/
theorem SymBool.C12_equals_structural (bv : SymBitVector → SymBitVector → Bool)
    (arr : SymArray → SymArray → Bool) (a b c : SymBool)
    (ha : a.propositional = true) (hb : b.propositional = true)
    (hc : c.propositional = true) :
    (SymBool.equals bv arr (some a) (some b) = true ↔ a = b) ∧
    SymBool.equals bv arr (some a) (some a) = true ∧
    SymBool.equals bv arr (some a) (some b) = SymBool.equals bv arr (some b) (some a) ∧
    (SymBool.equals bv arr (some a) (some b) = true →
      SymBool.equals bv arr (some b) (some c) = true →
      SymBool.equals bv arr (some a) (some c) = true) := by
  have hab := SymBoolAbstract.equals_iff bv arr a ha
  have hba := SymBoolAbstract.equals_iff bv arr b hb
  have _hcc := SymBoolAbstract.equals_iff bv arr c hc
  refine ⟨hab b, (hab a).2 rfl, ?_, ?_⟩
  · show SymBoolAbstract.equals bv arr a b = SymBoolAbstract.equals bv arr b a
    rw [Bool.eq_iff_iff, hab b, hba a]
    exact eq_comm
  · intro h1 h2
    have e1 : a = b := (hab b).1 h1
    have e2 : b = c := (hba c).1 h2
    exact (hab c).2 (e1.trans e2)

/-- C12 at the terms `!x & (y | true)`, built three times. -/
theorem SymBool.C12_equals_structural_witness :
    (SymBool.equals (fun _ _ => false) (fun _ _ => false)
        (some (SymBool.and (SymBool.not (SymBool.var "x"))
          (SymBool.or (SymBool.var "y") SymBool._true)))
        (some (SymBool.and (SymBool.not (SymBool.var "x"))
          (SymBool.or (SymBool.var "y") SymBool._true))) = true ↔
      SymBool.and (SymBool.not (SymBool.var "x"))
          (SymBool.or (SymBool.var "y") SymBool._true) =
        SymBool.and (SymBool.not (SymBool.var "x"))
          (SymBool.or (SymBool.var "y") SymBool._true)) :=
  (SymBool.C12_equals_structural (fun _ _ => false) (fun _ _ => false)
    (SymBool.and (SymBool.not (SymBool.var "x"))
      (SymBool.or (SymBool.var "y") SymBool._true))
    (SymBool.and (SymBool.not (SymBool.var "x"))
      (SymBool.or (SymBool.var "y") SymBool._true))
    (SymBool.and (SymBool.not (SymBool.var "x"))
      (SymBool.or (SymBool.var "y") SymBool._true)) rfl rfl rfl).1

/-! ## Properties of the obligation checker -/

/-- A call that gets to its final query ends as `check_solve` does. -/
theorem SmtObligationChecker.check_of_final_query (c : SmtObligationChecker)
    (ext : SmtObligationChecker.Externals) (o : SmtObligationChecker.Obligation) (ctr : Nat)
    (q : SmtObligationChecker.Query)
    (h : SmtObligationChecker.final_query c ext o ctr = some q) :
    SmtObligationChecker.check c ext o ctr = SmtObligationChecker.check_solve c ext o q := by
  unfold SmtObligationChecker.final_query at h
  unfold SmtObligationChecker.check
  cases hk : SmtObligationChecker.check_circuit c ext o ctr with
  | error e => rw [hk] at h; simp at h
  | ok k =>
    rw [hk] at h
    simp only at h ⊢
    cases hs : SmtObligationChecker.check_shortcut c o k with
    | error e => rw [hs] at h; simp at h
    | ok u =>
      rw [hs] at h
      simp only at h ⊢
      cases hm : SmtObligationChecker.check_memory c ext o k with
      | error e => rw [hm] at h; simp at h
      | ok q' =>
        rw [hm] at h
        simp only [Option.some.injEq] at h
        subst h
        rfl

/-- C15: when the error flag of the solver is set after the final query, `check`
delivers one result, with `has_error` true, `verified` and `has_ceg` false and the
message "solver: " followed by the error text of the solver, whatever `is_sat`
returned. -/
theorem SmtObligationChecker.C15_solver_error (c : SmtObligationChecker)
    (ext : SmtObligationChecker.Externals) (o : SmtObligationChecker.Obligation) (ctr : Nat)
    (q : SmtObligationChecker.Query)
    (hq : SmtObligationChecker.final_query c ext o ctr = some q)
    (herr : (c.solver_ q.constraints).has_error = true) :
    ∃ run, SmtObligationChecker.check c ext o ctr = .ok run ∧
      run.callbacks =
        [{ verified := false, has_ceg := false, has_error := true,
           error_message := "solver: " ++ ext.get_error q.constraints, comments := "",
           target_ceg := none, rewrite_ceg := none, target_final_ceg := none,
           rewrite_final_ceg := none }] := by
  rw [SmtObligationChecker.check_of_final_query c ext o ctr q hq]
  unfold SmtObligationChecker.check_solve
  simp only [herr, if_true]
  exact ⟨_, rfl, rfl⟩

/-- One call of the callback on a run without calls, with an exclusive result. -/
theorem SmtObligationChecker.callback_once (r : ObligationChecker.Result)
    (run : SmtObligationChecker.Run) (h : run.callbacks = []) (hr : r.exclusive) :
    (SmtObligationChecker.callback r run).delivered_once :=
  ⟨r, by simp only [SmtObligationChecker.callback, h, List.nil_append], hr⟩

/-- `return_error` delivers one result. -/
theorem SmtObligationChecker.return_error_once (s : String) (run : SmtObligationChecker.Run)
    (h : run.callbacks = []) : (SmtObligationChecker.return_error s run).delivered_once :=
  SmtObligationChecker.callback_once _ run h (by simp [ObligationChecker.Result.exclusive])

/-- A proof is delivered as one result. -/
theorem SmtObligationChecker.verified_once (s : String) (run : SmtObligationChecker.Run)
    (h : run.callbacks = []) :
    (SmtObligationChecker.callback (SmtObligationChecker.verified_result s) run).delivered_once :=
  SmtObligationChecker.callback_once _ run h
    (by simp [ObligationChecker.Result.exclusive, SmtObligationChecker.verified_result])

/-- A return while the circuits are built delivers one result. -/
theorem SmtObligationChecker.check_circuit_once (c : SmtObligationChecker)
    (ext : SmtObligationChecker.Externals) (o : SmtObligationChecker.Obligation) (ctr : Nat)
    (run : SmtObligationChecker.Run)
    (h : SmtObligationChecker.check_circuit c ext o ctr = .error (.returned run)) :
    run.delivered_once := by
  unfold SmtObligationChecker.check_circuit at h
  repeat' first | split at h | (dsimp only at h; split at h)
  all_goals first
    | (simp only [Except.error.injEq, SmtObligationChecker.Exit.returned.injEq] at h
       subst h
       exact SmtObligationChecker.return_error_once _ _ rfl)
    | (exfalso; simp at h)

/-- A return at the short cut delivers one result. -/
theorem SmtObligationChecker.check_shortcut_once (c : SmtObligationChecker)
    (o : SmtObligationChecker.Obligation) (k : SmtObligationChecker.Circuit)
    (run : SmtObligationChecker.Run)
    (h : SmtObligationChecker.check_shortcut c o k = .error (.returned run)) :
    run.delivered_once := by
  unfold SmtObligationChecker.check_shortcut at h
  repeat' split at h
  all_goals first
    | (simp only [Except.error.injEq, SmtObligationChecker.Exit.returned.injEq] at h
       subst h
       exact SmtObligationChecker.verified_once _ _ rfl)
    | (exfalso; simp at h)

/-- A return from the memory constraints delivers one result. -/
theorem SmtObligationChecker.memory_constraints_once (c : SmtObligationChecker)
    (k : SmtObligationChecker.Circuit) (prove : Invariant)
    (deref_maps : List ArmMemory.DereferenceMap) (constraints : List SymBool)
    (state_t state_r : SymState) (ctr : Nat) (run : SmtObligationChecker.Run)
    (h : SmtObligationChecker.memory_constraints c k prove deref_maps constraints state_t
      state_r ctr = .error (.returned run)) : run.delivered_once := by
  unfold SmtObligationChecker.memory_constraints at h
  repeat' split at h
  all_goals first
    | (simp only [Except.error.injEq, SmtObligationChecker.Exit.returned.injEq] at h
       subst h
       exact SmtObligationChecker.verified_once _ _ rfl)
    | (exfalso; simp at h)

/-- A return while the memory is modelled delivers one result. -/
theorem SmtObligationChecker.check_memory_once (c : SmtObligationChecker)
    (ext : SmtObligationChecker.Externals) (o : SmtObligationChecker.Obligation)
    (k : SmtObligationChecker.Circuit) (run : SmtObligationChecker.Run)
    (h : SmtObligationChecker.check_memory c ext o k = .error (.returned run)) :
    run.delivered_once := by
  unfold SmtObligationChecker.check_memory at h
  simp only at h
  repeat' split at h
  all_goals first
    | (exfalso; simp at h; done)
    | (rename_i e _ hm
       simp only [Except.error.injEq] at h
       subst h
       exact SmtObligationChecker.memory_constraints_once _ _ _ _ _ _ _ _ _ hm)

/-- A return after the final query delivers one result. -/
theorem SmtObligationChecker.check_solve_once (c : SmtObligationChecker)
    (ext : SmtObligationChecker.Externals) (o : SmtObligationChecker.Obligation)
    (q : SmtObligationChecker.Query) (run : SmtObligationChecker.Run)
    (h : SmtObligationChecker.check_solve c ext o q = .ok run) : run.delivered_once := by
  unfold SmtObligationChecker.check_solve at h
  simp only at h
  repeat' split at h
  all_goals first
    | (exfalso; simp at h; done)
    | (simp only [Except.ok.injEq] at h
       subst h
       first
         | exact SmtObligationChecker.return_error_once _ _ rfl
         | exact SmtObligationChecker.verified_once _ _ rfl
         | exact SmtObligationChecker.callback_once _ _ rfl
             (by simp [ObligationChecker.Result.exclusive]))

/-- Every call of `check` that returns has invoked the callback exactly once, with a
result of which at most one flag is set. -/
theorem SmtObligationChecker.check_once (c : SmtObligationChecker)
    (ext : SmtObligationChecker.Externals) (o : SmtObligationChecker.Obligation) (ctr : Nat)
    (run : SmtObligationChecker.Run)
    (h : SmtObligationChecker.check c ext o ctr = .ok run) : run.delivered_once := by
  unfold SmtObligationChecker.check at h
  cases hk : SmtObligationChecker.check_circuit c ext o ctr with
  | error e =>
    rw [hk] at h
    cases e with
    | returned r =>
      simp only [Except.ok.injEq] at h
      subst h
      exact SmtObligationChecker.check_circuit_once c ext o ctr _ hk
    | abort a => simp at h
  | ok k =>
    rw [hk] at h
    simp only at h
    cases hs : SmtObligationChecker.check_shortcut c o k with
    | error e =>
      rw [hs] at h
      cases e with
      | returned r =>
        simp only [Except.ok.injEq] at h
        subst h
        exact SmtObligationChecker.check_shortcut_once c o k _ hs
      | abort a => simp at h
    | ok u =>
      rw [hs] at h
      simp only at h
      cases hm : SmtObligationChecker.check_memory c ext o k with
      | error e =>
        rw [hm] at h
        cases e with
        | returned r =>
          simp only [Except.ok.injEq] at h
          subst h
          exact SmtObligationChecker.check_memory_once c ext o k _ hm
        | abort a => simp at h
      | ok q =>
        rw [hm] at h
        exact SmtObligationChecker.check_solve_once c ext o q run h

/-- When one side of a counterexample passes the replay, it replays to the expected
state, which is the output that `check_counterexample` keeps. -/
theorem SmtObligationChecker.replay_some (ext : SmtObligationChecker.Externals) (program : Cfg)
    (unroll : Code) (linemap : LineMap) (start expected output : CpuState)
    (h : SmtObligationChecker.replay ext program unroll linemap start expected
      = .ok (some output)) :
    SmtObligationChecker.replays ext program unroll linemap start expected ∧
    output = expected := by
  unfold SmtObligationChecker.replay at h
  simp only at h
  split at h
  · simp at h
  · rename_i trace rest htr
    split at h
    · simp at h
    · rename_i hcode
      split at h
      · simp at h
      · rename_i out hlast
        split at h
        · simp at h
        · rename_i hout
          simp only [Except.ok.injEq, Option.some.injEq] at h
          have heq : out = expected := not_not.1 hout
          refine ⟨⟨not_not.1 hcode, trace, rest, htr, ?_⟩, ?_⟩
          · rw [hlast, heq]
          · rw [← h, heq]

/-- A counterexample that `check_counterexample` accepts replays on both sides to the
expected end states, satisfies `assume` at the start and violates `prove` at the end. -/
theorem SmtObligationChecker.check_counterexample_true (ext : SmtObligationChecker.Externals)
    (target rewrite : Cfg) (target_unroll rewrite_unroll : Code)
    (target_linemap rewrite_linemap : LineMap) (assume prove : Invariant)
    (ceg_t ceg_r ceg_tf ceg_rf : CpuState)
    (h : SmtObligationChecker.check_counterexample ext target rewrite target_unroll
      rewrite_unroll target_linemap rewrite_linemap assume prove ceg_t ceg_r ceg_tf ceg_rf
      = .ok true) :
    SmtObligationChecker.replays ext target target_unroll target_linemap ceg_t ceg_tf ∧
    SmtObligationChecker.replays ext rewrite rewrite_unroll rewrite_linemap ceg_r ceg_rf ∧
    ext.check assume ceg_t ceg_r = true ∧
    ext.check prove ceg_tf ceg_rf = false := by
  unfold SmtObligationChecker.check_counterexample at h
  split at h
  · simp at h
  · simp at h
  · rename_i target_output ht
    split at h
    · simp at h
    · simp at h
    · rename_i rewrite_output hr
      have h1 := SmtObligationChecker.replay_some ext target target_unroll target_linemap
        ceg_t ceg_tf target_output ht
      have h2 := SmtObligationChecker.replay_some ext rewrite rewrite_unroll rewrite_linemap
        ceg_r ceg_rf rewrite_output hr
      split at h
      · split at h <;> simp at h
      · rename_i hassume
        split at h
        · simp at h
        · rename_i hprove
          refine ⟨h1.1, h2.1, ?_, ?_⟩
          · simpa using hassume
          · rw [← h1.2, ← h2.2]
            simpa using hprove

/-- C13 (failing input): every call of `check` that returns has invoked the callback
exactly once, with a result in which at most one of `verified`, `has_ceg` and
`has_error` is set.  But not every call returns: with an `assume` that is not a
conjunction and that the start states of a counterexample fail, `check_counterexample`
dereferences the null pointer it gets from `dynamic_pointer_cast<ConjunctionInvariant>`,
and the callback is not invoked at all.  The same obligation with the invariant wrapped
in a conjunction delivers the one result of a spurious counterexample. -/
theorem SmtObligationChecker.C13_callback_once_unless_cut_short :
    (∀ (c : SmtObligationChecker) (ext : SmtObligationChecker.Externals)
       (o : SmtObligationChecker.Obligation) (ctr : Nat) (run : SmtObligationChecker.Run),
       SmtObligationChecker.check c ext o ctr = .ok run → run.delivered_once) ∧
    SmtObligationChecker.check (SmtObligationChecker.sample_checker ArmMemory.solver_sat)
        SmtObligationChecker.sample_ext
        (SmtObligationChecker.lone_assume SmtObligationChecker.incq_code) 0
      = .error Abort.null_pointer ∧
    (SmtObligationChecker.check (SmtObligationChecker.sample_checker ArmMemory.solver_sat)
        SmtObligationChecker.sample_ext
        (SmtObligationChecker.conjunction_assume SmtObligationChecker.incq_code)
        0).toOption.map (fun run => run.callbacks)
      = some [SmtObligationChecker.spurious] :=
  ⟨SmtObligationChecker.check_once, by rfl, by rfl⟩

/-- The result delivered after a final query that the solver finds satisfiable. -/
theorem SmtObligationChecker.check_solve_sat (c : SmtObligationChecker)
    (ext : SmtObligationChecker.Externals) (o : SmtObligationChecker.Obligation)
    (q : SmtObligationChecker.Query) (run : SmtObligationChecker.Run)
    (hsat : (c.solver_ q.constraints).is_sat = true)
    (herr : (c.solver_ q.constraints).has_error = false)
    (hcheck : c.check_counterexamples_ = true)
    (h : SmtObligationChecker.check_solve c ext o q = .ok run) :
    ∃ r, run.callbacks = [r] ∧ r.verified = false ∧ r.has_error = false ∧
      (r.has_ceg = true →
        SmtObligationChecker.genuine ext o q (SmtObligationChecker.extract_counterexample c ext q)) := by
  unfold SmtObligationChecker.check_solve at h
  simp only [herr, hsat, hcheck, Bool.not_true, Bool.false_eq_true, if_false, if_true] at h
  split at h
  · simp at h
  · rename_i good hgood
    simp only [Except.ok.injEq] at h
    subst h
    refine ⟨_, rfl, rfl, rfl, ?_⟩
    intro hceg
    simp only at hceg
    cases good with
    | false => simp at hceg
    | true =>
      exact SmtObligationChecker.check_counterexample_true ext _ _ _ _ _ _ _ _ _ _ _ _ hgood

/-- C14 (failing input): when the final query is satisfiable and counterexamples are
checked, a call that returns delivers `verified = false` and `has_error = false`, and
`has_ceg = true` only for a genuine counterexample: both start states replay in the
sandbox with code `NORMAL` to the end states of the model, the start states satisfy
`assume` and the end states violate `prove` (the two invariants as `check` has left
them); otherwise `has_ceg` is false.  But when the start states fail an `assume` that is
not a conjunction, the call does not return: no result is delivered, where the claim
promises the result of a spurious counterexample, which the same obligation with the
invariant wrapped in a conjunction gets. -/
theorem SmtObligationChecker.C14_spurious_counterexample :
    (∀ (c : SmtObligationChecker) (ext : SmtObligationChecker.Externals)
       (o : SmtObligationChecker.Obligation) (ctr : Nat) (q : SmtObligationChecker.Query)
       (run : SmtObligationChecker.Run),
       SmtObligationChecker.final_query c ext o ctr = some q →
       (c.solver_ q.constraints).is_sat = true →
       (c.solver_ q.constraints).has_error = false →
       c.check_counterexamples_ = true →
       SmtObligationChecker.check c ext o ctr = .ok run →
       ∃ r, run.callbacks = [r] ∧ r.verified = false ∧ r.has_error = false ∧
         (r.has_ceg = true → SmtObligationChecker.genuine ext o q
           (SmtObligationChecker.extract_counterexample c ext q)) ∧
         (¬ SmtObligationChecker.genuine ext o q
           (SmtObligationChecker.extract_counterexample c ext q) → r.has_ceg = false)) ∧
    SmtObligationChecker.check (SmtObligationChecker.sample_checker ArmMemory.solver_sat)
        SmtObligationChecker.sample_ext
        (SmtObligationChecker.lone_assume [Instruction.retq]) 0
      = .error Abort.null_pointer ∧
    (SmtObligationChecker.check (SmtObligationChecker.sample_checker ArmMemory.solver_sat)
        SmtObligationChecker.sample_ext
        (SmtObligationChecker.conjunction_assume [Instruction.retq])
        0).toOption.map (fun run => run.callbacks)
      = some [SmtObligationChecker.spurious] := by
  refine ⟨?_, by rfl, by rfl⟩
  intro c ext o ctr q run hq hsat herr hcheck h
  rw [SmtObligationChecker.check_of_final_query c ext o ctr q hq] at h
  obtain ⟨r, h1, h2, h3, h4⟩ :=
    SmtObligationChecker.check_solve_sat c ext o q run hsat herr hcheck h
  refine ⟨r, h1, h2, h3, h4, ?_⟩
  intro hng
  cases hr : r.has_ceg with
  | false => rfl
  | true => exact absurd (h4 hr) hng

/-- The memory constraints are appended to the constraints gathered before. -/
theorem SmtObligationChecker.memory_constraints_extends (c : SmtObligationChecker)
    (k : SmtObligationChecker.Circuit) (prove : Invariant)
    (deref_maps : List ArmMemory.DereferenceMap) (constraints : List SymBool)
    (state_t state_r : SymState) (ctr : Nat)
    (r : List SymBool × SymState × SymState × Nat)
    (h : SmtObligationChecker.memory_constraints c k prove deref_maps constraints state_t
      state_r ctr = .ok r) : ∃ t, r.1 = constraints ++ t := by
  unfold SmtObligationChecker.memory_constraints at h
  repeat' split at h
  all_goals first
    | (exfalso; simp at h; done)
    | (simp only [Except.ok.injEq] at h
       subst h
       first
         | exact ⟨[], (List.append_nil _).symm⟩
         | exact ⟨_, List.append_assoc _ _ _⟩)

/-- The negated `prove` is appended to the constraints gathered before. -/
theorem SmtObligationChecker.prove_constraint_extends (c : SmtObligationChecker)
    (ext : SmtObligationChecker.Externals) (prove_memequ : Option Nat)
    (prove_part2 : SymBool) (constraints : List SymBool) (state_t state_r : SymState)
    (ctr : Nat) (r : List SymBool × Nat)
    (h : SmtObligationChecker.prove_constraint c ext prove_memequ prove_part2 constraints
      state_t state_r ctr = .ok r) : ∃ t, r.1 = constraints ++ t := by
  unfold SmtObligationChecker.prove_constraint at h
  repeat' first | split at h | (dsimp only at h; split at h)
  all_goals first
    | (exfalso; simp at h; done)
    | (simp only [Except.ok.injEq] at h
       subst h
       exact ⟨_, rfl⟩)

/-- The constraints of the final query start with the constraints of the circuits. -/
theorem SmtObligationChecker.check_memory_extends (c : SmtObligationChecker)
    (ext : SmtObligationChecker.Externals) (o : SmtObligationChecker.Obligation)
    (k : SmtObligationChecker.Circuit) (q : SmtObligationChecker.Query)
    (h : SmtObligationChecker.check_memory c ext o k = .ok q) :
    ∃ t, q.constraints = k.constraints ++ t := by
  unfold SmtObligationChecker.check_memory at h
  simp only at h
  repeat' split at h
  all_goals first
    | (exfalso; simp at h; done)
    | (simp only [Except.ok.injEq] at h
       subst h
       obtain ⟨t1, ht1⟩ := SmtObligationChecker.memory_constraints_extends _ _ _ _ _ _ _ _ _
         (by assumption)
       obtain ⟨t2, ht2⟩ := SmtObligationChecker.prove_constraint_extends _ _ _ _ _ _ _ _ _
         (by assumption)
       simp only at ht1 ht2 ⊢
       rw [ht2, ht1]
       simp only [List.append_assoc]
       exact ⟨_, rfl⟩)

/-- C15 on the program `incq %rax; retq` with a solver whose final query ends with the
error flag set and the answer "satisfiable". -/
theorem SmtObligationChecker.C15_solver_error_witness :
    ∃ run, SmtObligationChecker.check
        (SmtObligationChecker.sample_checker SmtObligationChecker.solver_late_error)
        SmtObligationChecker.sample_ext
        (SmtObligationChecker.conjunction_assume SmtObligationChecker.incq_code) 0 = .ok run ∧
      run.callbacks =
        [{ verified := false, has_ceg := false, has_error := true,
           error_message := "solver: timeout", comments := "",
           target_ceg := none, rewrite_ceg := none, target_final_ceg := none,
           rewrite_final_ceg := none }] := by
  cases hq : SmtObligationChecker.final_query
      (SmtObligationChecker.sample_checker SmtObligationChecker.solver_late_error)
      SmtObligationChecker.sample_ext
      (SmtObligationChecker.conjunction_assume SmtObligationChecker.incq_code) 0 with
  | none =>
    have h : (SmtObligationChecker.final_query
      (SmtObligationChecker.sample_checker SmtObligationChecker.solver_late_error)
      SmtObligationChecker.sample_ext
      (SmtObligationChecker.conjunction_assume SmtObligationChecker.incq_code) 0).isSome
        = true := by rfl
    rw [hq] at h
    exact absurd h (by simp)
  | some q =>
    have hlen : (SmtObligationChecker.final_query
      (SmtObligationChecker.sample_checker SmtObligationChecker.solver_late_error)
      SmtObligationChecker.sample_ext
      (SmtObligationChecker.conjunction_assume SmtObligationChecker.incq_code) 0).map
        (fun q => q.constraints.length) = some 4 := by rfl
    rw [hq] at hlen
    simp only [Option.map_some', Option.some.injEq] at hlen
    have herr : ((SmtObligationChecker.sample_checker
        SmtObligationChecker.solver_late_error).solver_ q.constraints).has_error = true := by
      simp [SmtObligationChecker.sample_checker, SmtObligationChecker.solver_late_error, hlen]
    exact SmtObligationChecker.C15_solver_error _ _ _ _ q hq herr

/-- C18: without test cases, when the solver finds the constraints of the assumption,
the last jumps and the circuits unsatisfiable and reports no error, `check` returns at
once with the result `verified` (no counterexample, no error), before any constraint
of a memory model is generated: what it leaves behind is fixed by the variables live
at line 705.  The constraints checked there are a leading segment of the constraints
of the final query of the full check, so that no assignment satisfies the final query
when none satisfies them. -/
theorem SmtObligationChecker.C18_short_circuit (c : SmtObligationChecker)
    (ext : SmtObligationChecker.Externals) (o : SmtObligationChecker.Obligation) (ctr : Nat)
    (k : SmtObligationChecker.Circuit)
    (hk : SmtObligationChecker.check_circuit c ext o ctr = .ok k)
    (htc : o.given_testcases = [])
    (hunsat : (c.solver_ k.constraints).is_sat = false)
    (hok : (c.solver_ k.constraints).has_error = false) :
    SmtObligationChecker.check c ext o ctr =
      .ok { callbacks := [{ verified := true, has_ceg := false, has_error := false,
                            error_message := "", comments := "No memory short circuit",
                            target_ceg := none, rewrite_ceg := none,
                            target_final_ceg := none, rewrite_final_ceg := none }],
            assume := k.assume, prove := o.prove, tmp_counter := k.tmp_counter } ∧
    (∀ q, SmtObligationChecker.check_memory c ext o k = .ok q →
      k.constraints <+: q.constraints ∧
      ((∀ env : Env, ¬ env.sat k.constraints) → ∀ env : Env, ¬ env.sat q.constraints)) := by
  constructor
  · unfold SmtObligationChecker.check
    rw [hk]
    simp only [SmtObligationChecker.check_shortcut, htc, List.length_nil, hunsat, hok,
      Bool.not_false, Bool.and_self, if_true]
    rfl
  · intro q hq
    obtain ⟨t, ht⟩ := SmtObligationChecker.check_memory_extends c ext o k q hq
    refine ⟨⟨t, ht.symm⟩, ?_⟩
    intro hno env henv
    apply hno env
    intro b hb
    apply henv
    rw [ht]
    exact List.mem_append_left _ hb

/-- C18 on the program `incq %rax; retq` under an assumption that contradicts itself. -/
theorem SmtObligationChecker.C18_short_circuit_witness :
    (SmtObligationChecker.check
        (SmtObligationChecker.sample_checker SmtObligationChecker.solver_refute)
        SmtObligationChecker.sample_ext SmtObligationChecker.contradictory_assume
        0).toOption.map (fun run => run.callbacks)
      = some [SmtObligationChecker.verified_result "No memory short circuit"] := by
  cases hk : SmtObligationChecker.check_circuit
      (SmtObligationChecker.sample_checker SmtObligationChecker.solver_refute)
      SmtObligationChecker.sample_ext SmtObligationChecker.contradictory_assume 0 with
  | error e =>
    have h : (SmtObligationChecker.check_circuit
      (SmtObligationChecker.sample_checker SmtObligationChecker.solver_refute)
      SmtObligationChecker.sample_ext SmtObligationChecker.contradictory_assume
      0).toOption.isSome = true := by rfl
    rw [hk] at h
    exact absurd h (by simp [Except.toOption])
  | ok k =>
    have hans : (SmtObligationChecker.check_circuit
      (SmtObligationChecker.sample_checker SmtObligationChecker.solver_refute)
      SmtObligationChecker.sample_ext SmtObligationChecker.contradictory_assume
      0).toOption.map (fun k => SmtObligationChecker.solver_refute k.constraints)
        = some { is_sat := false, has_error := false } := by rfl
    rw [hk] at hans
    simp only [Except.toOption, Option.map_some', Option.some.injEq] at hans
    have h := (SmtObligationChecker.C18_short_circuit
      (SmtObligationChecker.sample_checker SmtObligationChecker.solver_refute)
      SmtObligationChecker.sample_ext SmtObligationChecker.contradictory_assume 0 k hk rfl
      (by show (SmtObligationChecker.solver_refute k.constraints).is_sat = false
          rw [hans])
      (by show (SmtObligationChecker.solver_refute k.constraints).has_error = false
          rw [hans])).1
    rw [h]
    rfl

/-- C16 (failing input): whatever error the filter reports for an instruction, the loop
of `build_circuit` records the message and goes on with the next instruction.  On the
block `cpuid; incq %rax; retq` the handler reports an error for `cpuid`; `build_circuit`
runs the handler on `incq %rax` all the same, which increments register 0 of the state,
and stops only at `retq`, three lines in.  `check` then delivers `has_error` with the
recorded message, which ends with the message of the handler. -/
theorem SmtObligationChecker.C16_circuit_goes_on_after_error :
    (∀ (c : SmtObligationChecker) (ext : SmtObligationChecker.Externals)
       (jump : ObligationChecker.JumpType) (line_info : LineMap) (ignore_last_line : Bool)
       (instr : Instruction) (rest : List Instruction) (s : SmtObligationChecker.Build)
       (li : LineInfo) (r : FilterResult),
       line_info.find? s.line_no = some li →
       instr.is_jcc = false →
       (instr.is_label_defn || instr.is_nop || instr.is_any_jump) = false →
       instr.is_ret = false →
       c.filter_ instr (SmtObligationChecker.before_filter c.nacl_ instr li s.state)
         s.tmp_counter = .ok r →
       SmtObligationChecker.build_loop c ext jump line_info ignore_last_line (instr :: rest) s =
         SmtObligationChecker.build_loop c ext jump line_info ignore_last_line rest
           { state := { r.state with constraints := r.state.constraints ++ r.constraints },
             line_no := s.line_no + 1,
             error_ := (if r.error_ ≠ "" then r.error_ else s.error_),
             tmp_counter := r.tmp_counter }) ∧
    (SmtObligationChecker.build_circuit
        (SmtObligationChecker.sample_checker ArmMemory.solver_sat)
        SmtObligationChecker.sample_ext
        (Cfg.single SmtObligationChecker.cpuid_code 1 1) 0 ObligationChecker.JumpType.NONE
        SmtObligationChecker.sample_build (SmtObligationChecker.sample_linemap false 3)
        true).toOption.map (fun b => (b.error_, b.line_no, b.state.regs 0))
      = some (SmtObligationChecker.cpuid_message, 3,
          SymBitVector.plus (SymBitVector.var 64 "r0_1_INIT") (SymBitVector.constant 64 1)) ∧
    (SmtObligationChecker.check (SmtObligationChecker.sample_checker ArmMemory.solver_sat)
        SmtObligationChecker.sample_ext
        (SmtObligationChecker.conjunction_assume SmtObligationChecker.cpuid_code)
        0).toOption.map (fun run => run.callbacks)
      = some [{ verified := false, has_ceg := false, has_error := true,
                error_message := SmtObligationChecker.cpuid_message, comments := "",
                target_ceg := none, rewrite_ceg := none, target_final_ceg := none,
                rewrite_final_ceg := none }] ∧
    SmtObligationChecker.cpuid_message =
      "Error building circuit for: cpuid.Handler says: " ++ "unsupported opcode" := by
  refine ⟨?_, by rfl, by rfl, by decide⟩
  intro c ext jump line_info ignore_last_line instr rest s li r hli hjcc hskip hret hfilter
  simp only [SmtObligationChecker.build_loop, SmtObligationChecker.build_instr, hli, hjcc,
    hskip, hret, hfilter, Bool.false_eq_true, if_false]

/-- C17 (failing input): the obligation to prove the memories equal, assuming them equal,
for `incq %rax; retq`, is checked twice with the same invariant objects.  The first call
reports `verified` and leaves the caller's `assume` without its memory equality; the
second call, made with the objects as the first has left them, reports a result that is
not `verified`.  The solver is right both times: the final query of the first call has
no satisfying assignment, that of the second call has one. -/
theorem SmtObligationChecker.C17_second_call_differs :
    (SmtObligationChecker.check
        (SmtObligationChecker.sample_checker SmtObligationChecker.solver_heaps)
        SmtObligationChecker.sample_ext
        (SmtObligationChecker.same_memory
          (Invariant.conjunction [SimpleInvariant.memory_equality 0]))
        0).toOption.map (fun run => (run.callbacks, run.assume, run.prove, run.tmp_counter))
      = some ([SmtObligationChecker.verified_result ""], Invariant.conjunction [],
          Invariant.simple (SimpleInvariant.memory_equality 0), 2) ∧
    (SmtObligationChecker.check
        (SmtObligationChecker.sample_checker SmtObligationChecker.solver_heaps)
        SmtObligationChecker.sample_ext
        (SmtObligationChecker.same_memory (Invariant.conjunction []))
        2).toOption.map (fun run => run.callbacks)
      = some [SmtObligationChecker.spurious] ∧
    (SmtObligationChecker.verified_result "").verified = true ∧
    SmtObligationChecker.spurious.verified = false ∧
    (SmtObligationChecker.final_query
        (SmtObligationChecker.sample_checker SmtObligationChecker.solver_heaps)
        SmtObligationChecker.sample_ext
        (SmtObligationChecker.same_memory
          (Invariant.conjunction [SimpleInvariant.memory_equality 0]))
        0).map (fun q => q.constraints) = some SmtObligationChecker.first_query ∧
    (∀ env : Env, ¬ env.sat SmtObligationChecker.first_query) ∧
    (SmtObligationChecker.final_query
        (SmtObligationChecker.sample_checker SmtObligationChecker.solver_heaps)
        SmtObligationChecker.sample_ext
        (SmtObligationChecker.same_memory (Invariant.conjunction []))
        2).map (fun q => q.constraints) = some SmtObligationChecker.second_query ∧
    SmtObligationChecker.heaps_differ.sat SmtObligationChecker.second_query := by
  refine ⟨by rfl, by rfl, rfl, rfl, by rfl, ?_, by rfl, ?_⟩
  · intro env h
    have h1 := h _ (List.mem_cons_self _ _)
    have h2 := h (SymBool.or (SymBool.not (SymBool.array_eq (SymArray.var "heap_0")
      (SymArray.var "heap_1"))) (SymBool.not SymBool._true))
      (by simp [SmtObligationChecker.first_query])
    simp only [SymBool.holds, not_true_eq_false, or_false] at h1 h2
    exact h2 h1
  · intro b hb
    simp only [SmtObligationChecker.second_query, List.mem_cons, List.mem_singleton,
      List.not_mem_nil, or_false] at hb
    rcases hb with hb | hb | hb | hb
    · subst hb; exact trivial
    · subst hb; exact trivial
    · subst hb; exact trivial
    · subst hb
      left
      intro hall
      have h0 := hall 0
      simp [SymArray.eval, SmtObligationChecker.heaps_differ] at h0

/-! ## Properties of the bounded validator -/

/-- The text that `verify` stores for an unsupported instruction contains the word
"unsupported". -/
theorem BoundedValidator.unsupported_text (t : String) :
    "Instruction " ++ t ++ " is unsupported." =
      ("Instruction " ++ t ++ " is ") ++ "unsupported" ++ "." := by
  simp only [String.append_assoc]
  rfl

/-- C19: when the target or the rewrite contains an instruction that is not a label
definition, a jump or a return and that the handler does not support, `verify` returns
false, the error flag is set and the message contains "unsupported"; nothing else of the
validator changes, whatever `verify_pair` and the other collaborators would do, so that
no pair of paths is checked (and none is enumerated). -/
theorem BoundedValidator.C19_unsupported_instruction {σ : Type}
    (ext : BoundedValidator.Externals σ) (target rewrite : Cfg) (v : BoundedValidator σ)
    (instr : Instruction) (hmem : instr ∈ target.code ++ rewrite.code)
    (hneed : (instr.is_label_defn || instr.is_any_jump || instr.is_ret) = false)
    (hunsupported : ext.is_supported instr = false) :
    (BoundedValidator.verify ext target rewrite v).1 = false ∧
    (BoundedValidator.verify ext target rewrite v).2.has_error_ = true ∧
    (∃ p s : String,
      (BoundedValidator.verify ext target rewrite v).2.error_ = p ++ "unsupported" ++ s) ∧
    (BoundedValidator.verify ext target rewrite v).2.world = v.world ∧
    (BoundedValidator.verify ext target rewrite v).2.paths_false = v.paths_false ∧
    (BoundedValidator.verify ext target rewrite v).2.paths_true = v.paths_true := by
  have hsome : ((target.code ++ rewrite.code).find?
      (fun i => BoundedValidator.needs_support i && !ext.is_supported i)).isSome = true := by
    rw [List.find?_isSome]
    exact ⟨instr, hmem, by simp [BoundedValidator.needs_support, hneed, hunsupported]⟩
  obtain ⟨bad, hbad⟩ := Option.isSome_iff_exists.1 hsome
  have hv : BoundedValidator.verify ext target rewrite v =
      (false, BoundedValidator.SET_ERROR ("Instruction " ++ bad.text ++ " is unsupported.")
        { v with has_error_ := false }) := by
    unfold BoundedValidator.verify
    simp only [hbad]
  rw [hv]
  refine ⟨rfl, rfl, ⟨"Instruction " ++ bad.text ++ " is ", ".", ?_⟩, rfl, rfl, rfl⟩
  exact BoundedValidator.unsupported_text bad.text

/-- C19 on the programs of the test `UnsupportedInstruction`. -/
theorem BoundedValidator.C19_unsupported_instruction_witness :
    (BoundedValidator.verify BoundedValidator.sample_ext BoundedValidator.cpuid_program
      BoundedValidator.cpuid_program BoundedValidator.fresh).1 = false ∧
    (BoundedValidator.verify BoundedValidator.sample_ext BoundedValidator.cpuid_program
      BoundedValidator.cpuid_program BoundedValidator.fresh).2.has_error_ = true ∧
    (BoundedValidator.verify BoundedValidator.sample_ext BoundedValidator.cpuid_program
      BoundedValidator.cpuid_program BoundedValidator.fresh).2.world = 0 :=
  have h := BoundedValidator.C19_unsupported_instruction BoundedValidator.sample_ext
    BoundedValidator.cpuid_program BoundedValidator.cpuid_program BoundedValidator.fresh
    (Instruction.plain "cpuid") (by simp [BoundedValidator.cpuid_program, Cfg.single])
    rfl (by decide)
  ⟨h.1, h.2.1, h.2.2.2.1⟩

/-- C20 (failing input): the target `incq %rax; retq` has the live-out set {0}, the
rewrite, the same code, the live-out set {1}; both sets are supported and the def-ins
agree.  `verify` does not report "Target live-outs do not match rewrite live-outs": it
goes on to check the pair of paths and returns true without an error, because the test
compares the live-outs of the target with themselves.  When the def-ins differ instead,
it returns false with "Target def-ins do not match rewrite def-ins". -/
theorem BoundedValidator.C20_live_outs_not_compared :
    (BoundedValidator.incq_program 3 1).live_outs ≠ (BoundedValidator.incq_program 3 2).live_outs ∧
    BoundedValidator.verify BoundedValidator.sample_ext (BoundedValidator.incq_program 3 1)
        (BoundedValidator.incq_program 3 2) BoundedValidator.fresh =
      (true, { BoundedValidator.fresh with paths_false := [[0]], paths_true := [[0]],
                                            world := 1 }) ∧
    BoundedValidator.verify BoundedValidator.sample_ext (BoundedValidator.incq_program 1 3)
        (BoundedValidator.incq_program 2 3) BoundedValidator.fresh =
      (false, { BoundedValidator.fresh with
        has_error_ := true, error_ := "Target def-ins do not match rewrite def-ins" }) := by
  refine ⟨by decide, by rfl, by rfl⟩


/-! ## The bounded validator's circuit builder -/

/-- The `size_t` value of `P.size() - 1` for a path that is not empty. -/
theorem BoundedValidator.size_minus_one (P : CfgPath) (h0 : 0 < P.length)
    (hlen : P.length < 2 ^ 64) : (P.length + 2 ^ 64 - 1) % 2 ^ 64 = P.length - 1 := by
  rw [show P.length + 2 ^ 64 - 1 = (P.length - 1) + 2 ^ 64 by omega, Nat.add_mod_right]
  exact Nat.mod_eq_of_lt (by omega)

/-- C30 (failing input): `is_jump` returns NONE at the last block of a path and for a
block with no successor, and for a block that has a successor it returns FALL_THROUGH
when the next block of the path is `block + 1` and JUMP otherwise, whatever the number of
successors.  A block with exactly one successor, which the claim (and the comment
"there is only only successor" in the source) gives NONE, gets FALL_THROUGH on the path
0, 1, 2 and JUMP on the path 0, 2, 3: `auto second = first++` leaves `second` at the
first successor, which is never the end of the range. -/
theorem BoundedValidator.C30_one_successor_is_not_NONE :
    (∀ (succ : Nat → List Nat) (P : CfgPath) (i : Nat), P ≠ [] → P.length < 2 ^ 64 →
      i = P.length - 1 → BoundedValidator.is_jump succ P i = some .NONE) ∧
    (∀ (succ : Nat → List Nat) (P : CfgPath) (i block : Nat),
      P[i]? = some block → succ block = [] →
      BoundedValidator.is_jump succ P i = some .NONE) ∧
    (∀ (succ : Nat → List Nat) (P : CfgPath) (i block next_block : Nat), P.length < 2 ^ 64 →
      P[i]? = some block → P[i + 1]? = some next_block → succ block ≠ [] →
      BoundedValidator.is_jump succ P i =
        some (if next_block = block + 1 then .FALL_THROUGH else .JUMP)) ∧
    BoundedValidator.is_jump (fun block => if block = 0 then [1] else []) [0, 1, 2] 0 =
      some .FALL_THROUGH ∧
    BoundedValidator.is_jump (fun block => if block = 0 then [2] else []) [0, 2, 3] 0 =
      some .JUMP := by
  refine ⟨?_, ?_, ?_, by decide, by decide⟩
  · intro succ P i hne hlen hi
    have h1 := BoundedValidator.size_minus_one P (List.length_pos.mpr hne) hlen
    unfold BoundedValidator.is_jump
    rw [h1, if_pos hi]
  · intro succ P i block hP hs
    unfold BoundedValidator.is_jump
    split
    · rfl
    · simp [hP, hs]
  · intro succ P i block next_block hlen hP hP1 hs
    have hi : i + 1 < P.length := by
      rcases List.getElem?_eq_some_iff.mp hP1 with ⟨h, _⟩
      exact h
    have h1 := BoundedValidator.size_minus_one P (by omega) hlen
    have hl : ¬ (0 = (succ block).length) := by
      intro h; exact hs (List.length_eq_zero.mp h.symm)
    unfold BoundedValidator.is_jump
    rw [h1, if_neg (by omega)]
    simp only [hP, hP1, if_neg hl]
    split <;> rfl


/-- The loop of `SmtObligationChecker::build_circuit` runs no instruction after a
return. -/
theorem SmtObligationChecker.build_loop_ret (c : SmtObligationChecker)
    (ext : SmtObligationChecker.Externals) (jump : ObligationChecker.JumpType)
    (line_info : LineMap) (ign : Bool) (ret : Instruction) (hret : ret.returns = true)
    (rest : List Instruction) (pre : List Instruction) :
    ∀ s : SmtObligationChecker.Build,
      SmtObligationChecker.build_loop c ext jump line_info ign (pre ++ ret :: rest) s =
      SmtObligationChecker.build_loop c ext jump line_info ign (pre ++ [ret]) s := by
  simp only [Instruction.returns, Bool.and_eq_true, Bool.not_eq_true'] at hret
  obtain ⟨⟨⟨⟨h1, h2⟩, h3⟩, h4⟩, h5⟩ := hret
  induction pre with
  | nil =>
    intro s
    simp only [List.nil_append, SmtObligationChecker.build_loop,
      SmtObligationChecker.build_instr, h1, h2, h3, h4, h5]
    cases line_info.find? s.line_no <;> simp
  | cons a pre ih =>
    intro s
    simp only [List.cons_append, SmtObligationChecker.build_loop]
    rcases SmtObligationChecker.build_instr c ext jump line_info ign a s with e | ⟨b, s1⟩
    · rfl
    · cases b
      · exact ih s1
      · rfl

/-- The loop of `BoundedValidator::build_circuit` runs no instruction after a return. -/
theorem BoundedValidator.build_loop_stops_at_ret (b : BoundedValidator.Builders)
    (jump : ObligationChecker.JumpType) (ret : Instruction) (hret : ret.returns = true)
    (rest : List Instruction) (pre : List Instruction) :
    ∀ s : BoundedValidator.Build,
      BoundedValidator.build_loop b jump (pre ++ ret :: rest) s =
      BoundedValidator.build_loop b jump (pre ++ [ret]) s := by
  simp only [Instruction.returns, Bool.and_eq_true, Bool.not_eq_true'] at hret
  obtain ⟨⟨⟨⟨h1, h2⟩, h3⟩, h4⟩, h5⟩ := hret
  induction pre with
  | nil =>
    intro s
    simp [BoundedValidator.build_loop, BoundedValidator.build_instr, h1, h2, h3, h4, h5]
  | cons a pre ih =>
    intro s
    simp only [List.cons_append, BoundedValidator.build_loop]
    rcases BoundedValidator.build_instr b jump a s with e | ⟨r, s1⟩
    · rfl
    · cases r
      · exact ih s1
      · rfl


/-- A turn of the loop of `SmtObligationChecker::build_circuit` ends the function only on
a return. -/
theorem SmtObligationChecker.build_instr_stops (c : SmtObligationChecker)
    (ext : SmtObligationChecker.Externals) (jump : ObligationChecker.JumpType)
    (line_info : LineMap) (ign : Bool) (instr : Instruction)
    (s s1 : SmtObligationChecker.Build)
    (h : SmtObligationChecker.build_instr c ext jump line_info ign instr s = .ok (true, s1)) :
    instr.returns = true := by
  unfold SmtObligationChecker.build_instr at h
  cases hl : line_info.find? s.line_no with
  | none => rw [hl] at h; simp at h
  | some li =>
    rw [hl] at h
    simp only at h
    by_cases h1 : instr.is_jcc = true
    · rw [if_pos h1] at h
      cases ign <;> cases jump <;> simp at h
    · rw [if_neg h1] at h
      by_cases h2 : (instr.is_label_defn || instr.is_nop || instr.is_any_jump) = true
      · rw [if_pos h2] at h
        simp at h
      · rw [if_neg h2] at h
        by_cases h3 : instr.is_ret = true
        · simp only [Bool.or_eq_true, not_or, Bool.not_eq_true] at h2
          simp only [Bool.not_eq_true] at h1
          simp [Instruction.returns, h1, h2.1.1, h2.1.2, h2.2, h3]
        · rw [if_neg h3] at h
          split at h <;> simp at h

/-- A turn of the loop of `BoundedValidator::build_circuit` ends the function only on a
return. -/
theorem BoundedValidator.build_instr_returns (b : BoundedValidator.Builders)
    (jump : ObligationChecker.JumpType) (instr : Instruction) (s s1 : BoundedValidator.Build)
    (h : BoundedValidator.build_instr b jump instr s = .ok (true, s1)) :
    instr.returns = true := by
  unfold BoundedValidator.build_instr at h
  simp only at h
  by_cases h1 : instr.is_jcc = true
  · rw [if_pos h1] at h
    cases jump <;> simp at h
  · rw [if_neg h1] at h
    by_cases h2 : (instr.is_label_defn || instr.is_nop || instr.is_any_jump) = true
    · rw [if_pos h2] at h
      simp at h
    · rw [if_neg h2] at h
      by_cases h3 : instr.is_ret = true
      · simp only [Bool.or_eq_true, not_or, Bool.not_eq_true] at h2
        simp only [Bool.not_eq_true] at h1
        simp [Instruction.returns, h1, h2.1.1, h2.1.2, h2.2, h3]
      · rw [if_neg h3] at h
        split at h
        · simp at h
        · split at h <;> simp at h

/-- The loop of `SmtObligationChecker::build_circuit` over instructions none of which is
a return goes on with the instructions that follow. -/
theorem SmtObligationChecker.build_loop_append (c : SmtObligationChecker)
    (ext : SmtObligationChecker.Externals) (jump : ObligationChecker.JumpType)
    (line_info : LineMap) (ign : Bool) (rest : List Instruction) :
    ∀ (pre : List Instruction) (s s1 : SmtObligationChecker.Build),
      (∀ x ∈ pre, x.returns = false) →
      SmtObligationChecker.build_loop c ext jump line_info ign pre s = .ok s1 →
      SmtObligationChecker.build_loop c ext jump line_info ign (pre ++ rest) s =
        SmtObligationChecker.build_loop c ext jump line_info ign rest s1 := by
  intro pre
  induction pre with
  | nil =>
    intro s s1 _ h
    simp only [SmtObligationChecker.build_loop, Except.ok.injEq] at h
    rw [List.nil_append, h]
  | cons a pre ih =>
    intro s s1 hpre h
    simp only [List.cons_append, SmtObligationChecker.build_loop] at h ⊢
    cases hb : SmtObligationChecker.build_instr c ext jump line_info ign a s with
    | error e => rw [hb] at h; simp at h
    | ok r =>
      obtain ⟨stop, s2⟩ := r
      cases stop with
      | true =>
        have := SmtObligationChecker.build_instr_stops c ext jump line_info ign a s s2 hb
        rw [hpre a (List.mem_cons_self _ _)] at this
        exact absurd this (by decide)
      | false =>
        rw [hb] at h
        simp only at h ⊢
        exact ih s2 s1 (fun x hx => hpre x (List.mem_cons_of_mem _ hx)) h

/-- The loop of `BoundedValidator::build_circuit` over instructions none of which is a
return goes on with the instructions that follow. -/
theorem BoundedValidator.build_loop_goes_on (b : BoundedValidator.Builders)
    (jump : ObligationChecker.JumpType) (rest : List Instruction) :
    ∀ (pre : List Instruction) (s s1 : BoundedValidator.Build),
      (∀ x ∈ pre, x.returns = false) →
      BoundedValidator.build_loop b jump pre s = .ok s1 →
      BoundedValidator.build_loop b jump (pre ++ rest) s =
        BoundedValidator.build_loop b jump rest s1 := by
  intro pre
  induction pre with
  | nil =>
    intro s s1 _ h
    simp only [BoundedValidator.build_loop, Except.ok.injEq] at h
    rw [List.nil_append, h]
  | cons a pre ih =>
    intro s s1 hpre h
    simp only [List.cons_append, BoundedValidator.build_loop] at h ⊢
    cases hb : BoundedValidator.build_instr b jump a s with
    | error e => rw [hb] at h; simp at h
    | ok r =>
      obtain ⟨stop, s2⟩ := r
      cases stop with
      | true =>
        have := BoundedValidator.build_instr_returns b jump a s s2 hb
        rw [hpre a (List.mem_cons_self _ _)] at this
        exact absurd this (by decide)
      | false =>
        rw [hb] at h
        simp only at h ⊢
        exact ih s2 s1 (fun x hx => hpre x (List.mem_cons_of_mem _ hx)) h

/-- C29: let a block of a path hold a conditional jump after instructions `pre`, none of
them a return, that leave the variables `s1` (`t1` in the version of `BoundedValidator`).
Then `build_circuit` on the block goes on, after the jump, from `s1` with the line number
advanced and with the condition predicate appended to the constraints when the path
jumps, its negation when it falls through and nothing when the direction is NONE; with
`ignore_last_line` the version of `SmtObligationChecker` appends nothing whatever the
direction.  On a block that holds a return after `pre`, both versions return the
variables `s1` with the line number advanced: no instruction after the return is run. -/
theorem SmtObligationChecker.C29_jump_constraints (c : SmtObligationChecker)
    (ext : SmtObligationChecker.Externals) (b : BoundedValidator.Builders)
    (jump : ObligationChecker.JumpType) (line_info : LineMap) (li : LineInfo)
    (instr ret : Instruction) (pre post rest : List Instruction) (cfg cfgr : Cfg)
    (bb bbr : Nat) (s s1 : SmtObligationChecker.Build) (t t1 : BoundedValidator.Build)
    (ign : Bool)
    (hjcc : instr.is_jcc = true) (hret : ret.returns = true)
    (hpre : ∀ x ∈ pre, x.returns = false)
    (hrunS : SmtObligationChecker.build_loop c ext jump line_info ign pre s = .ok s1)
    (hrunB : BoundedValidator.build_loop b jump pre t = .ok t1)
    (hline : line_info.find? s1.line_no = some li)
    (hblock : SmtObligationChecker.block_instrs cfg bb = pre ++ instr :: post)
    (hblockr : SmtObligationChecker.block_instrs cfgr bbr = pre ++ ret :: rest) :
    SmtObligationChecker.build_circuit c ext cfg bb jump s line_info ign =
      SmtObligationChecker.build_loop c ext jump line_info ign post
        { s1 with
          line_no := s1.line_no + 1,
          state := { s1.state with constraints := s1.state.constraints ++
            (if ign then []
             else match jump with
               | .JUMP => [ext.condition_predicate (instr.att.drop 1) s1.state]
               | .FALL_THROUGH =>
                 [SymBool.not (ext.condition_predicate (instr.att.drop 1) s1.state)]
               | .NONE => []) } } ∧
    BoundedValidator.build_circuit b cfg bb jump t =
      BoundedValidator.build_loop b jump post
        { t1 with
          line_no := t1.line_no + 1,
          state := { t1.state with constraints := t1.state.constraints ++
            (match jump with
             | .JUMP => [b.condition_predicate (instr.att.drop 1) t1.state]
             | .FALL_THROUGH => [SymBool.not (b.condition_predicate (instr.att.drop 1) t1.state)]
             | .NONE => []) } } ∧
    SmtObligationChecker.build_circuit c ext cfgr bbr jump s line_info ign =
      .ok { s1 with line_no := s1.line_no + 1 } ∧
    BoundedValidator.build_circuit b cfgr bbr jump t =
      .ok { t1 with line_no := t1.line_no + 1 } := by
  have hn : cfg.num_instrs bb ≠ 0 := by
    intro h0
    simp [SmtObligationChecker.block_instrs, h0] at hblock
  have hnr : cfgr.num_instrs bbr ≠ 0 := by
    intro h0
    simp [SmtObligationChecker.block_instrs, h0] at hblockr
  have hret' := hret
  simp only [Instruction.returns, Bool.and_eq_true, Bool.not_eq_true'] at hret'
  obtain ⟨⟨⟨⟨r1, r2⟩, r3⟩, r4⟩, r5⟩ := hret'
  refine ⟨?_, ?_, ?_, ?_⟩
  · rw [SmtObligationChecker.build_circuit, if_neg hn, hblock,
      SmtObligationChecker.build_loop_append c ext jump line_info ign _ pre s s1 hpre hrunS]
    cases ign <;> cases jump <;>
      simp [SmtObligationChecker.build_loop, SmtObligationChecker.build_instr, hline, hjcc]
  · rw [BoundedValidator.build_circuit, if_neg hn, hblock,
      BoundedValidator.build_loop_goes_on b jump _ pre t t1 hpre hrunB]
    cases jump <;> simp [BoundedValidator.build_loop, BoundedValidator.build_instr, hjcc]
  · rw [SmtObligationChecker.build_circuit, if_neg hnr, hblockr,
      SmtObligationChecker.build_loop_append c ext jump line_info ign _ pre s s1 hpre hrunS]
    simp [SmtObligationChecker.build_loop, SmtObligationChecker.build_instr, hline,
      r1, r2, r3, r4, r5]
  · rw [BoundedValidator.build_circuit, if_neg hnr, hblockr,
      BoundedValidator.build_loop_goes_on b jump _ pre t t1 hpre hrunB]
    simp [BoundedValidator.build_loop, BoundedValidator.build_instr, r1, r2, r3, r4, r5]

/-- C29 (witness): the block `jz; retq; incq %rax` on a path that falls through, and the
block `retq; incq %rax`. -/
theorem SmtObligationChecker.C29_jump_constraints_witness :
    SmtObligationChecker.jz.is_jcc = true ∧
    Instruction.retq.returns = true ∧
    ((SmtObligationChecker.build_circuit
        (SmtObligationChecker.sample_checker SmtObligationChecker.solver_refute)
        SmtObligationChecker.sample_ext
        (Cfg.single [SmtObligationChecker.jz, Instruction.retq, Instruction.plain "incq %rax"]
          0 0) 0 .FALL_THROUGH SmtObligationChecker.sample_build
        (SmtObligationChecker.sample_linemap false 3) false).toOption.map
      (fun r => (r.line_no, r.state.constraints))) =
      some (2, SmtObligationChecker.sample_build.state.constraints ++
        [SymBool.not (SmtObligationChecker.sample_ext.condition_predicate "z"
          SmtObligationChecker.sample_build.state)]) ∧
    ((BoundedValidator.build_circuit BoundedValidator.sample_builders
        (Cfg.single [SmtObligationChecker.jz, Instruction.retq, Instruction.plain "incq %rax"]
          0 0) 0 .FALL_THROUGH BoundedValidator.sample_build).toOption.map
      (fun r => (r.line_no, r.state.constraints))) =
      some (2, BoundedValidator.sample_build.state.constraints ++
        [SymBool.not (BoundedValidator.sample_builders.condition_predicate "z"
          BoundedValidator.sample_build.state)]) ∧
    SmtObligationChecker.build_circuit
        (SmtObligationChecker.sample_checker SmtObligationChecker.solver_refute)
        SmtObligationChecker.sample_ext
        (Cfg.single [Instruction.retq, Instruction.plain "incq %rax"] 0 0) 0 .FALL_THROUGH
        SmtObligationChecker.sample_build (SmtObligationChecker.sample_linemap false 3) false =
      .ok { SmtObligationChecker.sample_build with
            line_no := SmtObligationChecker.sample_build.line_no + 1 } ∧
    BoundedValidator.build_circuit BoundedValidator.sample_builders
        (Cfg.single [Instruction.retq, Instruction.plain "incq %rax"] 0 0) 0 .FALL_THROUGH
        BoundedValidator.sample_build =
      .ok { BoundedValidator.sample_build with
            line_no := BoundedValidator.sample_build.line_no + 1 } :=
  have h := SmtObligationChecker.C29_jump_constraints
    (SmtObligationChecker.sample_checker SmtObligationChecker.solver_refute)
    SmtObligationChecker.sample_ext BoundedValidator.sample_builders .FALL_THROUGH
    (SmtObligationChecker.sample_linemap false 3)
    { deref := { SmtObligationChecker.default_deref with is_rewrite := false, line_number := 0 },
      rip_offset := 0 }
    SmtObligationChecker.jz Instruction.retq []
    [Instruction.retq, Instruction.plain "incq %rax"] [Instruction.plain "incq %rax"]
    (Cfg.single [SmtObligationChecker.jz, Instruction.retq, Instruction.plain "incq %rax"] 0 0)
    (Cfg.single [Instruction.retq, Instruction.plain "incq %rax"] 0 0)
    0 0 SmtObligationChecker.sample_build SmtObligationChecker.sample_build
    BoundedValidator.sample_build BoundedValidator.sample_build false
    (by decide) (by decide) (fun x hx => absurd hx (List.not_mem_nil x)) rfl rfl (by rfl)
    (by rfl) (by rfl)
  ⟨by decide, by decide, by rw [h.1]; rfl, by rw [h.2.1]; rfl, h.2.2.1, h.2.2.2⟩


/-! ## The caller's invariants after `check` -/

/-- The writes at the excluded locations leave the invariant `assume` alone. -/
theorem SmtObligationChecker.excluded_writes_assume (ext : SmtObligationChecker.Externals)
    (locs : List Location) : ∀ s s1 : SmtObligationChecker.Assumed,
    SmtObligationChecker.excluded_writes ext locs s = .ok s1 → s1.assume = s.assume := by
  induction locs with
  | nil =>
    intro s s1 h
    simp only [SmtObligationChecker.excluded_writes, Except.ok.injEq] at h
    rw [← h]
  | cons loc rest ih =>
    intro s s1 h
    simp only [SmtObligationChecker.excluded_writes] at h
    cases hw : SmtObligationChecker.excluded_write ext loc s with
    | error a => rw [hw] at h; simp at h
    | ok s2 =>
      rw [hw] at h
      have h2 : s2.assume = s.assume := by
        unfold SmtObligationChecker.excluded_write at hw
        repeat' first | split at hw | (dsimp only at hw; split at hw)
        all_goals first
          | (exfalso; simp at hw; done)
          | (simp only [Except.ok.injEq] at hw; rw [← hw])
      rw [ih s2 s1 h, h2]

/-- After lines 610 to 642 the caller's `assume` has lost its first memory equality. -/
theorem SmtObligationChecker.check_assume_frame (c : SmtObligationChecker)
    (ext : SmtObligationChecker.Externals) (o : SmtObligationChecker.Obligation) (ctr : Nat)
    (s : SmtObligationChecker.Assumed)
    (h : SmtObligationChecker.check_assume c ext o ctr = .ok s) :
    s.assume = o.assume.without_memequ := by
  unfold SmtObligationChecker.check_assume at h
  dsimp only at h
  split at h
  · simp at h
  · rename_i s1 h1
    simp only [Except.ok.injEq] at h
    rw [← h]
    dsimp only
    unfold SmtObligationChecker.assume_memequ at h1
    dsimp only at h1
    unfold Invariant.without_memequ
    split at h1
    · simp only [Except.ok.injEq] at h1
      rw [← h1]
      first | rfl | (dsimp only; done) | simp_all
    · split at h1
      · simp only [Except.ok.injEq] at h1
        rw [← h1]
        first | rfl | (dsimp only; done) | simp_all
      · split at h1
        · simp at h1
        · simp only [Except.ok.injEq] at h1
          rw [← h1]


/-- The invariants of a run are those of the run the callback was called on. -/
theorem SmtObligationChecker.callback_frame (r : ObligationChecker.Result)
    (run : SmtObligationChecker.Run) :
    (SmtObligationChecker.callback r run).assume = run.assume ∧
    (SmtObligationChecker.callback r run).prove = run.prove := ⟨rfl, rfl⟩

/-- The caller's `prove` after lines 739 to 753. -/
theorem SmtObligationChecker.prove_conjuncts_frame (prove : Invariant) :
    (SmtObligationChecker.prove_conjuncts prove).2.2 = prove.without_memequ := by
  unfold SmtObligationChecker.prove_conjuncts Invariant.without_memequ
  cases prove with
  | simple inv => dsimp only; split <;> rfl
  | conjunction l => dsimp only; split <;> simp_all

/-- The invariants when `check` leaves while the circuits are built, and after. -/
theorem SmtObligationChecker.check_circuit_frame (c : SmtObligationChecker)
    (ext : SmtObligationChecker.Externals) (o : SmtObligationChecker.Obligation) (ctr : Nat) :
    (∀ run, SmtObligationChecker.check_circuit c ext o ctr = .error (.returned run) →
      run.assume = o.assume.without_memequ ∧ run.prove = o.prove) ∧
    (∀ k, SmtObligationChecker.check_circuit c ext o ctr = .ok k →
      k.assume = o.assume.without_memequ) := by
  constructor
  · intro run h
    unfold SmtObligationChecker.check_circuit at h
    repeat' first | split at h | (dsimp only at h; split at h)
    all_goals first
      | (exfalso; simp at h; done)
      | (simp only [Except.error.injEq, SmtObligationChecker.Exit.returned.injEq] at h
         subst h
         exact ⟨SmtObligationChecker.check_assume_frame c ext o ctr _ (by assumption), rfl⟩)
  · intro k h
    unfold SmtObligationChecker.check_circuit at h
    repeat' first | split at h | (dsimp only at h; split at h)
    all_goals first
      | (exfalso; simp at h; done)
      | (simp only [Except.ok.injEq] at h
         subst h
         exact SmtObligationChecker.check_assume_frame c ext o ctr _ (by assumption))

/-- The invariants when `check` leaves at the short cut. -/
theorem SmtObligationChecker.check_shortcut_frame (c : SmtObligationChecker)
    (o : SmtObligationChecker.Obligation) (k : SmtObligationChecker.Circuit)
    (run : SmtObligationChecker.Run)
    (h : SmtObligationChecker.check_shortcut c o k = .error (.returned run)) :
    run.assume = k.assume ∧ run.prove = o.prove := by
  unfold SmtObligationChecker.check_shortcut at h
  repeat' split at h
  all_goals first
    | (exfalso; simp at h; done)
    | (simp only [Except.error.injEq, SmtObligationChecker.Exit.returned.injEq] at h
       subst h
       exact ⟨rfl, rfl⟩)

/-- The invariants when `check` leaves from the memory constraints. -/
theorem SmtObligationChecker.memory_constraints_frame (c : SmtObligationChecker)
    (k : SmtObligationChecker.Circuit) (prove : Invariant)
    (deref_maps : List ArmMemory.DereferenceMap) (constraints : List SymBool)
    (state_t state_r : SymState) (ctr : Nat) (run : SmtObligationChecker.Run)
    (h : SmtObligationChecker.memory_constraints c k prove deref_maps constraints state_t
      state_r ctr = .error (.returned run)) :
    run.assume = k.assume ∧ run.prove = prove := by
  unfold SmtObligationChecker.memory_constraints at h
  repeat' split at h
  all_goals first
    | (exfalso; simp at h; done)
    | (simp only [Except.error.injEq, SmtObligationChecker.Exit.returned.injEq] at h
       subst h
       exact ⟨rfl, rfl⟩)

/-- The invariants when `check` leaves while the memory is modelled, and after. -/
theorem SmtObligationChecker.check_memory_frame (c : SmtObligationChecker)
    (ext : SmtObligationChecker.Externals) (o : SmtObligationChecker.Obligation)
    (k : SmtObligationChecker.Circuit) :
    (∀ run, SmtObligationChecker.check_memory c ext o k = .error (.returned run) →
      run.assume = k.assume ∧ run.prove = o.prove.without_memequ) ∧
    (∀ q, SmtObligationChecker.check_memory c ext o k = .ok q →
      q.assume = k.assume ∧ q.prove = o.prove.without_memequ) := by
  constructor
  · intro run h
    unfold SmtObligationChecker.check_memory at h
    simp only at h
    repeat' split at h
    all_goals first
      | (exfalso; simp at h; done)
      | (rename_i e _ hm
         simp only [Except.error.injEq] at h
         subst h
         rw [← SmtObligationChecker.prove_conjuncts_frame]
         exact SmtObligationChecker.memory_constraints_frame _ _ _ _ _ _ _ _ _ hm)
  · intro q h
    unfold SmtObligationChecker.check_memory at h
    simp only at h
    repeat' split at h
    all_goals first
      | (exfalso; simp at h; done)
      | (simp only [Except.ok.injEq] at h
         subst h
         exact ⟨rfl, SmtObligationChecker.prove_conjuncts_frame _⟩)

/-- The invariants after the final query are those of the query. -/
theorem SmtObligationChecker.check_solve_frame (c : SmtObligationChecker)
    (ext : SmtObligationChecker.Externals) (o : SmtObligationChecker.Obligation)
    (q : SmtObligationChecker.Query) (run : SmtObligationChecker.Run)
    (h : SmtObligationChecker.check_solve c ext o q = .ok run) :
    run.assume = q.assume ∧ run.prove = q.prove := by
  unfold SmtObligationChecker.check_solve at h
  simp only at h
  repeat' split at h
  all_goals first
    | (exfalso; simp at h; done)
    | (simp only [Except.ok.injEq] at h
       subst h
       exact ⟨rfl, rfl⟩)


/-- The invariants after a call of `check` that returns: `assume` has lost its first
memory equality, `prove` is untouched when the call returns before line 739 and has lost
its first memory equality afterwards. -/
theorem SmtObligationChecker.check_frame (c : SmtObligationChecker)
    (ext : SmtObligationChecker.Externals) (o : SmtObligationChecker.Obligation) (ctr : Nat)
    (run : SmtObligationChecker.Run)
    (h : SmtObligationChecker.check c ext o ctr = .ok run) :
    run.assume = o.assume.without_memequ ∧
    (run.prove = o.prove ∨ run.prove = o.prove.without_memequ) := by
  unfold SmtObligationChecker.check at h
  have hc := SmtObligationChecker.check_circuit_frame c ext o ctr
  cases hk : SmtObligationChecker.check_circuit c ext o ctr with
  | error e =>
    rw [hk] at h
    cases e with
    | returned r =>
      simp only [Except.ok.injEq] at h
      subst h
      exact ⟨(hc.1 _ hk).1, Or.inl (hc.1 _ hk).2⟩
    | abort a => simp at h
  | ok k =>
    rw [hk] at h
    simp only at h
    have hka := hc.2 k hk
    cases hs : SmtObligationChecker.check_shortcut c o k with
    | error e =>
      rw [hs] at h
      cases e with
      | returned r =>
        simp only [Except.ok.injEq] at h
        subst h
        have := SmtObligationChecker.check_shortcut_frame c o k _ hs
        exact ⟨this.1.trans hka, Or.inl this.2⟩
      | abort a => simp at h
    | ok u =>
      rw [hs] at h
      simp only at h
      have hm0 := SmtObligationChecker.check_memory_frame c ext o k
      cases hm : SmtObligationChecker.check_memory c ext o k with
      | error e =>
        rw [hm] at h
        cases e with
        | returned r =>
          simp only [Except.ok.injEq] at h
          subst h
          exact ⟨(hm0.1 _ hm).1.trans hka, Or.inr (hm0.1 _ hm).2⟩
        | abort a => simp at h
      | ok q =>
        rw [hm] at h
        have := SmtObligationChecker.check_solve_frame c ext o q run h
        exact ⟨this.1.trans ((hm0.2 q hm).1.trans hka), Or.inr (this.2.trans (hm0.2 q hm).2)⟩

/-- An invariant without a memory equality among its conjuncts is not changed. -/
theorem Invariant.without_memequ_eq_self (inv : Invariant)
    (h : ∀ l, inv = .conjunction l → SmtObligationChecker.find_memequ l 0 = none) :
    inv.without_memequ = inv := by
  cases inv with
  | simple s => rfl
  | conjunction l => simp only [Invariant.without_memequ, h l rfl]

set_option maxRecDepth 100000 in
/-- C28 (failing input): a call of `check` that returns leaves `assume` without its first
memory equality and, once it has passed line 739, `prove` as well; only invariants
without a memory equality among their conjuncts come back as they were.  On the
obligation to prove the memories equal, with `prove` a conjunction, the model of the
final query has memories that differ; the caller's `prove` fails on its end states, so it
is a counterexample, but `check_counterexample` is given the conjunction that `check` has
emptied, which holds, and the result says `has_ceg = false`. -/
theorem SmtObligationChecker.C28_invariants_modified :
    (∀ (c : SmtObligationChecker) (ext : SmtObligationChecker.Externals)
        (o : SmtObligationChecker.Obligation) (ctr : Nat) (run : SmtObligationChecker.Run),
      SmtObligationChecker.check c ext o ctr = .ok run →
      run.assume = o.assume.without_memequ ∧
      (run.prove = o.prove ∨ run.prove = o.prove.without_memequ)) ∧
    (∀ (c : SmtObligationChecker) (ext : SmtObligationChecker.Externals)
        (o : SmtObligationChecker.Obligation) (ctr : Nat) (run : SmtObligationChecker.Run),
      SmtObligationChecker.check c ext o ctr = .ok run →
      (∀ l, o.assume = .conjunction l → SmtObligationChecker.find_memequ l 0 = none) →
      (∀ l, o.prove = .conjunction l → SmtObligationChecker.find_memequ l 0 = none) →
      run.assume = o.assume ∧ run.prove = o.prove) ∧
    SmtObligationChecker.memory_goal.prove =
      Invariant.conjunction [SimpleInvariant.memory_equality 0] ∧
    (SmtObligationChecker.check (SmtObligationChecker.sample_checker ArmMemory.solver_sat)
        SmtObligationChecker.sample_ext_memory SmtObligationChecker.memory_goal
        0).toOption.map (fun run => (run.callbacks, run.assume, run.prove))
      = some ([SmtObligationChecker.memory_ceg],
          Invariant.conjunction [SimpleInvariant.other 0], Invariant.conjunction []) ∧
    SmtObligationChecker.memory_ceg.has_ceg = false ∧
    SmtObligationChecker.sample_ext_memory.check SmtObligationChecker.memory_goal.assume
      CpuState.init { CpuState.init with memory := [(0, 1)] } = true ∧
    SmtObligationChecker.sample_ext_memory.check SmtObligationChecker.memory_goal.prove
      CpuState.init { CpuState.init with memory := [(0, 1)] } = false ∧
    SmtObligationChecker.sample_ext_memory.check (Invariant.conjunction [])
      CpuState.init { CpuState.init with memory := [(0, 1)] } = true ∧
    (SmtObligationChecker.check (SmtObligationChecker.sample_checker ArmMemory.solver_sat)
        SmtObligationChecker.sample_ext_memory
        { SmtObligationChecker.memory_goal with
          prove := Invariant.simple (SimpleInvariant.memory_equality 0) }
        0).toOption.map (fun run => (run.callbacks, run.assume, run.prove))
      = some ([{ SmtObligationChecker.memory_ceg with has_ceg := true }],
          Invariant.conjunction [SimpleInvariant.other 0],
          Invariant.simple (SimpleInvariant.memory_equality 0)) := by
  refine ⟨SmtObligationChecker.check_frame, ?_, by rfl, by rfl, by rfl, by rfl, by rfl,
    by rfl, by rfl⟩
  intro c ext o ctr run h ha hp
  have hf := SmtObligationChecker.check_frame c ext o ctr run h
  rw [Invariant.without_memequ_eq_self _ ha, Invariant.without_memequ_eq_self _ hp] at hf
  exact ⟨hf.1, hf.2.elim id id⟩


/-! ## Concrete memory -/

/-- Masking off the low `k` bits of a 64-bit number rounds it down to a multiple of
`2 ^ k`. -/
theorem Nat.land_high_mask (x k : Nat) (hk : k ≤ 64) (hx : x < 2 ^ 64) :
    x &&& (2 ^ k * (2 ^ (64 - k) - 1)) = 2 ^ k * (x / 2 ^ k) := by
  apply Nat.eq_of_testBit_eq
  intro i
  rw [Nat.testBit_and, Nat.testBit_mul_pow_two, Nat.testBit_mul_pow_two,
    Nat.testBit_two_pow_sub_one, ← Nat.shiftRight_eq_div_pow, Nat.testBit_shiftRight]
  by_cases h5 : k ≤ i
  · have e : k + (i - k) = i := by omega
    simp only [h5, decide_True, Bool.true_and, e]
    by_cases h64 : i < 64
    · have : i - k < 64 - k := by omega
      simp [this]
    · have : ¬ (i - k < 64 - k) := by omega
      have hb : x.testBit i = false :=
        Nat.testBit_eq_false_of_lt
          (lt_of_lt_of_le hx (Nat.pow_le_pow_right (by norm_num) (by omega)))
      simp [this, hb]
  · simp [h5]

/-- The mask of `resize` for the base rounds down to a multiple of 32. -/
theorem stoke.Memory.mask_32 (x : Nat) (hx : x < 2 ^ 64) :
    x &&& 0xffffffffffffffe0 = 32 * (x / 32) := by
  have h := Nat.land_high_mask x 5 (by norm_num) hx
  norm_num at h
  exact h

/-- The mask of `resize` for the size rounds down to a multiple of 8. -/
theorem stoke.Memory.mask_8 (x : Nat) (hx : x < 2 ^ 64) :
    x &&& 0xfffffffffffffff8 = 8 * (x / 8) := by
  have h := Nat.land_high_mask x 3 (by norm_num) hx
  norm_num at h
  exact h

/-- What `resize` does when the padded size does not wrap around. -/
theorem stoke.Memory.resize_eq (base size : Nat) (hb : base < 2 ^ 64)
    (hs : size + base % 32 + 39 < 2 ^ 64) (hsum : base + size ≤ 2 ^ 64) :
    stoke.Memory.resize base size =
      some { base_ := 32 * (base / 32), contents_ := 8 * ((size + (base % 32 + 32) + 7) / 8),
             valid_ := 8 * ((size + (base % 32 + 32) + 7) / 8) } := by
  unfold stoke.Memory.resize
  have h1 : (size + (base % 32 + 32)) % 2 ^ 64 = size + (base % 32 + 32) :=
    Nat.mod_eq_of_lt (by omega)
  have h2 : (size + (base % 32 + 32) + 7) % 2 ^ 64 = size + (base % 32 + 32) + 7 :=
    Nat.mod_eq_of_lt (by omega)
  simp only [h1, h2, stoke.Memory.mask_32 base hb,
    stoke.Memory.mask_8 (size + (base % 32 + 32) + 7) (by omega)]
  rw [if_pos]
  by_cases hw : 32 * (base / 32) + 8 * ((size + (base % 32 + 32) + 7) / 8) < 2 ^ 64
  · left
    rw [Nat.mod_eq_of_lt hw]
    omega
  · right
    omega


/-- C23 (counterexample): `resize(0, 2^64 - 1)` has base + size below 2^64, yet the
padding of the size wraps around: the `assert` passes, the memory has size 0 and address
0, which lies between base and base + size, is not in range. -/
theorem stoke.Memory.C23_padded_size_wraps :
    0 + (2 ^ 64 - 1) ≤ 2 ^ 64 ∧
    stoke.Memory.resize 0 (2 ^ 64 - 1) = some { base_ := 0, contents_ := 32, valid_ := 32 } ∧
    stoke.Memory.size { base_ := 0, contents_ := 32, valid_ := 32 } = 0 ∧
    (0 ≤ 0 ∧ 0 < 0 + (2 ^ 64 - 1)) ∧
    stoke.Memory.in_range { base_ := 0, contents_ := 32, valid_ := 32 } 0 = false := by
  refine ⟨by norm_num, by decide, by decide, by norm_num, by decide⟩

/-- C23 (amended): when the padded size `size + base % 32 + 39` stays below 2^64 and
base + size does not exceed 2^64, `resize(base, size)` passes its `assert`, the lower
bound is the base rounded down to a multiple of 32, the size is `size + base % 32`
rounded up to a multiple of 8, and every address from base to base + size - 1 is in
range.  For every memory and 64-bit address, `in_range` is `lower_bound() <= a <
lower_bound() + size()` over the integers.  A default-constructed memory has size 0 and
no address in range. -/
theorem stoke.Memory.C23_resize_range (base size : Nat) (hb : base < 2 ^ 64)
    (hs : size + base % 32 + 39 < 2 ^ 64) (hsum : base + size ≤ 2 ^ 64) :
    (∃ m, stoke.Memory.resize base size = some m ∧
      m.lower_bound = base - base % 32 ∧ m.lower_bound % 32 = 0 ∧
      m.size = 8 * ((size + base % 32 + 7) / 8) ∧
      (∀ a, base ≤ a → a < base + size → m.in_range a = true)) ∧
    (∀ (m : stoke.Memory) (a : Nat), a < 2 ^ 64 →
      (m.in_range a = true ↔ m.lower_bound ≤ a ∧ a < m.lower_bound + m.size)) ∧
    (∃ m0, stoke.Memory.init = some m0 ∧ m0.size = 0 ∧ ∀ a, m0.in_range a = false) := by
  refine ⟨⟨_, stoke.Memory.resize_eq base size hb hs hsum, ?_, ?_, ?_, ?_⟩, ?_, ?_⟩
  · simp only [stoke.Memory.lower_bound]
    omega
  · simp only [stoke.Memory.lower_bound]
    omega
  · simp only [stoke.Memory.size]
    omega
  · intro a ha1 ha2
    simp only [stoke.Memory.in_range, stoke.Memory.lower_bound, stoke.Memory.size,
      Bool.and_eq_true, decide_eq_true_eq]
    omega
  · intro m a ha
    simp only [stoke.Memory.in_range, stoke.Memory.lower_bound, Bool.and_eq_true,
      decide_eq_true_eq]
    constructor
    · rintro ⟨h1, h2⟩
      refine ⟨h1, ?_⟩
      have : (a + 2 ^ 64 - m.base_) % 2 ^ 64 = a - m.base_ := by
        rw [show a + 2 ^ 64 - m.base_ = (a - m.base_) + 2 ^ 64 by omega, Nat.add_mod_right]
        exact Nat.mod_eq_of_lt (by omega)
      omega
    · rintro ⟨h1, h2⟩
      refine ⟨h1, ?_⟩
      have : (a + 2 ^ 64 - m.base_) % 2 ^ 64 = a - m.base_ := by
        rw [show a + 2 ^ 64 - m.base_ = (a - m.base_) + 2 ^ 64 by omega, Nat.add_mod_right]
        exact Nat.mod_eq_of_lt (by omega)
      omega
  · refine ⟨{ base_ := 0, contents_ := 32, valid_ := 32 }, by decide, by decide, ?_⟩
    intro a
    simp [stoke.Memory.in_range, stoke.Memory.size]

/-- C23 (witness): `resize(100, 10)` gives the lower bound 96 and the size 16. -/
theorem stoke.Memory.C23_resize_range_witness :
    (100 < 2 ^ 64 ∧ 10 + 100 % 32 + 39 < 2 ^ 64 ∧ 100 + 10 ≤ 2 ^ 64) ∧
    (∃ m, stoke.Memory.resize 100 10 = some m ∧ m.lower_bound = 100 - 100 % 32 ∧
      m.lower_bound % 32 = 0 ∧ m.size = 8 * ((10 + 100 % 32 + 7) / 8) ∧
      (∀ a, 100 ≤ a → a < 100 + 10 → m.in_range a = true)) :=
  ⟨by norm_num,
   (stoke.Memory.C23_resize_range 100 10 (by norm_num) (by norm_num) (by norm_num)).1⟩


/-! ## Offset discovery and its queries -/

/-- The body of the loop with its queries is the body of the loop. -/
theorem ArmMemory.nodata_pair_logged_fst (solver : Solver) (stop : Bool)
    (a1 a2 : ArmMemory.Access) (i j : Nat) (st : ArmMemory.OffsetsSt)
    (log : List (List SymBool)) :
    (ArmMemory.nodata_pair_logged solver stop a1 a2 i j st log).map Prod.fst =
      ArmMemory.nodata_pair solver stop a1 a2 i j st := by
  unfold ArmMemory.nodata_pair_logged ArmMemory.nodata_pair ArmMemory.nodata_query
    ArmMemory.offset_check
  by_cases hr : st.returned = true
  · simp [hr, Except.map]
  · cases stop
    · simp only [hr, Bool.false_eq_true, if_false]
      repeat' first | split | rfl
      all_goals simp_all [Except.map]
    · simp [hr, Except.map]


/-- The loops of `generate_constraints_offsets_nodata` with their queries are the loops
of the function. -/
theorem ArmMemory.nodata_fold_logged_fst (m : ArmMemory) (ps : List (Nat × Nat)) :
    ∀ (st : ArmMemory.OffsetsSt) (log : List (List SymBool)),
    (ps.foldlM (fun (s : ArmMemory.OffsetsSt × List (List SymBool)) (p : Nat × Nat) =>
        match m.all_accesses_[p.1]?, m.all_accesses_[p.2]? with
        | some a1, some a2 =>
          ArmMemory.nodata_pair_logged m.solver_ m.stop_now_ a1 a2 p.1 p.2 s.1 s.2
        | _, _ => .ok s) (st, log)).map Prod.fst =
    ps.foldlM (fun (st : ArmMemory.OffsetsSt) (p : Nat × Nat) =>
        match m.all_accesses_[p.1]?, m.all_accesses_[p.2]? with
        | some a1, some a2 => ArmMemory.nodata_pair m.solver_ m.stop_now_ a1 a2 p.1 p.2 st
        | _, _ => .ok st) st := by
  induction ps with
  | nil => intro st log; rfl
  | cons p ps ih =>
    intro st log
    simp only [List.foldlM_cons]
    cases h1 : m.all_accesses_[p.1]? with
    | none =>
      simp only [bind, Except.bind]
      exact ih st log
    | some a1 =>
      cases h2 : m.all_accesses_[p.2]? with
      | none =>
        simp only [bind, Except.bind]
        exact ih st log
      | some a2 =>
        simp only []
        have hp := ArmMemory.nodata_pair_logged_fst m.solver_ m.stop_now_ a1 a2 p.1 p.2 st log
        cases hl : ArmMemory.nodata_pair_logged m.solver_ m.stop_now_ a1 a2 p.1 p.2 st log with
        | error e =>
          rw [hl] at hp
          simp only [Except.map] at hp
          rw [← hp]
          rfl
        | ok r =>
          rw [hl] at hp
          simp only [Except.map] at hp
          rw [← hp]
          simp only [bind, Except.bind]
          exact ih r.1 r.2

/-- The function `generate_constraints_offsets_nodata` with its queries gives the same
memory and constraint list as the function. -/
theorem ArmMemory.offsets_nodata_logged_fst (m : ArmMemory)
    (initial_constraints : List SymBool) :
    (ArmMemory.generate_constraints_offsets_nodata_logged m initial_constraints).map
        (fun r => (r.1, r.2.1)) =
      ArmMemory.generate_constraints_offsets_nodata m initial_constraints := by
  unfold ArmMemory.generate_constraints_offsets_nodata_logged
    ArmMemory.generate_constraints_offsets_nodata
  have h := ArmMemory.nodata_fold_logged_fst m (ArmMemory.nodata_pairs m.all_accesses_.length)
    { access_offsets_ := m.access_offsets_, initial_constraints := initial_constraints,
      returned := false } []
  simp only at h ⊢
  erw [← h]
  generalize List.foldlM (m := Except ArmMemory.Assertion) _
    (({ access_offsets_ := m.access_offsets_, initial_constraints := initial_constraints,
        returned := false }, []) : ArmMemory.OffsetsSt × List (List SymBool))
    (ArmMemory.nodata_pairs m.all_accesses_.length) = x
  cases x <;> rfl


/-- The inner loop of `generate_constraints_offsets_data` with its queries is the inner
loop. -/
theorem ArmMemory.data_find_logged_fst (solver : Solver) (all : List ArmMemory.Access)
    (ic : List SymBool) (deref_maps : List ArmMemory.DereferenceMap)
    (i_access : ArmMemory.Access) (i_addr : Nat) (js : List Nat) :
    ∀ log, (ArmMemory.data_find_logged solver all ic deref_maps i_access i_addr js log).1 =
      ArmMemory.data_find solver all ic deref_maps i_access i_addr js := by
  induction js with
  | nil => intro log; rfl
  | cons j js ih =>
    intro log
    unfold ArmMemory.data_find_logged ArmMemory.data_find
    cases h1 : all[j]? with
    | none => simp only []; exact ih _
    | some j_access =>
      cases h2 : deref_maps.head? with
      | none => simp only []; exact ih _
      | some deref_map =>
        simp only []
        cases h3 : deref_map j_access.deref with
        | none => simp only []; exact ih _
        | some j_addr =>
          simp only [ArmMemory.offset_check]
          split
          · exact ih _
          · split
            · rfl
            · exact ih _

/-- A fold that carries a log along projects to the fold without it. -/
theorem List.foldl_logged_fst {α β γ : Type} (f : α → γ → α) (g : α × β → γ → α × β)
    (h : ∀ st log i, (g (st, log) i).1 = f st i) (l : List γ) :
    ∀ st log, (l.foldl g (st, log)).1 = l.foldl f st := by
  induction l with
  | nil => intro st log; rfl
  | cons i is ih =>
    intro st log
    simp only [List.foldl_cons]
    rw [← h st log i]
    exact ih _ _

/-- The function `generate_constraints_offsets_data` with its queries gives the same
memory as the function. -/
theorem ArmMemory.offsets_data_logged_fst (m : ArmMemory) (ic : List SymBool)
    (deref_maps : List ArmMemory.DereferenceMap) :
    (ArmMemory.generate_constraints_offsets_data_logged m ic deref_maps).1 =
      ArmMemory.generate_constraints_offsets_data m ic deref_maps := by
  unfold ArmMemory.generate_constraints_offsets_data_logged
    ArmMemory.generate_constraints_offsets_data
  dsimp only
  congr 2
  refine List.foldl_logged_fst _ _ ?_ _ _ _
  intro st log i
  unfold ArmMemory.data_step_logged
  cases h1 : m.all_accesses_[i]? with
  | none => rfl
  | some i_access =>
    cases h2 : deref_maps.head? with
    | none => rfl
    | some deref_map =>
      simp only []
      cases h3 : deref_map i_access.deref with
      | none => rfl
      | some i_addr =>
        simp only [ArmMemory.data_find_logged_fst]
        cases ArmMemory.data_find m.solver_ m.all_accesses_ ic deref_maps i_access i_addr
          st.2.components <;> rfl


/-- With the stop flag set, the body of the loop of `generate_constraints_offsets_nodata`
makes no query and records no offset. -/
theorem ArmMemory.nodata_pair_stopped (solver : Solver) (a1 a2 : ArmMemory.Access)
    (i j : Nat) (st : ArmMemory.OffsetsSt) (log : List (List SymBool)) :
    ∃ st1, ArmMemory.nodata_pair_logged solver true a1 a2 i j st log = .ok (st1, log) ∧
      st1.access_offsets_ = st.access_offsets_ := by
  unfold ArmMemory.nodata_pair_logged
  by_cases hr : st.returned = true
  · exact ⟨st, by simp [hr], rfl⟩
  · exact ⟨{ st with
        initial_constraints :=
          st.initial_constraints ++ [SymBool.not (SymBool.eq a1.address a2.address)],
        returned := true }, by simp [hr], rfl⟩

/-- With the stop flag set, the loops of `generate_constraints_offsets_nodata` make no
query and record no offset. -/
theorem ArmMemory.nodata_fold_stopped (m : ArmMemory) (hstop : m.stop_now_ = true)
    (ps : List (Nat × Nat)) :
    ∀ (st : ArmMemory.OffsetsSt) (log : List (List SymBool)),
    ∃ st1, ps.foldlM (fun (s : ArmMemory.OffsetsSt × List (List SymBool)) (p : Nat × Nat) =>
        match m.all_accesses_[p.1]?, m.all_accesses_[p.2]? with
        | some a1, some a2 =>
          ArmMemory.nodata_pair_logged m.solver_ m.stop_now_ a1 a2 p.1 p.2 s.1 s.2
        | _, _ => .ok s) (st, log) = .ok (st1, log) ∧
      st1.access_offsets_ = st.access_offsets_ := by
  induction ps with
  | nil => intro st log; exact ⟨st, rfl, rfl⟩
  | cons p ps ih =>
    intro st log
    simp only [List.foldlM_cons]
    cases h1 : m.all_accesses_[p.1]? with
    | none =>
      simp only [bind, Except.bind]
      exact ih st log
    | some a1 =>
      cases h2 : m.all_accesses_[p.2]? with
      | none =>
        simp only [bind, Except.bind]
        exact ih st log
      | some a2 =>
        simp only [hstop]
        obtain ⟨st1, h3, h4⟩ := ArmMemory.nodata_pair_stopped m.solver_ a1 a2 p.1 p.2 st log
        rw [h3]
        simp only [bind, Except.bind]
        obtain ⟨st2, h5, h6⟩ := ih st1 log
        simp only [hstop] at h5
        exact ⟨st2, h5, h6.trans h4⟩

/-- With the stop flag set, `generate_constraints_offsets_nodata` returns the memory as
it was, having made no query. -/
theorem ArmMemory.offsets_nodata_stopped (m : ArmMemory) (hstop : m.stop_now_ = true)
    (ic : List SymBool) :
    ∃ ic1, ArmMemory.generate_constraints_offsets_nodata_logged m ic = .ok (m, ic1, []) := by
  unfold ArmMemory.generate_constraints_offsets_nodata_logged
  obtain ⟨st1, h1, h2⟩ := ArmMemory.nodata_fold_stopped m hstop
    (ArmMemory.nodata_pairs m.all_accesses_.length)
    { access_offsets_ := m.access_offsets_, initial_constraints := ic, returned := false } []
  simp only at h1 h2 ⊢
  erw [h1]
  simp only [h2]
  exact ⟨_, rfl⟩


/-- C22 (failing input): with the stop flag set, `generate_constraints_offsets_nodata`
makes no query and records no offset, `generate_constraints_enumerate_cells` returns the
memory as it was, without a cell more, and `generate_constraints_given_cells` and the
fast path add no constraint.  `generate_constraints_offsets_data` does not poll the
flag: on two accesses at the address 4096, with a test case that saw both there, it
sends the query "initial constraints and address + 0 != address" to the solver and
records the offset 0 both ways, with the flag set. -/
theorem ArmMemory.C22_data_mode_ignores_stop :
    (∀ (m : ArmMemory) (ic : List SymBool), m.stop_now_ = true →
      ∃ ic1, ArmMemory.generate_constraints_offsets_nodata_logged m ic = .ok (m, ic1, [])) ∧
    (∀ m : ArmMemory, m.stop_now_ = true →
      ArmMemory.generate_constraints_enumerate_cells m = some m) ∧
    (∀ (m am : ArmMemory) (ic : List SymBool) (ctr : Nat), m.stop_now_ = true →
      ArmMemory.generate_constraints_given_cells m am ic ctr = (m, am, ctr) ∧
      ArmMemory.generate_constraints_given_no_cell_overlap m am ctr = (true, m, am, ctr)) ∧
    ArmMemory.stopped.stop_now_ = true ∧
    (ArmMemory.generate_constraints_offsets_data_logged ArmMemory.stopped [SymBool._true]
        [ArmMemory.same_address_map]).2 =
      [[SymBool._true,
        ArmMemory.offset_check (ArmMemory.const_access 4096 false 1)
          (ArmMemory.const_access 4096 true 0) 0]] ∧
    ((ArmMemory.generate_constraints_offsets_data ArmMemory.stopped [SymBool._true]
        [ArmMemory.same_address_map]).access_offsets_ 1 0,
     (ArmMemory.generate_constraints_offsets_data ArmMemory.stopped [SymBool._true]
        [ArmMemory.same_address_map]).access_offsets_ 0 1) = (some 0, some 0) ∧
    (ArmMemory.stopped.access_offsets_ 1 0, ArmMemory.stopped.access_offsets_ 0 1) =
      (none, none) := by
  refine ⟨fun m ic h => ArmMemory.offsets_nodata_stopped m h ic, ?_, ?_, by rfl, by rfl, by rfl,
    by rfl⟩
  · intro m h
    simp [ArmMemory.generate_constraints_enumerate_cells, h]
  · intro m am ic ctr h
    simp [ArmMemory.generate_constraints_given_cells,
      ArmMemory.generate_constraints_given_no_cell_overlap, h]


/-- The negated size that `generate_constraints_offsets_nodata` records,
`(int64_t)-size/8`, is minus the byte size when the size is a multiple of 8. -/
theorem ArmMemory.neg_size_tdiv (size : Nat) :
    Int.tdiv (-(size : Int)) 8 = -(((size / 8 : Nat) : Int)) := by
  rw [Int.neg_tdiv]
  congr 1

/-- Truncating and flooring division agree on a size. -/
theorem ArmMemory.size_tdiv (size : Nat) : (size : Int).tdiv 8 = (size : Int) / 8 :=
  Int.tdiv_eq_ediv (Int.ofNat_nonneg size) (by norm_num)

/-- What the body of the loop of `generate_constraints_offsets_nodata` does for a pair
when the stop flag is clear and the sizes are multiples of 8: it asks up to three
questions in a fixed order, stops at the first that the solver does not find
satisfiable, and records the offset of that question and its negation. -/
theorem ArmMemory.nodata_pair_spec (solver : Solver) (a1 a2 : ArmMemory.Access) (i j : Nat)
    (st : ArmMemory.OffsetsSt) (log : List (List SymBool))
    (hr : st.returned = false) (h1 : a1.size % 8 = 0) (h2 : a2.size % 8 = 0) :
    let q_same := st.initial_constraints ++ [SymBool.not (SymBool.eq a1.address a2.address)]
    let q_a1first := st.initial_constraints ++
      [ArmMemory.offset_check a1 a2 ((a1.size / 8 : Nat) : Int)]
    let q_a2first := st.initial_constraints ++
      [ArmMemory.offset_check a2 a1 ((a2.size / 8 : Nat) : Int)]
    let record : Int → ArmMemory.OffsetsSt := fun d =>
      { st with access_offsets_ :=
          (ArmMemory.set_offset (ArmMemory.set_offset st.access_offsets_ i j d) j i (-d)) }
    ((solver q_same).is_sat = false ∧
      ArmMemory.nodata_pair_logged solver false a1 a2 i j st log =
        .ok (record 0, log ++ [q_same])) ∨
    ((solver q_same).is_sat = true ∧ (solver q_a1first).is_sat = false ∧
      ArmMemory.nodata_pair_logged solver false a1 a2 i j st log =
        .ok (record ((a1.size / 8 : Nat) : Int), log ++ [q_same, q_a1first])) ∨
    ((solver q_same).is_sat = true ∧ (solver q_a1first).is_sat = true ∧
      (solver q_a2first).is_sat = false ∧
      ArmMemory.nodata_pair_logged solver false a1 a2 i j st log =
        .ok (record (-((a2.size / 8 : Nat) : Int)), log ++ [q_same, q_a1first, q_a2first])) ∨
    ((solver q_same).is_sat = true ∧ (solver q_a1first).is_sat = true ∧
      (solver q_a2first).is_sat = true ∧
      ArmMemory.nodata_pair_logged solver false a1 a2 i j st log =
        .ok (st, log ++ [q_same, q_a1first, q_a2first])) := by
  intro q_same q_a1first q_a2first record
  unfold ArmMemory.nodata_pair_logged
  simp only [hr, h1, h2, Bool.false_eq_true, if_false, ne_eq, not_true_eq_false]
  cases hs : (solver q_same).is_sat
  · left
    refine ⟨rfl, ?_⟩
    simp only [q_same] at hs
    simp [hs, hr, record, q_same]
  · right
    cases hs1 : (solver q_a1first).is_sat
    · left
      refine ⟨rfl, rfl, ?_⟩
      simp only [q_same, q_a1first] at hs hs1
      simp [hs, hs1, hr, record, q_same, q_a1first, ArmMemory.size_tdiv]
    · right
      cases hs2 : (solver q_a2first).is_sat
      · left
        refine ⟨rfl, rfl, rfl, ?_⟩
        simp only [q_same, q_a1first, q_a2first] at hs hs1 hs2
        simp [hs, hs1, hs2, hr, record, q_same, q_a1first, q_a2first, ArmMemory.size_tdiv]
      · right
        refine ⟨rfl, rfl, rfl, ?_⟩
        simp only [q_same, q_a1first, q_a2first] at hs hs1 hs2
        simp [hs, hs1, hs2, q_same, q_a1first, q_a2first]


/-- When the inner loop of `generate_constraints_offsets_data` finds an offset, its last
query was the one for that offset, and the solver found it unsatisfiable without an
error. -/
theorem ArmMemory.data_find_logged_spec (solver : Solver) (all : List ArmMemory.Access)
    (ic : List SymBool) (deref_maps : List ArmMemory.DereferenceMap)
    (i_access : ArmMemory.Access) (i_addr : Nat) (js : List Nat) :
    ∀ (log : List (List SymBool)) (j diff : Nat) (log1 : List (List SymBool)),
    ArmMemory.data_find_logged solver all ic deref_maps i_access i_addr js log =
      (some (j, diff), log1) →
    ∃ j_access more, all[j]? = some j_access ∧
      log1 = log ++ more ++ [ic ++ [ArmMemory.offset_check i_access j_access (diff : Int)]] ∧
      (solver (ic ++ [ArmMemory.offset_check i_access j_access (diff : Int)])).is_sat = false ∧
      (solver (ic ++ [ArmMemory.offset_check i_access j_access (diff : Int)])).has_error
        = false := by
  induction js with
  | nil =>
    intro log j diff log1 h
    simp [ArmMemory.data_find_logged] at h
  | cons j0 js ih =>
    intro log j diff log1 h
    unfold ArmMemory.data_find_logged at h
    cases h1 : all[j0]? with
    | none =>
      rw [h1] at h
      obtain ⟨ja, more, h2, h3, h4⟩ := ih log j diff log1 h
      exact ⟨ja, more, h2, h3, h4⟩
    | some j_access =>
      cases h2 : deref_maps.head? with
      | none =>
        rw [h1, h2] at h
        exact ih log j diff log1 h
      | some deref_map =>
        rw [h1, h2] at h
        simp only [] at h
        cases h3 : deref_map j_access.deref with
        | none =>
          rw [h3] at h
          exact ih log j diff log1 h
        | some j_addr =>
          rw [h3] at h
          simp only [] at h
          split at h
          · exact ih log j diff log1 h
          · split at h
            · rename_i hq
              simp only [Prod.mk.injEq, Option.some.injEq] at h
              obtain ⟨⟨hj, hd⟩, hl⟩ := h
              subst hj hd hl
              simp only [Bool.and_eq_true, Bool.not_eq_true'] at hq
              exact ⟨j_access, [], h1, by simp, hq.1, hq.2⟩
            · obtain ⟨ja, more, h4, h5, h6⟩ := ih _ j diff log1 h
              refine ⟨ja, [ic ++ [ArmMemory.offset_check i_access j_access
                ((ArmMemory.diff64 j_addr i_addr : Nat) : Int)]] ++ more, h4, ?_, h6⟩
              rw [h5]
              simp only [List.append_assoc]

/-- The offset that `generate_constraints_offsets_data` records the other way round,
`-diff` computed in `uint64_t`, is minus the offset recorded, but for the offset
`-2^63`, which is its own negative in `int64_t`. -/
theorem ArmMemory.data_offset_neg (diff : Nat) (h : diff < 2 ^ 64) (h63 : diff ≠ 2 ^ 63) :
    s64 (ArmMemory.diff64 0 diff) = -(s64 diff) := by
  unfold s64 ArmMemory.diff64
  have e1 : diff % 2 ^ 64 = diff := Nat.mod_eq_of_lt h
  by_cases h0 : diff = 0
  · subst h0
    norm_num
  · have e2 : (0 + 2 ^ 64 - diff % 2 ^ 64) % 2 ^ 64 = 2 ^ 64 - diff := by
      rw [e1]
      exact Nat.mod_eq_of_lt (by omega)
    have e3 : (2 ^ 64 - diff) % 2 ^ 64 = 2 ^ 64 - diff := Nat.mod_eq_of_lt (by omega)
    rw [e2, e3, e1]
    split <;> split <;> omega


/-- The meaning of the check of an offset: under an assignment that gives both addresses
64 bits, `!(a.address + d == b.address)` says that the address of `a` plus `d`, modulo
2^64, is not the address of `b`. -/
theorem ArmMemory.offset_check_holds (env : Env) (a b : ArmMemory.Access) (d : Int)
    (ha : (a.address.eval env).w = 64) (hb : (b.address.eval env).w = 64) :
    (ArmMemory.offset_check a b d).holds env ↔
      (((a.address.eval env).v : Int) + d) % 2 ^ 64 ≠ ((b.address.eval env).v : Int) := by
  unfold ArmMemory.offset_check
  simp only [SymBool.holds, SymBitVector.eval, ha]
  have hk : ((((a.address.eval env).v + (d % 2 ^ 64).toNat) % 2 ^ 64 : Nat) : Int) =
      (((a.address.eval env).v : Int) + d) % 2 ^ 64 := by
    omega
  constructor
  · intro h hc
    apply h
    cases hbe : b.address.eval env with
    | mk w v =>
      rw [hbe] at hb hc
      simp only at hb hc
      subst hb
      congr 1
      omega
  · intro h hc
    apply h
    rw [← hc]
    exact hk.symm


/-- C26 (failing input): for a pair `i > j` whose sizes are multiples of 8, the mode
without sample data asks "same address", "a_i + size_i/8 = a_j", "a_j + size_j/8 = a_i"
in this order, stops at the first question that `is_sat` answers with false, and records
then the offset `d` (0, `size_i/8`, `-size_j/8`) at `[i][j]` together with `-d` at
`[j][i]`; the mode with sample data records an offset only after a query for it that the
solver found unsatisfiable without an error, and records minus the offset the other way
round; the formula of a query says that address plus offset is not the other address.
But the mode without sample data does not read the error flag: with a solver that times
out, the offset 0 is recorded between the unrelated registers `rax` and `rbx` after a
query that was not found unsatisfiable, and that an assignment satisfies. -/
theorem ArmMemory.C26_offset_recorded_on_timeout :
    (∀ (solver : Solver) (a1 a2 : ArmMemory.Access) (i j : Nat) (st : ArmMemory.OffsetsSt)
        (log : List (List SymBool)),
      st.returned = false → a1.size % 8 = 0 → a2.size % 8 = 0 →
      let q_same := st.initial_constraints ++ [SymBool.not (SymBool.eq a1.address a2.address)]
      let q_a1first := st.initial_constraints ++
        [ArmMemory.offset_check a1 a2 ((a1.size / 8 : Nat) : Int)]
      let q_a2first := st.initial_constraints ++
        [ArmMemory.offset_check a2 a1 ((a2.size / 8 : Nat) : Int)]
      let record : Int → ArmMemory.OffsetsSt := fun d =>
        { st with access_offsets_ :=
            (ArmMemory.set_offset (ArmMemory.set_offset st.access_offsets_ i j d) j i (-d)) }
      ((solver q_same).is_sat = false ∧
        ArmMemory.nodata_pair_logged solver false a1 a2 i j st log =
          .ok (record 0, log ++ [q_same])) ∨
      ((solver q_same).is_sat = true ∧ (solver q_a1first).is_sat = false ∧
        ArmMemory.nodata_pair_logged solver false a1 a2 i j st log =
          .ok (record ((a1.size / 8 : Nat) : Int), log ++ [q_same, q_a1first])) ∨
      ((solver q_same).is_sat = true ∧ (solver q_a1first).is_sat = true ∧
        (solver q_a2first).is_sat = false ∧
        ArmMemory.nodata_pair_logged solver false a1 a2 i j st log =
          .ok (record (-((a2.size / 8 : Nat) : Int)), log ++ [q_same, q_a1first, q_a2first])) ∨
      ((solver q_same).is_sat = true ∧ (solver q_a1first).is_sat = true ∧
        (solver q_a2first).is_sat = true ∧
        ArmMemory.nodata_pair_logged solver false a1 a2 i j st log =
          .ok (st, log ++ [q_same, q_a1first, q_a2first]))) ∧
    (∀ (solver : Solver) (all : List ArmMemory.Access) (ic : List SymBool)
        (deref_maps : List ArmMemory.DereferenceMap) (i_access : ArmMemory.Access)
        (i_addr : Nat) (js : List Nat) (log : List (List SymBool)) (j diff : Nat)
        (log1 : List (List SymBool)),
      ArmMemory.data_find_logged solver all ic deref_maps i_access i_addr js log =
        (some (j, diff), log1) →
      ∃ j_access more, all[j]? = some j_access ∧
        log1 = log ++ more ++ [ic ++ [ArmMemory.offset_check i_access j_access (diff : Int)]] ∧
        (solver (ic ++ [ArmMemory.offset_check i_access j_access (diff : Int)])).is_sat
          = false ∧
        (solver (ic ++ [ArmMemory.offset_check i_access j_access (diff : Int)])).has_error
          = false) ∧
    (∀ diff : Nat, diff < 2 ^ 64 → diff ≠ 2 ^ 63 →
      s64 (ArmMemory.diff64 0 diff) = -(s64 diff)) ∧
    (∀ (env : Env) (a b : ArmMemory.Access) (d : Int),
      (a.address.eval env).w = 64 → (b.address.eval env).w = 64 →
      ((ArmMemory.offset_check a b d).holds env ↔
        (((a.address.eval env).v : Int) + d) % 2 ^ 64 ≠ ((b.address.eval env).v : Int))) ∧
    (ArmMemory.generate_constraints_offsets_nodata_logged
        (ArmMemory.two_bytes ArmMemory.solver_timeout) [SymBool._true]).toOption.map
      (fun r => (r.1.access_offsets_ 1 0, r.1.access_offsets_ 0 1, r.2.2)) =
      some (some 0, some 0, [ArmMemory.two_bytes_query]) ∧
    (ArmMemory.solver_timeout ArmMemory.two_bytes_query).has_error = true ∧
    ArmMemory.distinct_env.sat ArmMemory.two_bytes_query := by
  refine ⟨?_, ?_, ArmMemory.data_offset_neg, ArmMemory.offset_check_holds, by rfl, by rfl, ?_⟩
  · intro solver a1 a2 i j st log hr h1 h2
    exact ArmMemory.nodata_pair_spec solver a1 a2 i j st log hr h1 h2
  · intro solver all ic deref_maps i_access i_addr js log j diff log1 h
    exact ArmMemory.data_find_logged_spec solver all ic deref_maps i_access i_addr js log j
      diff log1 h
  · intro c hc
    simp only [ArmMemory.two_bytes_query, List.mem_cons, List.mem_singleton,
      List.not_mem_nil, or_false] at hc
    rcases hc with rfl | rfl
    · exact True.intro
    · simp [SymBool.holds, SymBitVector.eval, ArmMemory.distinct_env]


/-! ## Cell enumeration and the offset graph -/

/-- An access that has a cell keeps it through the flood fill. -/
theorem ArmMemory.Ext.cell_at {m m1 : ArmMemory} (h : ArmMemory.Ext m m1) (i c : Nat)
    (hc : ArmMemory.cell_at m i = some c) : ArmMemory.cell_at m1 i = some c := by
  unfold ArmMemory.cell_at at hc ⊢
  cases ha : m.all_accesses_[i]? with
  | none => rw [ha] at hc; exact absurd hc (by simp)
  | some a =>
    rw [ha] at hc
    simp only at hc
    rw [h.2.2.2.2 i a ha (by rw [hc]; rfl)]
    exact hc

/-- An access whose neighbours all have cells keeps that property through the flood
fill. -/
theorem ArmMemory.Ext.nbrDone {m m1 : ArmMemory} (h : ArmMemory.Ext m m1) (i : Nat)
    (hd : ArmMemory.NbrDone m i) : ArmMemory.NbrDone m1 i := by
  intro j hj ho
  rw [h.1] at hj
  rw [h.2.2.2.1] at ho
  obtain ⟨c, hc⟩ := Option.isSome_iff_exists.mp (hd j hj ho)
  rw [h.cell_at j c hc]
  rfl

/-- The cells of the accesses after one assignment of the flood fill. -/
theorem ArmMemory.cell_at_assign_cell (m : ArmMemory) (i : Nat) (ai access : ArmMemory.Access)
    (c : Nat) (d : Int) (hi : m.all_accesses_[i]? = some ai) (x : Nat) :
    ArmMemory.cell_at (ArmMemory.assign_cell m i ai access c d) x =
      if x = i then some c else ArmMemory.cell_at m x := by
  obtain ⟨hlt, -⟩ := List.getElem?_eq_some_iff.mp hi
  unfold ArmMemory.cell_at
  simp only [ArmMemory.assign_cell]
  by_cases e : x = i
  · subst e
    rw [List.getElem?_set_self hlt]
    simp
  · rw [List.getElem?_set_ne (fun h => e h.symm)]
    simp [e]


/-- The flood fill from an access `k` of cell `c` returns (with enough fuel), preserves
every invariant of its assignments, gives every access that the table relates to `k` a
cell, and every access it assigns gets the cell `c` and has all its neighbours
assigned. -/
theorem ArmMemory.recurse_flood (P : ArmMemory → Prop) (hP : ArmMemory.AssignInvariant P) :
    ∀ (fuel : Nat) (m : ArmMemory) (k c : Nat), P m → m.stop_now_ = false →
      ArmMemory.unassigned m < fuel → ArmMemory.cell_at m k = some c →
      ∃ m1, ArmMemory.recurse_cell_assignment fuel m k = some m1 ∧ P m1 ∧ ArmMemory.Ext m m1 ∧
        ArmMemory.NbrDone m1 k ∧
        (∀ i c1, ArmMemory.cell_at m i = none → ArmMemory.cell_at m1 i = some c1 →
          c1 = c ∧ ArmMemory.NbrDone m1 i) := by
  intro fuel
  induction fuel with
  | zero => intro m k c _ _ h; exact absurd h (Nat.not_lt_zero _)
  | succ fuel ih =>
    intro m k c hPm hstop hfuel hk
    have loop : ∀ (is : List Nat) (mc : ArmMemory),
        (∀ i ∈ is, i < mc.all_accesses_.length) → P mc → mc.stop_now_ = false →
        ArmMemory.unassigned mc ≤ fuel → ArmMemory.cell_at mc k = some c →
        ∃ m1, is.foldlM (ArmMemory.recurse_body (ArmMemory.recurse_cell_assignment fuel) k) mc
            = some m1 ∧ P m1 ∧ ArmMemory.Ext mc m1 ∧
          (∀ i ∈ is, (mc.access_offsets_ k i).isSome = true →
            (ArmMemory.cell_at m1 i).isSome = true) ∧
          (∀ i c1, ArmMemory.cell_at mc i = none → ArmMemory.cell_at m1 i = some c1 →
            c1 = c ∧ ArmMemory.NbrDone m1 i) := by
      intro is
      induction is with
      | nil =>
        intro mc _ h _ _ _
        refine ⟨mc, rfl, h, ArmMemory.Ext.refl mc, ?_, ?_⟩
        · intro i hi
          exact absurd hi (List.not_mem_nil i)
        intro i c1 h1 h2
        rw [h1] at h2
        exact absurd h2 (by simp)
      | cons i is ihl =>
        intro mc hlen hPc hsc hu hkc
        have hi : i < mc.all_accesses_.length := hlen i (List.mem_cons_self _ _)
        obtain ⟨ai, hai⟩ : ∃ ai, mc.all_accesses_[i]? = some ai :=
          ⟨mc.all_accesses_[i], List.getElem?_eq_getElem hi⟩
        obtain ⟨access, hacc, hcell⟩ : ∃ access, mc.all_accesses_[k]? = some access ∧
            access.cell = some c := by
          unfold ArmMemory.cell_at at hkc
          cases ha : mc.all_accesses_[k]? with
          | none => rw [ha] at hkc; exact absurd hkc (by simp)
          | some a => rw [ha] at hkc; exact ⟨a, rfl, hkc⟩
        have hrest : ∀ j ∈ is, j < mc.all_accesses_.length :=
          fun j hj => hlen j (List.mem_cons_of_mem _ hj)
        have same : ArmMemory.recurse_body (ArmMemory.recurse_cell_assignment fuel) k mc i
            = some mc →
            ((mc.access_offsets_ k i).isSome = true → (ArmMemory.cell_at mc i).isSome = true) →
            ∃ m1, (i :: is).foldlM
              (ArmMemory.recurse_body (ArmMemory.recurse_cell_assignment fuel) k) mc
                = some m1 ∧ P m1 ∧ ArmMemory.Ext mc m1 ∧
              (∀ j ∈ i :: is, (mc.access_offsets_ k j).isSome = true →
                (ArmMemory.cell_at m1 j).isSome = true) ∧
              (∀ j c1, ArmMemory.cell_at mc j = none → ArmMemory.cell_at m1 j = some c1 →
                c1 = c ∧ ArmMemory.NbrDone m1 j) := by
          intro hb hdone
          rw [List.foldlM_cons_some _ _ _ _ _ hb]
          obtain ⟨m1, s1, s2, s3, s4, s5⟩ := ihl mc hrest hPc hsc hu hkc
          refine ⟨m1, s1, s2, s3, ?_, s5⟩
          intro j hj ho
          rcases List.mem_cons.mp hj with rfl | hj
          · obtain ⟨cj, hcj⟩ := Option.isSome_iff_exists.mp (hdone ho)
            rw [s3.cell_at _ cj hcj]
            rfl
          · exact s4 j hj ho
        by_cases hassigned : ai.cell.isSome = true
        · apply same
          · simp [ArmMemory.recurse_body, hsc, hai, hacc, hassigned]
          · intro _
            simp only [ArmMemory.cell_at, hai]
            exact hassigned
        · have hnone : ai.cell = none := by
            cases hc : ai.cell with
            | none => rfl
            | some x => rw [hc] at hassigned; exact absurd rfl hassigned
          cases hoff : mc.access_offsets_ k i with
          | none =>
            apply same
            · simp [ArmMemory.recurse_body, hsc, hai, hacc, hassigned, hoff]
            · intro h
              rw [hoff] at h
              exact absurd h (by simp)
          | some d =>
            obtain ⟨e1, e2, e3⟩ := ArmMemory.assign_cell_ext mc i ai access c d hai hnone
            have hca := ArmMemory.cell_at_assign_cell mc i ai access c d hai
            obtain ⟨m1, r1, r2, r3, r4, r5⟩ := ih (ArmMemory.assign_cell mc i ai access c d) i c
              (hP mc i k ai access c d hPc hai hnone hacc hcell hoff)
              (by rw [e1.2.2.1]; exact hsc) (by omega) (by rw [hca]; simp)
            have hb : ArmMemory.recurse_body (ArmMemory.recurse_cell_assignment fuel) k mc i
                = some m1 := by
              simp [ArmMemory.recurse_body, hsc, hai, hacc, hassigned, hoff, hcell, r1]
            rw [List.foldlM_cons_some _ _ _ _ _ hb]
            have e13 := ArmMemory.Ext.trans e1 r3
            obtain ⟨m2, s1, s2, s3, s4, s5⟩ := ihl m1
              (fun j hj => by rw [e13.1]; exact hrest j hj) r2
              (by rw [e13.2.2.1]; exact hsc) (le_trans e13.2.1 hu)
              (e13.cell_at k c hkc)
            refine ⟨m2, s1, s2, ArmMemory.Ext.trans e13 s3, ?_, ?_⟩
            · intro j hj ho
              rcases List.mem_cons.mp hj with rfl | hj
              · have : ArmMemory.cell_at m1 j = some c :=
                  r3.cell_at j c (by rw [hca]; simp)
                rw [s3.cell_at j c this]
                rfl
              · exact s4 j hj (by rw [e13.2.2.2.1]; exact ho)
            · intro j c1 hj1 hj2
              by_cases e : j = i
              · subst e
                have h1 : ArmMemory.cell_at m1 j = some c :=
                  r3.cell_at j c (by rw [hca]; simp)
                have h2 := s3.cell_at j c h1
                rw [h2] at hj2
                exact ⟨(Option.some.inj hj2).symm, s3.nbrDone j r4⟩
              · have hja : ArmMemory.cell_at (ArmMemory.assign_cell mc i ai access c d) j
                    = none := by
                  rw [hca, if_neg e]; exact hj1
                cases h1 : ArmMemory.cell_at m1 j with
                | none => exact s5 j c1 h1 hj2
                | some c2 =>
                  obtain ⟨q1, q2⟩ := r5 j c2 hja h1
                  have h2 := s3.cell_at j c2 h1
                  rw [h2] at hj2
                  exact ⟨(Option.some.inj hj2).symm.trans q1, s3.nbrDone j q2⟩
    unfold ArmMemory.recurse_cell_assignment
    simp only [hstop, Bool.false_eq_true, if_false]
    obtain ⟨m1, s1, s2, s3, s4, s5⟩ := loop (List.range m.all_accesses_.length) m
      (fun i hi => List.mem_range.mp hi) hPm hstop (by omega) hk
    refine ⟨m1, s1, s2, s3, ?_, s5⟩
    intro j hj ho
    rw [s3.1] at hj
    rw [s3.2.2.2.1] at ho
    exact s4 j (List.mem_range.mpr hj) ho


/-- The assignments of the flood fill do not change the number of cells. -/
theorem ArmMemory.cells_length_assign (L : Nat) :
    ArmMemory.AssignInvariant (fun m => m.cells_.length = L) := by
  intro m i k ai access cell_index d h _ _ _ _ _
  simp only [ArmMemory.assign_cell]
  split
  · exact h
  · rw [List.length_set]; exact h

/-- An access without a cell or beyond the list has no cell id. -/
theorem ArmMemory.cell_at_isSome_lt (m : ArmMemory) (i : Nat)
    (h : (ArmMemory.cell_at m i).isSome = true) : i < m.all_accesses_.length := by
  unfold ArmMemory.cell_at at h
  cases ha : m.all_accesses_[i]? with
  | none => rw [ha] at h; exact absurd h (by simp)
  | some a => exact (List.getElem?_eq_some_iff.mp ha).1

/-- One turn of loop (b) of `generate_constraints_enumerate_cells`, for access `k`. -/
theorem ArmMemory.anchor_flood_step (P : ArmMemory → Prop) (hP : ArmMemory.AssignInvariant P)
    (hA : ArmMemory.AnchorInvariant P) (fuel : Nat) (m : ArmMemory) (k : Nat)
    (hk : k < m.all_accesses_.length) (hPm : P m) (hstop : m.stop_now_ = false)
    (hfuel : m.all_accesses_.length < fuel) (hsym : ArmMemory.symmetric m.access_offsets_)
    (hF : ArmMemory.Flooded m k) :
    ∃ m1, ArmMemory.enumerate_anchor fuel m k = some m1 ∧ P m1 ∧ ArmMemory.Ext m m1 ∧
      ArmMemory.Flooded m1 (k + 1) := by
  obtain ⟨a, ha⟩ : ∃ a, m.all_accesses_[k]? = some a :=
    ⟨m.all_accesses_[k], List.getElem?_eq_getElem hk⟩
  by_cases hassigned : a.cell.isSome = true
  · refine ⟨m, by simp [ArmMemory.enumerate_anchor, ha, hassigned], hPm, ArmMemory.Ext.refl m,
      ?_, hF.closed, hF.edge_same, hF.order, ?_⟩
    · intro i hi hin
      by_cases e : i = k
      · subst e
        simp only [ArmMemory.cell_at, ha]
        exact hassigned
      · exact hF.done i (by omega) hin
    · intro c hc
      obtain ⟨i, h1, h2⟩ := hF.anchors c hc
      exact ⟨i, by omega, h2⟩
  · have hnone : a.cell = none := by
      cases hc : a.cell with
      | none => rfl
      | some x => rw [hc] at hassigned; exact absurd rfl hassigned
    have hk0 : ArmMemory.cell_at m k = none := by
      simp only [ArmMemory.cell_at, ha]
      exact hnone
    obtain ⟨e1, e2⟩ := ArmMemory.anchor_ext m k a
      { ArmMemory.Cell.init a.address with
        index := m.cells_.length
        tmp_min_offset := 0
        tmp_max_offset := ((a.size / 8 : Nat) : Int) } m.cells_.length ha hnone
    have hget : (m.all_accesses_.set k
          { a with cell := some m.cells_.length, cell_offset := 0 })[k]?
        = some { a with cell := some m.cells_.length, cell_offset := 0 } :=
      List.getElem?_set_self hk
    have hle : ArmMemory.unassigned m ≤ m.all_accesses_.length := List.countP_le_length _
    have hother : ∀ x, x ≠ k → ArmMemory.cell_at
        { m with
          cells_ := m.cells_ ++ [{ ArmMemory.Cell.init a.address with
            index := m.cells_.length
            tmp_min_offset := 0
            tmp_max_offset := ((a.size / 8 : Nat) : Int) }]
          all_accesses_ := m.all_accesses_.set k
            { a with cell := some m.cells_.length, cell_offset := 0 } } x
        = ArmMemory.cell_at m x := by
      intro x hx
      simp only [ArmMemory.cell_at]
      rw [List.getElem?_set_ne (fun h => hx h.symm)]
    obtain ⟨m1, r1, r2, r3, r4, r5⟩ := ArmMemory.recurse_flood
      (fun x => P x ∧ x.cells_.length = m.cells_.length + 1)
      (ArmMemory.assignInvariant_conj hP (ArmMemory.cells_length_assign _)) fuel _ k
      m.cells_.length ⟨hA m k a hPm ha hnone, by simp⟩ hstop (by omega)
      (by simp only [ArmMemory.cell_at, hget])
    have e13 := ArmMemory.Ext.trans e1 r3
    have hstep : ArmMemory.enumerate_anchor fuel m k = some m1 := by
      unfold ArmMemory.enumerate_anchor
      simp only [ha, hnone, Option.isSome_none, Bool.false_eq_true, if_false]
      exact r1
    have hk1 : ArmMemory.cell_at m1 k = some m.cells_.length :=
      r3.cell_at k _ (by simp only [ArmMemory.cell_at, hget])
    -- an access that gets its cell in this turn gets the new cell
    have hnew : ∀ x c1, ArmMemory.cell_at m x = none → ArmMemory.cell_at m1 x = some c1 →
        c1 = m.cells_.length ∧ ArmMemory.NbrDone m1 x ∧ k ≤ x := by
      intro x c1 h0 h1
      have hge : k ≤ x := by
        by_contra hlt
        have := hF.done x (by omega)
          (by rw [← e13.1]; exact ArmMemory.cell_at_isSome_lt m1 x (by rw [h1]; rfl))
        rw [h0] at this
        exact absurd this (by simp)
      by_cases e : x = k
      · subst e
        rw [hk1] at h1
        exact ⟨(Option.some.inj h1).symm, r4, hge⟩
      · obtain ⟨q1, q2⟩ := r5 x c1 (by rw [hother x e]; exact h0) h1
        exact ⟨q1, q2, hge⟩
    refine ⟨m1, hstep, r2.1, e13, ?_, ?_, ?_, ?_, ?_⟩
    · intro i hi hin
      by_cases e : i = k
      · subst e
        rw [hk1]; rfl
      · rw [e13.1] at hin
        obtain ⟨c, hc⟩ := Option.isSome_iff_exists.mp (hF.done i (by omega) hin)
        rw [e13.cell_at i c hc]; rfl
    · intro i hi
      cases h0 : ArmMemory.cell_at m i with
      | some c => exact e13.nbrDone i (hF.closed i (by rw [h0]; rfl))
      | none =>
        obtain ⟨c1, hc1⟩ := Option.isSome_iff_exists.mp hi
        exact (hnew i c1 h0 hc1).2.1
    · intro i j c1 c2 hi hj ho
      rw [e13.2.2.2.1] at ho
      cases h0 : ArmMemory.cell_at m i with
      | some c =>
        obtain ⟨cj, hcj⟩ := Option.isSome_iff_exists.mp (hF.closed i (by rw [h0]; rfl) j
          (by rw [← e13.1]; exact ArmMemory.cell_at_isSome_lt m1 j (by rw [hj]; rfl)) ho)
        have h1 := e13.cell_at i c h0
        have h2 := e13.cell_at j cj hcj
        rw [h1] at hi
        rw [h2] at hj
        rw [← Option.some.inj hi, ← Option.some.inj hj]
        exact hF.edge_same i j c cj h0 hcj ho
      | none =>
        have hi1 := (hnew i c1 h0 hi).1
        cases h0j : ArmMemory.cell_at m j with
        | some cj =>
          exfalso
          have := hF.closed j (by rw [h0j]; rfl) i
            (by rw [← e13.1]; exact ArmMemory.cell_at_isSome_lt m1 i (by rw [hi]; rfl))
            (hsym i j ho)
          rw [h0] at this
          exact absurd this (by simp)
        | none => rw [hi1, (hnew j c2 h0j hj).1]
    · intro j cj hj c hc
      cases h0 : ArmMemory.cell_at m j with
      | some c0 =>
        have h1 := e13.cell_at j c0 h0
        rw [h1] at hj
        have hcc : c0 = cj := Option.some.inj hj
        subst hcc
        obtain ⟨i, q1, q2⟩ := hF.order j c0 h0 c hc
        exact ⟨i, q1, e13.cell_at i c q2⟩
      | none =>
        obtain ⟨q1, -, q3⟩ := hnew j cj h0 hj
        subst q1
        obtain ⟨i, p1, p2⟩ := hF.anchors c hc
        exact ⟨i, by omega, e13.cell_at i c p2⟩
    · intro c hc
      rw [r2.2] at hc
      by_cases e : c = m.cells_.length
      · subst e
        exact ⟨k, by omega, hk1⟩
      · obtain ⟨i, p1, p2⟩ := hF.anchors c (by omega)
        exact ⟨i, by omega, e13.cell_at i c p2⟩


/-- Loop (b) of `generate_constraints_enumerate_cells` up to access `k`. -/
theorem ArmMemory.anchor_flood_loop (P : ArmMemory → Prop) (hP : ArmMemory.AssignInvariant P)
    (hA : ArmMemory.AnchorInvariant P) (fuel : Nat) (m : ArmMemory) (hPm : P m)
    (hstop : m.stop_now_ = false) (hfuel : m.all_accesses_.length < fuel)
    (hsym : ArmMemory.symmetric m.access_offsets_) (hF : ArmMemory.Flooded m 0) :
    ∀ k, k ≤ m.all_accesses_.length →
      ∃ m1, (List.range k).foldlM (ArmMemory.enumerate_anchor fuel) m = some m1 ∧ P m1 ∧
        ArmMemory.Ext m m1 ∧ ArmMemory.Flooded m1 k := by
  intro k
  induction k with
  | zero => intro _; exact ⟨m, rfl, hPm, ArmMemory.Ext.refl m, hF⟩
  | succ k ih =>
    intro hk
    obtain ⟨m1, r1, r2, r3, r4⟩ := ih (by omega)
    obtain ⟨m2, s1, s2, s3, s4⟩ := ArmMemory.anchor_flood_step P hP hA fuel m1 k
      (by rw [r3.1]; omega) r2 (by rw [r3.2.2.1]; exact hstop) (by rw [r3.1]; exact hfuel)
      (by rw [r3.2.2.2.1]; exact hsym) r4
    refine ⟨m2, ?_, s2, ArmMemory.Ext.trans r3 s3, s4⟩
    rw [List.range_succ, List.foldlM_append, r1]
    simp only [Option.bind_eq_bind, Option.some_bind, List.foldlM_cons, List.foldlM_nil, s1]
    rfl


/-- The flood fill assigns only ids of cells, and only to connected accesses. -/
theorem ArmMemory.graphInv_assign :
    ArmMemory.AssignInvariant (fun m => ArmMemory.IdsBelow m ∧ ArmMemory.SameConn m) := by
  intro m i k ai access cell_index d hPm hi hn hk hc ho
  obtain ⟨hids, hconn⟩ := hPm
  have hca := ArmMemory.cell_at_assign_cell m i ai access cell_index d hi
  have hlen : (ArmMemory.assign_cell m i ai access cell_index d).cells_.length
      = m.cells_.length :=
    ArmMemory.cells_length_assign m.cells_.length m i k ai access cell_index d rfl hi hn hk hc ho
  have hkc : ArmMemory.cell_at m k = some cell_index := by
    simp only [ArmMemory.cell_at, hk]; exact hc
  have hil : i < m.all_accesses_.length := (List.getElem?_eq_some_iff.mp hi).1
  have hkl : k < m.all_accesses_.length := (List.getElem?_eq_some_iff.mp hk).1
  have hedge : ArmMemory.Connected m.access_offsets_ m.all_accesses_.length k i :=
    Relation.EqvGen.rel _ _ ⟨hkl, hil, by rw [ho]; rfl⟩
  have hn1 : (ArmMemory.assign_cell m i ai access cell_index d).all_accesses_.length
      = m.all_accesses_.length := by
    simp only [ArmMemory.assign_cell, List.length_set]
  have ho1 : (ArmMemory.assign_cell m i ai access cell_index d).access_offsets_
      = m.access_offsets_ := rfl
  constructor
  · intro x c hx
    rw [hca] at hx
    rw [hlen]
    by_cases e : x = i
    · rw [if_pos e] at hx
      rw [← Option.some.inj hx]
      exact hids k cell_index hkc
    · rw [if_neg e] at hx
      exact hids x c hx
  · intro x y c hx hy
    rw [hca] at hx hy
    rw [hn1, ho1]
    by_cases ex : x = i
    · rw [if_pos ex] at hx
      have hcc : cell_index = c := Option.some.inj hx
      by_cases ey : y = i
      · rw [ex, ey]
        exact Relation.EqvGen.refl _
      · rw [if_neg ey] at hy
        rw [ex]
        exact Relation.EqvGen.trans _ _ _ (Relation.EqvGen.symm _ _ hedge)
          (hconn k y c (by rw [hkc, hcc]) hy)
    · rw [if_neg ex] at hx
      by_cases ey : y = i
      · rw [if_pos ey] at hy
        have hcc : cell_index = c := Option.some.inj hy
        rw [ey]
        exact Relation.EqvGen.trans _ _ _ (hconn x k c hx (by rw [hkc, hcc])) hedge
      · rw [if_neg ey] at hy
        exact hconn x y c hx hy

/-- Opening a cell at an anchor keeps the ids in range and the cells connected. -/
theorem ArmMemory.graphInv_anchor :
    ArmMemory.AnchorInvariant (fun m => ArmMemory.IdsBelow m ∧ ArmMemory.SameConn m) := by
  intro m i a hPm hi hn
  obtain ⟨hids, hconn⟩ := hPm
  have hil : i < m.all_accesses_.length := (List.getElem?_eq_some_iff.mp hi).1
  have hca : ∀ x, ArmMemory.cell_at
      { m with
        cells_ := m.cells_ ++ [{ ArmMemory.Cell.init a.address with
          index := m.cells_.length
          tmp_min_offset := 0
          tmp_max_offset := ((a.size / 8 : Nat) : Int) }]
        all_accesses_ := m.all_accesses_.set i
          { a with cell := some m.cells_.length, cell_offset := 0 } } x
      = if x = i then some m.cells_.length else ArmMemory.cell_at m x := by
    intro x
    simp only [ArmMemory.cell_at]
    by_cases e : x = i
    · subst e
      rw [List.getElem?_set_self hil]
      simp
    · rw [List.getElem?_set_ne (fun h => e h.symm)]
      simp [e]
  constructor
  · intro x c hx
    rw [hca] at hx
    simp only [List.length_append, List.length_singleton]
    by_cases e : x = i
    · rw [if_pos e] at hx
      have := Option.some.inj hx
      omega
    · rw [if_neg e] at hx
      have := hids x c hx
      omega
  · intro x y c hx hy
    rw [hca] at hx hy
    simp only [List.length_set]
    by_cases ex : x = i
    · rw [if_pos ex] at hx
      by_cases ey : y = i
      · rw [ex, ey]
        exact Relation.EqvGen.refl _
      · rw [if_neg ey] at hy
        have h1 := hids y c hy
        have h2 := Option.some.inj hx
        omega
    · rw [if_neg ex] at hx
      by_cases ey : y = i
      · rw [if_pos ey] at hy
        have h1 := hids x c hx
        have h2 := Option.some.inj hy
        omega
      · rw [if_neg ey] at hy
        exact hconn x y c hx hy


/-- Loop (c) of `generate_constraints_enumerate_cells` keeps the cell of every access. -/
theorem ArmMemory.rebase_cell (cells : List ArmMemory.Cell) (j : Nat) (a : ArmMemory.Access) :
    (ArmMemory.rebase cells j a).cell = a.cell := by
  unfold ArmMemory.rebase
  cases hc : a.cell with
  | none => simp [hc]
  | some id =>
    simp only
    split
    · split
      · exact hc
      · rfl
    · exact hc

/-- The cell ids after loop (c) are those after loop (b). -/
theorem ArmMemory.cell_at_finish_all (m2 : ArmMemory) (i : Nat) :
    ArmMemory.cell_at (ArmMemory.finish_all m2) i = ArmMemory.cell_at m2 i := by
  simp only [ArmMemory.cell_at, ArmMemory.finish_all, List.getElem?_map]
  cases m2.all_accesses_[i]? with
  | none => rfl
  | some a => simp [ArmMemory.rebase_cell]

/-- No access has a cell after step (a) of `generate_constraints_enumerate_cells`. -/
theorem ArmMemory.cell_at_reset (m : ArmMemory) (i : Nat) :
    ArmMemory.cell_at (ArmMemory.enumerate_reset m) i = none := by
  simp only [ArmMemory.cell_at, ArmMemory.enumerate_reset, List.getElem?_mapIdx]
  cases m.all_accesses_[i]? <;> rfl

/-- Cell enumeration on a symmetric offset table: the function returns, and the memory
after loop (b) satisfies the invariants of the flood fill. -/
theorem ArmMemory.enumerate_cells_flooded (m : ArmMemory) (hstop : m.stop_now_ = false)
    (hcells : m.cells_ = []) (hsym : ArmMemory.symmetric m.access_offsets_) :
    ∃ m2, ArmMemory.generate_constraints_enumerate_cells m = some (ArmMemory.finish_all m2) ∧
      ArmMemory.IdsBelow m2 ∧ ArmMemory.SameConn m2 ∧
      m2.all_accesses_.length = m.all_accesses_.length ∧
      m2.access_offsets_ = m.access_offsets_ ∧
      ArmMemory.Flooded m2 m.all_accesses_.length := by
  have hlen : (ArmMemory.enumerate_reset m).all_accesses_.length = m.all_accesses_.length := by
    simp [ArmMemory.enumerate_reset]
  have hnone := ArmMemory.cell_at_reset m
  have hP0 : (ArmMemory.IdsBelow (ArmMemory.enumerate_reset m) ∧
      ArmMemory.SameConn (ArmMemory.enumerate_reset m)) ∧
      ArmMemory.IndexInv (ArmMemory.enumerate_reset m) := by
    refine ⟨⟨?_, ?_⟩, ?_⟩
    · intro i c h
      rw [hnone] at h
      exact absurd h (by simp)
    · intro i j c h
      rw [hnone] at h
      exact absurd h (by simp)
    · intro id c hc
      simp [ArmMemory.enumerate_reset, hcells] at hc
  have hF0 : ArmMemory.Flooded (ArmMemory.enumerate_reset m) 0 := by
    refine ⟨fun i hi _ => absurd hi (Nat.not_lt_zero i), ?_, ?_, ?_, ?_⟩
    · intro i h
      rw [hnone] at h
      exact absurd h (by simp)
    · intro i j c1 c2 h
      rw [hnone] at h
      exact absurd h (by simp)
    · intro j cj h
      rw [hnone] at h
      exact absurd h (by simp)
    · intro c hc
      simp [ArmMemory.enumerate_reset, hcells] at hc
  obtain ⟨m2, r1, r2, r3, r4⟩ := ArmMemory.anchor_flood_loop
    (fun m => (ArmMemory.IdsBelow m ∧ ArmMemory.SameConn m) ∧ ArmMemory.IndexInv m)
    (ArmMemory.assignInvariant_conj ArmMemory.graphInv_assign ArmMemory.indexInv_assign)
    (ArmMemory.anchorInvariant_conj ArmMemory.graphInv_anchor ArmMemory.indexInv_anchor)
    ((ArmMemory.enumerate_reset m).all_accesses_.length + 1) (ArmMemory.enumerate_reset m)
    hP0 hstop (by omega) hsym hF0 (ArmMemory.enumerate_reset m).all_accesses_.length
    (le_refl _)
  rw [hlen] at r4
  refine ⟨m2, ?_, r2.1.1, r2.1.2, r3.1.trans hlen, r3.2.2.2.1, r4⟩
  unfold ArmMemory.generate_constraints_enumerate_cells
  simp only [hstop, Bool.false_eq_true, if_false, r1]
  rw [ArmMemory.enumerate_finish_prefix m2 r2.2 _ (le_refl _)]
  have : m2.cells_.mapIdx (fun id c => if id < m2.cells_.length then c.finished else c)
      = m2.cells_.map ArmMemory.Cell.finished := by
    apply List.ext_getElem?
    intro n
    simp only [List.getElem?_mapIdx, List.getElem?_map]
    cases hn : m2.cells_[n]? with
    | none => rfl
    | some c =>
      have : n < m2.cells_.length := (List.getElem?_eq_some_iff.mp hn).1
      simp [this]
  rw [this]
  rfl


/-- C25: on a symmetric offset table, with the stop flag clear and the cells cleared,
`generate_constraints_enumerate_cells` returns; every access gets the id of a cell; two
accesses have the same cell id exactly when they are connected in the offset graph; the
number of cells is the number of connected components; and below an access of cell `cj`
there is an access of every cell `c < cj`, that is, the cells are numbered in the order
of the lowest index of their accesses. -/
theorem ArmMemory.C25_cells_are_components (m : ArmMemory) (hstop : m.stop_now_ = false)
    (hcells : m.cells_ = []) (hsym : ArmMemory.symmetric m.access_offsets_) :
    ∃ m1, ArmMemory.generate_constraints_enumerate_cells m = some m1 ∧
      m1.all_accesses_.length = m.all_accesses_.length ∧
      (∀ i, i < m.all_accesses_.length →
        ∃ c, ArmMemory.cell_at m1 i = some c ∧ c < m1.cells_.length) ∧
      (∀ i j, i < m.all_accesses_.length → j < m.all_accesses_.length →
        (ArmMemory.cell_at m1 i = ArmMemory.cell_at m1 j ↔
          ArmMemory.Connected m.access_offsets_ m.all_accesses_.length i j)) ∧
      Nat.card (Quotient (ArmMemory.component_setoid m.access_offsets_ m.all_accesses_.length))
        = m1.cells_.length ∧
      (∀ j cj, ArmMemory.cell_at m1 j = some cj → ∀ c, c < cj →
        ∃ i, i < j ∧ ArmMemory.cell_at m1 i = some c) := by
  obtain ⟨m2, r1, hids, hconn, hlen, hoffs, hF⟩ :=
    ArmMemory.enumerate_cells_flooded m hstop hcells hsym
  have hconn1 : ∀ i j c, ArmMemory.cell_at m2 i = some c → ArmMemory.cell_at m2 j = some c →
      ArmMemory.Connected m.access_offsets_ m.all_accesses_.length i j := by
    intro i j c hi hj
    have := hconn i j c hi hj
    rw [hlen, hoffs] at this
    exact this
  have hL : (ArmMemory.finish_all m2).cells_.length = m2.cells_.length := by
    simp [ArmMemory.finish_all]
  have hdone : ∀ i, i < m.all_accesses_.length →
      ∃ c, ArmMemory.cell_at m2 i = some c ∧ c < m2.cells_.length := by
    intro i hi
    obtain ⟨c, hc⟩ := Option.isSome_iff_exists.mp (hF.done i hi (by rw [hlen]; exact hi))
    exact ⟨c, hc, hids i c hc⟩
  have hsame : ∀ x y, ArmMemory.Connected m.access_offsets_ m.all_accesses_.length x y →
      ArmMemory.cell_at m2 x = ArmMemory.cell_at m2 y := by
    intro x y h
    induction h with
    | rel a b hab =>
      obtain ⟨ha, hb, ho⟩ := hab
      obtain ⟨c1, hc1, -⟩ := hdone a ha
      obtain ⟨c2, hc2, -⟩ := hdone b hb
      rw [hc1, hc2, hF.edge_same a b c1 c2 hc1 hc2 (by rw [hoffs]; exact ho)]
    | refl a => rfl
    | symm a b _ ih => exact ih.symm
    | trans a b c _ _ ih1 ih2 => exact ih1.trans ih2
  have hiff : ∀ i j, i < m.all_accesses_.length → j < m.all_accesses_.length →
      (ArmMemory.cell_at m2 i = ArmMemory.cell_at m2 j ↔
        ArmMemory.Connected m.access_offsets_ m.all_accesses_.length i j) := by
    intro i j hi hj
    constructor
    · intro h
      obtain ⟨c, hc, -⟩ := hdone i hi
      exact hconn1 i j c hc (by rw [← h]; exact hc)
    · exact hsame i j
  refine ⟨ArmMemory.finish_all m2, r1, ?_, ?_, ?_, ?_, ?_⟩
  · simp only [ArmMemory.finish_all, List.length_map]
    exact hlen
  · intro i hi
    rw [ArmMemory.cell_at_finish_all, hL]
    exact hdone i hi
  · intro i j hi hj
    rw [ArmMemory.cell_at_finish_all, ArmMemory.cell_at_finish_all]
    exact hiff i j hi hj
  · rw [hL]
    have hlt : ∀ a : Fin m.all_accesses_.length,
        (ArmMemory.cell_at m2 a.val).getD 0 < m2.cells_.length := by
      intro a
      obtain ⟨c, hc, hcl⟩ := hdone a.val a.isLt
      rw [hc]
      exact hcl
    let f0 : Fin m.all_accesses_.length → Fin m2.cells_.length :=
      fun a => ⟨(ArmMemory.cell_at m2 a.val).getD 0, hlt a⟩
    have hresp : ∀ a b : Fin m.all_accesses_.length,
        (ArmMemory.component_setoid m.access_offsets_ m.all_accesses_.length).r a b →
        f0 a = f0 b := by
      intro a b hab
      apply Fin.ext
      show (ArmMemory.cell_at m2 a.val).getD 0 = (ArmMemory.cell_at m2 b.val).getD 0
      rw [hsame a.val b.val hab]
    have hbij : Function.Bijective
        (Quotient.lift f0 hresp :
          Quotient (ArmMemory.component_setoid m.access_offsets_ m.all_accesses_.length) →
            Fin m2.cells_.length) := by
      constructor
      · intro qa qb
        refine Quotient.inductionOn₂ qa qb ?_
        intro a b hab
        apply Quotient.sound
        have hv : (ArmMemory.cell_at m2 a.val).getD 0 = (ArmMemory.cell_at m2 b.val).getD 0 :=
          congrArg Fin.val hab
        obtain ⟨c1, hc1, -⟩ := hdone a.val a.isLt
        obtain ⟨c2, hc2, -⟩ := hdone b.val b.isLt
        rw [hc1, hc2] at hv
        simp only [Option.getD_some] at hv
        exact (hiff a.val b.val a.isLt b.isLt).mp (by rw [hc1, hc2, hv])
      · intro c
        obtain ⟨i, hi, hc⟩ := hF.anchors c.val c.isLt
        refine ⟨Quotient.mk _ ⟨i, hi⟩, ?_⟩
        apply Fin.ext
        show (ArmMemory.cell_at m2 i).getD 0 = c.val
        rw [hc]
        rfl
    rw [Nat.card_eq_of_bijective _ hbij, Nat.card_eq_fintype_card, Fintype.card_fin]
  · intro j cj hj c hc
    rw [ArmMemory.cell_at_finish_all] at hj
    obtain ⟨i, h1, h2⟩ := hF.order j cj hj c hc
    exact ⟨i, h1, by rw [ArmMemory.cell_at_finish_all]; exact h2⟩


/-- The offset table of `linked` is symmetric. -/
theorem ArmMemory.linked_symmetric : ArmMemory.symmetric ArmMemory.linked.access_offsets_ := by
  intro i j h
  obtain ⟨d, hd⟩ := Option.isSome_iff_exists.mp h
  rcases ArmMemory.linked_table i j d hd with ⟨rfl, rfl, -⟩ | ⟨rfl, rfl, -⟩ <;> rfl

/-- C25 (witness): the memory `linked`, whose accesses 0 and 1 are related and whose
access 2 is on its own. -/
theorem ArmMemory.C25_cells_are_components_witness :
    ArmMemory.linked.stop_now_ = false ∧ ArmMemory.linked.cells_ = [] ∧
    ∃ m1, ArmMemory.generate_constraints_enumerate_cells ArmMemory.linked = some m1 ∧
      m1.all_accesses_.length = ArmMemory.linked.all_accesses_.length ∧
      (∀ i, i < ArmMemory.linked.all_accesses_.length →
        ∃ c, ArmMemory.cell_at m1 i = some c ∧ c < m1.cells_.length) ∧
      (∀ i j, i < ArmMemory.linked.all_accesses_.length →
        j < ArmMemory.linked.all_accesses_.length →
        (ArmMemory.cell_at m1 i = ArmMemory.cell_at m1 j ↔
          ArmMemory.Connected ArmMemory.linked.access_offsets_
            ArmMemory.linked.all_accesses_.length i j)) ∧
      Nat.card (Quotient (ArmMemory.component_setoid ArmMemory.linked.access_offsets_
          ArmMemory.linked.all_accesses_.length)) = m1.cells_.length ∧
      (∀ j cj, ArmMemory.cell_at m1 j = some cj → ∀ c, c < cj →
        ∃ i, i < j ∧ ArmMemory.cell_at m1 i = some c) :=
  ⟨rfl, rfl, ArmMemory.C25_cells_are_components ArmMemory.linked rfl rfl
    ArmMemory.linked_symmetric⟩


/-! ## The check for overlapping cells -/

set_option maxRecDepth 100000 in
/-- C24 (counterexample): a two-byte access at the constant address `2^64 - 1` and a
one-byte access at the constant address 0 get a cell each.  The range of the first cell
runs from `2^64 - 1` to 0, that of the second from 0 to 0; the comparison of the end
points finds them apart, the solver is right to find its negation unsatisfiable, and
`check_nonoverlapping` returns true.  Yet byte 1 of the first access and byte 0 of the
second are both at address 0. -/
theorem ArmMemory.C24_wrapping_cell_overlaps :
    ArmMemory.generate_constraints_enumerate_cells ArmMemory.wrapping
      = some ArmMemory.wrapping_cells ∧
    Solver.sound ArmMemory.wrapping_cells.solver_ ∧
    ArmMemory.check_nonoverlapping ArmMemory.wrapping_cells [SymBool._true] = true ∧
    ArmMemory.linked_env.sat [SymBool._true] ∧
    ArmMemory.wrapping_cells.all_accesses_.map (fun a => (a.cell, a.cell_offset, a.size))
      = [(some 0, 0, 16), (some 1, 0, 8)] ∧
    ArmMemory.wrapping_cells.cells_.map
      (fun c => ((c.address.eval ArmMemory.linked_env).v, c.size))
      = [(2 ^ 64 - 1, 2), (0, 1)] ∧
    (2 ^ 64 - 1 + u64 (0 + 1)) % 2 ^ 64 = (0 + u64 (0 + 0)) % 2 ^ 64 := by
  refine ⟨by rfl, ArmMemory.solver_fold_sound, by rfl, ?_, by rfl, by decide!, by decide⟩
  intro c hc
  simp only [List.mem_singleton] at hc
  subst hc
  exact trivial


/-- A memory laid out as cell enumeration promises has every access inside its cell. -/
theorem ArmMemory.Layout.inside (env : Env) (m' : ArmMemory) (hL : ArmMemory.Layout env m') :
    ArmMemory.Inside env m' := by
  intro a ha
  obtain ⟨id, c, e1, -, e3, e4, e5, -, e7⟩ := hL a ha
  exact ⟨id, c, e1, e3, e4, e5, e7⟩

/-- When no cell wraps around and every access lies inside its cell, byte `k` of an
access, at its offset from the address of its cell, lies between the first and the last
address of one of the ranges recorded for the cell. -/
theorem ArmMemory.run_bounds_inside (env : Env) (m' : ArmMemory)
    (hI : ArmMemory.Inside env m')
    (a : ArmMemory.Access) (ha : a ∈ m'.all_accesses_) (id : Nat) (c : ArmMemory.Cell)
    (hid : a.cell = some id) (hc : m'.cells_[id]? = some c)
    (hnowrap : (c.address.eval env).v + c.size ≤ 2 ^ 64) (k : Nat) (hk : k < a.size / 8) :
    ∃ r ∈ (ArmMemory.ranges m').getD id [],
      (r.1.eval env).v ≤ (c.address.eval env).v + u64 (a.cell_offset + (k : Int)) ∧
      (c.address.eval env).v + u64 (a.cell_offset + (k : Int)) ≤ (r.2.eval env).v ∧
      (c.address.eval env).v + u64 (a.cell_offset + (k : Int)) < 2 ^ 64 := by
  obtain ⟨id', c', e1, e3, e4, e5, e7⟩ := hI a ha
  rw [hid] at e1
  injection e1 with e1
  subst e1
  rw [hc] at e3
  injection e3 with e3
  subst e3
  have hkey := ArmMemory.cell_key_of_cell a id hid
  obtain ⟨uf, low, hr, hlo, hhi, -, ⟨a', ha', hkey', k', hk', hhigh⟩⟩ :=
    ArmMemory.touched_in_range m' a ha k hk c (by rw [hkey]; exact hc)
  rw [hkey] at hr
  have hsz : ((c.size : Nat) : Int) ≤ 2 ^ 64 := by
    have : c.size ≤ 2 ^ 64 := by omega
    exact_mod_cast this
  have hoff : ((u64 (a.cell_offset + (k : Int)) : Nat) : Int) = a.cell_offset + (k : Int) := by
    apply u64_of_range
    · omega
    · omega
  obtain ⟨id2, c2, f1, f3, f4, f5, -⟩ := hI a' ha'
  have hid2 : id2 = id := by
    have := ArmMemory.cell_key_of_cell a' id2 f1
    rw [hkey'] at this
    rw [← hkey, this]
  subst hid2
  rw [hc] at f3
  injection f3 with f3
  subst f3
  have hoff' : ((u64 (a'.cell_offset + (k' : Int)) : Nat) : Int)
      = a'.cell_offset + (k' : Int) := by
    apply u64_of_range
    · omega
    · omega
  have hhigh_lt : uf.max_value low < c.size := by
    have : ((uf.max_value low : Nat) : Int) < (c.size : Int) := by
      rw [hhigh, hoff']
      omega
    exact_mod_cast this
  have hx_lt : u64 (a.cell_offset + (k : Int)) < c.size := by
    have : ((u64 (a.cell_offset + (k : Int)) : Nat) : Int) < (c.size : Int) := by
      rw [hoff]
      omega
    exact_mod_cast this
  have hlow_le : low ≤ uf.max_value low := le_trans hlo hhi
  refine ⟨_, hr, ?_, ?_, by omega⟩
  · simp only [ArmMemory.run_range]
    rw [SymBitVector.eval_plus_constant env c.address low e7 (by omega)]
    omega
  · simp only [ArmMemory.run_range]
    rw [SymBitVector.eval_plus_constant env c.address (uf.max_value low) e7 (by omega)]
    omega

/-- C24 (amended): when `check_nonoverlapping` returns true on a memory in which every
access has a cell and lies inside it and the cell addresses are 64-bit values, with a
solver whose error-free "unsatisfiable" answers are correct, then under every assignment
that satisfies the initial constraints and under which no cell wraps around the end of
the address space, no byte address `cell.address + offset` (modulo 2^64) touched by an
access of one cell is a byte address touched by an access of a different cell. -/
theorem ArmMemory.C24_nonoverlapping_without_wrap (m1 : ArmMemory) (ic : List SymBool)
    (env : Env) (hI : ArmMemory.Inside env m1) (hsound : m1.solver_.sound)
    (hcheck : ArmMemory.check_nonoverlapping m1 ic = true) (hsat : env.sat ic)
    (hnowrap : ∀ c ∈ m1.cells_, (c.address.eval env).v + c.size ≤ 2 ^ 64) :
    ∀ a ∈ m1.all_accesses_, ∀ b ∈ m1.all_accesses_, ∀ (ia ib : Nat) (ca cb : ArmMemory.Cell),
      a.cell = some ia → b.cell = some ib → ia ≠ ib →
      m1.cells_[ia]? = some ca → m1.cells_[ib]? = some cb →
      ∀ ka kb : Nat, ka < a.size / 8 → kb < b.size / 8 →
        ((ca.address.eval env).v + u64 (a.cell_offset + (ka : Int))) % 2 ^ 64 ≠
        ((cb.address.eval env).v + u64 (b.cell_offset + (kb : Int))) % 2 ^ 64 := by
  intro a ha b hb ia ib ca cb hia hib hne hca hcb ka kb hka hkb
  have hia_lt : ia < m1.cells_.length := (List.getElem?_eq_some_iff.mp hca).1
  have hib_lt : ib < m1.cells_.length := (List.getElem?_eq_some_iff.mp hcb).1
  have wa := hnowrap ca (List.getElem?_mem hca)
  have wb := hnowrap cb (List.getElem?_mem hcb)
  obtain ⟨ra, hra, ra1, ra2, ra3⟩ :=
    ArmMemory.run_bounds_inside env m1 hI a ha ia ca hia hca wa ka hka
  obtain ⟨rb, hrb, rb1, rb2, rb3⟩ :=
    ArmMemory.run_bounds_inside env m1 hI b hb ib cb hib hcb wb kb hkb
  have key : ∀ (i j : Nat) (ri rj : SymBitVector × SymBitVector), i < m1.cells_.length →
      j < i → ri ∈ (ArmMemory.ranges m1).getD i [] → rj ∈ (ArmMemory.ranges m1).getD j [] →
      (ri.1.eval env).v > (rj.2.eval env).v ∨ (ri.2.eval env).v < (rj.1.eval env).v := by
    intro i j ri rj hi hji hri hrj
    obtain ⟨s1, s2⟩ := ArmMemory.check_nonoverlapping_pairs m1 ic hcheck i j hi hji ri rj hri hrj
    have hns := hsound _ s1 s2 env
    by_contra hcon
    apply hns
    rw [Env.sat_append, Env.sat_singleton]
    refine ⟨hsat, ?_⟩
    simp only [SymBool.holds, ArmMemory.ranges_apart]
    exact hcon
  rw [Nat.mod_eq_of_lt ra3, Nat.mod_eq_of_lt rb3]
  rcases Nat.lt_or_gt_of_ne hne with hlt | hgt
  · rcases key ib ia rb ra hib_lt hlt hrb hra with h | h <;> omega
  · rcases key ia ib ra rb hia_lt hgt hra hrb with h | h <;> omega


/-- The memory `apart` after cell enumeration is laid out as cell enumeration promises. -/
theorem ArmMemory.apart_layout : ArmMemory.Layout ArmMemory.linked_env ArmMemory.apart_cells := by
  obtain ⟨m1, h1, -, h3⟩ := ArmMemory.enumerate_cells_layout ArmMemory.apart
    ArmMemory.linked_env 1 rfl rfl
    (fun i j d h => by simp [ArmMemory.apart, ArmMemory.fresh] at h)
    (fun a ha => by
      simp only [ArmMemory.apart, List.mem_cons, List.mem_singleton, List.not_mem_nil,
        or_false] at ha
      rcases ha with rfl | rfl <;> decide)
    (by decide)
    (fun a ha => by
      simp only [ArmMemory.apart, List.mem_cons, List.mem_singleton, List.not_mem_nil,
        or_false] at ha
      rcases ha with rfl | rfl <;> rfl)
    (fun i j d ai aj h => by simp [ArmMemory.apart, ArmMemory.fresh] at h)
  have h2 : ArmMemory.generate_constraints_enumerate_cells ArmMemory.apart
      = some ArmMemory.apart_cells := by rfl
  rw [h2] at h1
  rw [Option.some.inj h1]
  exact h3

set_option maxRecDepth 100000 in
/-- C24 (witness): one-byte accesses at the constant addresses 4096 and 8192 and the
constant-folding solver, which proves the two cells disjoint. -/
theorem ArmMemory.C24_nonoverlapping_without_wrap_witness :
    ArmMemory.Inside ArmMemory.linked_env ArmMemory.apart_cells ∧
    ArmMemory.apart_cells.solver_.sound ∧
    ArmMemory.check_nonoverlapping ArmMemory.apart_cells [SymBool._true] = true ∧
    ArmMemory.linked_env.sat [SymBool._true] ∧
    (∀ c ∈ ArmMemory.apart_cells.cells_,
      (c.address.eval ArmMemory.linked_env).v + c.size ≤ 2 ^ 64) ∧
    (∀ a ∈ ArmMemory.apart_cells.all_accesses_, ∀ b ∈ ArmMemory.apart_cells.all_accesses_,
      ∀ (ia ib : Nat) (ca cb : ArmMemory.Cell),
      a.cell = some ia → b.cell = some ib → ia ≠ ib →
      ArmMemory.apart_cells.cells_[ia]? = some ca →
      ArmMemory.apart_cells.cells_[ib]? = some cb →
      ∀ ka kb : Nat, ka < a.size / 8 → kb < b.size / 8 →
        ((ca.address.eval ArmMemory.linked_env).v + u64 (a.cell_offset + (ka : Int))) % 2 ^ 64 ≠
        ((cb.address.eval ArmMemory.linked_env).v + u64 (b.cell_offset + (kb : Int))) % 2 ^ 64) :=
  have hsat : ArmMemory.linked_env.sat [SymBool._true] := fun c hc => by
    simp only [List.mem_singleton] at hc
    subst hc
    exact trivial
  ⟨ArmMemory.Layout.inside _ _ ArmMemory.apart_layout, ArmMemory.solver_fold_sound, by rfl, hsat,
    ArmMemory.apart_nowrap,
    ArmMemory.C24_nonoverlapping_without_wrap ArmMemory.apart_cells [SymBool._true]
      ArmMemory.linked_env (ArmMemory.Layout.inside _ _ ArmMemory.apart_layout)
      ArmMemory.solver_fold_sound (by rfl) hsat ArmMemory.apart_nowrap⟩


/-! ## The two simulations of the accesses -/

/-- The number read from a run of bytes is below `2 ^ (8 * n)`. -/
theorem ArmMemory.flat_load_lt (heap : Nat → Nat) (addr : Nat) :
    ∀ n, ArmMemory.flat_load heap addr n < 2 ^ (8 * n) := by
  intro n
  induction n with
  | zero => simp [ArmMemory.flat_load]
  | succ n ih =>
    simp only [ArmMemory.flat_load]
    have hb : heap ((addr + n) % 2 ^ 64) % 256 < 256 := Nat.mod_lt _ (by norm_num)
    have e : 2 ^ (8 * (n + 1)) = 256 * 2 ^ (8 * n) := by
      rw [show 8 * (n + 1) = 8 + 8 * n by ring, pow_add]
      norm_num
    rw [e]
    have : (heap ((addr + n) % 2 ^ 64) % 256) * 2 ^ (8 * n) ≤ 255 * 2 ^ (8 * n) :=
      Nat.mul_le_mul_right _ (by omega)
    omega

/-- The bits of the number read from a run of bytes. -/
theorem ArmMemory.flat_load_testBit (heap : Nat → Nat) (addr : Nat) :
    ∀ n b, (ArmMemory.flat_load heap addr n).testBit b =
      (decide (b < 8 * n) && (heap ((addr + b / 8) % 2 ^ 64) % 256).testBit (b % 8)) := by
  intro n
  induction n with
  | zero => intro b; simp [ArmMemory.flat_load]
  | succ n ih =>
    intro b
    simp only [ArmMemory.flat_load]
    rw [Nat.add_comm, Nat.testBit_concat_bits _ _ _ _ (ArmMemory.flat_load_lt heap addr n), ih]
    by_cases h1 : b < 8 * n
    · have h2 : b < 8 * (n + 1) := by omega
      simp [h1, h2]
    · simp only [h1, if_false]
      by_cases h2 : b < 8 * (n + 1)
      · have e1 : b / 8 = n := by omega
        have e2 : b - 8 * n = b % 8 := by omega
        simp [h2, e1, e2]
      · have hb : heap ((addr + n) % 2 ^ 64) % 256 < 2 ^ 8 := Nat.mod_lt _ (by norm_num)
        have : (heap ((addr + n) % 2 ^ 64) % 256).testBit (b - 8 * n) = false :=
          Nat.testBit_eq_false_of_lt
            (lt_of_lt_of_le hb (Nat.pow_le_pow_right (by norm_num) (by omega)))
        rw [this]
        simp [h2]

/-- Runs of bytes that agree modulo 256 give the same number. -/
theorem ArmMemory.flat_load_congr (heap1 heap2 : Nat → Nat) (addr n : Nat)
    (h : ∀ i, i < n → heap1 ((addr + i) % 2 ^ 64) % 256 = heap2 ((addr + i) % 2 ^ 64) % 256) :
    ArmMemory.flat_load heap1 addr n = ArmMemory.flat_load heap2 addr n := by
  induction n with
  | zero => rfl
  | succ n ih =>
    simp only [ArmMemory.flat_load]
    rw [ih (fun i hi => h i (by omega)), h n (by omega)]

/-- A store leaves the bytes outside its run alone. -/
theorem ArmMemory.flat_store_miss (heap : Nat → Nat) (addr value : Nat) (x : Nat) :
    ∀ n, (∀ i, i < n → x ≠ (addr + i) % 2 ^ 64) →
      ArmMemory.flat_store heap addr value n x = heap x := by
  intro n
  induction n with
  | zero => intro _; rfl
  | succ n ih =>
    intro h
    simp only [ArmMemory.flat_store]
    rw [if_neg (h n (by omega))]
    exact ih (fun i hi => h i (by omega))

/-- Offsets below `2^64` from the same address that hit the same byte are equal. -/
theorem ArmMemory.offset_inj (addr i j : Nat) (hi : i < 2 ^ 64) (hj : j < 2 ^ 64)
    (h : (addr + i) % 2 ^ 64 = (addr + j) % 2 ^ 64) : i = j := by
  omega

/-- A store puts byte `i` of the value at offset `i` of its run. -/
theorem ArmMemory.flat_store_hit (heap : Nat → Nat) (addr value : Nat) :
    ∀ n i, n ≤ 2 ^ 64 → i < n →
      ArmMemory.flat_store heap addr value n ((addr + i) % 2 ^ 64) = (value / 2 ^ (8 * i)) % 256 := by
  intro n
  induction n with
  | zero => intro i _ hi; exact absurd hi (Nat.not_lt_zero i)
  | succ n ih =>
    intro i hn hi
    simp only [ArmMemory.flat_store]
    by_cases e : i = n
    · subst e
      simp
    · have hne : (addr + i) % 2 ^ 64 ≠ (addr + n) % 2 ^ 64 := by
        intro h
        exact e (ArmMemory.offset_inj addr i n (by omega) (by omega) h)
      rw [if_neg hne]
      exact ih i (by omega) (by omega)

/-- The address `t + constant(64, n)` under an assignment that gives `t` 64 bits. -/
theorem SymBitVector.eval_plus_const_mod (env : Env) (t : SymBitVector) (n : Nat)
    (hw : (t.eval env).w = 64) :
    (SymBitVector.plus t (SymBitVector.constant 64 (n : Int))).eval env
      = ⟨64, ((t.eval env).v + n) % 2 ^ 64⟩ := by
  simp only [SymBitVector.eval, hw]
  have h1 : ((n : Int) % 2 ^ 64).toNat = n % 2 ^ 64 := by omega
  rw [h1]
  congr 1
  omega

/-- The address `constant(64, n) + t`. -/
theorem SymBitVector.eval_const_plus_mod (env : Env) (t : SymBitVector) (n : Nat) :
    (SymBitVector.plus (SymBitVector.constant 64 (n : Int)) t).eval env
      = ⟨64, ((t.eval env).v + n) % 2 ^ 64⟩ := by
  simp only [SymBitVector.eval]
  have h1 : ((n : Int) % 2 ^ 64).toNat = n % 2 ^ 64 := by omega
  rw [h1]
  congr 1
  omega

/-- The first `j` turns of the loop that reads a cache out of a heap give the `j` high
bytes of the cell. -/
theorem ArmMemory.read_cache_upto (env : Env) (heap : SymArray) (address : SymBitVector)
    (size : Nat) (hw : (address.eval env).w = 64) :
    ∀ j, j ≤ size →
      ∃ v, ((List.range j).foldl (fun (cache : SymBitVector) (i : Nat) =>
          cache.cat (SymBitVector.select heap
            (SymBitVector.plus address (SymBitVector.constant 64 ((size - i - 1 : Nat) : Int)))))
          SymBitVector.null).eval env = ⟨8 * j, v⟩ ∧
        ∀ b, v.testBit b = (decide (b < 8 * j) &&
          (ArmMemory.flat_load (heap.eval env) (address.eval env).v size).testBit
            (8 * (size - j) + b)) := by
  intro j
  induction j with
  | zero =>
    intro _
    refine ⟨0, by simp [SymBitVector.eval], ?_⟩
    intro b
    simp
  | succ j ih =>
    intro hj
    obtain ⟨v, hv, hb⟩ := ih (by omega)
    rw [List.range_succ, List.foldl_append]
    simp only [List.foldl_cons, List.foldl_nil]
    rw [SymBitVector.eval_cat, hv]
    have hsel : (SymBitVector.select heap (SymBitVector.plus address
        (SymBitVector.constant 64 ((size - j - 1 : Nat) : Int)))).eval env
        = ⟨8, (heap.eval env) (((address.eval env).v + (size - j - 1)) % 2 ^ 64) % 256⟩ := by
      have hk : ∀ k : SymBitVector, (SymBitVector.select heap k).eval env
          = ⟨8, (heap.eval env) (k.eval env).v % 256⟩ := fun k => by
        simp only [SymBitVector.eval]
      rw [hk, SymBitVector.eval_plus_const_mod env address _ hw]
    rw [hsel]
    refine ⟨v * 2 ^ 8 +
      (heap.eval env) (((address.eval env).v + (size - j - 1)) % 2 ^ 64) % 256, ?_, ?_⟩
    · simp only [show 8 * (j + 1) = 8 * j + 8 by ring]
    intro b
    have hlt : (heap.eval env) (((address.eval env).v + (size - j - 1)) % 2 ^ 64) % 256 < 2 ^ 8 :=
      Nat.mod_lt _ (by norm_num)
    rw [Nat.testBit_concat_bits _ _ _ _ hlt, ArmMemory.flat_load_testBit]
    by_cases h8 : b < 8
    · have e1 : (8 * (size - (j + 1)) + b) / 8 = size - j - 1 := by omega
      have e2 : (8 * (size - (j + 1)) + b) % 8 = b := by omega
      have e3 : b % 8 = b := by omega
      have h4 : 8 * (size - (j + 1)) + b < 8 * size := by omega
      have h5 : b < 8 * (j + 1) := by omega
      simp [h8, e1, e2, h4, h5]
    · rw [if_neg h8, hb, ArmMemory.flat_load_testBit]
      have e : 8 * (size - j) + (b - 8) = 8 * (size - (j + 1)) + b := by omega
      rw [e]
      by_cases h5 : b < 8 * (j + 1)
      · have : b - 8 < 8 * j := by omega
        simp [h5, this]
      · have : ¬ (b - 8 < 8 * j) := by omega
        simp [h5, this]

/-- The cache read out of a heap is the number of the bytes of the cell. -/
theorem ArmMemory.read_cache_eval (env : Env) (heap : SymArray) (address : SymBitVector)
    (size : Nat) (hw : (address.eval env).w = 64) :
    (ArmMemory.read_cache heap address size).eval env
      = ⟨8 * size, ArmMemory.flat_load (heap.eval env) (address.eval env).v size⟩ := by
  obtain ⟨v, hv, hb⟩ := ArmMemory.read_cache_upto env heap address size hw size (le_refl _)
  unfold ArmMemory.read_cache
  rw [hv]
  congr 1
  apply Nat.eq_of_testBit_eq
  intro b
  rw [hb, Nat.sub_self, Nat.mul_zero, Nat.zero_add]
  by_cases h : b < 8 * size
  · simp [h]
  · rw [ArmMemory.flat_load_testBit]
    simp [h]

/-- The byte `i` of a value under an assignment. -/
theorem ArmMemory.byte_of_eval (env : Env) (value : SymBitVector) (i : Nat) :
    (ArmMemory.byte_of value i).eval env = ⟨8, ((value.eval env).v / 2 ^ (8 * i)) % 256⟩ := by
  simp only [ArmMemory.byte_of, SymBitVector.eval]
  have : 8 * i + 7 + 1 - 8 * i = 8 := by omega
  rw [this]
  norm_num

/-- Writing a cache back stores its bytes from the address of the cell on. -/
theorem ArmMemory.write_back_eval (env : Env) (heap : SymArray) (address : SymBitVector)
    (size : Nat) (cache : SymBitVector) (hw : (address.eval env).w = 64) :
    (ArmMemory.write_back heap address size cache).eval env
      = ArmMemory.flat_store (heap.eval env) (address.eval env).v (cache.eval env).v size := by
  unfold ArmMemory.write_back
  induction size with
  | zero => rfl
  | succ n ih =>
    rw [List.range_succ, List.foldl_append]
    simp only [List.foldl_cons, List.foldl_nil]
    funext x
    simp only [SymArray.eval, ArmMemory.flat_store]
    rw [ih, ArmMemory.byte_of_eval, SymBitVector.eval_plus_const_mod env address n hw]

/-- A store at offset `o` of a cell, seen from the address of the cell. -/
theorem ArmMemory.flat_store_at (heap : Nat → Nat) (addr o value n size j : Nat)
    (hS : size ≤ 2 ^ 64) (hon : o + n ≤ size) (hj : j < size) :
    ArmMemory.flat_store heap ((addr + o) % 2 ^ 64) value n ((addr + j) % 2 ^ 64) =
      if o ≤ j ∧ j < o + n then (value / 2 ^ (8 * (j - o))) % 256
      else heap ((addr + j) % 2 ^ 64) := by
  by_cases h : o ≤ j ∧ j < o + n
  · rw [if_pos h]
    have e : (addr + j) % 2 ^ 64 = ((addr + o) % 2 ^ 64 + (j - o)) % 2 ^ 64 := by omega
    rw [e]
    exact ArmMemory.flat_store_hit heap _ value n (j - o) (by omega) (by omega)
  · rw [if_neg h]
    apply ArmMemory.flat_store_miss
    intro i hi heq
    have e : ((addr + o) % 2 ^ 64 + i) % 2 ^ 64 = (addr + (o + i)) % 2 ^ 64 := by omega
    rw [e] at heq
    have := ArmMemory.offset_inj addr j (o + i) (by omega) (by omega) heq
    omega

/-- The value a read of the conservative simulation is constrained to: the bytes of the
access in the cache of its cell. -/
theorem ArmMemory.read_value_eval (env : Env) (access : ArmMemory.Access) (cache : SymBitVector)
    (heap : Nat → Nat) (addr o n size : Nat) (ho : access.cell_offset = (o : Int))
    (hn : access.size = 8 * n) (hpos : 0 < n) (hon : o + n ≤ size)
    (hc : cache.eval env = ⟨8 * size, ArmMemory.flat_load heap addr size⟩) :
    (ArmMemory.read_value access cache).eval env
      = ⟨8 * n, ArmMemory.flat_load heap ((addr + o) % 2 ^ 64) n⟩ := by
  unfold ArmMemory.read_value
  simp only [SymBitVector.eval, hc, ho, hn]
  have e1 : ((o : Int) * 8 + ((8 * n : Nat) : Int) - 1).toNat = 8 * o + 8 * n - 1 := by omega
  have e2 : ((o : Int) * 8).toNat = 8 * o := by omega
  rw [e1, e2]
  have e3 : 8 * o + 8 * n - 1 + 1 - 8 * o = 8 * n := by omega
  rw [e3]
  congr 1
  apply Nat.eq_of_testBit_eq
  intro b
  rw [Nat.testBit_extract_bits, ArmMemory.flat_load_testBit, ArmMemory.flat_load_testBit]
  by_cases hb : b < 8 * n
  · have h1 : 8 * o + b < 8 * size := by omega
    have h2 : (8 * o + b) / 8 = o + b / 8 := by omega
    have h3 : (8 * o + b) % 8 = b % 8 := by omega
    have h4 : ((addr + o) % 2 ^ 64 + b / 8) % 2 ^ 64 = (addr + (o + b / 8)) % 2 ^ 64 := by omega
    simp only [hb, h1, h2, h3, h4, decide_True, Bool.true_and]
  · simp [hb]

/-- Replacing the bytes `o .. o + n - 1` of the little-endian number of a cell by a value
gives the number of the cell after the store. -/
theorem ArmMemory.store_load_bits (heap : Nat → Nat) (addr o n size value : Nat)
    (hS : size ≤ 2 ^ 64) (hon : o + n ≤ size) (hW : value < 2 ^ (8 * n)) :
    ((ArmMemory.flat_load heap addr size / 2 ^ (8 * (o + n))) % 2 ^ (8 * (size - (o + n)))
        * 2 ^ (8 * n) + value) * 2 ^ (8 * o) + ArmMemory.flat_load heap addr size % 2 ^ (8 * o)
      = ArmMemory.flat_load (ArmMemory.flat_store heap ((addr + o) % 2 ^ 64) value n) addr size := by
  apply Nat.eq_of_testBit_eq
  intro b
  rw [Nat.testBit_concat_bits _ _ _ _ (Nat.mod_lt _ (by positivity)),
    Nat.testBit_concat_bits _ _ _ _ hW, Nat.testBit_extract_bits, Nat.testBit_mod_two_pow,
    ArmMemory.flat_load_testBit, ArmMemory.flat_load_testBit, ArmMemory.flat_load_testBit]
  by_cases hb : b < 8 * size
  · have hj : b / 8 < size := by omega
    rw [ArmMemory.flat_store_at heap addr o value n size (b / 8) hS hon hj]
    by_cases h1 : b < 8 * o
    · have h2 : ¬ (o ≤ b / 8 ∧ b / 8 < o + n) := by omega
      simp [h1, hb, h2]
    · by_cases h3 : b - 8 * o < 8 * n
      · have h2 : o ≤ b / 8 ∧ b / 8 < o + n := by omega
        have h4 : (2 : Nat) ^ 8 = 256 := by norm_num
        rw [if_neg h1, if_pos h3, if_pos h2, Nat.mod_mod, ← h4, Nat.testBit_extract_bits]
        have h5 : b % 8 < 8 := by omega
        have h6 : 8 * (b / 8 - o) + b % 8 = b - 8 * o := by omega
        simp [hb, h5, h6]
      · have h2 : ¬ (o ≤ b / 8 ∧ b / 8 < o + n) := by omega
        have h4 : b - 8 * o - 8 * n < 8 * (size - (o + n)) := by omega
        have h5 : 8 * (o + n) + (b - 8 * o - 8 * n) = b := by omega
        simp [h1, h3, hb, h2, h4, h5]
  · have h1 : ¬ b < 8 * o := by omega
    have h3 : ¬ b - 8 * o < 8 * n := by omega
    have h4 : ¬ b - 8 * o - 8 * n < 8 * (size - (o + n)) := by omega
    simp [h1, h3, hb, h4]

/-- The cache a write leaves behind evaluates to the bytes of the cell after the store. -/
theorem ArmMemory.write_cache_eval (env : Env) (access : ArmMemory.Access) (cell : ArmMemory.Cell)
    (cache : SymBitVector) (heap : Nat → Nat) (addr o n : Nat)
    (ho : access.cell_offset = (o : Int)) (hn : access.size = 8 * n) (hon : o + n ≤ cell.size)
    (hS : cell.size < 2 ^ 64) (hw : (access.value.eval env).w = 8 * n)
    (hc : cache.eval env = ⟨8 * cell.size, ArmMemory.flat_load heap addr cell.size⟩) :
    (ArmMemory.write_cache access cell cache).eval env
      = ⟨8 * cell.size, ArmMemory.flat_load
          (ArmMemory.flat_store heap ((addr + o) % 2 ^ 64) (access.value.eval env).v n)
          addr cell.size⟩ := by
  have hW : (access.value.eval env).v < 2 ^ (8 * n) := by
    have := SymBitVector.eval_lt env access.value
    rwa [hw] at this
  have hdiv : access.size / 8 = n := by omega
  have hu : u64 (access.cell_offset + ((access.size / 8 : Nat) : Int)) = o + n := by
    rw [ho, hdiv]
    unfold u64
    have h0 : (0 : Int) ≤ (o : Int) + (n : Int) := by omega
    have h1 : (o : Int) + (n : Int) < 2 ^ 64 := by omega
    rw [Int.emod_eq_of_lt h0 h1]
    omega
  have hp : (if u64 (access.cell_offset + ((access.size / 8 : Nat) : Int)) < cell.size then
        SymBitVector.extract cache (cell.size * 8 - 1)
          (access.cell_offset * 8 + (access.size : Int)).toNat
      else SymBitVector.null).eval env
      = ⟨8 * (cell.size - (o + n)),
          (ArmMemory.flat_load heap addr cell.size / 2 ^ (8 * (o + n)))
            % 2 ^ (8 * (cell.size - (o + n)))⟩ := by
    rw [hu]
    by_cases h : o + n < cell.size
    · rw [if_pos h]
      simp only [SymBitVector.eval, hc, ho, hn]
      have e1 : ((o : Int) * 8 + ((8 * n : Nat) : Int)).toNat = 8 * (o + n) := by omega
      have e2 : cell.size * 8 - 1 + 1 - 8 * (o + n) = 8 * (cell.size - (o + n)) := by omega
      rw [e1, e2]
    · rw [if_neg h]
      have e : cell.size - (o + n) = 0 := by omega
      simp [SymBitVector.eval, e, Nat.mod_one]
  have hs : (if access.cell_offset > 0 then
        SymBitVector.extract cache ((access.cell_offset * 8 - 1).toNat) 0
      else SymBitVector.null).eval env
      = ⟨8 * o, ArmMemory.flat_load heap addr cell.size % 2 ^ (8 * o)⟩ := by
    by_cases h : access.cell_offset > 0
    · rw [if_pos h]
      simp only [SymBitVector.eval, hc, ho]
      have e1 : ((o : Int) * 8 - 1).toNat + 1 - 0 = 8 * o := by omega
      rw [e1]
      simp
    · rw [if_neg h]
      have e : o = 0 := by omega
      simp [SymBitVector.eval, e, Nat.mod_one]
  unfold ArmMemory.write_cache
  simp only []
  rw [SymBitVector.eval_cat, SymBitVector.eval_cat, hp, hs]
  simp only [hw]
  rw [ArmMemory.store_load_bits heap addr o n cell.size _ (by omega) hon hW]
  congr 1
  omega


theorem ArmMemory.flush_dirty_eq (stop : Bool) (skip_index : Nat) (s : ArmMemory.Sim) :
    ArmMemory.flush_dirty stop skip_index s
      = (List.range s.cells.length).foldl (ArmMemory.flush_step stop skip_index) (false, s) := rfl

/-- A cell of the simulation is where the cell at its position was. -/
theorem ArmMemory.place_of_map {cells cells0 : List ArmMemory.Cell}
    (h : cells.map ArmMemory.Cell.place = cells0.map ArmMemory.Cell.place) {k : Nat}
    {c : ArmMemory.Cell} (hc : cells[k]? = some c) :
    ∃ c0, cells0[k]? = some c0 ∧ c0.address = c.address ∧ c0.index = c.index ∧ c0.size = c.size := by
  have h1 : (cells.map ArmMemory.Cell.place)[k]? = some c.place := by
    rw [List.getElem?_map, hc]; rfl
  rw [h, List.getElem?_map] at h1
  cases h0 : cells0[k]? with
  | none => rw [h0] at h1; simp at h1
  | some c0 =>
    rw [h0] at h1
    simp only [Option.map_some', Option.some.injEq, ArmMemory.Cell.place, Prod.mk.injEq] at h1
    exact ⟨c0, rfl, h1.1, h1.2.1, h1.2.2⟩

/-- Replacing a cell by one at the same place keeps the places. -/
theorem ArmMemory.map_place_set (cells : List ArmMemory.Cell) (k : Nat) (c c1 : ArmMemory.Cell)
    (hc : cells[k]? = some c) (hp : c1.place = c.place) :
    (cells.set k c1).map ArmMemory.Cell.place = cells.map ArmMemory.Cell.place := by
  apply List.ext_getElem?
  intro j
  rw [List.getElem?_map, List.getElem?_map, List.getElem?_set]
  by_cases h : k = j
  · subst h
    have hlt : k < cells.length := by
      rcases Nat.lt_or_ge k cells.length with h | h
      · exact h
      · rw [List.getElem?_eq_none h] at hc; cases hc
    simp [hlt, hc, hp]
  · simp [h]

/-- Byte `i` of the little-endian number of a run is the byte of the heap at offset `i`. -/
theorem ArmMemory.flat_load_byte (heap : Nat → Nat) (addr n i : Nat) (hi : i < n) :
    (ArmMemory.flat_load heap addr n / 2 ^ (8 * i)) % 256 = heap ((addr + i) % 2 ^ 64) % 256 := by
  show (ArmMemory.flat_load heap addr n / 2 ^ (8 * i)) % 2 ^ 8 = heap ((addr + i) % 2 ^ 64) % 2 ^ 8
  apply Nat.eq_of_testBit_eq
  intro b
  rw [Nat.testBit_extract_bits, Nat.testBit_mod_two_pow, ArmMemory.flat_load_testBit]
  by_cases hb : b < 8
  · have h1 : 8 * i + b < 8 * n := by omega
    have h2 : (8 * i + b) / 8 = i := by omega
    have h3 : (8 * i + b) % 8 = b := by omega
    have h5 : heap ((addr + i) % 2 ^ 64) % 256 = heap ((addr + i) % 2 ^ 64) % 2 ^ 8 := rfl
    rw [h2, h3, h5, Nat.testBit_mod_two_pow]
    simp [hb, h1]
  · simp [hb]

/-- An element of a list after one position has been replaced. -/
theorem ArmMemory.get_set_cases {α : Type} (l : List α) (k j : Nat) (c1 c : α)
    (h : (l.set k c1)[j]? = some c) : (j = k ∧ c = c1) ∨ (j ≠ k ∧ l[j]? = some c) := by
  rw [List.getElem?_set] at h
  by_cases hk : k = j
  · subst hk
    rw [if_pos rfl] at h
    by_cases hl : k < l.length
    · rw [if_pos hl] at h
      exact Or.inl ⟨rfl, (Option.some.inj h).symm⟩
    · rw [if_neg hl] at h; cases h
  · rw [if_neg hk] at h
    exact Or.inr ⟨fun e => hk e.symm, h⟩

/-- Writing back the dirty cache of this side of a cell keeps the agreement with the
flat heaps. -/
theorem ArmMemory.SimInv.write_back_dirty {env : Env} {cells0 : List ArmMemory.Cell}
    {heaps : (Nat → Nat) × (Nat → Nat)} {s : ArmMemory.Sim}
    (hL : ArmMemory.NoOverlap env cells0) (h : ArmMemory.SimInv env cells0 heaps s)
    (k : Nat) (cell : ArmMemory.Cell) (hk : s.cells[k]? = some cell) :
    ArmMemory.SimInv env cells0 heaps
      { s with
        heap := ArmMemory.write_back s.heap cell.address cell.size cell.cache
        cells := s.cells.set k { cell with dirty := false } } := by
  obtain ⟨c0, hc0, ha0, _, hs0⟩ := ArmMemory.place_of_map h.layout hk
  have hw : (cell.address.eval env).w = 64 := by rw [← ha0]; exact hL.width k c0 hc0
  have hsz : cell.size < 2 ^ 64 := by rw [← hs0]; exact hL.size k c0 hc0
  refine ⟨?_, ?_, ?_, ?_, ?_, ?_⟩
  · show (s.cells.set k _).map ArmMemory.Cell.place = _
    rw [ArmMemory.map_place_set s.cells k cell { cell with dirty := false } hk rfl]
    exact h.layout
  · intro j c hj
    rcases ArmMemory.get_set_cases _ _ _ _ _ hj with ⟨_, e⟩ | ⟨_, e⟩
    · subst e; exact h.cache k cell hk
    · exact h.cache j c e
  · intro j c hj
    rcases ArmMemory.get_set_cases _ _ _ _ _ hj with ⟨_, e⟩ | ⟨_, e⟩
    · subst e; exact h.other_cache k cell hk
    · exact h.other_cache j c e
  · intro x
    show (ArmMemory.write_back s.heap cell.address cell.size cell.cache).eval env x % 256
        = heaps.1 x % 256 ∨ _
    rw [ArmMemory.write_back_eval env _ _ _ _ hw, h.cache k cell hk]
    by_cases hx : ∃ i, i < cell.size ∧ x = ((cell.address.eval env).v + i) % 2 ^ 64
    · obtain ⟨i, hi, rfl⟩ := hx
      left
      rw [ArmMemory.flat_store_hit _ _ _ _ i (by omega) hi, ArmMemory.flat_load_byte _ _ _ _ hi,
        Nat.mod_mod]
    · have hmiss : ∀ i, i < cell.size → x ≠ ((cell.address.eval env).v + i) % 2 ^ 64 :=
        fun i hi e => hx ⟨i, hi, e⟩
      rw [ArmMemory.flat_store_miss _ _ _ _ _ hmiss]
      rcases h.heap x with e | ⟨k', c', i, hk', hd, hi, e⟩
      · exact Or.inl e
      · right
        by_cases hkk : k' = k
        · subst hkk
          rw [hk] at hk'
          have e' : cell = c' := Option.some.inj hk'
          subst e'
          exact absurd e (hmiss i hi)
        · refine ⟨k', c', i, ?_, hd, hi, e⟩
          show (s.cells.set k _)[k']? = some c'
          rw [List.getElem?_set, if_neg (fun e => hkk e.symm)]
          exact hk'
  · intro x
    rcases h.other_heap x with e | ⟨k', c', i, hk', hd, hi, e⟩
    · exact Or.inl e
    · right
      by_cases hkk : k' = k
      · subst hkk
        rw [hk] at hk'
        have e' : cell = c' := Option.some.inj hk'
        subst e'
        refine ⟨k', { cell with dirty := false }, i, ?_, hd, hi, e⟩
        show (s.cells.set k' _)[k']? = some _
        have hlt : k' < s.cells.length := by
          rcases Nat.lt_or_ge k' s.cells.length with h | h
          · exact h
          · rw [List.getElem?_eq_none h] at hk; cases hk
        rw [List.getElem?_set, if_pos rfl, if_pos hlt]
      · refine ⟨k', c', i, ?_, hd, hi, e⟩
        show (s.cells.set k _)[k']? = some c'
        rw [List.getElem?_set, if_neg (fun e => hkk e.symm)]
        exact hk'
  · intro j j' c c' hj hj' hd hd'
    have old : ∀ (j : Nat) (c : ArmMemory.Cell),
        (s.cells.set k { cell with dirty := false })[j]? = some c →
        (c.dirty || c.other_dirty) = true →
        ∃ c1, s.cells[j]? = some c1 ∧ (c1.dirty || c1.other_dirty) = true := by
      intro j c hj hd
      rcases ArmMemory.get_set_cases _ _ _ _ _ hj with ⟨e1, e⟩ | ⟨_, e⟩
      · subst e; subst e1
        refine ⟨cell, hk, ?_⟩
        simp only [Bool.false_or] at hd
        simp [hd]
      · exact ⟨c, e, hd⟩
    obtain ⟨c1, h1, d1⟩ := old j c hj hd
    obtain ⟨c2, h2, d2⟩ := old j' c' hj' hd'
    exact h.one_dirty j j' c1 c2 h1 h2 d1 d2

/-- Writing back the dirty cache of the other side of a cell keeps the agreement with the
flat heaps. -/
theorem ArmMemory.SimInv.write_back_other_dirty {env : Env} {cells0 : List ArmMemory.Cell}
    {heaps : (Nat → Nat) × (Nat → Nat)} {s : ArmMemory.Sim}
    (hL : ArmMemory.NoOverlap env cells0) (h : ArmMemory.SimInv env cells0 heaps s)
    (k : Nat) (cell : ArmMemory.Cell) (hk : s.cells[k]? = some cell) :
    ArmMemory.SimInv env cells0 heaps
      { s with
        other_heap := ArmMemory.write_back s.other_heap cell.address cell.size cell.other_cache
        cells := s.cells.set k { cell with other_dirty := false } } := by
  obtain ⟨c0, hc0, ha0, _, hs0⟩ := ArmMemory.place_of_map h.layout hk
  have hw : (cell.address.eval env).w = 64 := by rw [← ha0]; exact hL.width k c0 hc0
  have hsz : cell.size < 2 ^ 64 := by rw [← hs0]; exact hL.size k c0 hc0
  have hlt : k < s.cells.length := by
    rcases Nat.lt_or_ge k s.cells.length with h | h
    · exact h
    · rw [List.getElem?_eq_none h] at hk; cases hk
  refine ⟨?_, ?_, ?_, ?_, ?_, ?_⟩
  · show (s.cells.set k _).map ArmMemory.Cell.place = _
    rw [ArmMemory.map_place_set s.cells k cell { cell with other_dirty := false } hk rfl]
    exact h.layout
  · intro j c hj
    rcases ArmMemory.get_set_cases _ _ _ _ _ hj with ⟨_, e⟩ | ⟨_, e⟩
    · subst e; exact h.cache k cell hk
    · exact h.cache j c e
  · intro j c hj
    rcases ArmMemory.get_set_cases _ _ _ _ _ hj with ⟨_, e⟩ | ⟨_, e⟩
    · subst e; exact h.other_cache k cell hk
    · exact h.other_cache j c e
  · intro x
    rcases h.heap x with e | ⟨k', c', i, hk', hd, hi, e⟩
    · exact Or.inl e
    · right
      by_cases hkk : k' = k
      · subst hkk
        rw [hk] at hk'
        have e' : cell = c' := Option.some.inj hk'
        subst e'
        refine ⟨k', { cell with other_dirty := false }, i, ?_, hd, hi, e⟩
        show (s.cells.set k' _)[k']? = some _
        rw [List.getElem?_set, if_pos rfl, if_pos hlt]
      · refine ⟨k', c', i, ?_, hd, hi, e⟩
        show (s.cells.set k _)[k']? = some c'
        rw [List.getElem?_set, if_neg (fun e => hkk e.symm)]
        exact hk'
  · intro x
    show (ArmMemory.write_back s.other_heap cell.address cell.size cell.other_cache).eval env x % 256
        = heaps.2 x % 256 ∨ _
    rw [ArmMemory.write_back_eval env _ _ _ _ hw, h.other_cache k cell hk]
    by_cases hx : ∃ i, i < cell.size ∧ x = ((cell.address.eval env).v + i) % 2 ^ 64
    · obtain ⟨i, hi, rfl⟩ := hx
      left
      rw [ArmMemory.flat_store_hit _ _ _ _ i (by omega) hi, ArmMemory.flat_load_byte _ _ _ _ hi,
        Nat.mod_mod]
    · have hmiss : ∀ i, i < cell.size → x ≠ ((cell.address.eval env).v + i) % 2 ^ 64 :=
        fun i hi e => hx ⟨i, hi, e⟩
      rw [ArmMemory.flat_store_miss _ _ _ _ _ hmiss]
      rcases h.other_heap x with e | ⟨k', c', i, hk', hd, hi, e⟩
      · exact Or.inl e
      · right
        by_cases hkk : k' = k
        · subst hkk
          rw [hk] at hk'
          have e' : cell = c' := Option.some.inj hk'
          subst e'
          exact absurd e (hmiss i hi)
        · refine ⟨k', c', i, ?_, hd, hi, e⟩
          show (s.cells.set k _)[k']? = some c'
          rw [List.getElem?_set, if_neg (fun e => hkk e.symm)]
          exact hk'
  · intro j j' c c' hj hj' hd hd'
    have old : ∀ (j : Nat) (c : ArmMemory.Cell),
        (s.cells.set k { cell with other_dirty := false })[j]? = some c →
        (c.dirty || c.other_dirty) = true →
        ∃ c1, s.cells[j]? = some c1 ∧ (c1.dirty || c1.other_dirty) = true := by
      intro j c hj hd
      rcases ArmMemory.get_set_cases _ _ _ _ _ hj with ⟨e1, e⟩ | ⟨_, e⟩
      · subst e; subst e1
        refine ⟨cell, hk, ?_⟩
        simp only [Bool.or_false] at hd
        simp [hd]
      · exact ⟨c, e, hd⟩
    obtain ⟨c1, h1, d1⟩ := old j c hj hd
    obtain ⟨c2, h2, d2⟩ := old j' c' hj' hd'
    exact h.one_dirty j j' c1 c2 h1 h2 d1 d2

/-- What one turn of the loop of `flush_dirty` does to a state that agrees with the flat
heaps: the agreement is kept, the cell of the turn is clean afterwards unless it is the
one skipped, no other cell changes, and the flag is raised only for a dirty cell. -/
theorem ArmMemory.flush_step_spec {env : Env} {cells0 : List ArmMemory.Cell}
    {heaps : (Nat → Nat) × (Nat → Nat)} (hL : ArmMemory.NoOverlap env cells0) (skip : Nat)
    (r : Bool × ArmMemory.Sim) (k : Nat) (h : ArmMemory.SimInv env cells0 heaps r.2) :
    ArmMemory.SimInv env cells0 heaps (ArmMemory.flush_step false skip r k).2 ∧
    (ArmMemory.flush_step false skip r k).2.constraints = r.2.constraints ∧
    (∀ j, j ≠ k → (ArmMemory.flush_step false skip r k).2.cells[j]? = r.2.cells[j]?) ∧
    (k = skip → ArmMemory.flush_step false skip r k = r) ∧
    (k ≠ skip → ∀ c, (ArmMemory.flush_step false skip r k).2.cells[k]? = some c →
      c.dirty = false ∧ c.other_dirty = false) ∧
    ((ArmMemory.flush_step false skip r k).1 = true → r.1 = true ∨
      ∃ c, k ≠ skip ∧ r.2.cells[k]? = some c ∧ (c.dirty || c.other_dirty) = true) := by
  cases hk : r.2.cells[k]? with
  | none =>
    have e : ArmMemory.flush_step false skip r k = r := by
      unfold ArmMemory.flush_step; rw [hk]
    rw [e]
    refine ⟨h, rfl, fun _ _ => rfl, fun _ => rfl, ?_, fun h1 => Or.inl h1⟩
    intro _ c hc
    rw [hk] at hc; cases hc
  | some cell =>
    obtain ⟨c0, hc0, _, hi0, _⟩ := ArmMemory.place_of_map h.layout hk
    have hidx : cell.index = k := by rw [← hi0]; exact hL.index k c0 hc0
    have hlt : k < r.2.cells.length := by
      rcases Nat.lt_or_ge k r.2.cells.length with h | h
      · exact h
      · rw [List.getElem?_eq_none h] at hk; cases hk
    by_cases hs : k = skip
    · have e : ArmMemory.flush_step false skip r k = r := by
        unfold ArmMemory.flush_step; rw [hk]; simp [hidx, hs]
      rw [e]
      exact ⟨h, rfl, fun _ _ => rfl, fun _ => rfl, fun hne => absurd hs hne, fun h1 => Or.inl h1⟩
    · have hs' : ¬ cell.index = skip := by rw [hidx]; exact hs
      cases hd : cell.dirty <;> cases hod : cell.other_dirty
      · have e : ArmMemory.flush_step false skip r k = r := by
          unfold ArmMemory.flush_step; rw [hk]; simp [hs', hd, hk, hod]
        rw [e]
        refine ⟨h, rfl, fun _ _ => rfl, fun _ => rfl, ?_, fun h1 => Or.inl h1⟩
        intro _ c hc
        rw [hk] at hc
        have e' : cell = c := Option.some.inj hc
        subst e'
        exact ⟨hd, hod⟩
      · have e : ArmMemory.flush_step false skip r k = (true, { r.2 with
            other_heap := ArmMemory.write_back r.2.other_heap cell.address cell.size cell.other_cache
            cells := r.2.cells.set k { cell with other_dirty := false } }) := by
          unfold ArmMemory.flush_step; rw [hk]; simp [hs', hd, hk, hod]
        rw [e]
        refine ⟨h.write_back_other_dirty hL k cell hk, rfl, ?_, fun e => absurd e hs, ?_, ?_⟩
        · intro j hj
          show (r.2.cells.set k _)[j]? = _
          rw [List.getElem?_set, if_neg (fun e => hj e.symm)]
        · intro _ c hc
          have hc' : (r.2.cells.set k { cell with other_dirty := false })[k]? = some c := hc
          rw [List.getElem?_set, if_pos rfl, if_pos hlt] at hc'
          have e' := Option.some.inj hc'
          subst e'
          exact ⟨hd, rfl⟩
        · intro _
          exact Or.inr ⟨cell, hs, rfl, by simp [hod]⟩
      · have e : ArmMemory.flush_step false skip r k = (true, { r.2 with
            heap := ArmMemory.write_back r.2.heap cell.address cell.size cell.cache
            cells := r.2.cells.set k { cell with dirty := false } }) := by
          unfold ArmMemory.flush_step; rw [hk]; simp [hs', hd, hlt, hod]
        rw [e]
        refine ⟨h.write_back_dirty hL k cell hk, rfl, ?_, fun e => absurd e hs, ?_, ?_⟩
        · intro j hj
          show (r.2.cells.set k _)[j]? = _
          rw [List.getElem?_set, if_neg (fun e => hj e.symm)]
        · intro _ c hc
          have hc' : (r.2.cells.set k { cell with dirty := false })[k]? = some c := hc
          rw [List.getElem?_set, if_pos rfl, if_pos hlt] at hc'
          have e' := Option.some.inj hc'
          subst e'
          exact ⟨rfl, hod⟩
        · intro _
          exact Or.inr ⟨cell, hs, rfl, by simp [hd]⟩
      · have hk1 : (r.2.cells.set k { cell with dirty := false })[k]?
            = some { cell with dirty := false } := by
          rw [List.getElem?_set, if_pos rfl, if_pos hlt]
        have e : ArmMemory.flush_step false skip r k = (true, { r.2 with
            heap := ArmMemory.write_back r.2.heap cell.address cell.size cell.cache
            other_heap := ArmMemory.write_back r.2.other_heap cell.address cell.size cell.other_cache
            cells := (r.2.cells.set k { cell with dirty := false }).set k
              { cell with dirty := false, other_dirty := false } }) := by
          unfold ArmMemory.flush_step; rw [hk]; simp [hs', hd, hlt, hod]
        rw [e]
        have h1 := h.write_back_dirty hL k cell hk
        have h2 := h1.write_back_other_dirty hL k { cell with dirty := false } hk1
        refine ⟨h2, rfl, ?_, fun e => absurd e hs, ?_, ?_⟩
        · intro j hj
          show ((r.2.cells.set k _).set k _)[j]? = _
          rw [List.getElem?_set, if_neg (fun e => hj e.symm), List.getElem?_set,
            if_neg (fun e => hj e.symm)]
        · intro _ c hc
          have hc' : ((r.2.cells.set k { cell with dirty := false }).set k
              { cell with dirty := false, other_dirty := false })[k]? = some c := hc
          rw [List.getElem?_set, if_pos rfl, if_pos (by simpa using hlt)] at hc'
          have e' := Option.some.inj hc'
          subst e'
          exact ⟨rfl, rfl⟩
        · intro _
          exact Or.inr ⟨cell, hs, rfl, by simp [hd]⟩

/-- The loop of `flush_dirty`, after its first `j` turns. -/
theorem ArmMemory.flush_loop_spec {env : Env} {cells0 : List ArmMemory.Cell}
    {heaps : (Nat → Nat) × (Nat → Nat)} (hL : ArmMemory.NoOverlap env cells0) (skip : Nat)
    (s : ArmMemory.Sim) (h : ArmMemory.SimInv env cells0 heaps s) (j : Nat) :
    ArmMemory.SimInv env cells0 heaps
      ((List.range j).foldl (ArmMemory.flush_step false skip) (false, s)).2 ∧
    ((List.range j).foldl (ArmMemory.flush_step false skip) (false, s)).2.constraints
      = s.constraints ∧
    (∀ k, (j ≤ k ∨ k = skip) →
      ((List.range j).foldl (ArmMemory.flush_step false skip) (false, s)).2.cells[k]?
        = s.cells[k]?) ∧
    (∀ k c, k < j → k ≠ skip →
      ((List.range j).foldl (ArmMemory.flush_step false skip) (false, s)).2.cells[k]? = some c →
      c.dirty = false ∧ c.other_dirty = false) ∧
    (((List.range j).foldl (ArmMemory.flush_step false skip) (false, s)).1 = true →
      ∃ k c, k ≠ skip ∧ s.cells[k]? = some c ∧ (c.dirty || c.other_dirty) = true) := by
  induction j with
  | zero =>
    refine ⟨h, rfl, fun _ _ => rfl, fun k c hk => absurd hk (Nat.not_lt_zero k), ?_⟩
    intro h1
    cases h1
  | succ j ih =>
    rw [List.range_succ, List.foldl_append]
    simp only [List.foldl_cons, List.foldl_nil]
    generalize (List.range j).foldl (ArmMemory.flush_step false skip) (false, s) = r at ih ⊢
    obtain ⟨i1, i2, i3, i4, i5⟩ := ih
    obtain ⟨s1, s2, s3, s4, s5, s6⟩ := ArmMemory.flush_step_spec hL skip r j i1
    refine ⟨s1, s2.trans i2, ?_, ?_, ?_⟩
    · intro k hk
      by_cases hkj : k = j
      · subst hkj
        have hs : k = skip := by omega
        rw [s4 hs]
        exact i3 k (Or.inr hs)
      · rw [s3 k hkj]
        exact i3 k (by omega)
    · intro k c hk hne hc
      by_cases hkj : k = j
      · subst hkj
        exact s5 hne c hc
      · rw [s3 k hkj] at hc
        exact i4 k c (by omega) hne hc
    · intro h1
      rcases s6 h1 with h2 | ⟨c, hne, hc, hd⟩
      · exact i5 h2
      · rw [i3 j (Or.inl (Nat.le_refl j))] at hc
        exact ⟨j, c, hne, hc, hd⟩

/-- What `flush_dirty(skip)` does to a state that agrees with the flat heaps: the
agreement is kept, the constraints too, every cell but the skipped one is clean, the
skipped one is unchanged, and `update_required` is set only when a cell other than the
skipped one was dirty. -/
theorem ArmMemory.flush_dirty_spec {env : Env} {cells0 : List ArmMemory.Cell}
    {heaps : (Nat → Nat) × (Nat → Nat)} (hL : ArmMemory.NoOverlap env cells0) (skip : Nat)
    (s : ArmMemory.Sim) (h : ArmMemory.SimInv env cells0 heaps s) :
    ArmMemory.SimInv env cells0 heaps (ArmMemory.flush_dirty false skip s).2 ∧
    (ArmMemory.flush_dirty false skip s).2.constraints = s.constraints ∧
    (ArmMemory.flush_dirty false skip s).2.cells[skip]? = s.cells[skip]? ∧
    (∀ k c, k ≠ skip → (ArmMemory.flush_dirty false skip s).2.cells[k]? = some c →
      c.dirty = false ∧ c.other_dirty = false) ∧
    ((ArmMemory.flush_dirty false skip s).1 = true →
      ∃ k c, k ≠ skip ∧ s.cells[k]? = some c ∧ (c.dirty || c.other_dirty) = true) := by
  rw [ArmMemory.flush_dirty_eq]
  obtain ⟨i1, i2, i3, i4, i5⟩ := ArmMemory.flush_loop_spec hL skip s h s.cells.length
  refine ⟨i1, i2, i3 skip (Or.inr rfl), ?_, i5⟩
  intro k c hne hc
  have hlen : ((List.range s.cells.length).foldl (ArmMemory.flush_step false skip)
      (false, s)).2.cells.length = s.cells.length := by
    have e1 := congrArg List.length i1.layout
    have e2 := congrArg List.length h.layout
    simp only [List.length_map] at e1 e2
    omega
  have hlt : k < s.cells.length := by
    rcases Nat.lt_or_ge k s.cells.length with h | h
    · exact h
    · rw [List.getElem?_eq_none (by omega)] at hc; cases hc
  exact i4 k c hlt hne hc


/-- A position that holds a cell lies inside the list. -/
theorem ArmMemory.lt_of_get {α : Type} {l : List α} {k : Nat} {c : α} (h : l[k]? = some c) :
    k < l.length := by
  rcases Nat.lt_or_ge k l.length with h1 | h1
  · exact h1
  · rw [List.getElem?_eq_none h1] at h; cases h

/-- Replacing a cell by one at the same place, with the same dirty bits and with caches
that hold the bytes of the cell, keeps the agreement with the flat heaps. -/
theorem ArmMemory.SimInv.refresh {env : Env} {cells0 : List ArmMemory.Cell}
    {heaps : (Nat → Nat) × (Nat → Nat)} {s : ArmMemory.Sim}
    (h : ArmMemory.SimInv env cells0 heaps s) (k : Nat) (cell cell1 : ArmMemory.Cell)
    (hk : s.cells[k]? = some cell) (hp : cell1.place = cell.place)
    (hd : cell1.dirty = cell.dirty) (hod : cell1.other_dirty = cell.other_dirty)
    (hc : cell1.cache.eval env
      = ⟨8 * cell.size, ArmMemory.flat_load heaps.1 (cell.address.eval env).v cell.size⟩)
    (hoc : cell1.other_cache.eval env
      = ⟨8 * cell.size, ArmMemory.flat_load heaps.2 (cell.address.eval env).v cell.size⟩)
    (cs : List SymBool) :
    ArmMemory.SimInv env cells0 heaps
      { cells := s.cells.set k cell1, heap := s.heap, other_heap := s.other_heap,
        constraints := cs } := by
  have hlt := ArmMemory.lt_of_get hk
  have hk1 : (s.cells.set k cell1)[k]? = some cell1 := by
    rw [List.getElem?_set, if_pos rfl, if_pos hlt]
  have hne : ∀ j, j ≠ k → (s.cells.set k cell1)[j]? = s.cells[j]? := by
    intro j hj
    rw [List.getElem?_set, if_neg (fun e => hj e.symm)]
  simp only [ArmMemory.Cell.place, Prod.mk.injEq] at hp
  obtain ⟨hpa, _, hps⟩ := hp
  refine ⟨?_, ?_, ?_, ?_, ?_, ?_⟩
  · show (s.cells.set k cell1).map ArmMemory.Cell.place = _
    rw [ArmMemory.map_place_set s.cells k cell cell1 hk
      (by simp only [ArmMemory.Cell.place, Prod.mk.injEq]; exact ⟨hpa, ‹_›, hps⟩)]
    exact h.layout
  · intro j c hj
    rcases ArmMemory.get_set_cases _ _ _ _ _ hj with ⟨_, e⟩ | ⟨_, e⟩
    · subst e; rw [hpa, hps]; exact hc
    · exact h.cache j c e
  · intro j c hj
    rcases ArmMemory.get_set_cases _ _ _ _ _ hj with ⟨_, e⟩ | ⟨_, e⟩
    · subst e; rw [hpa, hps]; exact hoc
    · exact h.other_cache j c e
  · intro x
    rcases h.heap x with e | ⟨k', c', i, hk', hd', hi, e⟩
    · exact Or.inl e
    · right
      by_cases hkk : k' = k
      · subst hkk
        rw [hk] at hk'
        have e' : cell = c' := Option.some.inj hk'
        subst e'
        exact ⟨k', cell1, i, hk1, by rw [hd]; exact hd', by rw [hps]; exact hi,
          by rw [hpa]; exact e⟩
      · exact ⟨k', c', i, (hne k' hkk).trans hk', hd', hi, e⟩
  · intro x
    rcases h.other_heap x with e | ⟨k', c', i, hk', hd', hi, e⟩
    · exact Or.inl e
    · right
      by_cases hkk : k' = k
      · subst hkk
        rw [hk] at hk'
        have e' : cell = c' := Option.some.inj hk'
        subst e'
        exact ⟨k', cell1, i, hk1, by rw [hod]; exact hd', by rw [hps]; exact hi,
          by rw [hpa]; exact e⟩
      · exact ⟨k', c', i, (hne k' hkk).trans hk', hd', hi, e⟩
  · intro j j' c c' hj hj' hdj hdj'
    have old : ∀ (j : Nat) (c : ArmMemory.Cell), (s.cells.set k cell1)[j]? = some c →
        (c.dirty || c.other_dirty) = true →
        ∃ c1, s.cells[j]? = some c1 ∧ (c1.dirty || c1.other_dirty) = true := by
      intro j c hj hdj
      rcases ArmMemory.get_set_cases _ _ _ _ _ hj with ⟨e1, e⟩ | ⟨_, e⟩
      · subst e; subst e1
        refine ⟨cell, hk, ?_⟩
        rw [← hd, ← hod]; exact hdj
      · exact ⟨c, e, hdj⟩
    obtain ⟨c1, h1, d1⟩ := old j c hj hdj
    obtain ⟨c2, h2, d2⟩ := old j' c' hj' hdj'
    exact h.one_dirty j j' c1 c2 h1 h2 d1 d2

/-- A store inside a cell leaves the bytes of every other cell alone. -/
theorem ArmMemory.NoOverlap.load_other {env : Env} {cells0 : List ArmMemory.Cell}
    (hL : ArmMemory.NoOverlap env cells0) {cells : List ArmMemory.Cell}
    (hmap : cells.map ArmMemory.Cell.place = cells0.map ArmMemory.Cell.place)
    (heap : Nat → Nat) (k j : Nat) (cell c : ArmMemory.Cell) (hk : cells[k]? = some cell)
    (hj : cells[j]? = some c) (hjk : j ≠ k) (o n value : Nat) (hon : o + n ≤ cell.size) :
    ArmMemory.flat_load
        (ArmMemory.flat_store heap (((cell.address.eval env).v + o) % 2 ^ 64) value n)
        (c.address.eval env).v c.size
      = ArmMemory.flat_load heap (c.address.eval env).v c.size := by
  obtain ⟨c0, hc0, ha0, _, hs0⟩ := ArmMemory.place_of_map hmap hk
  obtain ⟨d0, hd0, hb0, _, ht0⟩ := ArmMemory.place_of_map hmap hj
  apply ArmMemory.flat_load_congr
  intro i hi
  rw [ArmMemory.flat_store_miss]
  intro i' hi' e
  have hdis := hL.disjoint j k d0 c0 i (o + i') hd0 hc0 hjk (by omega) (by omega)
  rw [hb0, ha0] at hdis
  apply hdis
  rw [e]
  omega

/-- A write of this side into a cell whose cache is current: with all other cells clean,
the state with the new cache agrees with the flat heaps after the store. -/
theorem ArmMemory.SimInv.store {env : Env} {cells0 : List ArmMemory.Cell}
    {heaps : (Nat → Nat) × (Nat → Nat)} {s : ArmMemory.Sim}
    (hL : ArmMemory.NoOverlap env cells0) (h : ArmMemory.SimInv env cells0 heaps s)
    (k : Nat) (cell cell1 : ArmMemory.Cell) (hk : s.cells[k]? = some cell)
    (hclean : ∀ (j : Nat) (c : ArmMemory.Cell), j ≠ k → s.cells[j]? = some c →
      c.dirty = false ∧ c.other_dirty = false)
    (hp : cell1.place = cell.place) (hd : cell1.dirty = true)
    (hod : cell1.other_dirty = cell.other_dirty) (o n value : Nat) (hon : o + n ≤ cell.size)
    (hc : cell1.cache.eval env = ⟨8 * cell.size, ArmMemory.flat_load
        (ArmMemory.flat_store heaps.1 (((cell.address.eval env).v + o) % 2 ^ 64) value n)
        (cell.address.eval env).v cell.size⟩)
    (hoc : cell1.other_cache = cell.other_cache) :
    ArmMemory.SimInv env cells0
      (ArmMemory.flat_store heaps.1 (((cell.address.eval env).v + o) % 2 ^ 64) value n, heaps.2)
      { s with cells := s.cells.set k cell1 } := by
  have hlt := ArmMemory.lt_of_get hk
  have hk1 : (s.cells.set k cell1)[k]? = some cell1 := by
    rw [List.getElem?_set, if_pos rfl, if_pos hlt]
  simp only [ArmMemory.Cell.place, Prod.mk.injEq] at hp
  obtain ⟨hpa, hpi, hps⟩ := hp
  refine ⟨?_, ?_, ?_, ?_, ?_, ?_⟩
  · show (s.cells.set k cell1).map ArmMemory.Cell.place = _
    rw [ArmMemory.map_place_set s.cells k cell cell1 hk
      (by simp only [ArmMemory.Cell.place, Prod.mk.injEq]; exact ⟨hpa, hpi, hps⟩)]
    exact h.layout
  · intro j c hj
    rcases ArmMemory.get_set_cases _ _ _ _ _ hj with ⟨_, e⟩ | ⟨hjk, e⟩
    · subst e; rw [hpa, hps]; exact hc
    · show c.cache.eval env = ⟨8 * c.size, ArmMemory.flat_load (ArmMemory.flat_store _ _ _ _) _ _⟩
      rw [hL.load_other h.layout heaps.1 k j cell c hk e hjk o n value hon]
      exact h.cache j c e
  · intro j c hj
    rcases ArmMemory.get_set_cases _ _ _ _ _ hj with ⟨_, e⟩ | ⟨_, e⟩
    · subst e; rw [hpa, hps, hoc]; exact h.other_cache k cell hk
    · exact h.other_cache j c e
  · intro x
    show s.heap.eval env x % 256 = ArmMemory.flat_store heaps.1 _ value n x % 256 ∨ _
    by_cases hx : ∃ i, i < cell.size ∧ x = ((cell.address.eval env).v + i) % 2 ^ 64
    · obtain ⟨i, hi, e⟩ := hx
      exact Or.inr ⟨k, cell1, i, hk1, hd, by rw [hps]; exact hi, by rw [hpa]; exact e⟩
    · left
      rw [ArmMemory.flat_store_miss]
      · rcases h.heap x with e | ⟨k', c', i, hk', hd', hi, e⟩
        · exact e
        · exfalso
          by_cases hkk : k' = k
          · subst hkk
            rw [hk] at hk'
            have e' : cell = c' := Option.some.inj hk'
            subst e'
            exact hx ⟨i, hi, e⟩
          · rw [(hclean k' c' hkk hk').1] at hd'; cases hd'
      · intro i hi e
        apply hx
        refine ⟨o + i, by omega, ?_⟩
        rw [e]
        omega
  · intro x
    rcases h.other_heap x with e | ⟨k', c', i, hk', hd', hi, e⟩
    · exact Or.inl e
    · right
      by_cases hkk : k' = k
      · subst hkk
        rw [hk] at hk'
        have e' : cell = c' := Option.some.inj hk'
        subst e'
        exact ⟨k', cell1, i, hk1, by rw [hod]; exact hd', by rw [hps]; exact hi,
          by rw [hpa]; exact e⟩
      · rw [(hclean k' c' hkk hk').2] at hd'; cases hd'
  · intro j j' c c' hj hj' hdj hdj'
    have only : ∀ (j : Nat) (c : ArmMemory.Cell), (s.cells.set k cell1)[j]? = some c →
        (c.dirty || c.other_dirty) = true → j = k := by
      intro j c hj hdj
      rcases ArmMemory.get_set_cases _ _ _ _ _ hj with ⟨e1, _⟩ | ⟨e1, e⟩
      · exact e1
      · obtain ⟨d1, d2⟩ := hclean j c e1 e
        rw [d1, d2] at hdj; cases hdj
    rw [only j c hj hdj, only j' c' hj' hdj']

/-- A write of the other side into a cell whose cache is current: with all other cells
clean, the state with the new cache agrees with the flat heaps after the store. -/
theorem ArmMemory.SimInv.store_other {env : Env} {cells0 : List ArmMemory.Cell}
    {heaps : (Nat → Nat) × (Nat → Nat)} {s : ArmMemory.Sim}
    (hL : ArmMemory.NoOverlap env cells0) (h : ArmMemory.SimInv env cells0 heaps s)
    (k : Nat) (cell cell1 : ArmMemory.Cell) (hk : s.cells[k]? = some cell)
    (hclean : ∀ (j : Nat) (c : ArmMemory.Cell), j ≠ k → s.cells[j]? = some c →
      c.dirty = false ∧ c.other_dirty = false)
    (hp : cell1.place = cell.place) (hd : cell1.other_dirty = true)
    (hod : cell1.dirty = cell.dirty) (o n value : Nat) (hon : o + n ≤ cell.size)
    (hc : cell1.other_cache.eval env = ⟨8 * cell.size, ArmMemory.flat_load
        (ArmMemory.flat_store heaps.2 (((cell.address.eval env).v + o) % 2 ^ 64) value n)
        (cell.address.eval env).v cell.size⟩)
    (hoc : cell1.cache = cell.cache) :
    ArmMemory.SimInv env cells0
      (heaps.1, ArmMemory.flat_store heaps.2 (((cell.address.eval env).v + o) % 2 ^ 64) value n)
      { s with cells := s.cells.set k cell1 } := by
  have hlt := ArmMemory.lt_of_get hk
  have hk1 : (s.cells.set k cell1)[k]? = some cell1 := by
    rw [List.getElem?_set, if_pos rfl, if_pos hlt]
  simp only [ArmMemory.Cell.place, Prod.mk.injEq] at hp
  obtain ⟨hpa, hpi, hps⟩ := hp
  refine ⟨?_, ?_, ?_, ?_, ?_, ?_⟩
  · show (s.cells.set k cell1).map ArmMemory.Cell.place = _
    rw [ArmMemory.map_place_set s.cells k cell cell1 hk
      (by simp only [ArmMemory.Cell.place, Prod.mk.injEq]; exact ⟨hpa, hpi, hps⟩)]
    exact h.layout
  · intro j c hj
    rcases ArmMemory.get_set_cases _ _ _ _ _ hj with ⟨_, e⟩ | ⟨_, e⟩
    · subst e; rw [hpa, hps, hoc]; exact h.cache k cell hk
    · exact h.cache j c e
  · intro j c hj
    rcases ArmMemory.get_set_cases _ _ _ _ _ hj with ⟨_, e⟩ | ⟨hjk, e⟩
    · subst e; rw [hpa, hps]; exact hc
    · show c.other_cache.eval env
        = ⟨8 * c.size, ArmMemory.flat_load (ArmMemory.flat_store _ _ _ _) _ _⟩
      rw [hL.load_other h.layout heaps.2 k j cell c hk e hjk o n value hon]
      exact h.other_cache j c e
  · intro x
    rcases h.heap x with e | ⟨k', c', i, hk', hd', hi, e⟩
    · exact Or.inl e
    · right
      by_cases hkk : k' = k
      · subst hkk
        rw [hk] at hk'
        have e' : cell = c' := Option.some.inj hk'
        subst e'
        exact ⟨k', cell1, i, hk1, by rw [hod]; exact hd', by rw [hps]; exact hi,
          by rw [hpa]; exact e⟩
      · rw [(hclean k' c' hkk hk').1] at hd'; cases hd'
  · intro x
    show s.other_heap.eval env x % 256 = ArmMemory.flat_store heaps.2 _ value n x % 256 ∨ _
    by_cases hx : ∃ i, i < cell.size ∧ x = ((cell.address.eval env).v + i) % 2 ^ 64
    · obtain ⟨i, hi, e⟩ := hx
      exact Or.inr ⟨k, cell1, i, hk1, hd, by rw [hps]; exact hi, by rw [hpa]; exact e⟩
    · left
      rw [ArmMemory.flat_store_miss]
      · rcases h.other_heap x with e | ⟨k', c', i, hk', hd', hi, e⟩
        · exact e
        · exfalso
          by_cases hkk : k' = k
          · subst hkk
            rw [hk] at hk'
            have e' : cell = c' := Option.some.inj hk'
            subst e'
            exact hx ⟨i, hi, e⟩
          · rw [(hclean k' c' hkk hk').2] at hd'; cases hd'
      · intro i hi e
        apply hx
        refine ⟨o + i, by omega, ?_⟩
        rw [e]
        omega
  · intro j j' c c' hj hj' hdj hdj'
    have only : ∀ (j : Nat) (c : ArmMemory.Cell), (s.cells.set k cell1)[j]? = some c →
        (c.dirty || c.other_dirty) = true → j = k := by
      intro j c hj hdj
      rcases ArmMemory.get_set_cases _ _ _ _ _ hj with ⟨e1, _⟩ | ⟨e1, e⟩
      · exact e1
      · obtain ⟨d1, d2⟩ := hclean j c e1 e
        rw [d1, d2] at hdj; cases hdj
    rw [only j c hj hdj, only j' c' hj' hdj']

/-- After `flush_dirty` has skipped a cell, the cache the access goes on with (read out of
the heap when a flush happened, else the cache of the cell) holds the bytes of the cell,
on either side. -/
theorem ArmMemory.flush_cache_current {env : Env} {cells0 : List ArmMemory.Cell}
    {heaps : (Nat → Nat) × (Nat → Nat)} {s : ArmMemory.Sim}
    (hL : ArmMemory.NoOverlap env cells0) (h : ArmMemory.SimInv env cells0 heaps s)
    (k : Nat) (cell : ArmMemory.Cell) (hk : s.cells[k]? = some cell) :
    (if (ArmMemory.flush_dirty false k s).1 then
        ArmMemory.read_cache (ArmMemory.flush_dirty false k s).2.heap cell.address cell.size
      else cell.cache).eval env
      = ⟨8 * cell.size, ArmMemory.flat_load heaps.1 (cell.address.eval env).v cell.size⟩ ∧
    (if (ArmMemory.flush_dirty false k s).1 then
        ArmMemory.read_cache (ArmMemory.flush_dirty false k s).2.other_heap cell.address cell.size
      else cell.other_cache).eval env
      = ⟨8 * cell.size, ArmMemory.flat_load heaps.2 (cell.address.eval env).v cell.size⟩ := by
  obtain ⟨f1, _, f3, f4, f5⟩ := ArmMemory.flush_dirty_spec hL k s h
  obtain ⟨c0, hc0, ha0, _, _⟩ := ArmMemory.place_of_map h.layout hk
  have hw : (cell.address.eval env).w = 64 := by rw [← ha0]; exact hL.width k c0 hc0
  cases hF : (ArmMemory.flush_dirty false k s).1 with
  | false => exact ⟨h.cache k cell hk, h.other_cache k cell hk⟩
  | true =>
    obtain ⟨k2, c2, hne, hc2, hd2⟩ := f5 hF
    have hcl : cell.dirty = false ∧ cell.other_dirty = false := by
      cases hd : cell.dirty <;> cases hod : cell.other_dirty
      · exact ⟨rfl, rfl⟩
      all_goals exact absurd (h.one_dirty k2 k c2 cell hc2 hk hd2 (by simp [hd, hod])) hne
    have clean : ∀ (j : Nat) (c : ArmMemory.Cell),
        (ArmMemory.flush_dirty false k s).2.cells[j]? = some c →
        c.dirty = false ∧ c.other_dirty = false := by
      intro j c hj
      by_cases hjk : j = k
      · subst hjk
        rw [f3, hk] at hj
        have e' : cell = c := Option.some.inj hj
        subst e'
        exact hcl
      · exact f4 j c hjk hj
    simp only [if_true]
    rw [ArmMemory.read_cache_eval env _ _ _ hw, ArmMemory.read_cache_eval env _ _ _ hw]
    constructor
    · congr 1
      apply ArmMemory.flat_load_congr
      intro i _
      rcases f1.heap (((cell.address.eval env).v + i) % 2 ^ 64) with e | ⟨j, c, _, hj, hd, _, _⟩
      · exact e
      · rw [(clean j c hj).1] at hd; cases hd
    · congr 1
      apply ArmMemory.flat_load_congr
      intro i _
      rcases f1.other_heap (((cell.address.eval env).v + i) % 2 ^ 64) with
        e | ⟨j, c, _, hj, hd, _, _⟩
      · exact e
      · rw [(clean j c hj).2] at hd; cases hd

/-- The address of an access that lies in a cell, in terms of the cell. -/
theorem ArmMemory.flat_address_placed (env : Env) (cells : List ArmMemory.Cell)
    (a : ArmMemory.Access) (k : Nat) (c : ArmMemory.Cell) (o : Nat) (hcell : a.cell = some k)
    (hc : cells[k]? = some c) (ho : a.cell_offset = (o : Int)) :
    ArmMemory.flat_address env cells a = ((c.address.eval env).v + o) % 2 ^ 64 := by
  have hkey : a.cell_key = k := by simp [ArmMemory.Access.cell_key, hcell]
  unfold ArmMemory.flat_address
  rw [hkey, hc, ho]
  simp only [u64]
  omega

/-- One access of the conservative simulation, against the flat heaps: the agreement is
kept, a write adds no constraint and a read adds the constraint that its value is the
one found in the flat heap of its side. -/
theorem ArmMemory.simulate_access_spec {env : Env} {cells0 : List ArmMemory.Cell}
    {heaps : (Nat → Nat) × (Nat → Nat)} {s : ArmMemory.Sim}
    (hL : ArmMemory.NoOverlap env cells0) (h : ArmMemory.SimInv env cells0 heaps s)
    (a : ArmMemory.Access) (hp : a.placed env cells0) :
    ArmMemory.SimInv env cells0 (ArmMemory.flat_step env cells0 heaps a)
      (ArmMemory.simulate_access false s a) ∧
    ∃ extra, (ArmMemory.simulate_access false s a).constraints = s.constraints ++ extra ∧
      (env.sat extra ↔ (a.write = false → a.value.eval env
        = ⟨a.size, ArmMemory.flat_load (if a.is_other then heaps.2 else heaps.1)
            (ArmMemory.flat_address env cells0 a) (a.size / 8)⟩)) := by
  obtain ⟨k, c0, o, n, hcell, hc0, ho, hn, hpos, hon, hw⟩ := hp
  have hkey : a.cell_key = k := by simp [ArmMemory.Access.cell_key, hcell]
  obtain ⟨cell, hk, ha0, hi0, hs0⟩ := ArmMemory.place_of_map h.layout.symm hc0
  have hidx : cell.index = k := by rw [hi0]; exact hL.index k c0 hc0
  have hS : cell.size < 2 ^ 64 := by rw [hs0]; exact hL.size k c0 hc0
  have hon1 : o + n ≤ cell.size := by rw [hs0]; exact hon
  have haddr : ArmMemory.flat_address env cells0 a = ((cell.address.eval env).v + o) % 2 ^ 64 := by
    rw [ArmMemory.flat_address_placed env cells0 a k c0 o hcell hc0 ho, ha0]
  have hdiv : a.size / 8 = n := by omega
  have hw1 : (a.value.eval env).w = 8 * n := by rw [hw, hn]
  obtain ⟨f1, f2, f3, f4, f5⟩ := ArmMemory.flush_dirty_spec hL k s h
  have hk1 : (ArmMemory.flush_dirty false k s).2.cells[k]? = some cell := f3.trans hk
  obtain ⟨hc1, hc2⟩ := ArmMemory.flush_cache_current hL h k cell hk
  have hclean : ∀ (j : Nat) (c : ArmMemory.Cell), j ≠ k →
      (ArmMemory.flush_dirty false k s).2.cells[j]? = some c →
      c.dirty = false ∧ c.other_dirty = false := fun j c hj hc => f4 j c hj hc
  unfold ArmMemory.simulate_access ArmMemory.flat_step
  simp only [Bool.false_eq_true, if_false]
  rw [hkey, hk]
  simp only [hidx]
  rw [hk1]
  simp only [haddr, hdiv]
  cases hwr : a.write <;> cases hot : a.is_other
  · simp only [Bool.false_eq_true, if_false]
    refine ⟨?_, _, by rw [f2], ?_⟩
    · refine f1.refresh k cell _ hk1 ?_ ?_ ?_ ?_ ?_ _
      · rfl
      · rfl
      · rfl
      · exact hc1
      · exact f1.other_cache k cell hk1
    · rw [Env.sat_singleton]
      show a.value.eval env = (ArmMemory.read_value a _).eval env ↔ _
      rw [ArmMemory.read_value_eval env a _ heaps.1 _ o n cell.size ho hn hpos hon1 hc1, hn]
      simp
  · simp only [Bool.false_eq_true, if_false, if_true]
    refine ⟨?_, _, by rw [f2], ?_⟩
    · refine f1.refresh k cell _ hk1 ?_ ?_ ?_ ?_ ?_ _
      · rfl
      · rfl
      · rfl
      · exact f1.cache k cell hk1
      · exact hc2
    · rw [Env.sat_singleton]
      show a.value.eval env = (ArmMemory.read_value a _).eval env ↔ _
      rw [ArmMemory.read_value_eval env a _ heaps.2 _ o n cell.size ho hn hpos hon1 hc2, hn]
      simp
  · simp only [Bool.false_eq_true, if_false, if_true]
    refine ⟨?_, [], by rw [f2]; simp, ?_⟩
    · refine f1.store hL k cell _ hk1 hclean ?_ ?_ ?_ o n _ hon1 ?_ ?_
      · rfl
      · rfl
      · rfl
      · exact ArmMemory.write_cache_eval env a cell _ heaps.1 _ o n ho hn hon1 hS hw1 hc1
      · rfl
    · simp [Env.sat]
  · simp only [Bool.false_eq_true, if_false, if_true]
    refine ⟨?_, [], by rw [f2]; simp, ?_⟩
    · refine f1.store_other hL k cell _ hk1 hclean ?_ ?_ ?_ o n _ hon1 ?_ ?_
      · rfl
      · rfl
      · rfl
      · exact ArmMemory.write_cache_eval env a cell _ heaps.2 _ o n ho hn hon1 hS hw1 hc2
      · rfl
    · simp [Env.sat]

/-- The main loop of the conservative simulation, against the flat heaps: the agreement
is kept and the constraints added are blocks that constrain every read to the value
found in the flat heap of its side. -/
theorem ArmMemory.simulate_fold_spec {env : Env} {cells0 : List ArmMemory.Cell}
    (hL : ArmMemory.NoOverlap env cells0) :
    ∀ (l : List ArmMemory.Access) (heaps : (Nat → Nat) × (Nat → Nat)) (s : ArmMemory.Sim),
      ArmMemory.SimInv env cells0 heaps s → (∀ a ∈ l, a.placed env cells0) →
      ArmMemory.SimInv env cells0 (ArmMemory.flat_final env cells0 heaps l)
        (l.foldl (ArmMemory.simulate_access false) s) ∧
      ∃ extra, (l.foldl (ArmMemory.simulate_access false) s).constraints
          = s.constraints ++ extra ∧
        ArmMemory.read_blocks env cells0 heaps l extra := by
  intro l
  induction l with
  | nil =>
    intro heaps s h _
    exact ⟨h, [], by simp, rfl⟩
  | cons a rest ih =>
    intro heaps s h hp
    obtain ⟨h1, e1, he1, hs1⟩ :=
      ArmMemory.simulate_access_spec hL h a (hp a (List.mem_cons_self a rest))
    obtain ⟨h2, e2, he2, hs2⟩ := ih (ArmMemory.flat_step env cells0 heaps a)
      (ArmMemory.simulate_access false s a) h1
      (fun b hb => hp b (List.mem_cons_of_mem a hb))
    refine ⟨h2, e1 ++ e2, ?_, ?_⟩
    · rw [List.foldl_cons, he2, he1, List.append_assoc]
    · exact ⟨e1, e2, rfl, hs1, hs2⟩

/-- The state the conservative simulation starts from agrees with the heaps as they are
before the accesses. -/
theorem ArmMemory.SimInv.start {env : Env} {m : ArmMemory} (am : ArmMemory)
    (hP : ArmMemory.Placed env m) :
    ArmMemory.SimInv env m.cells_ (m.heap_.eval env, am.heap_.eval env)
      { cells := m.cells_.map (fun cell =>
          { cell with
            cache := ArmMemory.read_cache m.heap_ cell.address cell.size
            other_cache := ArmMemory.read_cache am.heap_ cell.address cell.size })
        heap := m.heap_, other_heap := am.heap_, constraints := m.constraints_ } := by
  have hget : ∀ (k : Nat) (c : ArmMemory.Cell),
      (m.cells_.map (fun cell : ArmMemory.Cell =>
          { cell with
            cache := ArmMemory.read_cache m.heap_ cell.address cell.size
            other_cache := ArmMemory.read_cache am.heap_ cell.address cell.size }))[k]? = some c →
      ∃ c1, m.cells_[k]? = some c1 ∧ c = { c1 with
            cache := ArmMemory.read_cache m.heap_ c1.address c1.size
            other_cache := ArmMemory.read_cache am.heap_ c1.address c1.size } := by
    intro k c hk
    rw [List.getElem?_map] at hk
    cases h1 : m.cells_[k]? with
    | none => rw [h1] at hk; cases hk
    | some c1 =>
      rw [h1] at hk
      exact ⟨c1, rfl, (Option.some.inj hk).symm⟩
  refine ⟨?_, ?_, ?_, fun x => Or.inl rfl, fun x => Or.inl rfl, ?_⟩
  · show (m.cells_.map _).map ArmMemory.Cell.place = _
    rw [List.map_map]
    rfl
  · intro k c hk
    obtain ⟨c1, h1, rfl⟩ := hget k c hk
    exact ArmMemory.read_cache_eval env _ _ _ (hP.layout.width k c1 h1)
  · intro k c hk
    obtain ⟨c1, h1, rfl⟩ := hget k c hk
    exact ArmMemory.read_cache_eval env _ _ _ (hP.layout.width k c1 h1)
  · intro k k' c c' hk _ hd _
    obtain ⟨c1, h1, rfl⟩ := hget k c hk
    obtain ⟨d1, d2⟩ := hP.clean k c1 h1
    simp only [d1, d2] at hd
    cases hd

/-- The flush after the last access: both heaps are the flat heaps, byte for byte. -/
theorem ArmMemory.flush_all_spec {env : Env} {cells0 : List ArmMemory.Cell}
    {heaps : (Nat → Nat) × (Nat → Nat)} (hL : ArmMemory.NoOverlap env cells0)
    (s : ArmMemory.Sim) (h : ArmMemory.SimInv env cells0 heaps s) :
    (∀ x, (ArmMemory.flush_dirty false (2 ^ 64 - 1) s).2.heap.eval env x % 256
      = heaps.1 x % 256) ∧
    (∀ x, (ArmMemory.flush_dirty false (2 ^ 64 - 1) s).2.other_heap.eval env x % 256
      = heaps.2 x % 256) ∧
    (ArmMemory.flush_dirty false (2 ^ 64 - 1) s).2.constraints = s.constraints := by
  obtain ⟨f1, f2, _, f4, _⟩ := ArmMemory.flush_dirty_spec hL (2 ^ 64 - 1) s h
  have hlen := congrArg List.length f1.layout
  simp only [List.length_map] at hlen
  have hcount := hL.count
  have clean : ∀ (j : Nat) (c : ArmMemory.Cell),
      (ArmMemory.flush_dirty false (2 ^ 64 - 1) s).2.cells[j]? = some c →
      c.dirty = false ∧ c.other_dirty = false := by
    intro j c hj
    have hlt := ArmMemory.lt_of_get hj
    exact f4 j c (by omega) hj
  refine ⟨?_, ?_, f2⟩
  · intro x
    rcases f1.heap x with e | ⟨j, c, _, hj, hd, _, _⟩
    · exact e
    · rw [(clean j c hj).1] at hd; cases hd
  · intro x
    rcases f1.other_heap x with e | ⟨j, c, _, hj, hd, _, _⟩
    · exact e
    · rw [(clean j c hj).2] at hd; cases hd

/-- The conservative simulation of a memory whose cells do not overlap, against the flat
heaps: the final heaps are the flat heaps after all accesses, byte for byte, and the
constraints added are the read constraints followed by the two equations of the final
heaps, the read constraints being blocks that constrain every read to the value found in
the flat heap of its side. -/
theorem ArmMemory.simulate_cells_spec {env : Env} {m : ArmMemory} (am : ArmMemory)
    (hP : ArmMemory.Placed env m) :
    (∀ x, (ArmMemory.simulate_cells m am).1.heap_.eval env x % 256
      = (ArmMemory.flat_final env m.cells_ (m.heap_.eval env, am.heap_.eval env)
          m.all_accesses_).1 x % 256) ∧
    (∀ x, (ArmMemory.simulate_cells m am).2.heap_.eval env x % 256
      = (ArmMemory.flat_final env m.cells_ (m.heap_.eval env, am.heap_.eval env)
          m.all_accesses_).2 x % 256) ∧
    ∃ reads, (ArmMemory.simulate_cells m am).1.constraints_
        = m.constraints_ ++ reads ++
          [SymBool.array_eq m.final_heap_ (ArmMemory.simulate_cells m am).1.heap_,
           SymBool.array_eq am.final_heap_ (ArmMemory.simulate_cells m am).2.heap_] ∧
      ArmMemory.read_blocks env m.cells_ (m.heap_.eval env, am.heap_.eval env)
        m.all_accesses_ reads := by
  obtain ⟨g1, reads, g2, g3⟩ := ArmMemory.simulate_fold_spec hP.layout m.all_accesses_ _ _
    (ArmMemory.SimInv.start am hP) hP.access
  obtain ⟨f1, f2, f3⟩ := ArmMemory.flush_all_spec hP.layout _ g1
  unfold ArmMemory.simulate_cells
  simp only [hP.stop, Bool.false_eq_true, if_false]
  exact ⟨f1, f2, reads, by rw [f3, g2], g3⟩


/-! ### Maps with increasing keys -/

theorem SMap.mem_set {α : Type} (m : SMap α) (k : Nat) (v : α) (p : Nat × α)
    (h : p ∈ m.set k v) : p = (k, v) ∨ p ∈ m := by
  induction m with
  | nil =>
    simp only [SMap.set, List.mem_singleton] at h
    exact Or.inl h
  | cons q t ih =>
    obtain ⟨k0, v0⟩ := q
    unfold SMap.set at h
    by_cases h1 : k < k0
    · rw [if_pos h1] at h
      rcases List.mem_cons.mp h with e | e
      · exact Or.inl e
      · exact Or.inr e
    · rw [if_neg h1] at h
      by_cases h2 : k = k0
      · rw [if_pos h2] at h
        rcases List.mem_cons.mp h with e | e
        · exact Or.inl e
        · exact Or.inr (List.mem_cons_of_mem _ e)
      · rw [if_neg h2] at h
        rcases List.mem_cons.mp h with e | e
        · exact Or.inr (by rw [e]; exact List.mem_cons_self _ _)
        · rcases ih e with e1 | e1
          · exact Or.inl e1
          · exact Or.inr (List.mem_cons_of_mem _ e1)

theorem SMap.sorted_set {α : Type} (m : SMap α) (k : Nat) (v : α) (h : m.sorted) :
    (m.set k v).sorted := by
  induction m with
  | nil => simp [SMap.set, SMap.sorted]
  | cons q t ih =>
    obtain ⟨k0, v0⟩ := q
    unfold SMap.sorted at h ih ⊢
    rw [List.pairwise_cons] at h
    obtain ⟨h0, ht⟩ := h
    unfold SMap.set
    by_cases h1 : k < k0
    · rw [if_pos h1, List.pairwise_cons]
      refine ⟨?_, List.pairwise_cons.mpr ⟨h0, ht⟩⟩
      intro p hp
      rcases List.mem_cons.mp hp with e | e
      · rw [e]; exact h1
      · exact Nat.lt_trans h1 (h0 p e)
    · rw [if_neg h1]
      by_cases h2 : k = k0
      · rw [if_pos h2, List.pairwise_cons]
        refine ⟨?_, ht⟩
        intro p hp
        rw [h2]; exact h0 p hp
      · rw [if_neg h2, List.pairwise_cons]
        refine ⟨?_, ih ht⟩
        intro p hp
        rcases SMap.mem_set t k v p hp with e | e
        · rw [e]; show k0 < k; omega
        · exact h0 p e

theorem SMap.find?_of_mem_sorted {α : Type} (m : SMap α) (k : Nat) (v : α) (h : m.sorted)
    (hm : (k, v) ∈ m) : m.find? k = some v := by
  induction m with
  | nil => cases hm
  | cons q t ih =>
    obtain ⟨k0, v0⟩ := q
    unfold SMap.sorted at h ih
    rw [List.pairwise_cons] at h
    obtain ⟨h0, ht⟩ := h
    unfold SMap.find?
    rcases List.mem_cons.mp hm with e | e
    · simp only [Prod.mk.injEq] at e
      rw [if_pos e.1.symm, e.2]
    · have := h0 (k, v) e
      rw [if_neg (by show ¬ k0 = k; omega)]
      exact ih ht e

theorem ArmMemory.MemLoc.lookup_set2 (memloc : ArmMemory.MemLoc) (c o : Nat) (v : SymBitVector)
    (c1 o1 : Nat) :
    (memloc.set2 c o v).lookup c1 o1
      = if c1 = c ∧ o1 = o then some v else memloc.lookup c1 o1 := by
  unfold ArmMemory.MemLoc.lookup ArmMemory.MemLoc.set2
  rw [SMap.find?_set]
  by_cases hc : c1 = c
  · subst hc
    simp only [if_true, true_and]
    rw [SMap.find?_set]
    unfold SMap.getD
    cases SMap.find? memloc c1 <;> simp [SMap.find?]
  · simp [hc]

theorem ArmMemory.MemLoc.get2_eq (memloc : ArmMemory.MemLoc) (c o : Nat) :
    memloc.get2 c o = (memloc.lookup c o).getD SymBitVector.null := by
  unfold ArmMemory.MemLoc.get2 ArmMemory.MemLoc.lookup SMap.getD
  cases SMap.find? memloc c <;> simp [SMap.find?]

theorem ArmMemory.MemLoc.count_eq (memloc : ArmMemory.MemLoc) (c o : Nat) :
    SMap.count (SMap.getD memloc c []) o = (memloc.lookup c o).isSome := by
  unfold ArmMemory.MemLoc.lookup SMap.getD SMap.count
  cases SMap.find? memloc c <;> simp [SMap.find?]

theorem ArmMemory.MemLoc.sorted_set2 (memloc : ArmMemory.MemLoc) (c o : Nat) (v : SymBitVector)
    (h : memloc.sorted) : (memloc.set2 c o v).sorted := by
  unfold ArmMemory.MemLoc.set2
  have hin : SMap.sorted (SMap.set (SMap.getD memloc c []) o v) := by
    apply SMap.sorted_set
    unfold SMap.getD
    cases hf : SMap.find? memloc c with
    | none => simp [SMap.sorted]
    | some inner => exact h.2 (c, inner) (SMap.mem_of_find? memloc c inner hf)
  refine ⟨SMap.sorted_set _ _ _ h.1, ?_⟩
  intro p hp
  rcases SMap.mem_set _ _ _ _ hp with e | e
  · rw [e]; exact hin
  · exact h.2 p e

/-! ### The heaps the fast path builds from its maps -/

/-- The address under which the fast path stores the byte at `offset` of a cell. -/
theorem ArmMemory.key_eval (env : Env) (address : SymBitVector) (offset : Nat) :
    ((SymBitVector.plus (SymBitVector.constant 64 (offset : Int)) address).eval env).v
      = ((address.eval env).v + offset) % 2 ^ 64 := by
  simp only [SymBitVector.eval]
  have h : (((offset : Int) % 2 ^ 64).toNat) = offset % 2 ^ 64 := by omega
  rw [h]
  omega

/-- The bytes of one cell stored into a heap: an address that is none of theirs keeps
its byte. -/
theorem ArmMemory.inner_miss (env : Env) (address : SymBitVector) (x : Nat) :
    ∀ (l : SMap SymBitVector) (heap : SymArray),
      (∀ q ∈ l, x ≠ ((address.eval env).v + q.1) % 2 ^ 64) →
      (l.foldl (fun (heap : SymArray) (p2 : Nat × SymBitVector) =>
        SymArray.update heap
          (SymBitVector.plus (SymBitVector.constant 64 (p2.1 : Int)) address) p2.2) heap).eval env x
        = heap.eval env x := by
  intro l
  induction l with
  | nil => intro heap _; rfl
  | cons p t ih =>
    intro heap h
    rw [List.foldl_cons, ih _ (fun q hq => h q (List.mem_cons_of_mem _ hq))]
    simp only [SymArray.eval]
    rw [ArmMemory.key_eval, if_neg (h p (List.mem_cons_self _ _))]

/-- The bytes of one cell stored into a heap: the address of a byte holds that byte. -/
theorem ArmMemory.inner_hit (env : Env) (address : SymBitVector) :
    ∀ (l : SMap SymBitVector) (heap : SymArray), l.sorted → (∀ q ∈ l, q.1 < 2 ^ 64) →
      ∀ (o : Nat) (v : SymBitVector), (o, v) ∈ l →
      (l.foldl (fun (heap : SymArray) (p2 : Nat × SymBitVector) =>
        SymArray.update heap
          (SymBitVector.plus (SymBitVector.constant 64 (p2.1 : Int)) address) p2.2) heap).eval env
          (((address.eval env).v + o) % 2 ^ 64)
        = (v.eval env).v := by
  intro l
  induction l with
  | nil => intro _ _ _ o v hm; cases hm
  | cons p t ih =>
    intro heap hs hr o v hm
    unfold SMap.sorted at hs
    rw [List.pairwise_cons] at hs
    rw [List.foldl_cons]
    rcases List.mem_cons.mp hm with e | e
    · rw [ArmMemory.inner_miss]
      · simp only [SymArray.eval]
        rw [ArmMemory.key_eval, ← e, if_pos rfl]
      · intro q hq heq
        have h1 := hs.1 q hq
        have h2 := hr q (List.mem_cons_of_mem _ hq)
        have h3 := hr p (List.mem_cons_self _ _)
        rw [← e] at h1 h3
        have := ArmMemory.offset_inj _ _ _ h3 h2 heq
        simp only at h1
        omega
    · exact ih _ hs.2 (fun q hq => hr q (List.mem_cons_of_mem _ hq)) o v e

/-- The heap built from a map: an address that is the address of none of its bytes keeps
its byte. -/
theorem ArmMemory.outer_miss (env : Env) (cells : List ArmMemory.Cell) (x : Nat) :
    ∀ (memloc : ArmMemory.MemLoc) (heap : SymArray),
      (∀ p ∈ memloc, ∀ cell, cells[p.1]? = some cell → ∀ q ∈ p.2,
        x ≠ ((cell.address.eval env).v + q.1) % 2 ^ 64) →
      (ArmMemory.heap_of_memloc cells memloc heap).eval env x = heap.eval env x := by
  intro memloc
  induction memloc with
  | nil => intro heap _; rfl
  | cons p t ih =>
    intro heap h
    unfold ArmMemory.heap_of_memloc at ih ⊢
    rw [List.foldl_cons, ih _ (fun q hq => h q (List.mem_cons_of_mem _ hq))]
    cases hc : cells[p.1]? with
    | none => rfl
    | some cell =>
      exact ArmMemory.inner_miss env cell.address x p.2 heap
        (h p (List.mem_cons_self _ _) cell hc)

/-- The heap built from a map whose bytes lie in cells that do not overlap: the address
of a byte holds that byte. -/
theorem ArmMemory.outer_hit (env : Env) (cells : List ArmMemory.Cell)
    (hL : ArmMemory.NoOverlap env cells) :
    ∀ (memloc : ArmMemory.MemLoc) (heap : SymArray), memloc.sorted →
      (∀ p ∈ memloc, ∀ q ∈ p.2, ∃ cell, cells[p.1]? = some cell ∧ q.1 < cell.size) →
      ∀ (p : Nat × SMap SymBitVector) (cell : ArmMemory.Cell) (o : Nat) (v : SymBitVector),
        p ∈ memloc → cells[p.1]? = some cell → (o, v) ∈ p.2 →
      (ArmMemory.heap_of_memloc cells memloc heap).eval env
          (((cell.address.eval env).v + o) % 2 ^ 64)
        = (v.eval env).v := by
  intro memloc
  induction memloc with
  | nil => intro _ _ _ p _ _ _ hm; cases hm
  | cons p0 t ih =>
    intro heap hs hr p cell o v hm hc hq
    have hs1 := hs.1
    unfold SMap.sorted at hs1
    rw [List.pairwise_cons] at hs1
    have hst : ArmMemory.MemLoc.sorted t :=
      ⟨hs1.2, fun q hq => hs.2 q (List.mem_cons_of_mem _ hq)⟩
    rcases List.mem_cons.mp hm with e | e
    · subst e
      have hstep : ArmMemory.heap_of_memloc cells (p :: t) heap
          = ArmMemory.heap_of_memloc cells t
              (p.2.foldl (fun (heap : SymArray) (p2 : Nat × SymBitVector) =>
                SymArray.update heap
                  (SymBitVector.plus (SymBitVector.constant 64 (p2.1 : Int)) cell.address) p2.2)
                heap) := by
        unfold ArmMemory.heap_of_memloc
        rw [List.foldl_cons, hc]
      rw [hstep, ArmMemory.outer_miss]
      · apply ArmMemory.inner_hit env cell.address p.2 heap
          (hs.2 p (List.mem_cons_self _ _)) _ o v hq
        intro q hq1
        obtain ⟨cell1, h1, h2⟩ := hr p (List.mem_cons_self _ _) q hq1
        have := hL.size p.1 cell1 h1
        omega
      · intro p1 hp1 cell1 hc1 q hq1 heq
        have hlt := hs1.1 p1 hp1
        obtain ⟨cell2, h1, h2⟩ := hr p (List.mem_cons_self _ _) (o, v) hq
        obtain ⟨cell3, h3, h4⟩ := hr p1 (List.mem_cons_of_mem _ hp1) q hq1
        rw [hc] at h1
        rw [hc1] at h3
        have e1 : cell = cell2 := Option.some.inj h1
        have e3 : cell1 = cell3 := Option.some.inj h3
        subst e1; subst e3
        exact hL.disjoint p.1 p1.1 cell cell1 o q.1 hc hc1 (by omega) h2 h4 heq
    · have hstep : ∃ heap1, ArmMemory.heap_of_memloc cells (p0 :: t) heap
          = ArmMemory.heap_of_memloc cells t heap1 :=
        ⟨_, by unfold ArmMemory.heap_of_memloc; rw [List.foldl_cons]⟩
      obtain ⟨heap1, hstep⟩ := hstep
      rw [hstep]
      exact ih _ hst (fun q hq => hr q (List.mem_cons_of_mem _ hq)) p cell o v e hc hq

theorem ArmMemory.MemLoc.mem_of_lookup (memloc : ArmMemory.MemLoc) (c o : Nat)
    (v : SymBitVector) (h : memloc.lookup c o = some v) :
    ∃ inner, (c, inner) ∈ memloc ∧ (o, v) ∈ inner := by
  unfold ArmMemory.MemLoc.lookup at h
  cases hf : SMap.find? memloc c with
  | none => rw [hf] at h; cases h
  | some inner =>
    rw [hf] at h
    exact ⟨inner, SMap.mem_of_find? memloc c inner hf, SMap.mem_of_find? inner o v h⟩

theorem ArmMemory.MemLoc.lookup_of_mem (memloc : ArmMemory.MemLoc) (hs : memloc.sorted)
    (p : Nat × SMap SymBitVector) (q : Nat × SymBitVector) (hp : p ∈ memloc) (hq : q ∈ p.2) :
    memloc.lookup p.1 q.1 = some q.2 := by
  unfold ArmMemory.MemLoc.lookup
  rw [SMap.find?_of_mem_sorted memloc p.1 p.2 hs.1 hp]
  exact SMap.find?_of_mem_sorted p.2 q.1 q.2 (hs.2 p hp) hq

/-- The heap built from a map: the address of a byte of the map holds that byte. -/
theorem ArmMemory.heap_of_memloc_hit (env : Env) (cells : List ArmMemory.Cell)
    (hL : ArmMemory.NoOverlap env cells) (memloc : ArmMemory.MemLoc) (heap : SymArray)
    (hs : memloc.sorted)
    (hr : ∀ (c o : Nat) (v : SymBitVector), memloc.lookup c o = some v →
      ∃ cell, cells[c]? = some cell ∧ o < cell.size)
    (c o : Nat) (v : SymBitVector) (cell : ArmMemory.Cell) (hl : memloc.lookup c o = some v)
    (hc : cells[c]? = some cell) :
    (ArmMemory.heap_of_memloc cells memloc heap).eval env
        (((cell.address.eval env).v + o) % 2 ^ 64)
      = (v.eval env).v := by
  obtain ⟨inner, h1, h2⟩ := memloc.mem_of_lookup c o v hl
  refine ArmMemory.outer_hit env cells hL memloc heap hs ?_ (c, inner) cell o v h1 hc h2
  intro p hp q hq
  exact hr p.1 q.1 q.2 (memloc.lookup_of_mem hs p q hp hq)

/-- The heap built from a map: an address that is the address of none of the bytes of the
map keeps its byte. -/
theorem ArmMemory.heap_of_memloc_miss (env : Env) (cells : List ArmMemory.Cell)
    (memloc : ArmMemory.MemLoc) (heap : SymArray) (hs : memloc.sorted) (x : Nat)
    (h : ∀ (c o : Nat) (v : SymBitVector) (cell : ArmMemory.Cell), memloc.lookup c o = some v →
      cells[c]? = some cell → x ≠ ((cell.address.eval env).v + o) % 2 ^ 64) :
    (ArmMemory.heap_of_memloc cells memloc heap).eval env x = heap.eval env x := by
  apply ArmMemory.outer_miss
  intro p hp cell hc q hq
  exact h p.1 q.1 q.2 cell (memloc.lookup_of_mem hs p q hp hq) hc

/-- The byte offset of byte `i` of an access that lies in a cell. -/
theorem ArmMemory.u64_offset (a : ArmMemory.Access) (o i bound : Nat)
    (ho : a.cell_offset = (o : Int)) (hb : o + i < bound) (hbound : bound < 2 ^ 64) :
    u64 (a.cell_offset + (i : Int)) = o + i := by
  rw [ho]
  unfold u64
  have h0 : (0 : Int) ≤ (o : Int) + (i : Int) := by omega
  have h1 : (o : Int) + (i : Int) < 2 ^ 64 := by omega
  rw [Int.emod_eq_of_lt h0 h1]
  omega

/-- Adding a fresh byte of a cell to a map of the first loop. -/
theorem ArmMemory.LocInit.init_set2 {env : Env} {cells : List ArmMemory.Cell}
    {memloc : ArmMemory.MemLoc} (h : ArmMemory.LocInit env cells memloc) (c o : Nat)
    (v : SymBitVector) (cell : ArmMemory.Cell) (hc : cells[c]? = some cell) (ho : o < cell.size)
    (hv : (v.eval env).w = 8) : ArmMemory.LocInit env cells (memloc.set2 c o v) := by
  refine ⟨memloc.sorted_set2 c o v h.sorted, ?_⟩
  intro c1 o1 v1 hl
  rw [ArmMemory.MemLoc.lookup_set2] at hl
  by_cases hk : c1 = c ∧ o1 = o
  · rw [if_pos hk] at hl
    obtain ⟨e1, e2⟩ := hk
    subst e1; subst e2
    have e3 : v = v1 := Option.some.inj hl
    subst e3
    exact ⟨⟨cell, hc, ho⟩, hv⟩
  · rw [if_neg hk] at hl
    exact h.bytes c1 o1 v1 hl

theorem ArmMemory.Keeps.keeps_set2 (memloc : ArmMemory.MemLoc) (c o : Nat) (v : SymBitVector) :
    ArmMemory.Keeps memloc (memloc.set2 c o v) := by
  intro c1 o1 h
  rw [ArmMemory.MemLoc.lookup_set2]
  by_cases hk : c1 = c ∧ o1 = o
  · rw [if_pos hk]; rfl
  · rw [if_neg hk]; exact h

theorem ArmMemory.Keeps.keeps_refl (memloc : ArmMemory.MemLoc) : ArmMemory.Keeps memloc memloc :=
  fun _ _ h => h

theorem ArmMemory.Keeps.keeps_trans {m1 m2 m3 : ArmMemory.MemLoc} (h1 : ArmMemory.Keeps m1 m2)
    (h2 : ArmMemory.Keeps m2 m3) : ArmMemory.Keeps m1 m3 :=
  fun c o h => h2 c o (h1 c o h)

/-! ### The first loop of the fast path -/

theorem ArmMemory.memloc_init_eq (all : List ArmMemory.Access) (ctr : Nat) :
    ArmMemory.memloc_init all ctr
      = all.foldl (fun (st : ArmMemory.MemLoc × ArmMemory.MemLoc × Nat) (a : ArmMemory.Access) =>
          (List.range (a.size / 8)).foldl (ArmMemory.init_step a) st) ([], [], ctr) := rfl

/-- One turn of the first loop, for byte `i` of an access that lies in a cell: the maps
stay maps of bytes of cells, lose nothing, and hold the byte afterwards. -/
theorem ArmMemory.init_step_spec {env : Env} {cells : List ArmMemory.Cell}
    (hL : ArmMemory.NoOverlap env cells) (a : ArmMemory.Access) (hp : a.placed env cells)
    (i : Nat) (hi : i < a.size / 8) (st : ArmMemory.MemLoc × ArmMemory.MemLoc × Nat)
    (h1 : ArmMemory.LocInit env cells st.1) (h2 : ArmMemory.LocInit env cells st.2.1) :
    ArmMemory.LocInit env cells (ArmMemory.init_step a st i).1 ∧
    ArmMemory.LocInit env cells (ArmMemory.init_step a st i).2.1 ∧
    ArmMemory.Keeps st.1 (ArmMemory.init_step a st i).1 ∧
    ArmMemory.Keeps st.2.1 (ArmMemory.init_step a st i).2.1 ∧
    ((if a.is_other then (ArmMemory.init_step a st i).2.1
      else (ArmMemory.init_step a st i).1).lookup a.cell_key
        (u64 (a.cell_offset + (i : Int)))).isSome = true := by
  obtain ⟨k, cell, o, n, hcell, hc, ho, hn, _, hon, _⟩ := hp
  have hkey : a.cell_key = k := by simp [ArmMemory.Access.cell_key, hcell]
  have hS := hL.size k cell hc
  have hu : u64 (a.cell_offset + (i : Int)) = o + i :=
    ArmMemory.u64_offset a o i cell.size ho (by omega) hS
  have hv : ((SymBitVector.tmp_var 8 st.2.2).eval env).w = 8 := rfl
  unfold ArmMemory.init_step
  simp only [hu, hkey]
  cases hot : a.is_other
  · simp only [Bool.false_eq_true, if_false]
    cases hcount : SMap.count (SMap.getD st.1 k []) (o + i)
    · simp only [Bool.false_eq_true, if_false]
      refine ⟨h1.init_set2 k (o + i) _ cell hc (by omega) hv, h2,
        ArmMemory.Keeps.keeps_set2 _ _ _ _, ArmMemory.Keeps.keeps_refl _, ?_⟩
      rw [ArmMemory.MemLoc.lookup_set2, if_pos ⟨rfl, rfl⟩]
      rfl
    · simp only [if_true]
      refine ⟨h1, h2, ArmMemory.Keeps.keeps_refl _, ArmMemory.Keeps.keeps_refl _, ?_⟩
      rw [← ArmMemory.MemLoc.count_eq]
      exact hcount
  · simp only [if_true]
    cases hcount : SMap.count (SMap.getD st.2.1 k []) (o + i)
    · simp only [Bool.false_eq_true, if_false]
      refine ⟨h1, h2.init_set2 k (o + i) _ cell hc (by omega) hv,
        ArmMemory.Keeps.keeps_refl _, ArmMemory.Keeps.keeps_set2 _ _ _ _, ?_⟩
      rw [ArmMemory.MemLoc.lookup_set2, if_pos ⟨rfl, rfl⟩]
      rfl
    · simp only [if_true]
      refine ⟨h1, h2, ArmMemory.Keeps.keeps_refl _, ArmMemory.Keeps.keeps_refl _, ?_⟩
      rw [← ArmMemory.MemLoc.count_eq]
      exact hcount

/-- The turns of the first loop for the first `j` bytes of an access. -/
theorem ArmMemory.init_inner {env : Env} {cells : List ArmMemory.Cell}
    (hL : ArmMemory.NoOverlap env cells) (a : ArmMemory.Access) (hp : a.placed env cells)
    (st : ArmMemory.MemLoc × ArmMemory.MemLoc × Nat)
    (h1 : ArmMemory.LocInit env cells st.1) (h2 : ArmMemory.LocInit env cells st.2.1) :
    ∀ j, j ≤ a.size / 8 →
      ArmMemory.LocInit env cells ((List.range j).foldl (ArmMemory.init_step a) st).1 ∧
      ArmMemory.LocInit env cells ((List.range j).foldl (ArmMemory.init_step a) st).2.1 ∧
      ArmMemory.Keeps st.1 ((List.range j).foldl (ArmMemory.init_step a) st).1 ∧
      ArmMemory.Keeps st.2.1 ((List.range j).foldl (ArmMemory.init_step a) st).2.1 ∧
      ∀ i, i < j →
        ((if a.is_other then ((List.range j).foldl (ArmMemory.init_step a) st).2.1
          else ((List.range j).foldl (ArmMemory.init_step a) st).1).lookup a.cell_key
            (u64 (a.cell_offset + (i : Int)))).isSome = true := by
  intro j
  induction j with
  | zero =>
    intro _
    exact ⟨h1, h2, ArmMemory.Keeps.keeps_refl _, ArmMemory.Keeps.keeps_refl _,
      fun i hi => absurd hi (Nat.not_lt_zero i)⟩
  | succ j ih =>
    intro hj
    obtain ⟨i1, i2, i3, i4, i5⟩ := ih (by omega)
    rw [List.range_succ, List.foldl_append]
    simp only [List.foldl_cons, List.foldl_nil]
    generalize (List.range j).foldl (ArmMemory.init_step a) st = st1 at i1 i2 i3 i4 i5 ⊢
    obtain ⟨s1, s2, s3, s4, s5⟩ := ArmMemory.init_step_spec hL a hp j (by omega) st1 i1 i2
    refine ⟨s1, s2, i3.keeps_trans s3, i4.keeps_trans s4, ?_⟩
    intro i hi
    by_cases hij : i = j
    · subst hij; exact s5
    · have h5 := i5 i (by omega)
      cases hot : a.is_other
      · rw [hot] at h5
        simp only [Bool.false_eq_true, if_false] at h5 ⊢
        exact s3 _ _ h5
      · rw [hot] at h5
        simp only [if_true] at h5 ⊢
        exact s4 _ _ h5

/-- The first loop, over accesses that lie in cells: the maps stay maps of bytes of
cells, lose nothing and hold every byte of every access afterwards. -/
theorem ArmMemory.init_outer {env : Env} {cells : List ArmMemory.Cell}
    (hL : ArmMemory.NoOverlap env cells) :
    ∀ (l : List ArmMemory.Access) (st : ArmMemory.MemLoc × ArmMemory.MemLoc × Nat),
      (∀ a ∈ l, a.placed env cells) → ArmMemory.LocInit env cells st.1 →
      ArmMemory.LocInit env cells st.2.1 →
      ArmMemory.LocInit env cells (l.foldl (fun st a =>
        (List.range (a.size / 8)).foldl (ArmMemory.init_step a) st) st).1 ∧
      ArmMemory.LocInit env cells (l.foldl (fun st a =>
        (List.range (a.size / 8)).foldl (ArmMemory.init_step a) st) st).2.1 ∧
      ArmMemory.Keeps st.1 (l.foldl (fun st a =>
        (List.range (a.size / 8)).foldl (ArmMemory.init_step a) st) st).1 ∧
      ArmMemory.Keeps st.2.1 (l.foldl (fun st a =>
        (List.range (a.size / 8)).foldl (ArmMemory.init_step a) st) st).2.1 ∧
      ∀ a ∈ l, ArmMemory.Covers
        (l.foldl (fun st a => (List.range (a.size / 8)).foldl (ArmMemory.init_step a) st) st).1
        (l.foldl (fun st a => (List.range (a.size / 8)).foldl (ArmMemory.init_step a) st) st).2.1
        a := by
  intro l
  induction l with
  | nil =>
    intro st _ h1 h2
    exact ⟨h1, h2, ArmMemory.Keeps.keeps_refl _, ArmMemory.Keeps.keeps_refl _,
      fun a ha => by cases ha⟩
  | cons a rest ih =>
    intro st hp h1 h2
    obtain ⟨i1, i2, i3, i4, i5⟩ :=
      ArmMemory.init_inner hL a (hp a (List.mem_cons_self _ _)) st h1 h2 (a.size / 8)
        (Nat.le_refl _)
    rw [List.foldl_cons]
    generalize (List.range (a.size / 8)).foldl (ArmMemory.init_step a) st = st1
      at i1 i2 i3 i4 i5 ⊢
    obtain ⟨r1, r2, r3, r4, r5⟩ := ih st1 (fun b hb => hp b (List.mem_cons_of_mem _ hb)) i1 i2
    refine ⟨r1, r2, i3.keeps_trans r3, i4.keeps_trans r4, ?_⟩
    intro b hb
    rcases List.mem_cons.mp hb with e | e
    · subst e
      intro i hi
      have h5 := i5 i hi
      cases hot : b.is_other
      · rw [hot] at h5
        simp only [Bool.false_eq_true, if_false] at h5 ⊢
        exact r3 _ _ h5
      · rw [hot] at h5
        simp only [if_true] at h5 ⊢
        exact r4 _ _ h5
    · exact r5 b e

theorem ArmMemory.LocInit.empty (env : Env) (cells : List ArmMemory.Cell) :
    ArmMemory.LocInit env cells [] := by
  refine ⟨⟨List.Pairwise.nil, fun p hp => by cases hp⟩, ?_⟩
  intro c o v h
  cases h

/-- The maps the first loop of the fast path builds for accesses that lie in cells. -/
theorem ArmMemory.memloc_init_spec {env : Env} {cells : List ArmMemory.Cell}
    (hL : ArmMemory.NoOverlap env cells) (all : List ArmMemory.Access) (ctr : Nat)
    (hp : ∀ a ∈ all, a.placed env cells) :
    ArmMemory.LocInit env cells (ArmMemory.memloc_init all ctr).1 ∧
    ArmMemory.LocInit env cells (ArmMemory.memloc_init all ctr).2.1 ∧
    ∀ a ∈ all, ArmMemory.Covers (ArmMemory.memloc_init all ctr).1
      (ArmMemory.memloc_init all ctr).2.1 a := by
  rw [ArmMemory.memloc_init_eq]
  obtain ⟨r1, r2, _, _, r5⟩ := ArmMemory.init_outer hL all ([], [], ctr) hp
    (ArmMemory.LocInit.empty env cells) (ArmMemory.LocInit.empty env cells)
  exact ⟨r1, r2, r5⟩


/-! ### The third loop of the fast path -/

theorem ArmMemory.memloc_run_eq (all : List ArmMemory.Access) (my other : ArmMemory.MemLoc)
    (constraints : List SymBool) :
    ArmMemory.memloc_run all my other constraints
      = all.foldl (fun (st : ArmMemory.MemLoc × ArmMemory.MemLoc × List SymBool)
            (a : ArmMemory.Access) =>
          (List.range (a.size / 8)).foldl (ArmMemory.run_step a) st) (my, other, constraints) :=
  rfl

/-- A map of the first loop whose heap agrees bytewise with a flat heap agrees with that
flat heap. -/
theorem ArmMemory.LocInv.of_init {env : Env} {cells : List ArmMemory.Cell}
    (hL : ArmMemory.NoOverlap env cells) {memloc : ArmMemory.MemLoc}
    (hi : ArmMemory.LocInit env cells memloc) (heap : SymArray) (flat : Nat → Nat)
    (hstart : ∀ x, (ArmMemory.heap_of_memloc cells memloc heap).eval env x % 256 = flat x % 256) :
    ArmMemory.LocInv env cells flat memloc := by
  refine ⟨hi.sorted, ?_⟩
  intro c o v hl
  obtain ⟨⟨cell, hc, ho⟩, hw⟩ := hi.bytes c o v hl
  refine ⟨cell, hc, ho, ?_⟩
  have hhit := ArmMemory.heap_of_memloc_hit env cells hL memloc heap hi.sorted
    (fun c o v h => (hi.bytes c o v h).1) c o v cell hl hc
  have hlt := SymBitVector.eval_lt env v
  rw [hw] at hlt
  have hs := hstart (((cell.address.eval env).v + o) % 2 ^ 64)
  rw [hhit] at hs
  cases hv : v.eval env with
  | mk w val =>
    rw [hv] at hw hlt hs
    simp only at hw hlt hs
    subst hw
    congr 1
    rw [← hs]
    omega

/-- Storing a byte in a map and in the flat heap keeps their agreement. -/
theorem ArmMemory.LocInv.set_byte {env : Env} {cells : List ArmMemory.Cell}
    (hL : ArmMemory.NoOverlap env cells) {memloc : ArmMemory.MemLoc} {flat : Nat → Nat}
    (h : ArmMemory.LocInv env cells flat memloc) (k o : Nat) (v : SymBitVector)
    (cell : ArmMemory.Cell) (hc : cells[k]? = some cell) (ho : o < cell.size) (x0 b : Nat)
    (hx : x0 = ((cell.address.eval env).v + o) % 2 ^ 64) (hv : v.eval env = ⟨8, b % 256⟩) :
    ArmMemory.LocInv env cells (fun x => if x = x0 then b else flat x) (memloc.set2 k o v) := by
  refine ⟨memloc.sorted_set2 k o v h.sorted, ?_⟩
  intro c1 o1 v1 hl
  rw [ArmMemory.MemLoc.lookup_set2] at hl
  by_cases hk : c1 = k ∧ o1 = o
  · rw [if_pos hk] at hl
    obtain ⟨e1, e2⟩ := hk
    subst e1; subst e2
    have e3 : v = v1 := Option.some.inj hl
    subst e3
    refine ⟨cell, hc, ho, ?_⟩
    rw [hv, ← hx, if_pos rfl]
  · rw [if_neg hk] at hl
    obtain ⟨cell1, hc1, ho1, hv1⟩ := h.bytes c1 o1 v1 hl
    refine ⟨cell1, hc1, ho1, ?_⟩
    rw [hv1]
    have hne : ((cell1.address.eval env).v + o1) % 2 ^ 64 ≠ x0 := by
      rw [hx]
      by_cases hck : c1 = k
      · subst hck
        rw [hc] at hc1
        have e : cell = cell1 := Option.some.inj hc1
        subst e
        intro heq
        have hS := hL.size c1 cell hc
        have := ArmMemory.offset_inj _ _ _ (by omega) (by omega) heq
        exact hk ⟨rfl, this⟩
      · exact hL.disjoint c1 k cell1 cell o1 o hc1 hc hck ho1 ho
    rw [if_neg hne]

/-- A number of `n` bytes is the number found in a heap exactly when its bytes are the
bytes of the heap. -/
theorem ArmMemory.bytes_eq_load (heap : Nat → Nat) (addr n value : Nat)
    (hlt : value < 2 ^ (8 * n)) :
    (∀ i, i < n → (value / 2 ^ (8 * i)) % 256 = heap ((addr + i) % 2 ^ 64) % 256) ↔
      value = ArmMemory.flat_load heap addr n := by
  constructor
  · intro h
    apply Nat.eq_of_testBit_eq
    intro b
    rw [ArmMemory.flat_load_testBit]
    by_cases hb : b < 8 * n
    · have h1 := h (b / 8) (by omega)
      have h2 : ((value / 2 ^ (8 * (b / 8))) % 2 ^ 8).testBit (b % 8) = value.testBit b := by
        rw [Nat.testBit_extract_bits]
        have h3 : b % 8 < 8 := by omega
        have h4 : 8 * (b / 8) + b % 8 = b := by omega
        simp [h3, h4]
      have h5 : (value / 2 ^ (8 * (b / 8))) % 2 ^ 8 = (value / 2 ^ (8 * (b / 8))) % 256 := rfl
      rw [← h2, h5, h1]
      simp [hb]
    · have h1 : value < 2 ^ b :=
        Nat.lt_of_lt_of_le hlt (Nat.pow_le_pow_right (by norm_num) (by omega))
      rw [Nat.testBit_lt_two_pow h1]
      simp [hb]
  · intro h i hi
    rw [h]
    exact ArmMemory.flat_load_byte heap addr n i hi

/-- The inner loop of a write of this side changes the map of this side only. -/
theorem ArmMemory.run_write_my (a : ArmMemory.Access) (hwr : a.write = true)
    (hot : a.is_other = false) (st : ArmMemory.MemLoc × ArmMemory.MemLoc × List SymBool) :
    ∀ j, (List.range j).foldl (ArmMemory.run_step a) st
      = ((List.range j).foldl (fun (ml : ArmMemory.MemLoc) (i : Nat) =>
          ml.set2 a.cell_key (u64 (a.cell_offset + (i : Int))) (ArmMemory.byte_of a.value i)) st.1,
        st.2.1, st.2.2) := by
  intro j
  induction j with
  | zero => rfl
  | succ j ih =>
    rw [List.range_succ, List.foldl_append, List.foldl_append, ih]
    simp [ArmMemory.run_step, hwr, hot]

/-- The inner loop of a write of the other side changes the map of the other side only. -/
theorem ArmMemory.run_write_other (a : ArmMemory.Access) (hwr : a.write = true)
    (hot : a.is_other = true) (st : ArmMemory.MemLoc × ArmMemory.MemLoc × List SymBool) :
    ∀ j, (List.range j).foldl (ArmMemory.run_step a) st
      = (st.1, (List.range j).foldl (fun (ml : ArmMemory.MemLoc) (i : Nat) =>
          ml.set2 a.cell_key (u64 (a.cell_offset + (i : Int))) (ArmMemory.byte_of a.value i))
          st.2.1, st.2.2) := by
  intro j
  induction j with
  | zero => rfl
  | succ j ih =>
    rw [List.range_succ, List.foldl_append, List.foldl_append, ih]
    simp [ArmMemory.run_step, hwr, hot]

/-- The inner loop of a read adds one constraint for each byte. -/
theorem ArmMemory.run_read (a : ArmMemory.Access) (hwr : a.write = false)
    (st : ArmMemory.MemLoc × ArmMemory.MemLoc × List SymBool) :
    ∀ j, (List.range j).foldl (ArmMemory.run_step a) st
      = (st.1, st.2.1, st.2.2 ++ (List.range j).map (fun (i : Nat) =>
          SymBool.eq ((if a.is_other then st.2.1 else st.1).get2 a.cell_key
            (u64 (a.cell_offset + (i : Int)))) (ArmMemory.byte_of a.value i))) := by
  intro j
  induction j with
  | zero => simp
  | succ j ih =>
    rw [List.range_succ, List.foldl_append, ih]
    simp [ArmMemory.run_step, hwr]

/-- The bytes of a write stored one by one in a map that agrees with a flat heap: the
map agrees with the flat heap after the store of the first `j` bytes. -/
theorem ArmMemory.LocInv.set_bytes {env : Env} {cells : List ArmMemory.Cell}
    (hL : ArmMemory.NoOverlap env cells) {memloc : ArmMemory.MemLoc} {flat : Nat → Nat}
    (h : ArmMemory.LocInv env cells flat memloc) (a : ArmMemory.Access) (k o n : Nat)
    (cell : ArmMemory.Cell) (hkey : a.cell_key = k) (hc : cells[k]? = some cell)
    (ho : a.cell_offset = (o : Int)) (hon : o + n ≤ cell.size) :
    ∀ j, j ≤ n →
      ArmMemory.LocInv env cells
        (ArmMemory.flat_store flat (((cell.address.eval env).v + o) % 2 ^ 64)
          (a.value.eval env).v j)
        ((List.range j).foldl (fun (ml : ArmMemory.MemLoc) (i : Nat) =>
          ml.set2 a.cell_key (u64 (a.cell_offset + (i : Int))) (ArmMemory.byte_of a.value i))
          memloc) ∧
      ArmMemory.Keeps memloc
        ((List.range j).foldl (fun (ml : ArmMemory.MemLoc) (i : Nat) =>
          ml.set2 a.cell_key (u64 (a.cell_offset + (i : Int))) (ArmMemory.byte_of a.value i))
          memloc) := by
  subst hkey
  have hS := hL.size a.cell_key cell hc
  intro j
  induction j with
  | zero => intro _; exact ⟨h, ArmMemory.Keeps.keeps_refl _⟩
  | succ j ih =>
    intro hj
    obtain ⟨i1, i2⟩ := ih (by omega)
    rw [List.range_succ, List.foldl_append]
    simp only [List.foldl_cons, List.foldl_nil]
    rw [ArmMemory.u64_offset a o j cell.size ho (by omega) hS]
    refine ⟨?_, i2.keeps_trans (ArmMemory.Keeps.keeps_set2 _ _ _ _)⟩
    exact i1.set_byte hL a.cell_key (o + j) _ cell hc (by omega)
      ((((cell.address.eval env).v + o) % 2 ^ 64 + j) % 2 ^ 64)
      (((a.value.eval env).v / 2 ^ (8 * j)) % 256) (by omega)
      (by rw [ArmMemory.byte_of_eval, Nat.mod_mod])

theorem ArmMemory.Covers.mono {my other my1 other1 : ArmMemory.MemLoc} {a : ArmMemory.Access}
    (h : ArmMemory.Covers my other a) (h1 : ArmMemory.Keeps my my1)
    (h2 : ArmMemory.Keeps other other1) : ArmMemory.Covers my1 other1 a := by
  intro i hi
  have h3 := h i hi
  cases hot : a.is_other
  · rw [hot] at h3
    simp only [Bool.false_eq_true, if_false] at h3 ⊢
    exact h1 _ _ h3
  · rw [hot] at h3
    simp only [if_true] at h3 ⊢
    exact h2 _ _ h3

/-- A byte the map of a side holds, read through `memloc[cell][offset]`, has the value
the flat heap of the side has there. -/
theorem ArmMemory.LocInv.get2_eval {env : Env} {cells : List ArmMemory.Cell}
    {memloc : ArmMemory.MemLoc} {flat : Nat → Nat} (h : ArmMemory.LocInv env cells flat memloc)
    (k o : Nat) (cell : ArmMemory.Cell) (hc : cells[k]? = some cell)
    (hs : (memloc.lookup k o).isSome = true) :
    (memloc.get2 k o).eval env = ⟨8, flat (((cell.address.eval env).v + o) % 2 ^ 64) % 256⟩ := by
  rw [ArmMemory.MemLoc.get2_eq]
  cases hl : memloc.lookup k o with
  | none => rw [hl] at hs; cases hs
  | some v =>
    obtain ⟨cell1, hc1, _, hv⟩ := h.bytes k o v hl
    rw [hc] at hc1
    have e : cell = cell1 := Option.some.inj hc1
    subst e
    exact hv

/-- One access of the third loop of the fast path, against the flat heaps: the maps keep
their agreement with the flat heaps and lose nothing, a write adds no constraint and a
read adds constraints that hold exactly when its value is the one found in the flat heap
of its side. -/
theorem ArmMemory.run_access_spec {env : Env} {cells : List ArmMemory.Cell}
    (hL : ArmMemory.NoOverlap env cells) (a : ArmMemory.Access) (hp : a.placed env cells)
    (st : ArmMemory.MemLoc × ArmMemory.MemLoc × List SymBool)
    (heaps : (Nat → Nat) × (Nat → Nat))
    (h1 : ArmMemory.LocInv env cells heaps.1 st.1)
    (h2 : ArmMemory.LocInv env cells heaps.2 st.2.1)
    (hcov : ArmMemory.Covers st.1 st.2.1 a) :
    ArmMemory.LocInv env cells (ArmMemory.flat_step env cells heaps a).1
      ((List.range (a.size / 8)).foldl (ArmMemory.run_step a) st).1 ∧
    ArmMemory.LocInv env cells (ArmMemory.flat_step env cells heaps a).2
      ((List.range (a.size / 8)).foldl (ArmMemory.run_step a) st).2.1 ∧
    ArmMemory.Keeps st.1 ((List.range (a.size / 8)).foldl (ArmMemory.run_step a) st).1 ∧
    ArmMemory.Keeps st.2.1 ((List.range (a.size / 8)).foldl (ArmMemory.run_step a) st).2.1 ∧
    ∃ block, ((List.range (a.size / 8)).foldl (ArmMemory.run_step a) st).2.2
        = st.2.2 ++ block ∧
      (env.sat block ↔ (a.write = false → a.value.eval env
        = ⟨a.size, ArmMemory.flat_load (if a.is_other then heaps.2 else heaps.1)
            (ArmMemory.flat_address env cells a) (a.size / 8)⟩)) := by
  have hp0 := hp
  obtain ⟨k, cell, o, n, hcell, hc, ho, hn, hpos, hon, hw⟩ := hp
  have hkey : a.cell_key = k := by simp [ArmMemory.Access.cell_key, hcell]
  have hS := hL.size k cell hc
  have haddr := ArmMemory.flat_address_placed env cells a k cell o hcell hc ho
  have hdiv : a.size / 8 = n := by omega
  cases hwr : a.write
  · rw [ArmMemory.run_read a hwr st]
    have hstep : ArmMemory.flat_step env cells heaps a = heaps := by
      unfold ArmMemory.flat_step; simp [hwr]
    rw [hstep]
    refine ⟨h1, h2, ArmMemory.Keeps.keeps_refl _, ArmMemory.Keeps.keeps_refl _, _, rfl, ?_⟩
    have hml : ArmMemory.LocInv env cells (if a.is_other then heaps.2 else heaps.1)
        (if a.is_other then st.2.1 else st.1) := by
      cases a.is_other
      · exact h1
      · exact h2
    have hlt : (a.value.eval env).v < 2 ^ (8 * n) := by
      have := SymBitVector.eval_lt env a.value
      rw [hw, hn] at this
      exact this
    rw [haddr, hdiv]
    have hbytes := ArmMemory.bytes_eq_load (if a.is_other then heaps.2 else heaps.1)
      (((cell.address.eval env).v + o) % 2 ^ 64) n _ hlt
    have hbyte : ∀ i, i < n →
        ((if a.is_other then st.2.1 else st.1).get2 a.cell_key
          (u64 (a.cell_offset + (i : Int)))).eval env
        = ⟨8, (if a.is_other then heaps.2 else heaps.1)
            ((((cell.address.eval env).v + o) % 2 ^ 64 + i) % 2 ^ 64) % 256⟩ := by
      intro i hi
      have hc1 := hcov i (by omega)
      rw [ArmMemory.u64_offset a o i cell.size ho (by omega) hS, hkey] at hc1 ⊢
      rw [hml.get2_eval k (o + i) cell hc hc1]
      have e : ((cell.address.eval env).v + (o + i)) % 2 ^ 64
          = (((cell.address.eval env).v + o) % 2 ^ 64 + i) % 2 ^ 64 := by omega
      rw [e]
    have hval : ∀ x : Nat, a.value.eval env = ⟨a.size, x⟩ ↔ (a.value.eval env).v = x := by
      intro x
      cases hv : a.value.eval env with
      | mk w val =>
        rw [hv] at hw
        simp only at hw
        subst hw
        simp
    constructor
    · intro hsat _
      apply (hval _).mpr
      apply hbytes.mp
      intro i hi
      have hci := hsat _ (List.mem_map.mpr ⟨i, List.mem_range.mpr hi, rfl⟩)
      have hci1 : ((if a.is_other then st.2.1 else st.1).get2 a.cell_key
          (u64 (a.cell_offset + (i : Int)))).eval env
          = (ArmMemory.byte_of a.value i).eval env := hci
      rw [hbyte i hi, ArmMemory.byte_of_eval] at hci1
      simp only [BVal.mk.injEq, true_and] at hci1
      exact hci1.symm
    · intro hv c hcmem
      obtain ⟨i, hi, rfl⟩ := List.mem_map.mp hcmem
      have hi1 := List.mem_range.mp hi
      show ((if a.is_other then st.2.1 else st.1).get2 a.cell_key
          (u64 (a.cell_offset + (i : Int)))).eval env
          = (ArmMemory.byte_of a.value i).eval env
      rw [hbyte i hi1, ArmMemory.byte_of_eval]
      congr 1
      exact (hbytes.mpr ((hval _).mp (hv rfl)) i hi1).symm
  · have hstep : ArmMemory.flat_step env cells heaps a
        = if a.is_other then
            (heaps.1, ArmMemory.flat_store heaps.2 (((cell.address.eval env).v + o) % 2 ^ 64)
              (a.value.eval env).v n)
          else
            (ArmMemory.flat_store heaps.1 (((cell.address.eval env).v + o) % 2 ^ 64)
              (a.value.eval env).v n, heaps.2) := by
      unfold ArmMemory.flat_step; simp [hwr, haddr, hdiv]
    rw [hstep, hdiv]
    cases hot : a.is_other
    · rw [ArmMemory.run_write_my a hwr hot st]
      obtain ⟨s1, s2⟩ := h1.set_bytes hL a k o n cell hkey hc ho hon n (Nat.le_refl n)
      refine ⟨s1, h2, s2, ArmMemory.Keeps.keeps_refl _, [], by simp, ?_⟩
      simp [Env.sat]
    · rw [ArmMemory.run_write_other a hwr hot st]
      obtain ⟨s1, s2⟩ := h2.set_bytes hL a k o n cell hkey hc ho hon n (Nat.le_refl n)
      refine ⟨h1, s1, ArmMemory.Keeps.keeps_refl _, s2, [], by simp, ?_⟩
      simp [Env.sat]

/-- The third loop of the fast path, against the flat heaps: the maps end in agreement
with the flat heaps after all accesses, having lost nothing, and the constraints added
are blocks that constrain every read to the value found in the flat heap of its side. -/
theorem ArmMemory.run_fold_spec {env : Env} {cells : List ArmMemory.Cell}
    (hL : ArmMemory.NoOverlap env cells) :
    ∀ (l : List ArmMemory.Access) (st : ArmMemory.MemLoc × ArmMemory.MemLoc × List SymBool)
      (heaps : (Nat → Nat) × (Nat → Nat)),
      (∀ a ∈ l, a.placed env cells) → ArmMemory.LocInv env cells heaps.1 st.1 →
      ArmMemory.LocInv env cells heaps.2 st.2.1 → (∀ a ∈ l, ArmMemory.Covers st.1 st.2.1 a) →
      ArmMemory.LocInv env cells (ArmMemory.flat_final env cells heaps l).1
        (l.foldl (fun st a => (List.range (a.size / 8)).foldl (ArmMemory.run_step a) st) st).1 ∧
      ArmMemory.LocInv env cells (ArmMemory.flat_final env cells heaps l).2
        (l.foldl (fun st a => (List.range (a.size / 8)).foldl (ArmMemory.run_step a) st) st).2.1 ∧
      ArmMemory.Keeps st.1
        (l.foldl (fun st a => (List.range (a.size / 8)).foldl (ArmMemory.run_step a) st) st).1 ∧
      ArmMemory.Keeps st.2.1
        (l.foldl (fun st a => (List.range (a.size / 8)).foldl (ArmMemory.run_step a) st) st).2.1 ∧
      ∃ reads,
        (l.foldl (fun st a => (List.range (a.size / 8)).foldl (ArmMemory.run_step a) st) st).2.2
          = st.2.2 ++ reads ∧
        ArmMemory.read_blocks env cells heaps l reads := by
  intro l
  induction l with
  | nil =>
    intro st heaps _ h1 h2 _
    exact ⟨h1, h2, ArmMemory.Keeps.keeps_refl _, ArmMemory.Keeps.keeps_refl _, [], by simp, rfl⟩
  | cons a rest ih =>
    intro st heaps hp h1 h2 hcov
    obtain ⟨s1, s2, s3, s4, block, s5, s6⟩ := ArmMemory.run_access_spec hL a
      (hp a (List.mem_cons_self _ _)) st heaps h1 h2 (hcov a (List.mem_cons_self _ _))
    rw [List.foldl_cons]
    generalize (List.range (a.size / 8)).foldl (ArmMemory.run_step a) st = st1
      at s1 s2 s3 s4 s5 ⊢
    obtain ⟨r1, r2, r3, r4, more, r5, r6⟩ := ih st1 (ArmMemory.flat_step env cells heaps a)
      (fun b hb => hp b (List.mem_cons_of_mem _ hb)) s1 s2
      (fun b hb => (hcov b (List.mem_cons_of_mem _ hb)).mono s3 s4)
    refine ⟨r1, r2, s3.keeps_trans r3, s4.keeps_trans r4, block ++ more, ?_, ?_⟩
    · rw [r5, s5, List.append_assoc]
    · exact ⟨block, more, rfl, s6, r6⟩

/-- An address none of the writes of this side touches keeps its byte in the flat heap
of this side. -/
theorem ArmMemory.flat_final_miss (env : Env) (cells : List ArmMemory.Cell) (x : Nat) :
    ∀ (l : List ArmMemory.Access) (heaps : (Nat → Nat) × (Nat → Nat)),
      (∀ a ∈ l, a.write = true → a.is_other = false → ∀ i, i < a.size / 8 →
        x ≠ (ArmMemory.flat_address env cells a + i) % 2 ^ 64) →
      (ArmMemory.flat_final env cells heaps l).1 x = heaps.1 x := by
  intro l
  induction l with
  | nil => intro heaps _; rfl
  | cons a rest ih =>
    intro heaps h
    unfold ArmMemory.flat_final at ih ⊢
    rw [List.foldl_cons, ih _ (fun b hb => h b (List.mem_cons_of_mem _ hb))]
    unfold ArmMemory.flat_step
    cases hwr : a.write
    · rfl
    · cases hot : a.is_other
      · simp only [if_true, Bool.false_eq_true, if_false]
        exact ArmMemory.flat_store_miss _ _ _ _ _ (h a (List.mem_cons_self _ _) hwr hot)
      · rfl

/-- An address none of the writes of the other side touches keeps its byte in the flat
heap of the other side. -/
theorem ArmMemory.flat_final_miss_other (env : Env) (cells : List ArmMemory.Cell) (x : Nat) :
    ∀ (l : List ArmMemory.Access) (heaps : (Nat → Nat) × (Nat → Nat)),
      (∀ a ∈ l, a.write = true → a.is_other = true → ∀ i, i < a.size / 8 →
        x ≠ (ArmMemory.flat_address env cells a + i) % 2 ^ 64) →
      (ArmMemory.flat_final env cells heaps l).2 x = heaps.2 x := by
  intro l
  induction l with
  | nil => intro heaps _; rfl
  | cons a rest ih =>
    intro heaps h
    unfold ArmMemory.flat_final at ih ⊢
    rw [List.foldl_cons, ih _ (fun b hb => h b (List.mem_cons_of_mem _ hb))]
    unfold ArmMemory.flat_step
    cases hwr : a.write
    · rfl
    · cases hot : a.is_other
      · rfl
      · simp only [if_true]
        exact ArmMemory.flat_store_miss _ _ _ _ _ (h a (List.mem_cons_self _ _) hwr hot)

/-- The heap the fast path builds at its end from a map that agrees with a flat heap:
it is that flat heap, byte for byte, when the heap it starts from holds the bytes of the
flat heap wherever the map holds none. -/
theorem ArmMemory.LocInv.final_heap {env : Env} {cells : List ArmMemory.Cell}
    (hL : ArmMemory.NoOverlap env cells) {memloc : ArmMemory.MemLoc} {flat : Nat → Nat}
    (h : ArmMemory.LocInv env cells flat memloc) (heap : SymArray)
    (hrest : ∀ x, (∀ (c o : Nat) (v : SymBitVector) (cell : ArmMemory.Cell),
        memloc.lookup c o = some v → cells[c]? = some cell →
        x ≠ ((cell.address.eval env).v + o) % 2 ^ 64) →
      heap.eval env x % 256 = flat x % 256) :
    ∀ x, (ArmMemory.heap_of_memloc cells memloc heap).eval env x % 256 = flat x % 256 := by
  intro x
  by_cases hx : ∃ (c o : Nat) (v : SymBitVector) (cell : ArmMemory.Cell),
      memloc.lookup c o = some v ∧ cells[c]? = some cell ∧
      x = ((cell.address.eval env).v + o) % 2 ^ 64
  · obtain ⟨c, o, v, cell, hl, hc, rfl⟩ := hx
    rw [ArmMemory.heap_of_memloc_hit env cells hL memloc heap h.sorted
      (fun c o v hl => by
        obtain ⟨cell, h1, h2, _⟩ := h.bytes c o v hl
        exact ⟨cell, h1, h2⟩) c o v cell hl hc]
    obtain ⟨cell1, hc1, _, hv⟩ := h.bytes c o v hl
    rw [hc] at hc1
    have e : cell = cell1 := Option.some.inj hc1
    subst e
    rw [hv]
    simp
  · have hmiss : ∀ (c o : Nat) (v : SymBitVector) (cell : ArmMemory.Cell),
        memloc.lookup c o = some v → cells[c]? = some cell →
        x ≠ ((cell.address.eval env).v + o) % 2 ^ 64 :=
      fun c o v cell hl hc e => hx ⟨c, o, v, cell, hl, hc, e⟩
    rw [ArmMemory.heap_of_memloc_miss env cells memloc heap h.sorted x hmiss]
    exact hrest x hmiss


/-- A byte of a written access is a byte of the maps after the third loop, so an address
that is the address of no byte of the map is not written. -/
theorem ArmMemory.Covers.not_written {env : Env} {cells : List ArmMemory.Cell}
    (hL : ArmMemory.NoOverlap env cells) {my other memloc : ArmMemory.MemLoc}
    {a : ArmMemory.Access} (hcov : ArmMemory.Covers my other a) (hp : a.placed env cells)
    (hk : ArmMemory.Keeps (if a.is_other then other else my) memloc) (x : Nat)
    (hmiss : ∀ (c o : Nat) (v : SymBitVector) (cell : ArmMemory.Cell),
      memloc.lookup c o = some v → cells[c]? = some cell →
      x ≠ ((cell.address.eval env).v + o) % 2 ^ 64) :
    ∀ i, i < a.size / 8 → x ≠ (ArmMemory.flat_address env cells a + i) % 2 ^ 64 := by
  obtain ⟨k, cell, o, n, hcell, hc, ho, hn, _, hon, _⟩ := hp
  have hkey : a.cell_key = k := by simp [ArmMemory.Access.cell_key, hcell]
  have hS := hL.size k cell hc
  intro i hi
  have h1 := hk _ _ (hcov i hi)
  rw [ArmMemory.u64_offset a o i cell.size ho (by omega) hS, hkey] at h1
  cases hl : memloc.lookup k (o + i) with
  | none => rw [hl] at h1; cases h1
  | some v =>
    have h2 := hmiss k (o + i) v cell hl hc
    rw [ArmMemory.flat_address_placed env cells a k cell o hcell hc ho]
    intro e
    apply h2
    rw [e]
    omega

/-- The fast path for a memory whose cells do not overlap, against the flat heaps, when
the heaps it starts from hold the bytes of the heaps of the memories: the final heaps
are the flat heaps after all accesses, byte for byte, and the constraints added are the
two start equations, the read constraints and the two equations of the final heaps, the
read constraints being blocks that constrain every read to the value found in the flat
heap of its side. -/
theorem ArmMemory.fast_path_spec {env : Env} {m : ArmMemory} (am : ArmMemory) (ctr : Nat)
    (hP : ArmMemory.Placed env m)
    (hstart : ∀ x, (ArmMemory.start_heaps m am ctr).1.eval env x % 256
      = m.heap_.eval env x % 256)
    (hstart_other : ∀ x, (ArmMemory.start_heaps m am ctr).2.eval env x % 256
      = am.heap_.eval env x % 256) :
    (∀ x, (ArmMemory.generate_constraints_given_no_cell_overlap m am ctr).2.1.heap_.eval env x
        % 256
      = (ArmMemory.flat_final env m.cells_ (m.heap_.eval env, am.heap_.eval env)
          m.all_accesses_).1 x % 256) ∧
    (∀ x, (ArmMemory.generate_constraints_given_no_cell_overlap m am ctr).2.2.1.heap_.eval env x
        % 256
      = (ArmMemory.flat_final env m.cells_ (m.heap_.eval env, am.heap_.eval env)
          m.all_accesses_).2 x % 256) ∧
    ∃ reads, (ArmMemory.generate_constraints_given_no_cell_overlap m am ctr).2.1.constraints_
        = m.constraints_ ++
          [SymBool.array_eq m.start_variable_ (ArmMemory.start_heaps m am ctr).1,
           SymBool.array_eq am.start_variable_ (ArmMemory.start_heaps m am ctr).2] ++ reads ++
          [SymBool.array_eq m.final_heap_
            (ArmMemory.generate_constraints_given_no_cell_overlap m am ctr).2.1.heap_,
           SymBool.array_eq am.final_heap_
            (ArmMemory.generate_constraints_given_no_cell_overlap m am ctr).2.2.1.heap_] ∧
      ArmMemory.read_blocks env m.cells_ (m.heap_.eval env, am.heap_.eval env)
        m.all_accesses_ reads := by
  have hL := hP.layout
  obtain ⟨i1, i2, icov⟩ := ArmMemory.memloc_init_spec hL m.all_accesses_ ctr hP.access
  have l1 : ArmMemory.LocInv env m.cells_ (m.heap_.eval env)
      (ArmMemory.memloc_init m.all_accesses_ ctr).1 :=
    ArmMemory.LocInv.of_init hL i1 m.heap_ _ hstart
  have l2 : ArmMemory.LocInv env m.cells_ (am.heap_.eval env)
      (ArmMemory.memloc_init m.all_accesses_ ctr).2.1 :=
    ArmMemory.LocInv.of_init hL i2 am.heap_ _ hstart_other
  obtain ⟨r1, r2, r3, r4, reads, r5, r6⟩ := ArmMemory.run_fold_spec hL m.all_accesses_
    ((ArmMemory.memloc_init m.all_accesses_ ctr).1, (ArmMemory.memloc_init m.all_accesses_ ctr).2.1,
      m.constraints_ ++
        [SymBool.array_eq m.start_variable_ (ArmMemory.start_heaps m am ctr).1,
         SymBool.array_eq am.start_variable_ (ArmMemory.start_heaps m am ctr).2])
    (m.heap_.eval env, am.heap_.eval env) hP.access l1 l2 icov
  rw [← ArmMemory.memloc_run_eq] at r1 r2 r3 r4 r5
  unfold ArmMemory.generate_constraints_given_no_cell_overlap
  simp only [hP.stop, Bool.false_eq_true, if_false]
  refine ⟨?_, ?_, reads, ?_, r6⟩
  · apply r1.final_heap hL
    intro x hmiss
    rw [ArmMemory.flat_final_miss]
    · exact hstart x
    · intro a ha _ hot
      refine (icov a ha).not_written hL (hP.access a ha) ?_ x hmiss
      rw [hot]
      exact r3
  · apply r2.final_heap hL
    intro x hmiss
    rw [ArmMemory.flat_final_miss_other]
    · exact hstart_other x
    · intro a ha _ hot
      refine (icov a ha).not_written hL (hP.access a ha) ?_ x hmiss
      rw [hot]
      exact r4
  · exact congrArg (fun cs => cs ++ _) r5

/-- Two lists of blocks for the same accesses and flat heaps hold under the same
assignments. -/
theorem ArmMemory.read_blocks_sat (env : Env) (cells : List ArmMemory.Cell) :
    ∀ (l : List ArmMemory.Access) (heaps : (Nat → Nat) × (Nat → Nat)) (cs ds : List SymBool),
      ArmMemory.read_blocks env cells heaps l cs → ArmMemory.read_blocks env cells heaps l ds →
      (env.sat cs ↔ env.sat ds) := by
  intro l
  induction l with
  | nil =>
    intro heaps cs ds h1 h2
    have e1 : cs = [] := h1
    have e2 : ds = [] := h2
    rw [e1, e2]
  | cons a rest ih =>
    intro heaps cs ds h1 h2
    obtain ⟨b1, m1, e1, s1, r1⟩ := h1
    obtain ⟨b2, m2, e2, s2, r2⟩ := h2
    rw [e1, e2, Env.sat_append, Env.sat_append, s1, s2, ih _ m1 m2 r1 r2]

/-- C27: when the cells of a memory are laid out without overlap under an assignment,
its accesses lie in their cells, and the heaps the fast path starts from hold the bytes of
the heaps of the two memories (the same initial contents), then the no-overlap fast path
and the conservative simulation add, between the constraints they find and the two
equations of the final heaps, read constraints that constrain every read of either side to
the same value, the number found in the flat heap of its side after the earlier writes;
and the final heaps they leave agree byte for byte at every address, on either side. -/
theorem ArmMemory.C27_fast_path_agrees_with_simulation (env : Env) (m am : ArmMemory)
    (ctr : Nat) (hP : ArmMemory.Placed env m)
    (hstart : ∀ x, (ArmMemory.start_heaps m am ctr).1.eval env x % 256
      = m.heap_.eval env x % 256)
    (hstart_other : ∀ x, (ArmMemory.start_heaps m am ctr).2.eval env x % 256
      = am.heap_.eval env x % 256) :
    ∃ slow fast : List SymBool,
      (ArmMemory.simulate_cells m am).1.constraints_
        = m.constraints_ ++ slow ++
          [SymBool.array_eq m.final_heap_ (ArmMemory.simulate_cells m am).1.heap_,
           SymBool.array_eq am.final_heap_ (ArmMemory.simulate_cells m am).2.heap_] ∧
      (ArmMemory.generate_constraints_given_no_cell_overlap m am ctr).2.1.constraints_
        = m.constraints_ ++
          [SymBool.array_eq m.start_variable_ (ArmMemory.start_heaps m am ctr).1,
           SymBool.array_eq am.start_variable_ (ArmMemory.start_heaps m am ctr).2] ++ fast ++
          [SymBool.array_eq m.final_heap_
            (ArmMemory.generate_constraints_given_no_cell_overlap m am ctr).2.1.heap_,
           SymBool.array_eq am.final_heap_
            (ArmMemory.generate_constraints_given_no_cell_overlap m am ctr).2.2.1.heap_] ∧
      ArmMemory.read_blocks env m.cells_ (m.heap_.eval env, am.heap_.eval env)
        m.all_accesses_ slow ∧
      ArmMemory.read_blocks env m.cells_ (m.heap_.eval env, am.heap_.eval env)
        m.all_accesses_ fast ∧
      (env.sat slow ↔ env.sat fast) ∧
      (∀ x, (ArmMemory.simulate_cells m am).1.heap_.eval env x % 256
        = (ArmMemory.generate_constraints_given_no_cell_overlap m am ctr).2.1.heap_.eval env x
          % 256) ∧
      (∀ x, (ArmMemory.simulate_cells m am).2.heap_.eval env x % 256
        = (ArmMemory.generate_constraints_given_no_cell_overlap m am ctr).2.2.1.heap_.eval env x
          % 256) := by
  obtain ⟨s1, s2, slow, s3, s4⟩ := ArmMemory.simulate_cells_spec am hP
  obtain ⟨f1, f2, fast, f3, f4⟩ := ArmMemory.fast_path_spec am ctr hP hstart hstart_other
  exact ⟨slow, fast, s3, f3, s4, f4, ArmMemory.read_blocks_sat env _ _ _ _ _ s4 f4,
    fun x => (s1 x).trans (f1 x).symm, fun x => (s2 x).trans (f2 x).symm⟩

set_option maxRecDepth 100000 in
/-- The accesses of `mixed` after cell enumeration. -/
theorem ArmMemory.mixed_accesses : ArmMemory.mixed_cells.all_accesses_ =
    [{ ArmMemory.reg_access "rax" 16 true 0 with index := 0, cell := some 0, cell_offset := 1 },
     { ArmMemory.reg_access "rbx" 32 false 1 with index := 1, cell := some 0, cell_offset := 0 },
     { ArmMemory.reg_access "rcx" 8 true 0 with
        is_other := true, index := 2, cell := some 1, cell_offset := 0 },
     { ArmMemory.reg_access "rdx" 8 false 1 with
        is_other := true, address := (SymBitVector.var 64 "rcx"), index := 3, cell := some 1,
        cell_offset := 0 }] := by rfl

set_option maxRecDepth 100000 in
/-- The cells of `mixed` after cell enumeration. -/
theorem ArmMemory.mixed_cells_cells : ArmMemory.mixed_cells.cells_ =
    [{ ArmMemory.Cell.init
          (SymBitVector.plus (SymBitVector.var 64 "rax") (SymBitVector.constant 64 (-1))) with
        index := 0, size := 4, tmp_min_offset := -1, tmp_max_offset := 3 },
     { ArmMemory.Cell.init
          (SymBitVector.plus (SymBitVector.var 64 "rcx") (SymBitVector.constant 64 0)) with
        index := 1, size := 1, tmp_min_offset := 0, tmp_max_offset := 1 }] := by rfl

/-- The memory `mixed` after cell enumeration is laid out without overlap under
`mixed_env`, and its accesses lie in their cells. -/
theorem ArmMemory.mixed_placed : ArmMemory.Placed ArmMemory.mixed_env ArmMemory.mixed_cells := by
  have hget : ∀ (k : Nat) (c : ArmMemory.Cell), ArmMemory.mixed_cells.cells_[k]? = some c →
      (k = 0 ∧ c = { ArmMemory.Cell.init
          (SymBitVector.plus (SymBitVector.var 64 "rax") (SymBitVector.constant 64 (-1))) with
        index := 0, size := 4, tmp_min_offset := -1, tmp_max_offset := 3 }) ∨
      (k = 1 ∧ c = { ArmMemory.Cell.init
          (SymBitVector.plus (SymBitVector.var 64 "rcx") (SymBitVector.constant 64 0)) with
        index := 1, size := 1, tmp_min_offset := 0, tmp_max_offset := 1 }) := by
    intro k c h
    rw [ArmMemory.mixed_cells_cells] at h
    rcases k with _ | _ | k
    · exact Or.inl ⟨rfl, (Option.some.inj h).symm⟩
    · exact Or.inr ⟨rfl, (Option.some.inj h).symm⟩
    · simp at h
  have ha0 : ((SymBitVector.plus (SymBitVector.var 64 "rax")
      (SymBitVector.constant 64 (-1))).eval ArmMemory.mixed_env) = ⟨64, 4103⟩ := by decide
  have ha1 : ((SymBitVector.plus (SymBitVector.var 64 "rcx")
      (SymBitVector.constant 64 0)).eval ArmMemory.mixed_env) = ⟨64, 8192⟩ := by decide
  refine ⟨rfl, ⟨?_, ?_, ?_, ?_, ?_⟩, ?_, ?_⟩
  · rw [ArmMemory.mixed_cells_cells]; decide
  · intro k c h
    rcases hget k c h with ⟨rfl, rfl⟩ | ⟨rfl, rfl⟩ <;> rfl
  · intro k c h
    rcases hget k c h with ⟨rfl, rfl⟩ | ⟨rfl, rfl⟩ <;> rfl
  · intro k c h
    rcases hget k c h with ⟨rfl, rfl⟩ | ⟨rfl, rfl⟩ <;> decide
  · intro k k' c c' i j h h' hne hi hj
    rcases hget k c h with ⟨rfl, rfl⟩ | ⟨rfl, rfl⟩ <;>
      rcases hget k' c' h' with ⟨rfl, rfl⟩ | ⟨rfl, rfl⟩
    · exact absurd rfl hne
    · simp only [ArmMemory.Cell.init, ha0, ha1] at hi hj ⊢
      omega
    · simp only [ArmMemory.Cell.init, ha0, ha1] at hi hj ⊢
      omega
    · exact absurd rfl hne
  · intro k c h
    rcases hget k c h with ⟨rfl, rfl⟩ | ⟨rfl, rfl⟩ <;> exact ⟨rfl, rfl⟩
  · intro a ha
    rw [ArmMemory.mixed_accesses] at ha
    simp only [List.mem_cons, List.mem_singleton, List.not_mem_nil, or_false] at ha
    rcases ha with rfl | rfl | rfl | rfl
    · exact ⟨0, _, 1, 2, rfl, by rw [ArmMemory.mixed_cells_cells]; rfl, rfl, rfl, by decide,
        by decide, rfl⟩
    · exact ⟨0, _, 0, 4, rfl, by rw [ArmMemory.mixed_cells_cells]; rfl, rfl, rfl, by decide,
        by decide, rfl⟩
    · exact ⟨1, _, 0, 1, rfl, by rw [ArmMemory.mixed_cells_cells]; rfl, rfl, rfl, by decide,
        by decide, rfl⟩
    · exact ⟨1, _, 0, 1, rfl, by rw [ArmMemory.mixed_cells_cells]; rfl, rfl, rfl, by decide,
        by decide, rfl⟩

set_option maxRecDepth 100000 in
/-- The heaps the fast path starts from for `mixed`. -/
theorem ArmMemory.mixed_start_heaps :
    ArmMemory.start_heaps ArmMemory.mixed_cells (ArmMemory.fresh [] "2" ArmMemory.solver_sat) 0
      = (SymArray.update (SymArray.update (SymArray.update (SymArray.update
            (SymArray.var "heap_1")
            (SymBitVector.plus (SymBitVector.constant 64 0)
              (SymBitVector.plus (SymBitVector.var 64 "rax") (SymBitVector.constant 64 (-1))))
            (SymBitVector.tmp_var 8 2))
            (SymBitVector.plus (SymBitVector.constant 64 1)
              (SymBitVector.plus (SymBitVector.var 64 "rax") (SymBitVector.constant 64 (-1))))
            (SymBitVector.tmp_var 8 0))
            (SymBitVector.plus (SymBitVector.constant 64 2)
              (SymBitVector.plus (SymBitVector.var 64 "rax") (SymBitVector.constant 64 (-1))))
            (SymBitVector.tmp_var 8 1))
            (SymBitVector.plus (SymBitVector.constant 64 3)
              (SymBitVector.plus (SymBitVector.var 64 "rax") (SymBitVector.constant 64 (-1))))
            (SymBitVector.tmp_var 8 3),
         SymArray.update (SymArray.var "heap_2")
            (SymBitVector.plus (SymBitVector.constant 64 0)
              (SymBitVector.plus (SymBitVector.var 64 "rcx") (SymBitVector.constant 64 0)))
            (SymBitVector.tmp_var 8 4)) := by rfl

/-- Under `mixed_env` the heaps the fast path starts from hold the bytes of the heaps of
the two memories. -/
theorem ArmMemory.mixed_start :
    (∀ x, (ArmMemory.start_heaps ArmMemory.mixed_cells
        (ArmMemory.fresh [] "2" ArmMemory.solver_sat) 0).1.eval ArmMemory.mixed_env x % 256
      = ArmMemory.mixed_cells.heap_.eval ArmMemory.mixed_env x % 256) ∧
    (∀ x, (ArmMemory.start_heaps ArmMemory.mixed_cells
        (ArmMemory.fresh [] "2" ArmMemory.solver_sat) 0).2.eval ArmMemory.mixed_env x % 256
      = (ArmMemory.fresh [] "2" ArmMemory.solver_sat).heap_.eval ArmMemory.mixed_env x % 256) := by
  have e2 : ArmMemory.mixed_cells.heap_ = SymArray.var "heap_1" := by rfl
  rw [ArmMemory.mixed_start_heaps, e2]
  constructor
  · intro x
    simp only [SymArray.eval]
    repeat' split
    all_goals rfl
  · intro x
    simp only [SymArray.eval]
    repeat' split
    all_goals rfl

/-- C27 (witness): the memory `mixed` after cell enumeration, with a write and an
overlapping read of this side in one cell and a write and a read of the other side in
another, and an assignment that puts the cells at 4103 and 8192. -/
theorem ArmMemory.C27_fast_path_agrees_with_simulation_witness :
    ArmMemory.Placed ArmMemory.mixed_env ArmMemory.mixed_cells ∧
    (∀ x, (ArmMemory.start_heaps ArmMemory.mixed_cells
        (ArmMemory.fresh [] "2" ArmMemory.solver_sat) 0).1.eval ArmMemory.mixed_env x % 256
      = ArmMemory.mixed_cells.heap_.eval ArmMemory.mixed_env x % 256) ∧
    (∀ x, (ArmMemory.start_heaps ArmMemory.mixed_cells
        (ArmMemory.fresh [] "2" ArmMemory.solver_sat) 0).2.eval ArmMemory.mixed_env x % 256
      = (ArmMemory.fresh [] "2" ArmMemory.solver_sat).heap_.eval ArmMemory.mixed_env x % 256) ∧
    ∃ slow fast : List SymBool,
      (ArmMemory.simulate_cells ArmMemory.mixed_cells
          (ArmMemory.fresh [] "2" ArmMemory.solver_sat)).1.constraints_
        = ArmMemory.mixed_cells.constraints_ ++ slow ++
          [SymBool.array_eq ArmMemory.mixed_cells.final_heap_
            (ArmMemory.simulate_cells ArmMemory.mixed_cells
              (ArmMemory.fresh [] "2" ArmMemory.solver_sat)).1.heap_,
           SymBool.array_eq (ArmMemory.fresh [] "2" ArmMemory.solver_sat).final_heap_
            (ArmMemory.simulate_cells ArmMemory.mixed_cells
              (ArmMemory.fresh [] "2" ArmMemory.solver_sat)).2.heap_] ∧
      (ArmMemory.generate_constraints_given_no_cell_overlap ArmMemory.mixed_cells
          (ArmMemory.fresh [] "2" ArmMemory.solver_sat) 0).2.1.constraints_
        = ArmMemory.mixed_cells.constraints_ ++
          [SymBool.array_eq ArmMemory.mixed_cells.start_variable_
            (ArmMemory.start_heaps ArmMemory.mixed_cells
              (ArmMemory.fresh [] "2" ArmMemory.solver_sat) 0).1,
           SymBool.array_eq (ArmMemory.fresh [] "2" ArmMemory.solver_sat).start_variable_
            (ArmMemory.start_heaps ArmMemory.mixed_cells
              (ArmMemory.fresh [] "2" ArmMemory.solver_sat) 0).2] ++ fast ++
          [SymBool.array_eq ArmMemory.mixed_cells.final_heap_
            (ArmMemory.generate_constraints_given_no_cell_overlap ArmMemory.mixed_cells
              (ArmMemory.fresh [] "2" ArmMemory.solver_sat) 0).2.1.heap_,
           SymBool.array_eq (ArmMemory.fresh [] "2" ArmMemory.solver_sat).final_heap_
            (ArmMemory.generate_constraints_given_no_cell_overlap ArmMemory.mixed_cells
              (ArmMemory.fresh [] "2" ArmMemory.solver_sat) 0).2.2.1.heap_] ∧
      ArmMemory.read_blocks ArmMemory.mixed_env ArmMemory.mixed_cells.cells_
        (ArmMemory.mixed_cells.heap_.eval ArmMemory.mixed_env,
          (ArmMemory.fresh [] "2" ArmMemory.solver_sat).heap_.eval ArmMemory.mixed_env)
        ArmMemory.mixed_cells.all_accesses_ slow ∧
      ArmMemory.read_blocks ArmMemory.mixed_env ArmMemory.mixed_cells.cells_
        (ArmMemory.mixed_cells.heap_.eval ArmMemory.mixed_env,
          (ArmMemory.fresh [] "2" ArmMemory.solver_sat).heap_.eval ArmMemory.mixed_env)
        ArmMemory.mixed_cells.all_accesses_ fast ∧
      (ArmMemory.mixed_env.sat slow ↔ ArmMemory.mixed_env.sat fast) ∧
      (∀ x, (ArmMemory.simulate_cells ArmMemory.mixed_cells
          (ArmMemory.fresh [] "2" ArmMemory.solver_sat)).1.heap_.eval ArmMemory.mixed_env x % 256
        = (ArmMemory.generate_constraints_given_no_cell_overlap ArmMemory.mixed_cells
            (ArmMemory.fresh [] "2" ArmMemory.solver_sat) 0).2.1.heap_.eval
              ArmMemory.mixed_env x % 256) ∧
      (∀ x, (ArmMemory.simulate_cells ArmMemory.mixed_cells
          (ArmMemory.fresh [] "2" ArmMemory.solver_sat)).2.heap_.eval ArmMemory.mixed_env x % 256
        = (ArmMemory.generate_constraints_given_no_cell_overlap ArmMemory.mixed_cells
            (ArmMemory.fresh [] "2" ArmMemory.solver_sat) 0).2.2.1.heap_.eval
              ArmMemory.mixed_env x % 256) :=
  ⟨ArmMemory.mixed_placed, ArmMemory.mixed_start.1, ArmMemory.mixed_start.2,
    ArmMemory.C27_fast_path_agrees_with_simulation ArmMemory.mixed_env ArmMemory.mixed_cells
      (ArmMemory.fresh [] "2" ArmMemory.solver_sat) 0 ArmMemory.mixed_placed
      ArmMemory.mixed_start.1 ArmMemory.mixed_start.2⟩


/-! ## Pairing test cases of two paths -/

/-- C31: for every target path that some test case takes, `find_pair_testcase` reads
`rewrite_tcs[0]` of an empty rewrite vector: a read at the size of the vector, where the
claim has none. -/
theorem BoundedValidator.C31_reads_past_the_end (i : Nat) (rest : List Nat) :
    BoundedValidator.find_pair_testcase (i :: rest) [] = .error .bad_index := by
  rfl

/-- The same read past the end of a vector that is not empty but exhausted: the target
path is taken by input 1 only, the rewrite path by input 0 only. -/
theorem BoundedValidator.find_pair_exhausted :
    BoundedValidator.find_pair_testcase
        (BoundedValidator.learnt_indices (fun i => i == 1) 2)
        (BoundedValidator.learnt_indices (fun i => i == 0) 2)
      = .error .bad_index := by
  rfl


/-! ## The aliasing formula of the cell model -/

/-- The inner loop of `aliasing_formula` adds, to the condition it starts from, the
no-overlap constraint of every later cell that is not unconstrained. -/
theorem CellMemory.alias_pairs_holds (env : Env) (m : CellMemory) (cell : Nat) :
    ∀ (qs : List (Nat × SymBitVector)) (condition : SymBool),
      (CellMemory.alias_pairs m cell qs condition).holds env ↔
        condition.holds env ∧ ∀ q ∈ qs, m.cell_unconstrained_.getD q.1 false = false →
          q.1 > cell → (CellMemory.no_overlap m cell q.1).holds env := by
  intro qs
  induction qs with
  | nil => intro c; simp [CellMemory.alias_pairs]
  | cons q rest ih =>
    intro c
    obtain ⟨k, v⟩ := q
    unfold CellMemory.alias_pairs
    by_cases hu : m.cell_unconstrained_.getD k false = true
    · rw [if_pos hu, ih]
      simp [hu]
    · have hu' : m.cell_unconstrained_.getD k false = false := by simpa using hu
      rw [if_neg hu]
      by_cases hk : k > cell
      · rw [if_pos hk, ih]
        simp only [SymBool.holds, List.mem_cons, forall_eq_or_imp]
        constructor
        · rintro ⟨⟨h1, h2⟩, h3⟩
          exact ⟨h1, fun _ _ => h2, h3⟩
        · rintro ⟨h1, h2, h3⟩
          exact ⟨⟨h1, h2 hu' hk⟩, h3⟩
      · rw [if_neg hk, ih]
        simp only [List.mem_cons, forall_eq_or_imp]
        constructor
        · rintro ⟨h1, h3⟩
          exact ⟨h1, fun _ h => absurd h hk, h3⟩
        · rintro ⟨h1, _, h3⟩
          exact ⟨h1, h3⟩

/-- The outer loop of `aliasing_formula`, when it returns, adds to the condition it
starts from the two bounds on the address of every cell and, for a cell that is not
unconstrained, the no-overlap constraints with the later cells that are not
unconstrained. -/
theorem CellMemory.alias_cells_holds (env : Env) (m other : CellMemory) :
    ∀ (ps : List (Nat × SymBitVector)) (condition r : SymBool),
      CellMemory.alias_cells m other ps condition = .ok r →
      (r.holds env ↔ condition.holds env ∧ ∀ p ∈ ps,
        (SymBool.le (m.cell_addrs_.getD p.1 .null)
          (SymBitVector.constant 64 (-(m.cell_sizes_.getD p.1 0 : Int) - 0x3f))).holds env ∧
        (SymBool.ge (m.cell_addrs_.getD p.1 .null) (SymBitVector.constant 64 0x40)).holds env ∧
        (m.cell_unconstrained_.getD p.1 false = false →
          ∀ q ∈ m.cells_, m.cell_unconstrained_.getD q.1 false = false → q.1 > p.1 →
            (CellMemory.no_overlap m p.1 q.1).holds env)) := by
  intro ps
  induction ps with
  | nil =>
    intro c r h
    simp only [CellMemory.alias_cells, Except.ok.injEq] at h
    subst h
    simp
  | cons p rest ih =>
    intro c r h
    obtain ⟨k, v⟩ := p
    unfold CellMemory.alias_cells at h
    simp only at h
    split at h
    · cases h
    · split at h
      · cases h
      · by_cases hu : m.cell_unconstrained_.getD k false = true
        · rw [if_pos hu] at h
          rw [ih _ _ h]
          simp only [SymBool.holds, List.mem_cons, forall_eq_or_imp, hu]
          constructor
          · rintro ⟨⟨⟨h1, h2⟩, h3⟩, h4⟩
            exact ⟨h1, ⟨h2, h3, fun e => by cases e⟩, h4⟩
          · rintro ⟨h1, ⟨h2, h3, _⟩, h4⟩
            exact ⟨⟨⟨h1, h2⟩, h3⟩, h4⟩
        · have hu' : m.cell_unconstrained_.getD k false = false := by simpa using hu
          rw [if_neg hu] at h
          rw [ih _ _ h, CellMemory.alias_pairs_holds]
          simp only [SymBool.holds, List.mem_cons, forall_eq_or_imp]
          constructor
          · rintro ⟨⟨⟨⟨h1, h2⟩, h3⟩, h5⟩, h4⟩
            exact ⟨h1, ⟨h2, h3, fun _ => h5⟩, h4⟩
          · rintro ⟨h1, ⟨h2, h3, h5⟩, h4⟩
            exact ⟨⟨⟨⟨h1, h2⟩, h3⟩, h5 hu'⟩, h4⟩


/-- The value of the constant `-cell_size - 0x3f` for a cell size that the subtraction
does not wrap. -/
theorem CellMemory.bound_constant (env : Env) (size : Nat) (h : size + 0x3f ≤ 2 ^ 64) :
    ((SymBitVector.constant 64 (-(size : Int) - 0x3f)).eval env).v = 2 ^ 64 - size - 0x3f := by
  simp only [SymBitVector.eval]
  omega

/-- The no-overlap constraint of two cells whose address terms are 64 bits wide and
whose ends do not wrap. -/
theorem CellMemory.no_overlap_holds (env : Env) (m : CellMemory) (c d : Nat)
    (hc : ((m.cell_addrs_.getD c .null).eval env).w = 64)
    (hd : ((m.cell_addrs_.getD d .null).eval env).w = 64)
    (hcs : ((m.cell_addrs_.getD c .null).eval env).v + m.cell_sizes_.getD c 0 < 2 ^ 64)
    (hds : ((m.cell_addrs_.getD d .null).eval env).v + m.cell_sizes_.getD d 0 < 2 ^ 64) :
    (CellMemory.no_overlap m c d).holds env ↔
      ((m.cell_addrs_.getD c .null).eval env).v + m.cell_sizes_.getD c 0
          ≤ ((m.cell_addrs_.getD d .null).eval env).v ∨
      ((m.cell_addrs_.getD d .null).eval env).v + m.cell_sizes_.getD d 0
          ≤ ((m.cell_addrs_.getD c .null).eval env).v := by
  have e1 : ((SymBitVector.plus (m.cell_addrs_.getD c .null)
      (SymBitVector.constant 64 (m.cell_sizes_.getD c 0 : Int))).eval env).v
      = ((m.cell_addrs_.getD c .null).eval env).v + m.cell_sizes_.getD c 0 := by
    simp only [SymBitVector.eval, hc]
    omega
  have e2 : ((SymBitVector.plus (m.cell_addrs_.getD d .null)
      (SymBitVector.constant 64 (m.cell_sizes_.getD d 0 : Int))).eval env).v
      = ((m.cell_addrs_.getD d .null).eval env).v + m.cell_sizes_.getD d 0 := by
    simp only [SymBitVector.eval, hd]
    omega
  unfold CellMemory.no_overlap
  simp only [SymBool.holds]
  rw [e1, e2]

/-- C32 (amended): in every assignment satisfying the formula that `aliasing_formula`
returns, the address `a` of every cell whose size is at most `2^64 - 0x3f` satisfies
`0x40 <= a <= 2^64 - size - 0x3f`, so that `a + size` does not wrap; and two distinct
cells of such sizes that are both not marked unconstrained, with address terms of 64
bits, share no address. -/
theorem CellMemory.C32_aliasing_bounds (a other : CellMemory) (ctr : Nat) (env : Env)
    (r : SymBool × CellMemory × CellMemory × Nat)
    (h : CellMemory.aliasing_formula a other ctr = .ok r) (hsat : r.1.holds env) :
    (∀ p ∈ r.2.1.cells_, r.2.1.cell_sizes_.getD p.1 0 + 0x3f ≤ 2 ^ 64 →
      0x40 ≤ ((r.2.1.cell_addrs_.getD p.1 .null).eval env).v ∧
      ((r.2.1.cell_addrs_.getD p.1 .null).eval env).v
        ≤ 2 ^ 64 - r.2.1.cell_sizes_.getD p.1 0 - 0x3f ∧
      ((r.2.1.cell_addrs_.getD p.1 .null).eval env).v + r.2.1.cell_sizes_.getD p.1 0
        < 2 ^ 64) ∧
    (∀ p ∈ r.2.1.cells_, ∀ q ∈ r.2.1.cells_, p.1 ≠ q.1 →
      r.2.1.cell_unconstrained_.getD p.1 false = false →
      r.2.1.cell_unconstrained_.getD q.1 false = false →
      r.2.1.cell_sizes_.getD p.1 0 + 0x3f ≤ 2 ^ 64 →
      r.2.1.cell_sizes_.getD q.1 0 + 0x3f ≤ 2 ^ 64 →
      ((r.2.1.cell_addrs_.getD p.1 .null).eval env).w = 64 →
      ((r.2.1.cell_addrs_.getD q.1 .null).eval env).w = 64 →
      ∀ x : Nat,
        ¬ (((r.2.1.cell_addrs_.getD p.1 .null).eval env).v ≤ x ∧
           x < ((r.2.1.cell_addrs_.getD p.1 .null).eval env).v + r.2.1.cell_sizes_.getD p.1 0 ∧
           ((r.2.1.cell_addrs_.getD q.1 .null).eval env).v ≤ x ∧
           x < ((r.2.1.cell_addrs_.getD q.1 .null).eval env).v
             + r.2.1.cell_sizes_.getD q.1 0)) := by
  unfold CellMemory.aliasing_formula at h
  simp only at h
  split at h
  · cases h
  · rename_i condition hcells
    simp only [Except.ok.injEq] at h
    subst h
    simp only at hsat ⊢
    generalize (CellMemory.equalize_cells a other ctr).1 = m at hcells ⊢
    generalize (CellMemory.equalize_cells a other ctr).2.1 = o at hcells
    obtain ⟨_, hall⟩ := (CellMemory.alias_cells_holds env m o _ _ _ hcells).mp hsat
    have bounds : ∀ p ∈ m.cells_, m.cell_sizes_.getD p.1 0 + 0x3f ≤ 2 ^ 64 →
        0x40 ≤ ((m.cell_addrs_.getD p.1 .null).eval env).v ∧
        ((m.cell_addrs_.getD p.1 .null).eval env).v ≤ 2 ^ 64 - m.cell_sizes_.getD p.1 0 - 0x3f ∧
        ((m.cell_addrs_.getD p.1 .null).eval env).v + m.cell_sizes_.getD p.1 0 < 2 ^ 64 := by
      intro p hp hsize
      obtain ⟨h1, h2, _⟩ := hall p hp
      simp only [SymBool.holds] at h1 h2
      rw [CellMemory.bound_constant env _ hsize] at h1
      have e : ((SymBitVector.constant 64 0x40).eval env).v = 0x40 := by
        simp [SymBitVector.eval]
      rw [e] at h2
      refine ⟨h2, h1, ?_⟩
      omega
    refine ⟨bounds, ?_⟩
    intro p hp q hq hne hup huq hsp hsq hwp hwq x hx
    obtain ⟨_, _, bp⟩ := bounds p hp hsp
    obtain ⟨_, _, bq⟩ := bounds q hq hsq
    rcases Nat.lt_or_gt_of_ne hne with hlt | hgt
    · have h3 := (hall p hp).2.2 hup q hq huq hlt
      rw [CellMemory.no_overlap_holds env m p.1 q.1 hwp hwq bp bq] at h3
      omega
    · have h3 := (hall q hq).2.2 huq p hp hup hgt
      rw [CellMemory.no_overlap_holds env m q.1 p.1 hwq hwp bq bp] at h3
      omega


theorem CellMemory.three_cells_run :
    CellMemory.aliasing_formula CellMemory.three_cells CellMemory.three_cells 0
      = .ok (CellMemory.three_cells_formula, CellMemory.three_cells, CellMemory.three_cells, 0) := by
  rfl

theorem CellMemory.three_cells_sat :
    CellMemory.three_cells_formula.holds CellMemory.three_cells_env := by
  simp [CellMemory.three_cells_formula, SymBool.holds, SymBitVector.eval,
    CellMemory.three_cells_env]

/-- C32 (witness): two constrained 4-byte cells at 4096 and 4100 and an unconstrained
8-byte cell at 4098, which overlaps both. -/
theorem CellMemory.C32_aliasing_bounds_witness :
    CellMemory.aliasing_formula CellMemory.three_cells CellMemory.three_cells 0
      = .ok (CellMemory.three_cells_formula, CellMemory.three_cells, CellMemory.three_cells, 0) ∧
    CellMemory.three_cells_formula.holds CellMemory.three_cells_env ∧
    (∀ p ∈ CellMemory.three_cells.cells_,
      CellMemory.three_cells.cell_sizes_.getD p.1 0 + 0x3f ≤ 2 ^ 64 →
      0x40 ≤ ((CellMemory.three_cells.cell_addrs_.getD p.1 .null).eval
        CellMemory.three_cells_env).v ∧
      ((CellMemory.three_cells.cell_addrs_.getD p.1 .null).eval CellMemory.three_cells_env).v
        ≤ 2 ^ 64 - CellMemory.three_cells.cell_sizes_.getD p.1 0 - 0x3f ∧
      ((CellMemory.three_cells.cell_addrs_.getD p.1 .null).eval CellMemory.three_cells_env).v
        + CellMemory.three_cells.cell_sizes_.getD p.1 0 < 2 ^ 64) ∧
    (∀ p ∈ CellMemory.three_cells.cells_, ∀ q ∈ CellMemory.three_cells.cells_, p.1 ≠ q.1 →
      CellMemory.three_cells.cell_unconstrained_.getD p.1 false = false →
      CellMemory.three_cells.cell_unconstrained_.getD q.1 false = false →
      CellMemory.three_cells.cell_sizes_.getD p.1 0 + 0x3f ≤ 2 ^ 64 →
      CellMemory.three_cells.cell_sizes_.getD q.1 0 + 0x3f ≤ 2 ^ 64 →
      ((CellMemory.three_cells.cell_addrs_.getD p.1 .null).eval
        CellMemory.three_cells_env).w = 64 →
      ((CellMemory.three_cells.cell_addrs_.getD q.1 .null).eval
        CellMemory.three_cells_env).w = 64 →
      ∀ x : Nat,
        ¬ (((CellMemory.three_cells.cell_addrs_.getD p.1 .null).eval
              CellMemory.three_cells_env).v ≤ x ∧
           x < ((CellMemory.three_cells.cell_addrs_.getD p.1 .null).eval
              CellMemory.three_cells_env).v + CellMemory.three_cells.cell_sizes_.getD p.1 0 ∧
           ((CellMemory.three_cells.cell_addrs_.getD q.1 .null).eval
              CellMemory.three_cells_env).v ≤ x ∧
           x < ((CellMemory.three_cells.cell_addrs_.getD q.1 .null).eval
              CellMemory.three_cells_env).v + CellMemory.three_cells.cell_sizes_.getD q.1 0)) :=
  ⟨CellMemory.three_cells_run, CellMemory.three_cells_sat,
    CellMemory.C32_aliasing_bounds CellMemory.three_cells CellMemory.three_cells 0
      CellMemory.three_cells_env
      (CellMemory.three_cells_formula, CellMemory.three_cells, CellMemory.three_cells, 0)
      CellMemory.three_cells_run CellMemory.three_cells_sat⟩

/-- C32 (counterexample): for a cell of `2^64 - 1` bytes the constant `-cell_size - 0x3f`
wraps to `2^64 - 62`; the formula holds with the cell at address 64, which is above
`2^64 - size - 0x3f`, and the end of the cell wraps. -/
theorem CellMemory.C32_huge_cell_wraps :
    CellMemory.aliasing_formula CellMemory.huge_cell CellMemory.huge_cell 0
      = .ok (CellMemory.huge_cell_formula, CellMemory.huge_cell, CellMemory.huge_cell, 0) ∧
    CellMemory.huge_cell_formula.holds CellMemory.huge_cell_env ∧
    ¬ ((((CellMemory.huge_cell.cell_addrs_.getD 0 .null).eval CellMemory.huge_cell_env).v : Int)
        ≤ 2 ^ 64 - (CellMemory.huge_cell.cell_sizes_.getD 0 0 : Int) - 0x3f) ∧
    2 ^ 64 ≤ ((CellMemory.huge_cell.cell_addrs_.getD 0 .null).eval CellMemory.huge_cell_env).v
      + CellMemory.huge_cell.cell_sizes_.getD 0 0 := by
  refine ⟨by rfl, ?_, by decide, by decide⟩
  simp [CellMemory.huge_cell_formula, SymBool.holds, SymBitVector.eval,
    CellMemory.huge_cell_env]


/-! ## The overflow flags of the handlers -/

/-- C33: for every width `w >= 1` and all `w`-bit `a` and `b`, `plus_of` of the most
significant bits of `a`, `b` and the `w`-bit sum holds exactly when the sum of the signed
values is not a `w`-bit signed number, and `minus_of` of the most significant bits of
`a`, `b` and the `w`-bit difference holds exactly when the difference of the signed
values is not one. -/
theorem Handler.C33_overflow_flags (env : Env) (w a b : Nat) (hw : 1 ≤ w) (ha : a < 2 ^ w)
    (hb : b < 2 ^ w) (a_msb b_msb sum_msb diff_msb : SymBool)
    (hx : a_msb.holds env ↔ Handler.msb w a) (hy : b_msb.holds env ↔ Handler.msb w b)
    (ht : sum_msb.holds env ↔ Handler.msb w (Handler.wrap_add w a b))
    (hs : diff_msb.holds env ↔ Handler.msb w (Handler.wrap_sub w a b)) :
    ((Handler.plus_of a_msb b_msb sum_msb).holds env ↔
      ¬ Handler.fits w (Handler.signed w a + Handler.signed w b)) ∧
    ((Handler.minus_of a_msb b_msb diff_msb).holds env ↔
      ¬ Handler.fits w (Handler.signed w a - Handler.signed w b)) := by
  obtain ⟨k, rfl⟩ : ∃ k, w = k + 1 := ⟨w - 1, by omega⟩
  simp only [Handler.plus_of, Handler.minus_of, SymBool.holds, hx, hy, ht, hs, Handler.msb,
    Handler.signed, Handler.fits, Handler.wrap_add, Handler.wrap_sub, Nat.add_sub_cancel]
  have h2 : (2 : Nat) ^ (k + 1) = 2 * 2 ^ k := by rw [pow_succ]; ring
  have h2i : (2 : Int) ^ (k + 1) = 2 * 2 ^ k := by rw [pow_succ]; ring
  have hpos : 0 < 2 ^ k := by positivity
  have hcast : ((2 ^ k : Nat) : Int) = (2 : Int) ^ k := by push_cast; rfl
  rw [h2] at ha hb ⊢
  rw [h2i]
  generalize (2 : Nat) ^ k = h at *
  rw [← hcast]
  have e1 : (a + b) % (2 * h) = if a + b < 2 * h then a + b else a + b - 2 * h := by
    split
    · exact Nat.mod_eq_of_lt (by assumption)
    · rw [Nat.mod_eq_sub_mod (by omega)]
      exact Nat.mod_eq_of_lt (by omega)
  have e2 : (a + 2 * h - b) % (2 * h) = if b ≤ a then a - b else a + 2 * h - b := by
    split
    · rw [Nat.mod_eq_sub_mod (by omega)]
      have : a + 2 * h - b - 2 * h = a - b := by omega
      rw [this]
      exact Nat.mod_eq_of_lt (by omega)
    · exact Nat.mod_eq_of_lt (by omega)
  rw [e1, e2]
  constructor
  · split_ifs <;> constructor <;> intro hh <;> omega
  · split_ifs <;> constructor <;> intro hh <;> omega

/-- C33 (witness): the 8-bit numbers 100 and 100, whose sum 200 overflows as a signed
addition and whose difference 0 does not overflow. -/
theorem Handler.C33_overflow_flags_witness :
    1 ≤ 8 ∧ 100 < 2 ^ 8 ∧
    (SymBool._false.holds ⟨fun _ => 0, fun _ => 0, fun _ _ => 0, fun _ => false⟩ ↔
      Handler.msb 8 100) ∧
    (SymBool._true.holds ⟨fun _ => 0, fun _ => 0, fun _ _ => 0, fun _ => false⟩ ↔
      Handler.msb 8 (Handler.wrap_add 8 100 100)) ∧
    (SymBool._false.holds ⟨fun _ => 0, fun _ => 0, fun _ _ => 0, fun _ => false⟩ ↔
      Handler.msb 8 (Handler.wrap_sub 8 100 100)) ∧
    ((Handler.plus_of SymBool._false SymBool._false SymBool._true).holds
        ⟨fun _ => 0, fun _ => 0, fun _ _ => 0, fun _ => false⟩ ↔
      ¬ Handler.fits 8 (Handler.signed 8 100 + Handler.signed 8 100)) ∧
    ((Handler.minus_of SymBool._false SymBool._false SymBool._false).holds
        ⟨fun _ => 0, fun _ => 0, fun _ _ => 0, fun _ => false⟩ ↔
      ¬ Handler.fits 8 (Handler.signed 8 100 - Handler.signed 8 100)) :=
  have h1 : SymBool._false.holds ⟨fun _ => 0, fun _ => 0, fun _ _ => 0, fun _ => false⟩ ↔
      Handler.msb 8 100 := by
    simp [SymBool.holds, Handler.msb]
  have h2 : SymBool._true.holds ⟨fun _ => 0, fun _ => 0, fun _ _ => 0, fun _ => false⟩ ↔
      Handler.msb 8 (Handler.wrap_add 8 100 100) := by
    simp [SymBool.holds, Handler.msb, Handler.wrap_add]
  have h3 : SymBool._false.holds ⟨fun _ => 0, fun _ => 0, fun _ _ => 0, fun _ => false⟩ ↔
      Handler.msb 8 (Handler.wrap_sub 8 100 100) := by
    simp [SymBool.holds, Handler.msb, Handler.wrap_sub]
  have h := Handler.C33_overflow_flags ⟨fun _ => 0, fun _ => 0, fun _ _ => 0, fun _ => false⟩
    8 100 100 (by decide) (by decide) (by decide) SymBool._false SymBool._false SymBool._true
    SymBool._false h1 h1 h2 h3
  ⟨by decide, by decide, h1, h2, h3, h.1, h.2⟩


/-! ## Patching the memory layout: a failed resize -/

namespace StateGen

/-- The shape of `resize_and_fill` over any resize and any fill: a result is a success. -/
theorem fill_shape_true (f : Region → Nat → Option (Region × Nat)) (r1 : Region) (ctr : Nat)
    (x : Bool × Region × Nat)
    (h : (match some r1 with
      | none => none
      | some r1 =>
        match f r1 ctr with
        | none => none
        | some (r2, ctr2) => some (true, r2, ctr2)) = some x) : x.1 = true := by
  have h3 := h
  dsimp only at h3
  generalize f r1 ctr = o2 at h3
  cases o2 with
  | none => exact Option.noConfusion h3
  | some y => rw [← Option.some.inj h3]

theorem resize_and_fill_true (lib : Library) (gen : Nat → Nat) (r : Region) (ctr base size : Nat)
    (x : Bool × Region × Nat) (h : resize_and_fill lib gen r ctr base size = some x) :
    x.1 = true := by
  unfold resize_and_fill at h
  generalize randomize_mem gen = f at h
  generalize r.resize lib base size = o1 at h
  cases o1 with
  | none => exact Option.noConfusion h
  | some r1 => exact fill_shape_true f r1 ctr x h

theorem resize_and_fill_not_false (lib : Library) (gen : Nat → Nat) (r : Region)
    (ctr base size : Nat) (x : Region × Nat)
    (h : resize_and_fill lib gen r ctr base size = some (false, x)) : False :=
  Bool.noConfusion (resize_and_fill_true lib gen r ctr base size _ h)

theorem some_false_inj (r : Region) (ctr : Nat) (x : Region × Nat)
    (h : (some (false, r, ctr) : Option (Bool × Region × Nat)) = some (false, x)) :
    x = (r, ctr) :=
  (congrArg Prod.snd (Option.some.inj h)).symm

theorem resize_within_false (max_memory_ : Nat) (lib : Library) (gen : Nat → Nat) (r : Region)
    (ctr addr size : Nat) (x : Region × Nat)
    (h : resize_within max_memory_ lib gen r ctr addr size = some (false, x)) : x = (r, ctr) := by
  unfold resize_within at h
  by_cases c1 : ¬ ((addr + size + 2 ^ 64 - r.mem.size) % 2 ^ 64 > r.mem.lower_bound)
  · rw [if_pos c1] at h
    exact Option.noConfusion h
  · rw [if_neg c1] at h
    by_cases c2 : (r.mem.size + (addr + size + 2 ^ 64 - r.mem.upper_bound) % 2 ^ 64) % 2 ^ 64
        > max_memory_
    · rw [if_pos c2] at h
      exact some_false_inj r ctr x h
    · rw [if_neg c2] at h
      exact (resize_and_fill_not_false _ _ _ _ _ _ _ h).elim

theorem resize_below_false (max_memory_ : Nat) (lib : Library) (gen : Nat → Nat) (r : Region)
    (ctr addr size : Nat) (x : Region × Nat)
    (h : resize_below max_memory_ lib gen r ctr addr size = some (false, x)) : x = (r, ctr) := by
  unfold resize_below at h
  by_cases c2 : (if (addr + size + 2 ^ 64 - r.mem.size) % 2 ^ 64 > r.mem.lower_bound then size
      else (r.mem.upper_bound + 2 ^ 64 - addr) % 2 ^ 64) > max_memory_
  · rw [if_pos c2] at h
    exact some_false_inj r ctr x h
  · rw [if_neg c2] at h
    exact (resize_and_fill_not_false _ _ _ _ _ _ _ h).elim

theorem resize_above_false (max_memory_ : Nat) (lib : Library) (gen : Nat → Nat) (r : Region)
    (ctr addr size : Nat) (x : Region × Nat)
    (h : resize_above max_memory_ lib gen r ctr addr size = some (false, x)) : x = (r, ctr) := by
  unfold resize_above at h
  by_cases c2 : (r.mem.size +
      (addr + size + 2 ^ 64 + 2 ^ 64 - r.mem.lower_bound - r.mem.size) % 2 ^ 64) % 2 ^ 64
        > max_memory_
  · rw [if_pos c2] at h
    exact some_false_inj r ctr x h
  · rw [if_neg c2] at h
    exact (resize_and_fill_not_false _ _ _ _ _ _ _ h).elim

end StateGen

namespace StateGen

/-- One link of the chain of `resize_mem`: when the call leaves the memory as it is
whenever it returns false, and so does the rest of the chain, so does the link. -/
theorem or_else_false (test : Bool) (call : Option (Bool × Region × Nat))
    (next : Region → Nat → Option (Bool × Region × Nat)) (r : Region) (ctr : Nat)
    (hcall : ∀ x, call = some (false, x) → x = (r, ctr))
    (hnext : ∀ x, next r ctr = some (false, x) → x = (r, ctr))
    (x : Region × Nat) (h : or_else test call next r ctr = some (false, x)) : x = (r, ctr) := by
  unfold or_else at h
  cases test with
  | false => exact hnext x h
  | true =>
    cases call with
    | none => exact Option.noConfusion h
    | some c =>
      obtain ⟨b, r1, ctr1⟩ := c
      cases b with
      | true => exact Bool.noConfusion (congrArg Prod.fst (Option.some.inj h))
      | false =>
        have e : (r1, ctr1) = (r, ctr) := hcall (r1, ctr1) rfl
        have e1 : r1 = r := congrArg Prod.fst e
        have e2 : ctr1 = ctr := congrArg Prod.snd e
        subst e1
        subst e2
        exact hnext x h

/-- When `resize_mem` returns false, the memory and the random number generator are as
they were. -/
theorem resize_mem_false (max_memory_ : Nat) (lib : Library) (gen : Nat → Nat) (r : Region)
    (ctr addr size : Nat) (x : Region × Nat)
    (h : resize_mem max_memory_ lib gen r ctr addr size = some (false, x)) : x = (r, ctr) := by
  unfold resize_mem at h
  by_cases c0 : r.mem.size = 0
  · rw [if_pos c0] at h
    exact (resize_and_fill_not_false _ _ _ _ _ _ _ h).elim
  · rw [if_neg c0] at h
    refine or_else_false _ _ _ r ctr (resize_within_false _ _ _ _ _ _ _) ?_ x h
    intro y hy
    refine or_else_false _ _ _ r ctr (resize_below_false _ _ _ _ _ _ _) ?_ y hy
    intro z hz
    refine or_else_false _ _ _ r ctr (resize_above_false _ _ _ _ _ _ _) ?_ z hz
    intro w hw
    exact some_false_inj r ctr w hw

end StateGen


/-! ## Patching the memory layout -/

/-- C34: a memory holds the 4096 bytes from `0x1000` on; the access of 8 bytes at `0xff0`
does not wrap and lies below it.  `resize_mem` returns true, and the memory afterwards
holds the 24 bytes from `0xfe0` on: the address `0x1000`, in range before, is not in
range any more.  In `resize_below` the difference `addr + size - mem.size()` wraps.
When `resize_mem` returns false, the memory is unchanged. -/
theorem StateGen.C34_resize_below_drops_region :
    (∀ (max_memory_ : Nat) (lib : StateGen.Library) (gen : Nat → Nat) (r : StateGen.Region)
      (ctr addr size : Nat) (x : StateGen.Region × Nat),
      StateGen.resize_mem max_memory_ lib gen r ctr addr size = some (false, x) →
        x = (r, ctr)) ∧
    (0xff0 + 8 < 2 ^ 64 ∧
      (StateGen.sample_region 0x1000 0x1000).mem.in_range 0xff0 = false ∧
      (StateGen.sample_region 0x1000 0x1000).mem.in_range 0x1000 = true) ∧
    (StateGen.resize_mem (2 ^ 20) StateGen.sample_library StateGen.sample_gen
        (StateGen.sample_region 0x1000 0x1000) 0 0xff0 8).map
      (fun x => (x.1, x.2.1.mem, x.2.1.mem.lower_bound, x.2.1.mem.size,
        x.2.1.mem.in_range 0x1000))
      = some (true, { base_ := 0xfe0, contents_ := 56, valid_ := 56 }, 0xfe0, 24, false) := by
  refine ⟨StateGen.resize_mem_false, ⟨by norm_num, by decide, by decide⟩, ?_⟩
  rfl

set_option maxRecDepth 100000 in
/-- C35: with one extra segment in the state, a `fix` that succeeds by enlarging the heap
leaves the former extra segment as the stack, the former stack as the heap and the
enlarged heap as the only extra segment; and with no extra segment, a `fix` that succeeds
by creating a new region leaves three extra segments, the stack, the heap and the new
region. -/
theorem StateGen.C35_fix_rotates_the_regions :
    (StateGen.fix 1024 StateGen.sample_library StateGen.sample_gen StateGen.sample_externals
        (StateGen.sample_access 0x4040)
        (StateGen.sample_fixed [StateGen.sample_region 0x100000 64]) 0).map
      (fun x => (x.1, x.2.1.stack.mem, x.2.1.heap.mem, x.2.1.segments.map (fun r => r.mem)))
      = some (true, (StateGen.sample_region 0x100000 64).mem,
          (StateGen.sample_region 0x7000 64).mem, [(StateGen.sample_region 0x4000 72).mem]) ∧
    (StateGen.fix 64 StateGen.sample_library StateGen.sample_gen StateGen.sample_externals
        (StateGen.sample_access 0x200000) (StateGen.sample_fixed []) 0).map
      (fun x => (x.1, x.2.1.stack.mem, x.2.1.heap.mem, x.2.1.segments.map (fun r => r.mem)))
      = some (true, (StateGen.sample_region 0x7000 64).mem,
          (StateGen.sample_region 0x4000 64).mem,
          [(StateGen.sample_region 0x7000 64).mem, (StateGen.sample_region 0x4000 64).mem,
           (StateGen.sample_region 0x200000 8).mem]) := by
  constructor
  · rfl
  · rfl


/-! ## The caller's constraint list after offset discovery -/

/-- C39: with the stop flag set and two accesses, `generate_constraints_offsets_nodata`
returns at its first poll of the flag, after it has pushed the negated check of the
first pair and before it would pop it: the caller's list `[true]` comes back as
`[true, !(a1.address == a2.address)]`. -/
theorem ArmMemory.C39_check_left_pushed_on_stop :
    ArmMemory.stopped.stop_now_ = true ∧
    (match ArmMemory.generate_constraints_offsets_nodata ArmMemory.stopped [SymBool._true] with
      | .ok r => some r.2
      | .error _ => none)
      = some [SymBool._true,
          SymBool.not (SymBool.eq (ArmMemory.const_access 4096 false 1).address
            (ArmMemory.const_access 4096 true 0).address)] := by
  constructor
  · rfl
  · rfl


/-! ## The program alignment automaton -/

namespace ProgramAlignmentAutomata

theorem State.state_eq_iff (a b : State) : State.eq a b = true ↔ a = b := by
  cases a; cases b; simp [State.eq]

theorem State.state_lt_value (a b : State) :
    State.lt a b = some (decide (a.ts < b.ts ∨ (a.ts = b.ts ∧ a.rs < b.rs))) := by
  unfold State.lt
  by_cases h1 : a.ts = b.ts
  · by_cases h2 : a.rs = b.rs
    · simp [h1, h2, State.eq]
    · simp [h1, h2]
  · simp only [ne_eq, h1, not_false_eq_true, if_true]
    congr 1
    apply decide_eq_decide.mpr
    constructor
    · intro h; exact Or.inl h
    · rintro (h | ⟨h, _⟩)
      · exact h
      · exact h.elim

theorem first_difference_cons (x y : Nat) (xs ys : List Nat) :
    first_difference (x :: xs) (y :: ys) =
      if x ≠ y then some (decide (x < y)) else first_difference xs ys := rfl

theorem first_difference_swap : ∀ (xs ys : List Nat),
    first_difference ys xs = (first_difference xs ys).map (fun r => !r) := by
  intro xs
  induction xs with
  | nil => intro ys; cases ys <;> rfl
  | cons x xs ih =>
    intro ys
    cases ys with
    | nil => rfl
    | cons y ys =>
      unfold first_difference
      by_cases h : x = y
      · simp [h, ih]
      · have h' : ¬ y = x := fun e => h e.symm
        simp only [ne_eq, h, h', not_false_eq_true, if_true, Option.map_some', Option.some.injEq]
        rw [← decide_not]
        apply decide_eq_decide.mpr
        omega

theorem first_difference_none : ∀ (xs ys : List Nat), xs.length = ys.length →
    (first_difference xs ys = none ↔ xs = ys) := by
  intro xs
  induction xs with
  | nil => intro ys h; cases ys <;> simp_all [first_difference]
  | cons x xs ih =>
    intro ys h
    cases ys with
    | nil => simp at h
    | cons y ys =>
      unfold first_difference
      by_cases e : x = y
      · simp only [List.length_cons, Nat.add_right_cancel_iff] at h
        simp [e, ih ys h]
      · simp [e]

theorem first_difference_trans : ∀ (xs ys zs : List Nat),
    first_difference xs ys = some true → first_difference ys zs = some true →
    first_difference xs zs = some true := by
  intro xs
  induction xs with
  | nil => intro ys zs h; simp [first_difference] at h
  | cons x xs ih =>
    intro ys zs h1 h2
    cases ys with
    | nil => simp [first_difference] at h1
    | cons y ys =>
      cases zs with
      | nil => simp [first_difference] at h2
      | cons z zs =>
        unfold first_difference at h1 h2 ⊢
        by_cases e1 : x = y
        · by_cases e2 : y = z
          · subst e1; subst e2
            simp only [ne_eq, not_true_eq_false, if_false] at h1 h2 ⊢
            exact ih ys zs h1 h2
          · subst e1
            simp only [ne_eq, not_true_eq_false, if_false] at h1
            simp only [ne_eq, e2, not_false_eq_true, if_true] at h2 ⊢
            exact h2
        · simp only [ne_eq, e1, not_false_eq_true, if_true, Option.some.injEq,
            decide_eq_true_eq] at h1
          by_cases e2 : y = z
          · subst e2
            have e3 : ¬ x = y := e1
            simp only [ne_eq, e3, not_false_eq_true, if_true, Option.some.injEq,
              decide_eq_true_eq]
            exact h1
          · simp only [ne_eq, e2, not_false_eq_true, if_true, Option.some.injEq,
              decide_eq_true_eq] at h2
            have e3 : ¬ x = z := by omega
            simp only [ne_eq, e3, not_false_eq_true, if_true, Option.some.injEq,
              decide_eq_true_eq]
            omega

theorem first_difference_append : ∀ (xs ys us vs : List Nat), xs.length = ys.length →
    first_difference (xs ++ us) (ys ++ vs) =
      (match first_difference xs ys with
        | some r => some r
        | none => first_difference us vs) := by
  intro xs
  induction xs with
  | nil =>
    intro ys us vs h
    cases ys with
    | nil => simp [first_difference]
    | cons y ys => simp at h
  | cons x xs ih =>
    intro ys us vs h
    cases ys with
    | nil => simp at h
    | cons y ys =>
      simp only [List.length_cons, Nat.add_right_cancel_iff] at h
      simp only [List.cons_append]
      rw [first_difference_cons, first_difference_cons]
      by_cases e : x = y
      · simp only [ne_eq, e, not_true_eq_false, if_false]
        exact ih ys us vs h
      · simp [e]

end ProgramAlignmentAutomata


namespace ProgramAlignmentAutomata

/-- What `Edge::operator<` returns: the first difference of the keys of the two edges
decides, and edges with the same key are not below each other. No assertion fails. -/
theorem Edge.edge_lt_key (a b : Edge) :
    Edge.lt a b = some ((first_difference a.key b.key).getD false) := by
  unfold Edge.lt Edge.key
  simp only [List.cons_append, List.nil_append, first_difference_cons, State.state_lt_value]
  by_cases h1 : a.from_.ts = b.from_.ts
  swap
  · simp [h1, State.eq]
  by_cases h2 : a.from_.rs = b.from_.rs
  swap
  · simp [h1, h2, State.eq]
  by_cases h3 : a.to_.ts = b.to_.ts
  swap
  · simp [h1, h2, h3, State.eq]
  by_cases h4 : a.to_.rs = b.to_.rs
  swap
  · simp [h1, h2, h3, h4, State.eq]
  by_cases h5 : a.te.length = b.te.length
  swap
  · simp [h1, h2, h3, h4, h5, State.eq]
  by_cases h6 : a.re.length = b.re.length
  swap
  · simp [h1, h2, h3, h4, h5, h6, State.eq]
  rw [first_difference_append _ _ _ _ h5]
  simp only [h1, h2, h3, h4, h5, h6, State.eq, ne_eq, not_true_eq_false, if_false,
    decide_True, Bool.and_self, Bool.not_eq_true]
  cases hte : first_difference a.te b.te with
  | some r => simp
  | none =>
    cases hre : first_difference a.re b.re with
    | some r => simp
    | none =>
      have e1 := (first_difference_none _ _ h5).mp hte
      have e2 := (first_difference_none _ _ h6).mp hre
      simp [Edge.eq, State.eq, h1, h2, h3, h4, e1, e2]

/-- Two edges are equal for `Edge::operator==` exactly when their keys have no first
difference. -/
theorem Edge.edge_eq_key (a b : Edge) :
    Edge.eq a b = true ↔ first_difference a.key b.key = none := by
  unfold Edge.eq Edge.key
  simp only [List.cons_append, List.nil_append, first_difference_cons, State.eq]
  by_cases h1 : a.from_.ts = b.from_.ts
  swap
  · simp [h1]
  by_cases h2 : a.from_.rs = b.from_.rs
  swap
  · simp [h1, h2]
  by_cases h3 : a.to_.ts = b.to_.ts
  swap
  · simp [h1, h2, h3]
  by_cases h4 : a.to_.rs = b.to_.rs
  swap
  · simp [h1, h2, h3, h4]
  by_cases h5 : a.te.length = b.te.length
  swap
  · have : ¬ a.te = b.te := fun e => h5 (by rw [e])
    simp [h1, h2, h3, h4, h5, this]
  by_cases h6 : a.re.length = b.re.length
  swap
  · have : ¬ a.re = b.re := fun e => h6 (by rw [e])
    simp [h1, h2, h3, h4, h5, h6, this]
  rw [first_difference_append _ _ _ _ h5]
  simp only [h1, h2, h3, h4, h5, h6, ne_eq, not_true_eq_false, if_false,
    decide_True, Bool.and_self, Bool.true_and, Bool.and_eq_true, decide_eq_true_eq]
  cases hte : first_difference a.te b.te with
  | some r =>
    have : ¬ a.te = b.te := fun e => by
      rw [(first_difference_none _ _ h5).mpr e] at hte; cases hte
    simp [this]
  | none =>
    have e1 := (first_difference_none _ _ h5).mp hte
    simp only [e1, true_and]
    exact (first_difference_none _ _ h6).symm

end ProgramAlignmentAutomata


namespace ProgramAlignmentAutomata

theorem State.state_lt_cases (a b : State) :
    (State.lt a b = some true ∧ State.lt b a = some false ∧ State.eq a b = false) ∨
    (State.lt a b = some false ∧ State.lt b a = some true ∧ State.eq a b = false) ∨
    (State.lt a b = some false ∧ State.lt b a = some false ∧ State.eq a b = true) := by
  rw [State.state_lt_value, State.state_lt_value]
  simp only [State.eq, Option.some.injEq, decide_eq_true_eq, decide_eq_false_iff_not,
    Bool.and_eq_true, Bool.and_eq_false_iff]
  omega

theorem State.state_lt_trans (a b c : State) (h1 : State.lt a b = some true)
    (h2 : State.lt b c = some true) : State.lt a c = some true := by
  rw [State.state_lt_value] at h1 h2 ⊢
  simp only [Option.some.injEq, decide_eq_true_eq] at h1 h2 ⊢
  omega

theorem Edge.edge_lt_true (a b : Edge) :
    Edge.lt a b = some true ↔ first_difference a.key b.key = some true := by
  rw [Edge.edge_lt_key]
  cases first_difference a.key b.key with
  | none => simp
  | some r => simp

theorem Edge.edge_lt_cases (a b : Edge) :
    (Edge.lt a b = some true ∧ Edge.lt b a = some false ∧ Edge.eq a b = false) ∨
    (Edge.lt a b = some false ∧ Edge.lt b a = some true ∧ Edge.eq a b = false) ∨
    (Edge.lt a b = some false ∧ Edge.lt b a = some false ∧ Edge.eq a b = true) := by
  have hk := Edge.edge_eq_key a b
  rw [Edge.edge_lt_key, Edge.edge_lt_key, first_difference_swap a.key b.key]
  cases h : first_difference a.key b.key with
  | none =>
    right; right
    exact ⟨rfl, rfl, hk.mpr h⟩
  | some r =>
    have hne : Edge.eq a b = false := by
      cases he : Edge.eq a b with
      | false => rfl
      | true => rw [hk.mp he] at h; cases h
    cases r with
    | true => left; exact ⟨rfl, rfl, hne⟩
    | false => right; left; exact ⟨rfl, rfl, hne⟩

theorem Edge.edge_lt_trans (a b c : Edge) (h1 : Edge.lt a b = some true)
    (h2 : Edge.lt b c = some true) : Edge.lt a c = some true :=
  (Edge.edge_lt_true a c).mpr
    (first_difference_trans _ _ _ ((Edge.edge_lt_true a b).mp h1) ((Edge.edge_lt_true b c).mp h2))

theorem Edge.edge_eq_iff (a b : Edge) :
    Edge.eq a b = true ↔
      (a.from_ = b.from_ ∧ a.to_ = b.to_ ∧ a.te = b.te ∧ a.re = b.re) := by
  unfold Edge.eq
  simp only [Bool.and_eq_true, State.state_eq_iff, decide_eq_true_eq, and_assoc]

end ProgramAlignmentAutomata

/-- C36: `State::operator<` and `Edge::operator<` always return (the assertion
`assert(*this == other)` never fails), exactly one of `a < b`, `b < a` and `a == b`
holds for all `a` and `b`, and both orders are transitive. -/
theorem ProgramAlignmentAutomata.C36_orders_are_strict_and_total :
    (∀ a b : ProgramAlignmentAutomata.State,
      (State.lt a b = some true ∧ State.lt b a = some false ∧ State.eq a b = false) ∨
      (State.lt a b = some false ∧ State.lt b a = some true ∧ State.eq a b = false) ∨
      (State.lt a b = some false ∧ State.lt b a = some false ∧ State.eq a b = true)) ∧
    (∀ a b c : ProgramAlignmentAutomata.State,
      State.lt a b = some true → State.lt b c = some true → State.lt a c = some true) ∧
    (∀ a b : ProgramAlignmentAutomata.Edge,
      (Edge.lt a b = some true ∧ Edge.lt b a = some false ∧ Edge.eq a b = false) ∨
      (Edge.lt a b = some false ∧ Edge.lt b a = some true ∧ Edge.eq a b = false) ∨
      (Edge.lt a b = some false ∧ Edge.lt b a = some false ∧ Edge.eq a b = true)) ∧
    (∀ a b c : ProgramAlignmentAutomata.Edge,
      Edge.lt a b = some true → Edge.lt b c = some true → Edge.lt a c = some true) :=
  ⟨State.state_lt_cases, State.state_lt_trans, Edge.edge_lt_cases, Edge.edge_lt_trans⟩


namespace ProgramAlignmentAutomata

theorem compare_irreflexive (target_scc rewrite_scc : Nat → Nat) (a : State) :
    compare target_scc rewrite_scc a a = false := by
  simp [compare]

theorem topological_sort_ends (sort : (State → State → Bool) → List State → List State)
    (start_state exit_state fail_state : State) (keys : List State)
    (target_scc rewrite_scc : Nat → Nat) :
    (compute_topological_sort sort start_state exit_state fail_state keys target_scc
        rewrite_scc).head? = some start_state ∧
    (compute_topological_sort sort start_state exit_state fail_state keys target_scc
        rewrite_scc).getLast? = some exit_state := by
  unfold compute_topological_sort
  constructor
  · rfl
  · dsimp only
    rw [List.getLast?_append]
    rfl

theorem cycle_never_returns (with_exit : Bool) : ∀ fuel : Nat,
    get_paths (cycle with_exit) fuel ⟨1, 1⟩ ⟨3, 3⟩ = none ∧
    get_paths (cycle with_exit) fuel ⟨2, 2⟩ ⟨3, 3⟩ = none := by
  intro fuel
  induction fuel with
  | zero => exact ⟨rfl, rfl⟩
  | succ n ih =>
    constructor
    · unfold get_paths
      simp [cycle, get_paths_loop, State.eq, Edge.new, ih.2]
    · unfold get_paths
      simp [cycle, get_paths_loop, State.eq, Edge.new, ih.1]

end ProgramAlignmentAutomata

/-- C37: the comparison that `compute_topological_sort` passes to `std::sort` is not
asymmetric: with the SCC number of a block being the block itself, the state `(2,1)` is
before `(1,2)` and `(1,2)` is before `(2,1)`. The comparison is irreflexive, and the
list built starts with the start state and ends with the exit state whatever the sort
does. -/
theorem ProgramAlignmentAutomata.C37_compare_is_not_asymmetric :
    (compare id id ⟨2, 1⟩ ⟨1, 2⟩ = true ∧ compare id id ⟨1, 2⟩ ⟨2, 1⟩ = true) ∧
    (∀ (target_scc rewrite_scc : Nat → Nat) (a : State),
      compare target_scc rewrite_scc a a = false) ∧
    (∀ (sort : (State → State → Bool) → List State → List State)
      (start_state exit_state fail_state : State) (keys : List State)
      (target_scc rewrite_scc : Nat → Nat),
      (compute_topological_sort sort start_state exit_state fail_state keys target_scc
          rewrite_scc).head? = some start_state ∧
      (compute_topological_sort sort start_state exit_state fail_state keys target_scc
          rewrite_scc).getLast? = some exit_state) :=
  ⟨⟨by decide, by decide⟩, compare_irreflexive, topological_sort_ends⟩

/-- C38: on the automaton with the cycle `(1,1) → (2,2) → (1,1)`, which does not pass
through the end state `(3,3)`, `get_paths((1,1), (3,3))` does not return within any
depth of recursion, whether or not `(3,3)` can be reached; on an automaton whose only
cycle is a self-loop it returns the two paths to the end state. -/
theorem ProgramAlignmentAutomata.C38_get_paths_recurses_forever :
    (∀ (with_exit : Bool) (fuel : Nat),
      get_paths (cycle with_exit) fuel ⟨1, 1⟩ ⟨3, 3⟩ = none) ∧
    get_paths diamond 2 ⟨1, 1⟩ ⟨3, 3⟩ =
      some [[Edge.new ⟨2, 2⟩ [1, 2] [1, 2], Edge.new ⟨3, 3⟩ [2, 3] [2, 3]],
            [Edge.new ⟨2, 2⟩ [1, 4, 2] [1, 2], Edge.new ⟨3, 3⟩ [2, 3] [2, 3]]] :=
  ⟨fun with_exit fuel => (cycle_never_returns with_exit fuel).1, by rfl⟩


/-! ## Disjunctions of invariants -/

/-- The concrete check of a disjunction holds exactly when the check of a disjunct
holds. -/
theorem DisjunctionInvariant.check_iff {ι : Type} (ops : DisjunctionInvariant.Disjuncts ι)
    (target rewrite : CpuState) :
    ∀ invs : List ι, DisjunctionInvariant.check ops invs target rewrite = true ↔
      ∃ it ∈ invs, ops.check it target rewrite = true := by
  intro invs
  induction invs with
  | nil => simp [DisjunctionInvariant.check]
  | cons it rest ih =>
    unfold DisjunctionInvariant.check
    by_cases h : ops.check it target rewrite = true
    · simp [h]
    · simp [h, ih]

/-- The formula of a disjunction that has come as far as `acc` holds exactly when `acc`
holds or the formula of a later disjunct, called with the number it is called with,
holds. -/
theorem DisjunctionInvariant.call_holds {ι : Type} (ops : DisjunctionInvariant.Disjuncts ι)
    (left right : SymState) (env : Env) :
    ∀ (invs : List ι) (acc : SymBool × Nat),
      ((invs.foldl (fun (acc : SymBool × Nat) (it : ι) =>
          (SymBool.or acc.1 (ops.formula it left right acc.2).1,
            (ops.formula it left right acc.2).2 + 1)) acc).1.holds env) ↔
        (acc.1.holds env ∨ ∃ pre it post, invs = pre ++ it :: post ∧
          (ops.formula it left right
            (pre.foldl (fun (acc : SymBool × Nat) (it : ι) =>
              (SymBool.or acc.1 (ops.formula it left right acc.2).1,
                (ops.formula it left right acc.2).2 + 1)) acc).2).1.holds env) := by
  intro invs
  induction invs with
  | nil => intro acc; simp
  | cons it rest ih =>
    intro acc
    rw [List.foldl_cons, ih]
    simp only [SymBool.holds]
    constructor
    · rintro ((h | h) | ⟨pre, it1, post, e, h⟩)
      · exact Or.inl h
      · exact Or.inr ⟨[], it, rest, rfl, h⟩
      · exact Or.inr ⟨it :: pre, it1, post, by rw [e]; rfl, h⟩
    · rintro (h | ⟨pre, it1, post, e, h⟩)
      · exact Or.inl (Or.inl h)
      · cases pre with
        | nil =>
          simp only [List.nil_append, List.cons.injEq] at e
          obtain ⟨rfl, rfl⟩ := e
          exact Or.inl (Or.inr h)
        | cons p pre =>
          simp only [List.cons_append, List.cons.injEq] at e
          obtain ⟨rfl, rfl⟩ := e
          exact Or.inr ⟨pre, it1, post, rfl, h⟩

/-- C40: `check` of a disjunction is true exactly when the check of a disjunct is, the
symbolic `operator()` starts from false, and for the empty disjunction `check` returns
false, `operator()` returns the formula false and `write` prints `false`; but
`write_pretty` prints `true` for the empty disjunction. -/
theorem DisjunctionInvariant.C40_empty_disjunction_prints_true {ι : Type}
    (ops : DisjunctionInvariant.Disjuncts ι) (left right : SymState) (number : Nat)
    (target rewrite : CpuState) :
    (∀ invs : List ι, DisjunctionInvariant.check ops invs target rewrite = true ↔
      ∃ it ∈ invs, ops.check it target rewrite = true) ∧
    DisjunctionInvariant.check ops [] target rewrite = false ∧
    DisjunctionInvariant.call ops [] left right number = (SymBool._false, number) ∧
    DisjunctionInvariant.write ops [] = "false" ∧
    DisjunctionInvariant.write_pretty ops [] = "    true\n" :=
  ⟨DisjunctionInvariant.check_iff ops target rewrite, rfl, rfl, rfl, rfl⟩


/-! ## Cell enumeration beyond the range of `int64_t` -/

set_option maxRecDepth 100000 in
/-- C3 (counterexample): for the offset table of `far_apart`, whose entries are
`2^63 - 1` and `-(2^63 - 1)`, cell enumeration runs to completion with the stop flag
clear and puts the three two-byte accesses in one cell; the distance `2^64` between the
lowest and the highest offset does not fit the size of the cell, which becomes 0, so
that `offset + size/8 <= size of the cell` fails for every access.  (The offsets are
computed in the integers; in `int64_t` the end `2^63 + 1` of the third access is out of
range.) -/
theorem ArmMemory.C3_offsets_beyond_int64 :
    ArmMemory.far_apart.stop_now_ = false ∧ ArmMemory.far_apart.cells_ = [] ∧
    (ArmMemory.generate_constraints_enumerate_cells ArmMemory.far_apart).map
      (fun m => (m.cells_.map (fun c => c.size),
        m.all_accesses_.map (fun a => (a.cell, a.cell_offset, a.size / 8,
          decide (a.cell_offset + ((a.size / 8 : Nat) : Int) ≤ 0))))) =
      some ([0], [(some 0, 2 ^ 63 - 1, 2, false), (some 0, 0, 2, false),
        (some 0, 2 ^ 64 - 2, 2, false)]) := by
  refine ⟨rfl, rfl, ?_⟩
  decide!

